import Mathlib

/-!
# Atalla tiled convolution: a shallow embedding of `conv_prog_model`

The C sources `conv_lib.c`, `conv_lib.h` and `main.c` of `conv_prog_model` are
embedded as pure Lean functions.

* `float` values are the elements of a type `α` with a zero, an addition and a
  multiplication; the functions use nothing else of `float`.  No law is assumed of
  these operations in the definitions.  The theorems "in exact arithmetic" take `α` a
  commutative ring (instantiate with `ℤ` or `ℚ` to run them); `XFloat` below keeps the
  IEEE 754 special values (`0 * inf = NaN`), which no ring has.
* `int` values are `Int`; C's `/` and `%` are `Int.tdiv` and `Int.tmod`
  (truncation towards zero).  Signed overflow is not modelled.
* A `float*` buffer is a function `Int → α` from element index to value.
  Buffers that the C code leaves uninitialised (`malloc`, stack arrays) start
  from arbitrary contents that are passed in explicitly.
* `malloc` is assumed to succeed.
-/


namespace Atalla

/-! ## Memory and loops -/

/-- The store `m[i] = v`. -/
def wr {β : Type} (m : Int → β) (i : Int) (v : β) : Int → β :=
  fun j => if j = i then v else m j

/-- The call `memset(&m[off], 0, len * sizeof(float))`. -/
def memset0 {α : Type} [Zero α] (m : Int → α) (off len : Int) : Int → α :=
  fun j => if off ≤ j ∧ j < off + len then 0 else m j

/-- The call `memcpy(&dst[doff], &src[soff], len * sizeof(float))` on disjoint buffers. -/
def memcpy {α : Type} (dst : Int → α) (doff : Int) (src : Int → α) (soff len : Int) : Int → α :=
  fun j => if doff ≤ j ∧ j < doff + len then src (soff + (j - doff)) else dst j

/-- The loop `for (int i = 0; i < n; i++) body`. -/
def forLoop {σ : Type} (n : Int) (body : Int → σ → σ) (s : σ) : σ :=
  (List.range n.toNat).foldl (fun st (i : Nat) => body (i : Int) st) s

/-- The loop `for (int i = lo; i < hi; i++) body`. -/
def forRange {σ : Type} (lo hi : Int) (body : Int → σ → σ) (s : σ) : σ :=
  (List.range (hi - lo).toNat).foldl (fun st (i : Nat) => body (lo + (i : Int)) st) s

/-- The loop `for (; i < n; i += step) body`, run for at most `fuel` iterations. -/
def forStepAux {σ : Type} : Nat → Int → Int → Int → (Int → σ → σ) → σ → σ
  | 0, _, _, _, _, s => s
  | fuel + 1, i, n, step, body, s =>
    if i < n then forStepAux fuel (i + step) n step body (body i s) else s

/-- The loop `for (int i = 0; i < n; i += step) body`.  Every use has `step ≥ 1`, for which
`n` iterations are enough (`forStep_inv` below). -/
def forStep {σ : Type} (n step : Int) (body : Int → σ → σ) (s : σ) : σ :=
  forStepAux n.toNat 0 n step body s

/-! ## Data model (`conv_lib.h`) -/

/-- The struct `TensorNCHW`: a 4D tensor in NCHW layout. -/
structure TensorNCHW (α : Type) where
  data : Int → α
  n : Int
  c : Int
  h : Int
  w : Int

/-- The struct `KernelTensor`, layout `[C_out, C_in, K_h, K_w]`. -/
structure KernelTensor (α : Type) where
  data : Int → α
  cout : Int
  cin : Int
  kh : Int
  kw : Int

/-- The struct `ConvParams`. -/
structure ConvParams where
  stride : Int
  padding : Int
  dilation : Int

/-- Systolic array height `SA_TM`. -/
def SA_TM : Int := 32
/-- Systolic array width `SA_TN`. -/
def SA_TN : Int := 32
/-- Reduction tile `SA_TK`. -/
def SA_TK : Int := 32
/-- Spatial scratchpad tile side `SCPAD_DIM`. -/
def SCPAD_DIM : Int := 32

/-- Initial contents of the vector registers declared in `im2col_transform_scpad`
(`v_mask`, `v_row`, `v_accum`) and of the local `temp` of `sim_vector_shift`. -/
structure VRegs (α : Type) where
  v_mask : Int → Bool
  v_row : Int → α
  v_accum : Int → α
  temp : Int → α

/-- Initial contents of every buffer `conv2d_nchw` allocates without initialising. -/
structure Scratch (α : Type) where
  B_matrix : Int → α
  sc_RAW : Int → α
  sc_A : Int → α
  sc_B : Int → α
  sc_C : Int → α
  regs : VRegs α

/-- The buffers `conv2d_nchw` updates inside its tiling loop. -/
structure ConvState (α : Type) where
  out : Int → α
  sc_RAW : Int → α
  sc_A : Int → α
  sc_B : Int → α
  sc_C : Int → α

/-- One call of `sim_vector_load_row_safe` made by `im2col_transform_scpad` (line 196):
the arguments `start_idx` (`load_addr`), `vector_len` (`TK`) and `valid_pixels_remaining`
(`valid_pixels`), with the scratchpad channel `tile_c`, row `local_h_start + kh` and column
`local_w_start` the load address was built from.  The call reads `sc_RAW[start_idx + i]` for
the lanes `0 ≤ i < vector_len` with `i < valid`. -/
structure LoadCall where
  start_idx : Int
  vector_len : Int
  valid : Int
  chan : Int
  row : Int
  col : Int

/-- One call of `atallax_gemmv` made by `conv2d_nchw` (line 323): the contents of `sc_A` at
the call, the size of the batch being processed and the position `(h_out, w_out, ii)` of
the batch. -/
structure GemmCall (α : Type) where
  sc_A : Int → α
  current_batch_size : Int
  h_out : Int
  w_out : Int
  ii : Int

/-- What an instrumented run of `conv2d_nchw` records, most recent event first: the calls of
`sim_vector_load_row_safe`, the calls of `atallax_gemmv`, and the indices of
`output->data` written by the store loop. -/
structure Trace (α : Type) where
  loads : List LoadCall
  gemms : List (GemmCall α)
  stores : List Int

section Model

variable {α : Type} [Zero α] [Add α] [Mul α]

/-! ## Vector core (`conv_lib.c`, lines 27-85) -/

/-- Function `sim_vector_create_window_mask`: `mask[i] = (i < window_size)`. -/
def sim_vector_create_window_mask (mask : Int → Bool) (vector_len window_size : Int) :
    Int → Bool :=
  forLoop vector_len (fun i m => wr m i (decide (i < window_size))) mask

/-- Function `sim_vector_shift`; `temp` is the prior content of the local array `temp`. -/
def sim_vector_shift (v_reg : Int → α) (vector_len shift_amt : Int) (direction_left : Bool)
    (temp : Int → α) : Int → α :=
  let temp := memset0 temp 0 vector_len
  let temp := forLoop vector_len (fun i t =>
    if direction_left then
      if i + shift_amt < vector_len then wr t i (v_reg (i + shift_amt)) else t
    else
      if i - shift_amt ≥ 0 then wr t i (v_reg (i - shift_amt)) else t) temp
  memcpy v_reg 0 temp 0 vector_len

/-- Function `sim_vector_mask_apply`: zero the lanes whose mask bit is clear. -/
def sim_vector_mask_apply (v_reg : Int → α) (vector_len : Int) (mask : Int → Bool) : Int → α :=
  forLoop vector_len (fun i v => if !mask i then wr v i 0 else v) v_reg

/-- Function `sim_vector_add`: `dest[i] += src[i]`. -/
def sim_vector_add (dest src : Int → α) (vector_len : Int) : Int → α :=
  forLoop vector_len (fun i d => wr d i (d i + src i)) dest

/-- Function `sim_vector_load_row_safe`. -/
def sim_vector_load_row_safe (v_reg sc_RAW : Int → α)
    (start_idx vector_len valid_pixels_remaining : Int) : Int → α :=
  forLoop vector_len (fun i v =>
    if i < valid_pixels_remaining then wr v i (sc_RAW (start_idx + i)) else wr v i 0) v_reg

/-- Function `sim_vector_load_row_safe`, instrumented: the second component lists every
index at which `sc_RAW` is read (most recent first). -/
def sim_vector_load_row_safe_traced (v_reg sc_RAW : Int → α)
    (start_idx vector_len valid_pixels_remaining : Int) : (Int → α) × List Int :=
  forLoop vector_len (fun i (st : (Int → α) × List Int) =>
    if i < valid_pixels_remaining then
      (wr st.1 i (sc_RAW (start_idx + i)), (start_idx + i) :: st.2)
    else (wr st.1 i 0, st.2)) (v_reg, [])

/-! ## Level 1 (`conv_lib.c`, lines 92-132) -/

/-- Function `flatten_kernels_to_B_matrix`; `B_matrix` is the prior content of the `malloc`ed
block. -/
def flatten_kernels_to_B_matrix (kernels : KernelTensor α) (B_matrix : Int → α) : Int → α :=
  let K_flat := kernels.cin * kernels.kh * kernels.kw
  let N := kernels.cout
  forLoop N (fun n_idx B =>
    forLoop K_flat (fun k_idx B =>
      let k_flat_size := kernels.kh * kernels.kw
      let c := k_idx.tdiv k_flat_size
      let r := (k_idx.tmod k_flat_size).tdiv kernels.kw
      let w := k_idx.tmod kernels.kw
      let kernel_idx := n_idx * (kernels.cin * k_flat_size) + c * k_flat_size + r * kernels.kw + w
      wr B (k_idx * N + n_idx) (kernels.data kernel_idx)) B) B_matrix

/-- Function `load_spatial_tile`, instrumented: the second component lists every index at which
`input->data` is read (most recent first). -/
def load_spatial_tile_traced (sc_RAW : Int → α) (input : TensorNCHW α)
    (C_in H_load W_load nchw_start_c nchw_start_h nchw_start_w : Int) : (Int → α) × List Int :=
  forLoop C_in (fun c st =>
    forLoop H_load (fun h st =>
      forLoop W_load (fun w st =>
        let global_c := nchw_start_c + c
        let global_h := nchw_start_h + h
        let global_w := nchw_start_w + w
        let sc_idx := c * (H_load * W_load) + h * W_load + w
        if global_c < input.c ∧ global_h ≥ 0 ∧ global_h < input.h ∧
            global_w ≥ 0 ∧ global_w < input.w then
          let in_idx := global_c * (input.h * input.w) + global_h * input.w + global_w
          (wr st.1 sc_idx (input.data in_idx), in_idx :: st.2)
        else
          (wr st.1 sc_idx 0, st.2)) st) st) (sc_RAW, [])

/-- Function `load_spatial_tile`: the scratchpad after the call. -/
def load_spatial_tile (sc_RAW : Int → α) (input : TensorNCHW α)
    (C_in H_load W_load nchw_start_c nchw_start_h nchw_start_w : Int) : Int → α :=
  (load_spatial_tile_traced sc_RAW input C_in H_load W_load
    nchw_start_c nchw_start_h nchw_start_w).1

/-! ## Level 2: vector im2col (`conv_lib.c`, lines 139-226) -/

/-- Body of the `kh` loop of `im2col_transform_scpad` (lines 183-221): load, mask, place,
accumulate one kernel row. -/
def im2col_kh_body (sc_RAW : Int → α) (K_w k_start TK T_h T_w : Int)
    (spatial_kernel_size local_h_start local_w_start c tile_c : Int)
    (kh : Int) (r : VRegs α) : VRegs α :=
  let row_idx_in_scraw := tile_c * (T_h * T_w) + (local_h_start + kh) * T_w
  let load_addr := row_idx_in_scraw + local_w_start
  let valid_pixels := T_w - local_w_start
  let valid_pixels := if valid_pixels < 0 then 0 else valid_pixels
  let v_row := sim_vector_load_row_safe r.v_row sc_RAW load_addr TK valid_pixels
  let v_mask := sim_vector_create_window_mask r.v_mask TK K_w
  let v_row := sim_vector_mask_apply v_row TK v_mask
  let global_k_index := c * spatial_kernel_size + kh * K_w
  let placement_shift := global_k_index - k_start
  if placement_shift ≥ 0 then
    if placement_shift < TK then
      let v_row := sim_vector_shift v_row TK placement_shift false r.temp
      { r with v_mask := v_mask, v_row := v_row, v_accum := sim_vector_add r.v_accum v_row TK }
    else
      { r with v_mask := v_mask, v_row := v_row }
  else
    let left_shift_amt := -placement_shift
    if left_shift_amt < K_w then
      let v_row := sim_vector_shift v_row TK left_shift_amt true r.temp
      { r with v_mask := v_mask, v_row := v_row, v_accum := sim_vector_add r.v_accum v_row TK }
    else
      { r with v_mask := v_mask, v_row := v_row }

/-- Function `im2col_transform_scpad`.  The pointer argument `sc_A` is the pair of the buffer
and the element offset `sc_A_off` into it; `regs` holds the prior contents of the local registers.
The leading `if (c >= C_in) break;` of the channel loop is part of the loop bound:
`c` runs while `c <= end_channel` and `c < C_in`. -/
def im2col_transform_scpad (sc_A : Int → α) (sc_A_off : Int) (sc_RAW : Int → α)
    (params : ConvParams) (K_h K_w C_in O_h O_w i_start k_start TM TK T_h T_w : Int)
    (raw_tile_start_c raw_tile_start_h raw_tile_start_w M_limit_in_tile : Int)
    (regs : VRegs α) : Int → α :=
  let spatial_kernel_size := K_h * K_w
  (forLoop TM (fun m (st : (Int → α) × VRegs α) =>
    let global_patch_idx := i_start + m
    if global_patch_idx ≥ O_h * O_w ∨ m ≥ M_limit_in_tile then
      (memset0 st.1 (sc_A_off + m * TK) TK, st.2)
    else
      let r : VRegs α := { st.2 with v_accum := memset0 st.2.v_accum 0 TK }
      let o_h := global_patch_idx.tdiv O_w
      let o_w := global_patch_idx.tmod O_w
      let global_in_h_start := o_h * params.stride - params.padding
      let global_in_w_start := o_w * params.stride - params.padding
      let local_h_start := global_in_h_start - raw_tile_start_h
      let local_w_start := global_in_w_start - raw_tile_start_w
      let start_channel := k_start.tdiv spatial_kernel_size
      let end_channel := (k_start + TK + K_w).tdiv spatial_kernel_size
      let r := forRange start_channel (min (end_channel + 1) C_in) (fun c r =>
        let tile_c := c - raw_tile_start_c
        if tile_c < 0 then r
        else
          forLoop K_h (im2col_kh_body sc_RAW K_w k_start TK T_h T_w
            spatial_kernel_size local_h_start local_w_start c tile_c) r) r
      (memcpy st.1 (sc_A_off + m * TK) r.v_accum 0 TK, r)) (sc_A, regs)).1

/-- Contribution of kernel row `(c, kh)` to lane `k` of the register `v_accum` in
`im2col_transform_scpad`: the row's window pixel `j = k_start + k - (c*K_h*K_w + kh*K_w)`,
when that is a pixel of the window (`0 ≤ j < K_w`) that the row load delivers
(`j < TK`, `j < T_w - local_w_start`), and 0 otherwise. -/
def im2col_contrib (sc_RAW : Int → α) (K_w k_start TK T_h T_w : Int)
    (spatial_kernel_size local_h_start local_w_start c tile_c : Int) (kh k : Int) : α :=
  let j := k_start + k - (c * spatial_kernel_size + kh * K_w)
  if 0 ≤ j ∧ j < K_w ∧ j < TK ∧ j < T_w - local_w_start then
    sc_RAW (tile_c * (T_h * T_w) + (local_h_start + kh) * T_w + local_w_start + j)
  else 0

/-! ## Helpers and GEMM (`conv_lib.c`, lines 233-247; `main.c`, lines 21-37) -/

/-- Function `load_b_tile`. -/
def load_b_tile (sc_B B_global : Int → α) (K N k_start j_start TK TN : Int) : Int → α :=
  forLoop TK (fun r sc_B =>
    forLoop TN (fun c sc_B =>
      let global_r := k_start + r
      let global_c := j_start + c
      wr sc_B (r * TN + c)
        (if global_r < K ∧ global_c < N then B_global (global_r * N + global_c) else 0))
      sc_B) sc_B

/-- Function `store_c_tile` (defined in `conv_lib.c`; `conv2d_nchw` stores inline instead). -/
def store_c_tile (output : TensorNCHW α) (sc_C : Int → α)
    (O_h O_w i_start j_start TM TN : Int) : TensorNCHW α :=
  { output with
    data := forLoop TM (fun r dat =>
      forLoop TN (fun c dat =>
        let p_idx := i_start + r
        let ch := j_start + c
        if p_idx < O_h * O_w ∧ ch < output.c then
          wr dat (ch * output.h * output.w + (p_idx.tdiv O_w) * output.w + p_idx.tmod O_w)
            (sc_C (r * TN + c))
        else dat) dat) output.data }

/-- Function `load_b_tile`, instrumented: the second component lists every index at which
`B_global` is read (most recent first). -/
def load_b_tile_traced (sc_B B_global : Int → α) (K N k_start j_start TK TN : Int) :
    (Int → α) × List Int :=
  forLoop TK (fun r st =>
    forLoop TN (fun c st =>
      let global_r := k_start + r
      let global_c := j_start + c
      if global_r < K ∧ global_c < N then
        (wr st.1 (r * TN + c) (B_global (global_r * N + global_c)),
          (global_r * N + global_c) :: st.2)
      else
        (wr st.1 (r * TN + c) 0, st.2)) st) (sc_B, [])

/-- Function `store_c_tile`, instrumented: the second component lists every index at which
`output->data` is written (most recent first). -/
def store_c_tile_traced (output : TensorNCHW α) (sc_C : Int → α)
    (O_h O_w i_start j_start TM TN : Int) : TensorNCHW α × List Int :=
  let res := forLoop TM (fun r (st : (Int → α) × List Int) =>
    forLoop TN (fun c (st : (Int → α) × List Int) =>
      let p_idx := i_start + r
      let ch := j_start + c
      if p_idx < O_h * O_w ∧ ch < output.c then
        let idx := ch * output.h * output.w + (p_idx.tdiv O_w) * output.w + p_idx.tmod O_w
        (wr st.1 idx (sc_C (r * TN + c)), idx :: st.2)
      else st) st) (output.data, [])
  ({ output with data := res.1 }, res.2)

/-- The scalar `atallax_gemmv` of `main.c`: `C += A * B` on scratchpad tiles. -/
def atallax_gemmv (sc_C sc_A sc_B : Int → α) (TM TN TK : Int) : Int → α :=
  forLoop TM (fun m sc_C =>
    forLoop TN (fun n sc_C =>
      let acc := sc_C (m * TN + n)
      let acc := forLoop TK (fun k acc => acc + sc_A (m * TK + k) * sc_B (k * TN + n)) acc
      wr sc_C (m * TN + n) acc) sc_C) sc_C

/-! ## Orchestrator (`conv_lib.c`, lines 249-349) -/

/-- Lines 305-321 of `conv2d_nchw`: fill `sc_A` row by row for the patches of one batch. -/
def conv2d_fill_A (sc_A sc_RAW : Int → α) (kernel : KernelTensor α) (params : ConvParams)
    (regs : VRegs α) (O_h O_w BLK_W h_out w_out in_h in_w ii k current_batch_size : Int)
    (TK T_h T_w : Int) : Int → α :=
  forLoop current_batch_size (fun m sc_A =>
    let local_patch_idx := ii + m
    let r_local := local_patch_idx.tdiv BLK_W
    let c_local := local_patch_idx.tmod BLK_W
    let current_patch_global := (h_out + r_local) * O_w + (w_out + c_local)
    if (h_out + r_local) ≥ O_h ∨ (w_out + c_local) ≥ O_w then
      memset0 sc_A (m * TK) TK
    else
      im2col_transform_scpad sc_A (m * TK) sc_RAW params kernel.kh kernel.kw kernel.cin
        O_h O_w current_patch_global k 1 TK T_h T_w 0 in_h in_w 1 regs) sc_A

/-- Lines 327-342 of `conv2d_nchw`: write the rows of `sc_C` of one batch to `output->data`;
`out_c`, `out_h`, `out_w` are `output->c`, `output->h`, `output->w`. -/
def conv2d_store (out sc_C : Int → α) (out_c out_h out_w O_h O_w BLK_W : Int)
    (h_out w_out ii j current_batch_size TN : Int) : Int → α :=
  forLoop current_batch_size (fun m out =>
    let local_patch_idx := ii + m
    let r_local := local_patch_idx.tdiv BLK_W
    let c_local := local_patch_idx.tmod BLK_W
    let current_patch_global := (h_out + r_local) * O_w + (w_out + c_local)
    if (h_out + r_local) ≥ O_h ∨ (w_out + c_local) ≥ O_w then out
    else
      let p_idx := current_patch_global
      forLoop TN (fun c out =>
        let ch := j + c
        if ch < out_c then wr out (ch * out_h * out_w + p_idx) (sc_C (m * TN + c)) else out)
        out) out

/-- Body of the reduction loop over `k` (lines 302-323): load `sc_B`, fill `sc_A`, GEMM. -/
def conv2d_kstep (B_matrix : Int → α) (kernel : KernelTensor α) (params : ConvParams)
    (regs : VRegs α) (N K TM TN TK T_h T_w O_h O_w BLK_W : Int)
    (h_out w_out in_h in_w j ii current_batch_size : Int) (k : Int) (st : ConvState α) :
    ConvState α :=
  let sc_B := load_b_tile st.sc_B B_matrix K N k j TK TN
  let sc_A := conv2d_fill_A st.sc_A st.sc_RAW kernel params regs O_h O_w BLK_W
    h_out w_out in_h in_w ii k current_batch_size TK T_h T_w
  { st with sc_A := sc_A, sc_B := sc_B, sc_C := atallax_gemmv st.sc_C sc_A sc_B TM TN TK }

/-- Body of the batch loop over `ii` (lines 296-342). -/
def conv2d_batch (B_matrix : Int → α) (kernel : KernelTensor α) (params : ConvParams)
    (regs : VRegs α) (N K TM TN TK T_h T_w O_h O_w BLK_W patches_per_block : Int)
    (out_c out_h out_w h_out w_out in_h in_w j : Int) (ii : Int) (st : ConvState α) :
    ConvState α :=
  let patches_remaining := patches_per_block - ii
  let current_batch_size := if patches_remaining > TM then TM else patches_remaining
  let st : ConvState α := { st with sc_C := memset0 st.sc_C 0 (TM * TN) }
  let st := forStep K TK (conv2d_kstep B_matrix kernel params regs N K TM TN TK T_h T_w
    O_h O_w BLK_W h_out w_out in_h in_w j ii current_batch_size) st
  let out := conv2d_store st.out st.sc_C out_c out_h out_w O_h O_w BLK_W
    h_out w_out ii j current_batch_size TN
  { st with out := out }

/-- Body of the block loop over `w_out` (lines 287-344): load the spatial tile, then walk the
output-channel tiles and the batches of patches. -/
def conv2d_block (B_matrix : Int → α) (input : TensorNCHW α) (kernel : KernelTensor α)
    (params : ConvParams) (regs : VRegs α)
    (N K TM TN TK T_h T_w O_h O_w BLK_W patches_per_block out_c out_h out_w : Int)
    (h_out : Int) (w_out : Int) (st : ConvState α) : ConvState α :=
  let in_h := h_out * params.stride - params.padding
  let in_w := w_out * params.stride - params.padding
  let st : ConvState α :=
    { st with sc_RAW := load_spatial_tile st.sc_RAW input kernel.cin T_h T_w 0 in_h in_w }
  forStep N TN (fun j st =>
    forStep patches_per_block TM (conv2d_batch B_matrix kernel params regs N K TM TN TK
      T_h T_w O_h O_w BLK_W patches_per_block out_c out_h out_w h_out w_out in_h in_w j) st) st

/-- Function `conv2d_nchw`.  The result is the `output` struct and the `params` struct after
the call (the function normalises `params->dilation` in place); `scr` gives the prior contents of the
buffers the function allocates. -/
def conv2d_nchw (output input : TensorNCHW α) (kernel : KernelTensor α) (params : ConvParams)
    (scr : Scratch α) : TensorNCHW α × ConvParams :=
  let params : ConvParams :=
    if params.dilation < 1 then { params with dilation := 1 } else params
  if input.n > 1 then (output, params)
  else
    let O_h := (input.h - (kernel.kh - 1) * params.dilation - 1 + 2 * params.padding).tdiv
      params.stride + 1
    let O_w := (input.w - (kernel.kw - 1) * params.dilation - 1 + 2 * params.padding).tdiv
      params.stride + 1
    let output : TensorNCHW α := { output with n := 1, c := kernel.cout, h := O_h, w := O_w }
    let output : TensorNCHW α :=
      { output with data := memset0 output.data 0 (output.n * output.c * O_h * O_w) }
    let N := kernel.cout
    let K := kernel.cin * kernel.kh * kernel.kw
    let TM := SA_TM
    let TN := SA_TN
    let TK := SA_TK
    let T_h := SCPAD_DIM
    let T_w := SCPAD_DIM
    let K_eff_h := (kernel.kh - 1) * params.dilation + 1
    let K_eff_w := (kernel.kw - 1) * params.dilation + 1
    let BLK_H := (T_h - K_eff_h).tdiv params.stride + 1
    let BLK_W := (T_w - K_eff_w).tdiv params.stride + 1
    let BLK_H := if BLK_H < 1 then 1 else BLK_H
    let BLK_W := if BLK_W < 1 then 1 else BLK_W
    let B_matrix := flatten_kernels_to_B_matrix kernel scr.B_matrix
    let patches_per_block := BLK_H * BLK_W
    let st : ConvState α :=
      { out := output.data, sc_RAW := scr.sc_RAW, sc_A := scr.sc_A, sc_B := scr.sc_B,
        sc_C := scr.sc_C }
    let st := forStep O_h BLK_H (fun h_out st =>
      forStep O_w BLK_W (conv2d_block B_matrix input kernel params scr.regs N K TM TN TK
        T_h T_w O_h O_w BLK_W patches_per_block output.c output.h output.w h_out) st) st
    ({ output with data := st.out }, params)

/-! ## Instrumented orchestrator

The same functions once more, threading a `Trace` through the loops.  Control flow and
data are those of the definitions above (`conv2d_nchw_traced_fst` below); the trace gains
an entry at every call of `sim_vector_load_row_safe`, every call of `atallax_gemmv` and
every write to `output->data`. -/

/-- Body of the `kh` loop of `im2col_transform_scpad`, recording its call of
`sim_vector_load_row_safe`. -/
def im2col_kh_body_traced (sc_RAW : Int → α) (K_w k_start TK T_h T_w : Int)
    (spatial_kernel_size local_h_start local_w_start c tile_c : Int)
    (kh : Int) (s : VRegs α × Trace α) : VRegs α × Trace α :=
  let row_idx_in_scraw := tile_c * (T_h * T_w) + (local_h_start + kh) * T_w
  let load_addr := row_idx_in_scraw + local_w_start
  let valid_pixels := T_w - local_w_start
  let valid_pixels := if valid_pixels < 0 then 0 else valid_pixels
  (im2col_kh_body sc_RAW K_w k_start TK T_h T_w spatial_kernel_size local_h_start
      local_w_start c tile_c kh s.1,
    { s.2 with
      loads := ⟨load_addr, TK, valid_pixels, tile_c, local_h_start + kh, local_w_start⟩ ::
        s.2.loads })

/-- Function `im2col_transform_scpad`, instrumented. -/
def im2col_transform_scpad_traced (sc_A : Int → α) (sc_A_off : Int) (sc_RAW : Int → α)
    (params : ConvParams) (K_h K_w C_in O_h O_w i_start k_start TM TK T_h T_w : Int)
    (raw_tile_start_c raw_tile_start_h raw_tile_start_w M_limit_in_tile : Int)
    (regs : VRegs α) (t : Trace α) : (Int → α) × Trace α :=
  let spatial_kernel_size := K_h * K_w
  let res := forLoop TM (fun m (st : ((Int → α) × VRegs α) × Trace α) =>
    let global_patch_idx := i_start + m
    if global_patch_idx ≥ O_h * O_w ∨ m ≥ M_limit_in_tile then
      ((memset0 st.1.1 (sc_A_off + m * TK) TK, st.1.2), st.2)
    else
      let r : VRegs α := { st.1.2 with v_accum := memset0 st.1.2.v_accum 0 TK }
      let o_h := global_patch_idx.tdiv O_w
      let o_w := global_patch_idx.tmod O_w
      let global_in_h_start := o_h * params.stride - params.padding
      let global_in_w_start := o_w * params.stride - params.padding
      let local_h_start := global_in_h_start - raw_tile_start_h
      let local_w_start := global_in_w_start - raw_tile_start_w
      let start_channel := k_start.tdiv spatial_kernel_size
      let end_channel := (k_start + TK + K_w).tdiv spatial_kernel_size
      let rt := forRange start_channel (min (end_channel + 1) C_in)
        (fun c (rt : VRegs α × Trace α) =>
          let tile_c := c - raw_tile_start_c
          if tile_c < 0 then rt
          else
            forLoop K_h (im2col_kh_body_traced sc_RAW K_w k_start TK T_h T_w
              spatial_kernel_size local_h_start local_w_start c tile_c) rt) (r, st.2)
      ((memcpy st.1.1 (sc_A_off + m * TK) rt.1.v_accum 0 TK, rt.1), rt.2)) ((sc_A, regs), t)
  (res.1.1, res.2)

/-- Lines 305-321 of `conv2d_nchw`, instrumented. -/
def conv2d_fill_A_traced (sc_A sc_RAW : Int → α) (kernel : KernelTensor α)
    (params : ConvParams) (regs : VRegs α)
    (O_h O_w BLK_W h_out w_out in_h in_w ii k current_batch_size : Int)
    (TK T_h T_w : Int) (t : Trace α) : (Int → α) × Trace α :=
  forLoop current_batch_size (fun m (s : (Int → α) × Trace α) =>
    let local_patch_idx := ii + m
    let r_local := local_patch_idx.tdiv BLK_W
    let c_local := local_patch_idx.tmod BLK_W
    let current_patch_global := (h_out + r_local) * O_w + (w_out + c_local)
    if (h_out + r_local) ≥ O_h ∨ (w_out + c_local) ≥ O_w then
      (memset0 s.1 (m * TK) TK, s.2)
    else
      im2col_transform_scpad_traced s.1 (m * TK) sc_RAW params kernel.kh kernel.kw kernel.cin
        O_h O_w current_patch_global k 1 TK T_h T_w 0 in_h in_w 1 regs s.2) (sc_A, t)

/-- Lines 327-342 of `conv2d_nchw`, instrumented. -/
def conv2d_store_traced (out sc_C : Int → α) (out_c out_h out_w O_h O_w BLK_W : Int)
    (h_out w_out ii j current_batch_size TN : Int) (t : Trace α) : (Int → α) × Trace α :=
  forLoop current_batch_size (fun m (s : (Int → α) × Trace α) =>
    let local_patch_idx := ii + m
    let r_local := local_patch_idx.tdiv BLK_W
    let c_local := local_patch_idx.tmod BLK_W
    let current_patch_global := (h_out + r_local) * O_w + (w_out + c_local)
    if (h_out + r_local) ≥ O_h ∨ (w_out + c_local) ≥ O_w then s
    else
      let p_idx := current_patch_global
      forLoop TN (fun c (s : (Int → α) × Trace α) =>
        let ch := j + c
        if ch < out_c then
          (wr s.1 (ch * out_h * out_w + p_idx) (sc_C (m * TN + c)),
            { s.2 with stores := (ch * out_h * out_w + p_idx) :: s.2.stores })
        else s) s) (out, t)

/-- Body of the reduction loop over `k` (lines 302-323), instrumented. -/
def conv2d_kstep_traced (B_matrix : Int → α) (kernel : KernelTensor α) (params : ConvParams)
    (regs : VRegs α) (N K TM TN TK T_h T_w O_h O_w BLK_W : Int)
    (h_out w_out in_h in_w j ii current_batch_size : Int) (k : Int)
    (s : ConvState α × Trace α) : ConvState α × Trace α :=
  let sc_B := load_b_tile s.1.sc_B B_matrix K N k j TK TN
  let a := conv2d_fill_A_traced s.1.sc_A s.1.sc_RAW kernel params regs O_h O_w BLK_W
    h_out w_out in_h in_w ii k current_batch_size TK T_h T_w s.2
  ({ s.1 with sc_A := a.1, sc_B := sc_B, sc_C := atallax_gemmv s.1.sc_C a.1 sc_B TM TN TK },
    { a.2 with gemms := ⟨a.1, current_batch_size, h_out, w_out, ii⟩ :: a.2.gemms })

/-- Body of the batch loop over `ii` (lines 296-342), instrumented. -/
def conv2d_batch_traced (B_matrix : Int → α) (kernel : KernelTensor α) (params : ConvParams)
    (regs : VRegs α) (N K TM TN TK T_h T_w O_h O_w BLK_W patches_per_block : Int)
    (out_c out_h out_w h_out w_out in_h in_w j : Int) (ii : Int)
    (s : ConvState α × Trace α) : ConvState α × Trace α :=
  let patches_remaining := patches_per_block - ii
  let current_batch_size := if patches_remaining > TM then TM else patches_remaining
  let st : ConvState α := { s.1 with sc_C := memset0 s.1.sc_C 0 (TM * TN) }
  let s := forStep K TK (conv2d_kstep_traced B_matrix kernel params regs N K TM TN TK T_h T_w
    O_h O_w BLK_W h_out w_out in_h in_w j ii current_batch_size) (st, s.2)
  let o := conv2d_store_traced s.1.out s.1.sc_C out_c out_h out_w O_h O_w BLK_W
    h_out w_out ii j current_batch_size TN s.2
  ({ s.1 with out := o.1 }, o.2)

/-- Body of the block loop over `w_out` (lines 287-344), instrumented. -/
def conv2d_block_traced (B_matrix : Int → α) (input : TensorNCHW α) (kernel : KernelTensor α)
    (params : ConvParams) (regs : VRegs α)
    (N K TM TN TK T_h T_w O_h O_w BLK_W patches_per_block out_c out_h out_w : Int)
    (h_out : Int) (w_out : Int) (s : ConvState α × Trace α) : ConvState α × Trace α :=
  let in_h := h_out * params.stride - params.padding
  let in_w := w_out * params.stride - params.padding
  let st : ConvState α :=
    { s.1 with sc_RAW := load_spatial_tile s.1.sc_RAW input kernel.cin T_h T_w 0 in_h in_w }
  forStep N TN (fun j s =>
    forStep patches_per_block TM (conv2d_batch_traced B_matrix kernel params regs N K TM TN TK
      T_h T_w O_h O_w BLK_W patches_per_block out_c out_h out_w h_out w_out in_h in_w j) s)
    (st, s.2)

/-- Function `conv2d_nchw`, instrumented: the result of `conv2d_nchw` and the trace of the
run. -/
def conv2d_nchw_traced (output input : TensorNCHW α) (kernel : KernelTensor α)
    (params : ConvParams) (scr : Scratch α) : (TensorNCHW α × ConvParams) × Trace α :=
  let params : ConvParams :=
    if params.dilation < 1 then { params with dilation := 1 } else params
  if input.n > 1 then ((output, params), ⟨[], [], []⟩)
  else
    let O_h := (input.h - (kernel.kh - 1) * params.dilation - 1 + 2 * params.padding).tdiv
      params.stride + 1
    let O_w := (input.w - (kernel.kw - 1) * params.dilation - 1 + 2 * params.padding).tdiv
      params.stride + 1
    let output : TensorNCHW α := { output with n := 1, c := kernel.cout, h := O_h, w := O_w }
    let output : TensorNCHW α :=
      { output with data := memset0 output.data 0 (output.n * output.c * O_h * O_w) }
    let N := kernel.cout
    let K := kernel.cin * kernel.kh * kernel.kw
    let TM := SA_TM
    let TN := SA_TN
    let TK := SA_TK
    let T_h := SCPAD_DIM
    let T_w := SCPAD_DIM
    let K_eff_h := (kernel.kh - 1) * params.dilation + 1
    let K_eff_w := (kernel.kw - 1) * params.dilation + 1
    let BLK_H := (T_h - K_eff_h).tdiv params.stride + 1
    let BLK_W := (T_w - K_eff_w).tdiv params.stride + 1
    let BLK_H := if BLK_H < 1 then 1 else BLK_H
    let BLK_W := if BLK_W < 1 then 1 else BLK_W
    let B_matrix := flatten_kernels_to_B_matrix kernel scr.B_matrix
    let patches_per_block := BLK_H * BLK_W
    let st : ConvState α :=
      { out := output.data, sc_RAW := scr.sc_RAW, sc_A := scr.sc_A, sc_B := scr.sc_B,
        sc_C := scr.sc_C }
    let s := forStep O_h BLK_H (fun h_out s =>
      forStep O_w BLK_W (conv2d_block_traced B_matrix input kernel params scr.regs N K TM TN TK
        T_h T_w O_h O_w BLK_W patches_per_block output.c output.h output.w h_out) s)
      (st, (⟨[], [], []⟩ : Trace α))
    (({ output with data := s.1.out }, params), s.2)

/-! ## Version 1 (`conv_prog_model/conv_lib_v1.c`)

Only the functions whose text differs from `conv_lib.c` are embedded again.
`sim_vector_shift`, `sim_vector_mask_apply`, `sim_vector_add`,
`flatten_kernels_to_B_matrix`, `load_spatial_tile`, `load_b_tile` and `store_c_tile` of
`conv_lib_v1.c` are, statement for statement, the functions of `conv_lib.c` above. -/

/-- The constant `MAX_SPATIAL_TILE_DIM` of `conv_lib_v1.c` and `src/conv_lib.c`. -/
def MAX_SPATIAL_TILE_DIM : Int := 64

namespace V1

/-- Function `sim_vector_create_window_mask` of `conv_lib_v1.c` (lines 30-39): the window
starts at lane `shift_offset`. -/
def sim_vector_create_window_mask (mask : Int → Bool)
    (vector_len window_size shift_offset : Int) : Int → Bool :=
  forLoop vector_len (fun i m =>
    let logical_pos := i - shift_offset
    if logical_pos ≥ 0 ∧ logical_pos < window_size then wr m i true else wr m i false) mask

/-- Function `sim_vector_load_row` of `conv_lib_v1.c` (lines 87-96). -/
def sim_vector_load_row (v_reg sc_RAW : Int → α) (start_idx vector_len max_idx : Int) :
    Int → α :=
  forLoop vector_len (fun i v =>
    if start_idx + i < max_idx then wr v i (sc_RAW (start_idx + i)) else wr v i 0) v_reg

/-- Body of the `kh` loop of `im2col_transform_scpad` of `conv_lib_v1.c` (lines 202-236). -/
def im2col_kh_body (sc_RAW : Int → α) (K_w k_start TK T_h T_w : Int)
    (spatial_kernel_size sc_raw_size local_h_start local_w_start c tile_c : Int)
    (kh : Int) (r : VRegs α) : VRegs α :=
  let row_start_offset := tile_c * (T_h * T_w) + (local_h_start + kh) * T_w
  let v_row := sim_vector_load_row r.v_row sc_RAW (row_start_offset + local_w_start) TK
    sc_raw_size
  let v_mask := sim_vector_create_window_mask r.v_mask TK K_w 0
  let v_row := sim_vector_mask_apply v_row TK v_mask
  let v_row := sim_vector_shift v_row TK 0 true r.temp
  let global_k_index := c * spatial_kernel_size + kh * K_w
  let placement_shift := global_k_index - k_start
  if placement_shift ≥ 0 then
    if placement_shift < TK then
      let v_row := sim_vector_shift v_row TK placement_shift false r.temp
      { r with v_mask := v_mask, v_row := v_row, v_accum := sim_vector_add r.v_accum v_row TK }
    else
      { r with v_mask := v_mask, v_row := v_row }
  else
    let left_shift_amt := -placement_shift
    if left_shift_amt < K_w then
      let v_row := sim_vector_shift v_row TK left_shift_amt true r.temp
      { r with v_mask := v_mask, v_row := v_row, v_accum := sim_vector_add r.v_accum v_row TK }
    else
      { r with v_mask := v_mask, v_row := v_row }

/-- Function `im2col_transform_scpad` of `conv_lib_v1.c` (lines 150-241).  As for
`conv_lib.c`, the pointer `sc_A` is a buffer and an offset, `regs` holds the prior contents of
the local registers, and the leading `if (c >= C_in) break;` is part of the loop bound. -/
def im2col_transform_scpad (sc_A : Int → α) (sc_A_off : Int) (sc_RAW : Int → α)
    (params : ConvParams) (K_h K_w C_in O_h O_w i_start k_start TM TK T_h T_w : Int)
    (raw_tile_start_c raw_tile_start_h raw_tile_start_w M_limit_in_tile : Int)
    (regs : VRegs α) : Int → α :=
  let spatial_kernel_size := K_h * K_w
  let sc_raw_size := C_in * T_h * T_w
  (forLoop TM (fun m (st : (Int → α) × VRegs α) =>
    let global_patch_idx := i_start + m
    if global_patch_idx ≥ O_h * O_w ∨ m ≥ M_limit_in_tile then
      (memset0 st.1 (sc_A_off + m * TK) TK, st.2)
    else
      let r : VRegs α := { st.2 with v_accum := memset0 st.2.v_accum 0 TK }
      let o_h := global_patch_idx.tdiv O_w
      let o_w := global_patch_idx.tmod O_w
      let global_in_h_start := o_h * params.stride - params.padding
      let global_in_w_start := o_w * params.stride - params.padding
      let local_h_start := global_in_h_start - raw_tile_start_h
      let local_w_start := global_in_w_start - raw_tile_start_w
      let start_channel := k_start.tdiv spatial_kernel_size
      let end_channel := (k_start + TK + K_w).tdiv spatial_kernel_size
      let r := forRange start_channel (min (end_channel + 1) C_in) (fun c r =>
        let tile_c := c - raw_tile_start_c
        if tile_c < 0 then r
        else
          forLoop K_h (im2col_kh_body sc_RAW K_w k_start TK T_h T_w
            spatial_kernel_size sc_raw_size local_h_start local_w_start c tile_c) r) r
      (memcpy st.1 (sc_A_off + m * TK) r.v_accum 0 TK, r)) (sc_A, regs)).1

/-- Body of the reduction loop over `k` of `conv2d_nchw` of `conv_lib_v1.c`
(lines 313-329). -/
def conv2d_kstep (B_matrix : Int → α) (kernel : KernelTensor α) (params : ConvParams)
    (regs : VRegs α) (N K TM TN TK T_h T_w O_h O_w patches_per_tile : Int)
    (in_h in_w j ii current_patch_global : Int) (k : Int) (st : ConvState α) : ConvState α :=
  let sc_B := load_b_tile st.sc_B B_matrix K N k j TK TN
  let patches_left := patches_per_tile - ii
  let m_limit := if patches_left > TM then TM else patches_left
  let sc_A := im2col_transform_scpad st.sc_A 0 st.sc_RAW params kernel.kh kernel.kw kernel.cin
    O_h O_w current_patch_global k TM TK T_h T_w 0 in_h in_w m_limit regs
  { st with sc_A := sc_A, sc_B := sc_B, sc_C := atallax_gemmv st.sc_C sc_A sc_B TM TN TK }

/-- Body of the batch loop over `ii` (lines 305-331), after its `break` test; `output` gives
the metadata of `*output` during the loop. -/
def conv2d_batch (output : TensorNCHW α) (B_matrix : Int → α) (kernel : KernelTensor α)
    (params : ConvParams) (regs : VRegs α)
    (N K TM TN TK T_h T_w O_h O_w patches_per_tile : Int)
    (in_h in_w i j : Int) (ii : Int) (st : ConvState α) : ConvState α :=
  let current_patch_global := i + ii
  let st : ConvState α := { st with sc_C := memset0 st.sc_C 0 (TM * TN) }
  let st := forStep K TK (conv2d_kstep B_matrix kernel params regs N K TM TN TK T_h T_w
    O_h O_w patches_per_tile in_h in_w j ii current_patch_global) st
  let out := (store_c_tile { output with data := st.out } st.sc_C O_h O_w
    current_patch_global j TM TN).data
  { st with out := out }

/-- Body of the loop over `j` (lines 296-332).  The batch loop
`for (ii = 0; ii < patches_per_tile; ii += TM) { if (i + ii >= M) break; ... }` runs while
`ii < patches_per_tile` and `i + ii < M`, that is while `ii < min patches_per_tile (M - i)`. -/
def conv2d_tile (output : TensorNCHW α) (B_matrix : Int → α) (input : TensorNCHW α)
    (kernel : KernelTensor α) (params : ConvParams) (regs : VRegs α)
    (M N K TM TN TK T_h T_w O_h O_w patches_per_tile : Int)
    (i : Int) (j : Int) (st : ConvState α) : ConvState α :=
  let in_h := (i.tdiv O_w) * params.stride - params.padding
  let in_w := (i.tmod O_w) * params.stride - params.padding
  let st : ConvState α :=
    { st with sc_RAW := load_spatial_tile st.sc_RAW input kernel.cin T_h T_w 0 in_h in_w }
  forStep (min patches_per_tile (M - i)) TM (conv2d_batch output B_matrix kernel params regs
    N K TM TN TK T_h T_w O_h O_w patches_per_tile in_h in_w i j) st

/-- Function `conv2d_nchw` of `conv_lib_v1.c` (lines 264-335).  The result is the `output`
struct and the `params` struct after the call; `scr` gives the prior contents of the buffers the
function allocates. -/
def conv2d_nchw (output input : TensorNCHW α) (kernel : KernelTensor α) (params : ConvParams)
    (scr : Scratch α) : TensorNCHW α × ConvParams :=
  let params : ConvParams :=
    if params.dilation < 1 then { params with dilation := 1 } else params
  if input.n > 1 then (output, params)
  else
    let O_h := (input.h - (kernel.kh - 1) * params.dilation - 1 + 2 * params.padding).tdiv
      params.stride + 1
    let O_w := (input.w - (kernel.kw - 1) * params.dilation - 1 + 2 * params.padding).tdiv
      params.stride + 1
    let output : TensorNCHW α := { output with n := 1, c := kernel.cout, h := O_h, w := O_w }
    let output : TensorNCHW α :=
      { output with data := memset0 output.data 0 (output.n * output.c * O_h * O_w) }
    let M := O_h * O_w
    let N := kernel.cout
    let K := kernel.cin * kernel.kh * kernel.kw
    let TM := SA_TM
    let TN := SA_TN
    let TK := SA_TK
    let O_T_h := TM
    let O_T_w := TM
    let K_eff_h := (kernel.kh - 1) * params.dilation + 1
    let K_eff_w := (kernel.kw - 1) * params.dilation + 1
    let T_h_req := (O_T_h - 1) * params.stride + K_eff_h
    let T_w_req := (O_T_w - 1) * params.stride + K_eff_w
    let T_h := if T_h_req > 32 then T_h_req else 32
    let T_w := if T_w_req > 32 then T_w_req else 32
    if T_h > MAX_SPATIAL_TILE_DIM ∨ T_w > MAX_SPATIAL_TILE_DIM then (output, params)
    else
      let B_matrix := flatten_kernels_to_B_matrix kernel scr.B_matrix
      let patches_per_tile := O_T_h * O_T_w
      let st : ConvState α :=
        { out := output.data, sc_RAW := scr.sc_RAW, sc_A := scr.sc_A, sc_B := scr.sc_B,
          sc_C := scr.sc_C }
      let st := forStep M patches_per_tile (fun i st =>
        forStep N TN (conv2d_tile output B_matrix input kernel params scr.regs
          M N K TM TN TK T_h T_w O_h O_w patches_per_tile i) st) st
      ({ output with data := st.out }, params)

end V1

/-! ## Scalar-im2col variant (`src/conv_lib.c`, with the harness `src/main.c`)

`flatten_kernels_to_B_matrix` and `load_spatial_tile` of `src/conv_lib.c` and `atallax_gemmv`
of `src/main.c` are, statement for statement, the functions embedded above. -/

namespace Scalar

/-- Function `im2col_transform_scpad` of `src/conv_lib.c` (lines 110-188): a scalar gather,
one element of `sc_A` at a time. -/
def im2col_transform_scpad (sc_A sc_RAW : Int → α) (params : ConvParams)
    (K_h K_w C_in O_h O_w i_start k_start TM TK T_h T_w : Int)
    (raw_tile_start_c raw_tile_start_h raw_tile_start_w : Int) : Int → α :=
  let K_flat_size := C_in * K_h * K_w
  let M_total_patches := O_h * O_w
  forLoop TM (fun m sc_A =>
    let global_patch_idx := i_start + m
    if global_patch_idx ≥ M_total_patches then
      memset0 sc_A (m * TK) TK
    else
      let o_h := global_patch_idx.tdiv O_w
      let o_w := global_patch_idx.tmod O_w
      let global_in_h_start := o_h * params.stride - params.padding
      let global_in_w_start := o_w * params.stride - params.padding
      forLoop TK (fun k sc_A =>
        let global_k_idx := k_start + k
        if global_k_idx ≥ K_flat_size then
          wr sc_A (m * TK + k) 0
        else
          let k_h_x_k_w := K_h * K_w
          let c := global_k_idx.tdiv k_h_x_k_w
          let kh := (global_k_idx.tmod k_h_x_k_w).tdiv K_w
          let kw := global_k_idx.tmod K_w
          let global_in_h := global_in_h_start + kh * params.dilation
          let global_in_w := global_in_w_start + kw * params.dilation
          let local_h := global_in_h - raw_tile_start_h
          let local_w := global_in_w - raw_tile_start_w
          if c ≥ raw_tile_start_c ∧ c < raw_tile_start_c + C_in ∧
              local_h ≥ 0 ∧ local_h < T_h ∧ local_w ≥ 0 ∧ local_w < T_w then
            let raw_idx := c * (T_h * T_w) + local_h * T_w + local_w
            wr sc_A (m * TK + k) (sc_RAW raw_idx)
          else
            wr sc_A (m * TK + k) 0) sc_A) sc_A

/-- Function `load_b_tile` of `src/conv_lib.c` (lines 196-210). -/
def load_b_tile (sc_B B_global : Int → α) (K N k_start j_start TK TN : Int) : Int → α :=
  forLoop TK (fun r sc_B =>
    forLoop TN (fun c sc_B =>
      let global_r := k_start + r
      let global_c := j_start + c
      if global_r < K ∧ global_c < N then
        wr sc_B (r * TN + c) (B_global (global_r * N + global_c))
      else
        wr sc_B (r * TN + c) 0) sc_B) sc_B

/-- Function `store_c_tile` of `src/conv_lib.c` (lines 212-233). -/
def store_c_tile (output : TensorNCHW α) (sc_C : Int → α)
    (O_h O_w i_start j_start TM TN : Int) : TensorNCHW α :=
  { output with
    data := forLoop TM (fun r dat =>
      forLoop TN (fun c dat =>
        let global_patch_idx := i_start + r
        let global_out_ch := j_start + c
        if global_patch_idx < O_h * O_w ∧ global_out_ch < output.c then
          let o_h := global_patch_idx.tdiv O_w
          let o_w := global_patch_idx.tmod O_w
          let out_idx := global_out_ch * (output.h * output.w) + o_h * output.w + o_w
          wr dat out_idx (sc_C (r * TN + c))
        else dat) dat) output.data }

/-- Body of the reduction loop over `k` of `conv2d_nchw` of `src/conv_lib.c`
(lines 319-334). -/
def conv2d_kstep (B_matrix_flat : Int → α) (kernel : KernelTensor α) (params : ConvParams)
    (N K TM TN TK T_h T_w O_h O_w : Int)
    (in_h_start_global in_w_start_global i j : Int) (k : Int) (st : ConvState α) :
    ConvState α :=
  let sc_B := load_b_tile st.sc_B B_matrix_flat K N k j TK TN
  let sc_A := im2col_transform_scpad st.sc_A st.sc_RAW params kernel.kh kernel.kw kernel.cin
    O_h O_w i k TM TK T_h T_w 0 in_h_start_global in_w_start_global
  { st with sc_A := sc_A, sc_B := sc_B, sc_C := atallax_gemmv st.sc_C sc_A sc_B TM TN TK }

/-- Body of the loop over `j` (lines 301-338); `output` gives the metadata of `*output` during
the loop. -/
def conv2d_tile (output : TensorNCHW α) (B_matrix_flat : Int → α) (input : TensorNCHW α)
    (kernel : KernelTensor α) (params : ConvParams)
    (N K TM TN TK T_h T_w O_h O_w patches_per_tile : Int)
    (i : Int) (j : Int) (st : ConvState α) : ConvState α :=
  let in_h_start_global := (i.tdiv O_w) * params.stride - params.padding
  let in_w_start_global := (i.tmod O_w) * params.stride - params.padding
  let st : ConvState α :=
    { st with sc_RAW := (load_spatial_tile st.sc_RAW input kernel.cin T_h T_w 0
        in_h_start_global in_w_start_global) }
  let st : ConvState α := { st with sc_C := memset0 st.sc_C 0 (patches_per_tile * TN) }
  let st := forStep K TK (conv2d_kstep B_matrix_flat kernel params N K TM TN TK T_h T_w
    O_h O_w in_h_start_global in_w_start_global i j) st
  let out := (store_c_tile { output with data := st.out } st.sc_C O_h O_w i j TM TN).data
  { st with out := out }

/-- Function `conv2d_nchw` of `src/conv_lib.c` (lines 244-343).  The result is the `output`
struct after the call (this variant does not write `*params`); `scr` gives the prior contents
of the buffers the function allocates. -/
def conv2d_nchw (output input : TensorNCHW α) (kernel : KernelTensor α) (params : ConvParams)
    (scr : Scratch α) : TensorNCHW α :=
  if input.n > 1 then output
  else
    let O_h := (input.h - (kernel.kh - 1) * params.dilation - 1 + 2 * params.padding).tdiv
      params.stride + 1
    let O_w := (input.w - (kernel.kw - 1) * params.dilation - 1 + 2 * params.padding).tdiv
      params.stride + 1
    let output : TensorNCHW α :=
      { output with n := input.n, c := kernel.cout, h := O_h, w := O_w }
    let output : TensorNCHW α :=
      { output with data := memset0 output.data 0 (output.n * output.c * O_h * O_w) }
    let M := O_h * O_w
    let N := kernel.cout
    let K := kernel.cin * kernel.kh * kernel.kw
    let TM := SA_TM
    let TN := SA_TN
    let TK := SA_TK
    let O_T_h := TM
    let O_T_w := TM
    let K_eff_h := (kernel.kh - 1) * params.dilation + 1
    let K_eff_w := (kernel.kw - 1) * params.dilation + 1
    let T_h_req := (O_T_h - 1) * params.stride + K_eff_h
    let T_w_req := (O_T_w - 1) * params.stride + K_eff_w
    let T_h := T_h_req
    let T_w := T_w_req
    if T_h > MAX_SPATIAL_TILE_DIM ∨ T_w > MAX_SPATIAL_TILE_DIM then output
    else
      let B_matrix_flat := flatten_kernels_to_B_matrix kernel scr.B_matrix
      let patches_per_tile := O_T_h * O_T_w
      let st : ConvState α :=
        { out := output.data, sc_RAW := scr.sc_RAW, sc_A := scr.sc_A, sc_B := scr.sc_B,
          sc_C := scr.sc_C }
      let st := forStep M patches_per_tile (fun i st =>
        forStep N TN (conv2d_tile output B_matrix_flat input kernel params
          N K TM TN TK T_h T_w O_h O_w patches_per_tile i) st) st
      { output with data := st.out }

end Scalar

/-! ## Golden model (`main.c`, lines 46-90) -/

/-- Function `golden_conv2d`: the seven-loop reference convolution. -/
def golden_conv2d (output input : TensorNCHW α) (kernel : KernelTensor α)
    (params : ConvParams) : TensorNCHW α :=
  let d := if params.dilation < 1 then 1 else params.dilation
  let out_size := output.n * output.c * output.h * output.w
  let data := forLoop out_size (fun i dat => wr dat i 0) output.data
  let data := forLoop input.n (fun n dat =>
    forLoop kernel.cout (fun cout dat =>
      forLoop output.h (fun oy dat =>
        forLoop output.w (fun ox dat =>
          let acc : α := 0
          let acc := forLoop input.c (fun cin acc =>
            forLoop kernel.kh (fun ky acc =>
              forLoop kernel.kw (fun kx acc =>
                let iy := oy * params.stride - params.padding + ky * d
                let ix := ox * params.stride - params.padding + kx * d
                if iy ≥ 0 ∧ iy < input.h ∧ ix ≥ 0 ∧ ix < input.w then
                  let in_idx := n * (input.c * input.h * input.w) +
                    cin * (input.h * input.w) + iy * input.w + ix
                  let k_idx := cout * (kernel.cin * kernel.kh * kernel.kw) +
                    cin * (kernel.kh * kernel.kw) + ky * kernel.kw + kx
                  acc + input.data in_idx * kernel.data k_idx
                else acc) acc) acc) acc
          let out_idx := n * (output.c * output.h * output.w) +
            cout * (output.h * output.w) + oy * output.w + ox
          wr dat out_idx acc) dat) dat) dat) data
  { output with data := data }

/-! ## Reference values used in the statements -/

/-- The dilation `conv2d_nchw` and `golden_conv2d` work with: values below 1 become 1. -/
def norm_dilation (D : Int) : Int := if D < 1 then 1 else D

/-- The output size `conv2d_nchw` derives (line 253), with C's truncating division:
`(H - (K - 1) * D - 1 + 2 * P) / S + 1`. -/
def out_dim (H K D P S : Int) : Int := (H - (K - 1) * D - 1 + 2 * P).tdiv S + 1

/-- The output size of the specification, with the floor division:
`⌊(H + 2P − (K−1)·D − 1)/S⌋ + 1`. -/
def floor_out_dim (H K D P S : Int) : Int := (H + 2 * P - (K - 1) * D - 1).fdiv S + 1

/-- The output block size `conv2d_nchw` picks (lines 265-272). -/
def blk_dim (K D S : Int) : Int :=
  if (SCPAD_DIM - ((K - 1) * D + 1)).tdiv S + 1 < 1 then 1
  else (SCPAD_DIM - ((K - 1) * D + 1)).tdiv S + 1

/-- Element `[c, h, w]` of a single-batch tensor, with positions outside the tensor read
as 0. -/
def inputAt (input : TensorNCHW α) (c h w : Int) : α :=
  if 0 ≤ c ∧ c < input.c ∧ 0 ≤ h ∧ h < input.h ∧ 0 ≤ w ∧ w < input.w then
    input.data (c * (input.h * input.w) + h * input.w + w)
  else 0

/-- Element `[0, c, h, w]` of a tensor, read through the tensor's own NCHW layout. -/
def tensor_at (t : TensorNCHW α) (c h w : Int) : α :=
  t.data (c * (t.h * t.w) + h * t.w + w)

/-- Element `[co, c, kh, kw]` of a kernel tensor. -/
def kernelAt (kernel : KernelTensor α) (co c kh kw : Int) : α :=
  kernel.data (((co * kernel.cin + c) * kernel.kh + kh) * kernel.kw + kw)

/-- Entry `g` of the im2col row of output patch `(oh, ow)` for undilated taps: the input
pixel under tap `g = c*K_h*K_w + kh*K_w + kw`, and 0 for `g` past the last tap. -/
def patch_lane (input : TensorNCHW α) (kernel : KernelTensor α) (params : ConvParams)
    (oh ow g : Int) : α :=
  if g < kernel.cin * (kernel.kh * kernel.kw) then
    inputAt input (g / (kernel.kh * kernel.kw))
      (oh * params.stride - params.padding + g % (kernel.kh * kernel.kw) / kernel.kw)
      (ow * params.stride - params.padding + g % kernel.kw)
  else 0

/-- Entry `g` of the im2col row of output patch `(oh, ow)` for taps spaced `D` apart: the
input pixel under tap `g = c*K_h*K_w + kh*K_w + kw`, that is
`input[c, oh*S - P + kh*D, ow*S - P + kw*D]`, and 0 for `g` past the last tap. -/
def patch_lane_dilated (input : TensorNCHW α) (kernel : KernelTensor α) (S P D : Int)
    (oh ow g : Int) : α :=
  if g < kernel.cin * (kernel.kh * kernel.kw) then
    inputAt input (g / (kernel.kh * kernel.kw))
      (oh * S - P + g % (kernel.kh * kernel.kw) / kernel.kw * D)
      (ow * S - P + g % kernel.kw * D)
  else 0

/-- The value the scalar gather of `src/conv_lib.c` (the loop over `k` of
`im2col_transform_scpad`) stores in the lane of flat tap index `g` of the row of output
patch `(o_h, o_w)`: 0 past the last tap, the scratchpad pixel under the tap when it lies
inside the tile, 0 otherwise. -/
def scalar_im2col_lane (sc_RAW : Int → α) (params : ConvParams)
    (K_h K_w C_in T_h T_w rc rh rw o_h o_w g : Int) : α :=
  if g ≥ C_in * K_h * K_w then 0
  else
    let c := g.tdiv (K_h * K_w)
    let kh := (g.tmod (K_h * K_w)).tdiv K_w
    let kw := g.tmod K_w
    let local_h := o_h * params.stride - params.padding + kh * params.dilation - rh
    let local_w := o_w * params.stride - params.padding + kw * params.dilation - rw
    if c ≥ rc ∧ c < rc + C_in ∧ local_h ≥ 0 ∧ local_h < T_h ∧ local_w ≥ 0 ∧ local_w < T_w then
      sc_RAW (c * (T_h * T_w) + local_h * T_w + local_w)
    else 0

/-- Reference for the channel range of the vector `im2col_transform_scpad`: the text of
`im2col_transform_scpad` with the exact channel range in place of the conservative one.
The channel loop stops at the last channel whose flat indices `[c*K_h*K_w, (c+1)*K_h*K_w)`
meet the chunk `[k_start, k_start + TK)`, that is at `(k_start + TK - 1) / (K_h*K_w)`
(the function itself runs to `(k_start + TK + K_w) / (K_h*K_w)`). -/
def im2col_transform_scpad_exact (sc_A : Int → α) (sc_A_off : Int) (sc_RAW : Int → α)
    (params : ConvParams) (K_h K_w C_in O_h O_w i_start k_start TM TK T_h T_w : Int)
    (raw_tile_start_c raw_tile_start_h raw_tile_start_w M_limit_in_tile : Int)
    (regs : VRegs α) : Int → α :=
  let spatial_kernel_size := K_h * K_w
  (forLoop TM (fun m (st : (Int → α) × VRegs α) =>
    let global_patch_idx := i_start + m
    if global_patch_idx ≥ O_h * O_w ∨ m ≥ M_limit_in_tile then
      (memset0 st.1 (sc_A_off + m * TK) TK, st.2)
    else
      let r : VRegs α := { st.2 with v_accum := memset0 st.2.v_accum 0 TK }
      let o_h := global_patch_idx.tdiv O_w
      let o_w := global_patch_idx.tmod O_w
      let global_in_h_start := o_h * params.stride - params.padding
      let global_in_w_start := o_w * params.stride - params.padding
      let local_h_start := global_in_h_start - raw_tile_start_h
      let local_w_start := global_in_w_start - raw_tile_start_w
      let start_channel := k_start.tdiv spatial_kernel_size
      let end_channel := (k_start + TK - 1).tdiv spatial_kernel_size
      let r := forRange start_channel (min (end_channel + 1) C_in) (fun c r =>
        let tile_c := c - raw_tile_start_c
        if tile_c < 0 then r
        else
          forLoop K_h (im2col_kh_body sc_RAW K_w k_start TK T_h T_w
            spatial_kernel_size local_h_start local_w_start c tile_c) r) r
      (memcpy st.1 (sc_A_off + m * TK) r.v_accum 0 TK, r)) (sc_A, regs)).1

/-- The scratchpad `sc_RAW` holds the 32x32 spatial tile whose origin is the input position
`(in_h, in_w)`, zero outside the input. -/
def TileLoaded (sc_RAW : Int → α) (input : TensorNCHW α) (C_in in_h in_w : Int) : Prop :=
  ∀ c h w, 0 ≤ c → c < C_in → 0 ≤ h → h < 32 → 0 ≤ w → w < 32 →
    sc_RAW (c * (32 * 32) + h * 32 + w) = inputAt input c (in_h + h) (in_w + w)

end Model

section Sums

variable {α : Type} [AddCommMonoid α] [Mul α]

/-! ## Reference sums

The sums used in the statements need an addition that is associative and commutative
with 0 as its unit; nothing is assumed of the multiplication. -/

/-- The sum of `f 0, …, f (n - 1)` (zero when `n ≤ 0`). -/
def sumTo (n : Int) (f : Int → α) : α :=
  ∑ i in Finset.range n.toNat, f (i : Int)

/-- Lane `k` of the row `im2col_transform_scpad` builds for one patch: the sum of the
contributions of every kernel row `(c, kh)` the channel loop and the `kh` loop visit. -/
def im2col_lane (sc_RAW : Int → α) (K_h K_w C_in k_start TK T_h T_w : Int)
    (raw_tile_start_c local_h_start local_w_start : Int) (k : Int) : α :=
  let start_channel := k_start.tdiv (K_h * K_w)
  let end_channel := (k_start + TK + K_w).tdiv (K_h * K_w)
  ∑ i in Finset.range (min (end_channel + 1) C_in - start_channel).toNat,
    (if start_channel + (i : Int) - raw_tile_start_c < 0 then 0
     else ∑ kh in Finset.range K_h.toNat,
       im2col_contrib sc_RAW K_w k_start TK T_h T_w (K_h * K_w) local_h_start local_w_start
         (start_channel + (i : Int)) (start_channel + (i : Int) - raw_tile_start_c) (kh : Int) k)

/-- Direct convolution at output element `(co, oh, ow)` with stride `S`, padding `P` and
tap spacing `D`: the sum over `(c, kh, kw)` of
`input[c, oh*S - P + kh*D, ow*S - P + kw*D] * kernel[co, c, kh, kw]`. -/
def direct_conv (input : TensorNCHW α) (kernel : KernelTensor α) (S P D co oh ow : Int) : α :=
  sumTo kernel.cin (fun c => sumTo kernel.kh (fun kh => sumTo kernel.kw (fun kw =>
    inputAt input c (oh * S - P + kh * D) (ow * S - P + kw * D) * kernelAt kernel co c kh kw)))

/-- The GEMM view of one output element: row `(oh, ow)` of the im2col matrix times column
`co` of the flattened kernel. -/
def conv_value (input : TensorNCHW α) (kernel : KernelTensor α) (params : ConvParams)
    (co oh ow : Int) : α :=
  sumTo (kernel.cin * (kernel.kh * kernel.kw)) (fun g =>
    patch_lane input kernel params oh ow g *
      kernel.data (co * (kernel.cin * (kernel.kh * kernel.kw)) + g))

end Sums

/-- A call of `sim_vector_load_row_safe` stays inside the scratchpad `sc_RAW` of `C_in`
channels of 32x32 elements: its address is that of row `row`, column `col` of channel
`chan`, the channel lies in `[0, C_in)`, the row in `[0, 32)`, and every lane `i` the call
reads has its index `start_idx + i` in `[0, C_in*32*32)` and its column `col + i` in
`[0, 32)`. -/
def LoadInBounds (C_in : Int) (e : LoadCall) : Prop :=
  e.start_idx = e.chan * (32 * 32) + e.row * 32 + e.col ∧
  0 ≤ e.chan ∧ e.chan < C_in ∧ 0 ≤ e.row ∧ e.row < 32 ∧
  ∀ i, 0 ≤ i → i < e.vector_len → i < e.valid →
    0 ≤ e.start_idx + i ∧ e.start_idx + i < C_in * 32 * 32 ∧ 0 ≤ e.col + i ∧ e.col + i < 32

/-! ## Concrete inputs -/

/-- The input of `src/main.c`: 5x5, two channels, channel 0 = 0..24, channel 1 = 100..124. -/
def main_input : TensorNCHW Int :=
  ⟨fun i => if i < 25 then i else 100 + (i - 25), 1, 2, 5, 5⟩

/-- The kernel of `src/main.c`: 3x3, two input and two output channels, all zero except
`K[0,0,1,1] = K[1,1,1,1] = 1` (flat indices 4 and 31). -/
def main_kernel : KernelTensor Int :=
  ⟨fun i => if i = 4 ∨ i = 31 then 1 else 0, 2, 2, 3, 3⟩

/-- The `calloc`ed output tensor of `src/main.c`. -/
def main_output : TensorNCHW Int := ⟨fun _ => 0, 1, 2, 3, 3⟩

/-- Scratch buffers that happen to hold zeros. -/
def zero_scratch : Scratch Int :=
  ⟨fun _ => 0, fun _ => 0, fun _ => 0, fun _ => 0, fun _ => 0,
    ⟨fun _ => false, fun _ => 0, fun _ => 0, fun _ => 0⟩⟩

/-- A 16x16 two-channel input whose element at flat index `i` is `i`. -/
def ramp_input : TensorNCHW Int := ⟨fun i => i, 1, 2, 16, 16⟩

/-- A 3x3 kernel with two input and two output channels whose only non-zero weight is
`K[0,0,1,1] = 1`. -/
def centre_kernel : KernelTensor Int := ⟨fun i => if i = 4 then 1 else 0, 2, 2, 3, 3⟩

/-- An output tensor whose buffer holds 7 everywhere before the call. -/
def stale_output : TensorNCHW Int := ⟨fun _ => 7, 1, 2, 16, 16⟩

/-- A 33x1 single-channel input of ones. -/
def column_input : TensorNCHW Int := ⟨fun _ => 1, 1, 1, 33, 1⟩

/-- A 2x1 single-channel kernel of ones. -/
def column_kernel : KernelTensor Int := ⟨fun _ => 1, 1, 1, 2, 1⟩

/-- A batch of two 1x1 images. -/
def batch2_input : TensorNCHW Int := ⟨fun _ => 1, 2, 1, 1, 1⟩

/-- A 1x1 single-channel kernel of weight 1. -/
def unit_kernel : KernelTensor Int := ⟨fun _ => 1, 1, 1, 1, 1⟩

/-- An 8x8 single-channel input whose element at flat index `i` is `i`. -/
def ramp8_input : TensorNCHW Int := ⟨fun i => i, 1, 1, 8, 8⟩

/-- An 8x8 single-channel input of ones. -/
def ones8_input : TensorNCHW Int := ⟨fun _ => 1, 1, 1, 8, 8⟩

/-- The 8x8 single-channel input `2 * ramp8_input + 3 * ones8_input`. -/
def mix8_input : TensorNCHW Int := ⟨fun i => 2 * i + 3, 1, 1, 8, 8⟩

/-- A 3x3 single-channel kernel of ones. -/
def ones3_kernel : KernelTensor Int := ⟨fun _ => 1, 1, 1, 3, 3⟩

/-- Scratch buffers that hold 7 everywhere (and set mask bits) before the call. -/
def stale_scratch : Scratch Int :=
  ⟨fun _ => 7, fun _ => 7, fun _ => 7, fun _ => 7, fun _ => 7,
    ⟨fun _ => true, fun _ => 7, fun _ => 7, fun _ => 7⟩⟩

/-- A 33x1 single-channel kernel of ones: one row taller than the 32x32 spatial tile. -/
def tall_kernel : KernelTensor Int := ⟨fun _ => 1, 1, 1, 33, 1⟩

/-- A 32x32 single-channel input of ones. -/
def tile_input : TensorNCHW Int := ⟨fun _ => 1, 1, 1, 32, 32⟩

/-- A 32x32 single-channel kernel of ones: its window fills the spatial tile. -/
def tile_kernel : KernelTensor Int := ⟨fun _ => 1, 1, 1, 32, 32⟩

/-- A 6x6 single-channel input whose element at flat index `i` is `i`. -/
def ramp6_input : TensorNCHW Int := ⟨fun i => i, 1, 1, 6, 6⟩

/-- A scratchpad whose element `i` holds the value `i`. -/
def ramp_tile : Int → Int := fun i => i

/-- A 2x2 single-channel input with elements 1, 2, 3, 4: smaller than a 3x3 kernel. -/
def tiny_input : TensorNCHW Int := ⟨fun i => i + 1, 1, 1, 2, 2⟩

/-! ## A value type with the IEEE 754 special values

`conv2d_nchw` computes on C's `float`.  `XFloat` models the values of `float` that a ring
cannot hold: besides the finite values it has `+inf`, `-inf` and NaN, with the IEEE 754
rules for them.  Finite values are exact integers and finite arithmetic is exact, so on
a run whose finite values are small integers (as in the inputs below) every operation
gives what binary32 gives. -/

/-- A `float` value: finite (an exact integer), `+inf`, `-inf` or NaN. -/
inductive XFloat where
  | fin (v : Int)
  | pinf
  | ninf
  | nan
  deriving DecidableEq

/-- IEEE 754 addition on `XFloat`: NaN absorbs, `inf + (-inf)` is NaN, an infinity absorbs
every finite value, finite values add exactly. -/
def XFloat.add : XFloat → XFloat → XFloat
  | XFloat.fin a, XFloat.fin b => XFloat.fin (a + b)
  | XFloat.fin _, XFloat.pinf => XFloat.pinf
  | XFloat.fin _, XFloat.ninf => XFloat.ninf
  | XFloat.pinf, XFloat.fin _ => XFloat.pinf
  | XFloat.pinf, XFloat.pinf => XFloat.pinf
  | XFloat.ninf, XFloat.fin _ => XFloat.ninf
  | XFloat.ninf, XFloat.ninf => XFloat.ninf
  | XFloat.pinf, XFloat.ninf => XFloat.nan
  | XFloat.ninf, XFloat.pinf => XFloat.nan
  | XFloat.nan, _ => XFloat.nan
  | _, XFloat.nan => XFloat.nan

/-- The product of an infinity of sign `pos` with the finite value `a`: NaN for `a = 0`,
otherwise the infinity whose sign is the product of the signs. -/
def XFloat.scaleInf (pos : Bool) (a : Int) : XFloat :=
  if a = 0 then XFloat.nan
  else if (0 < a) = (pos = true) then XFloat.pinf else XFloat.ninf

/-- IEEE 754 multiplication on `XFloat`: NaN absorbs, `0 * inf` is NaN, otherwise the
signs multiply; finite values multiply exactly. -/
def XFloat.mul : XFloat → XFloat → XFloat
  | XFloat.fin a, XFloat.fin b => XFloat.fin (a * b)
  | XFloat.fin a, XFloat.pinf => XFloat.scaleInf true a
  | XFloat.fin a, XFloat.ninf => XFloat.scaleInf false a
  | XFloat.pinf, XFloat.fin a => XFloat.scaleInf true a
  | XFloat.ninf, XFloat.fin a => XFloat.scaleInf false a
  | XFloat.pinf, XFloat.pinf => XFloat.pinf
  | XFloat.ninf, XFloat.ninf => XFloat.pinf
  | XFloat.pinf, XFloat.ninf => XFloat.ninf
  | XFloat.ninf, XFloat.pinf => XFloat.ninf
  | XFloat.nan, _ => XFloat.nan
  | _, XFloat.nan => XFloat.nan

instance XFloat.instZero : Zero XFloat := ⟨XFloat.fin 0⟩

instance XFloat.instAdd : Add XFloat := ⟨XFloat.add⟩

instance XFloat.instMul : Mul XFloat := ⟨XFloat.mul⟩

instance XFloat.instAddCommMonoid : AddCommMonoid XFloat where
  nsmul := nsmulRec
  add_assoc := by
    intro a b c
    show XFloat.add (XFloat.add a b) c = XFloat.add a (XFloat.add b c)
    cases a <;> cases b <;> cases c <;> simp [XFloat.add, Int.add_assoc]
  zero_add := by
    intro a
    show XFloat.add (XFloat.fin 0) a = a
    cases a <;> simp [XFloat.add]
  add_zero := by
    intro a
    show XFloat.add a (XFloat.fin 0) = a
    cases a <;> simp [XFloat.add]
  add_comm := by
    intro a b
    show XFloat.add a b = XFloat.add b a
    cases a <;> cases b <;> simp [XFloat.add, Int.add_comm]

theorem wr_same {β : Type} (m : Int → β) (i : Int) (v : β) : wr m i v i = v := by
  simp [wr]

theorem wr_other {β : Type} (m : Int → β) (i j : Int) (v : β) (h : j ≠ i) : wr m i v j = m j := by
  simp [wr, h]

theorem wr_apply {β : Type} (m : Int → β) (i j : Int) (v : β) :
    wr m i v j = if j = i then v else m j := rfl

theorem memset0_apply {α : Type} [Zero α] (m : Int → α) (off len j : Int) :
    memset0 m off len j = if off ≤ j ∧ j < off + len then 0 else m j := rfl

theorem memcpy_apply {α : Type} (dst : Int → α) (doff : Int) (src : Int → α) (soff len j : Int) :
    memcpy dst doff src soff len j =
      if doff ≤ j ∧ j < doff + len then src (soff + (j - doff)) else dst j := rfl

/-- Invariant rule for a fold over `List.range`. -/
theorem foldl_range_inv {σ : Type} (Inv : Nat → σ → Prop) (step : σ → Nat → σ) (n : Nat) (s : σ)
    (h0 : Inv 0 s) (hs : ∀ i t, i < n → Inv i t → Inv (i + 1) (step t i)) :
    Inv n ((List.range n).foldl step s) := by
  induction n with
  | zero => simpa using h0
  | succ k ih =>
    rw [List.range_succ, List.foldl_append]
    simp only [List.foldl_cons, List.foldl_nil]
    exact hs k _ (Nat.lt_succ_self k) (ih (fun i t hi => hs i t (Nat.lt_succ_of_lt hi)))

/-- Invariant rule for `for (i = 0; i < n; i++)`. -/
theorem forLoop_inv {σ : Type} (Inv : Int → σ → Prop) (n : Int) (body : Int → σ → σ) (s : σ)
    (h0 : Inv 0 s)
    (hs : ∀ i t, 0 ≤ i → i < n → Inv i t → Inv (i + 1) (body i t)) :
    Inv (max n 0) (forLoop n body s) := by
  have key := foldl_range_inv (fun k t => Inv (k : Int) t) (fun st i => body (i : Int) st)
    n.toNat s (by simpa using h0) (by
      intro i t hi hI
      have : ((i : Int)) < n := by omega
      simpa using hs i t (by omega) this hI)
  have e : ((n.toNat : Nat) : Int) = max n 0 := by omega
  rw [← e]
  exact key

/-- A property kept by every iteration is kept by the loop. -/
theorem forLoop_preserve {σ : Type} (Q : σ → Prop) (n : Int) (body : Int → σ → σ) (s : σ)
    (h0 : Q s) (hs : ∀ i t, 0 ≤ i → i < n → Q t → Q (body i t)) :
    Q (forLoop n body s) :=
  forLoop_inv (fun _ t => Q t) n body s h0 hs

/-- If iteration `i0` establishes `Q` from the side invariant `I`, and every iteration keeps
`I` and keeps `Q`, the loop establishes `Q`. -/
theorem forLoop_establish {σ : Type} (I Q : σ → Prop) (n i0 : Int) (body : Int → σ → σ) (s : σ)
    (hi0 : 0 ≤ i0) (hi0n : i0 < n) (hI : I s)
    (hIs : ∀ i t, 0 ≤ i → i < n → I t → I (body i t))
    (hest : ∀ t, I t → Q (body i0 t))
    (hQs : ∀ i t, 0 ≤ i → i < n → I t → Q t → Q (body i t)) :
    Q (forLoop n body s) := by
  have key := forLoop_inv (fun i t => I t ∧ (i0 < i → Q t)) n body s
    ⟨hI, fun h => absurd h (by omega)⟩ (by
      intro i t h0 hn ⟨hIt, hQt⟩
      refine ⟨hIs i t h0 hn hIt, fun hlt => ?_⟩
      by_cases hc : i = i0
      · subst hc; exact hest t hIt
      · exact hQs i t h0 hn hIt (hQt (by omega)))
  exact key.2 (by omega)

/-- Frame rule: an observation no iteration changes is unchanged by the loop. -/
theorem forLoop_frame {σ β : Type} (obs : σ → β) (n : Int) (body : Int → σ → σ) (s : σ)
    (hs : ∀ i t, 0 ≤ i → i < n → obs (body i t) = obs t) :
    obs (forLoop n body s) = obs s :=
  forLoop_preserve (fun t => obs t = obs s) n body s rfl
    (fun i t h0 hn ht => (hs i t h0 hn).trans ht)

/-- An observation changed by iteration `i0` only (to `F` of its previous value). -/
theorem forLoop_single {σ β : Type} (obs : σ → β) (F : β → β) (n i0 : Int)
    (body : Int → σ → σ) (s : σ) (hi0 : 0 ≤ i0) (hi0n : i0 < n)
    (hother : ∀ i t, 0 ≤ i → i < n → i ≠ i0 → obs (body i t) = obs t)
    (hat : ∀ t, obs (body i0 t) = F (obs t)) :
    obs (forLoop n body s) = F (obs s) := by
  have key := forLoop_inv
    (fun i t => (i ≤ i0 → obs t = obs s) ∧ (i0 < i → obs t = F (obs s))) n body s
    ⟨fun _ => rfl, fun h => absurd h (by omega)⟩ (by
      intro i t h0 hn ⟨h1, h2⟩
      by_cases hc : i = i0
      · subst hc
        refine ⟨fun h => absurd h (by omega), fun _ => ?_⟩
        rw [hat, h1 (le_refl _)]
      · refine ⟨fun h => ?_, fun h => ?_⟩
        · rw [hother i t h0 hn hc]; exact h1 (by omega)
        · rw [hother i t h0 hn hc]; exact h2 (by omega))
  exact key.2 (by omega)

/-- Frame rule for a buffer: an element no iteration writes is unchanged. -/
theorem forLoop_mem_frame {β : Type} (n : Int) (body : Int → (Int → β) → Int → β)
    (m : Int → β) (idx : Int) (hs : ∀ i t, 0 ≤ i → i < n → body i t idx = t idx) :
    forLoop n body m idx = m idx :=
  forLoop_frame (fun t : Int → β => t idx) n body m hs

/-- An element of a buffer that only iteration `i0` writes, with a value `F` of its previous
content. -/
theorem forLoop_mem_single {β : Type} (F : β → β) (n i0 : Int)
    (body : Int → (Int → β) → Int → β) (m : Int → β) (idx : Int) (hi0 : 0 ≤ i0) (hi0n : i0 < n)
    (hother : ∀ i t, 0 ≤ i → i < n → i ≠ i0 → body i t idx = t idx)
    (hat : ∀ t, body i0 t idx = F (t idx)) :
    forLoop n body m idx = F (m idx) :=
  forLoop_single (fun t : Int → β => t idx) F n i0 body m hi0 hi0n hother hat

/-- A loop that writes lane `i` at iteration `i`, from the lane's own previous value. -/
theorem forLoop_lanes {β : Type} (g : Int → β → β) (n : Int) (m : Int → β) (j : Int) :
    forLoop n (fun i v => wr v i (g i (v i))) m j =
      if 0 ≤ j ∧ j < n then g j (m j) else m j := by
  by_cases hj : 0 ≤ j ∧ j < n
  · rw [if_pos hj]
    exact forLoop_single (fun v : Int → β => v j) (g j) n j _ m hj.1 hj.2
      (fun i t _ _ hne => wr_other t i j _ (Ne.symm hne)) (fun t => wr_same t j _)
  · rw [if_neg hj]
    exact forLoop_frame (fun v : Int → β => v j) n _ m
      (fun i t h0 hn => wr_other t i j _ (by rintro rfl; exact hj ⟨h0, hn⟩))

/-- Variant of `forLoop_lanes` for a body given up to pointwise equality. -/
theorem forLoop_lanes_of {β : Type} (g : Int → β → β) (n : Int) (body : Int → (Int → β) → Int → β)
    (hb : ∀ i v, body i v = wr v i (g i (v i))) (m : Int → β) (j : Int) :
    forLoop n body m j = if 0 ≤ j ∧ j < n then g j (m j) else m j := by
  have : body = fun i v => wr v i (g i (v i)) := by
    funext i v; exact hb i v
  rw [this]
  exact forLoop_lanes g n m j

/-- An accumulating loop: the observation grows by `f i` at iteration `i`. -/
theorem forLoop_sum {σ α : Type} [AddCommMonoid α] (obs : σ → α) (f : Int → α) (n : Int)
    (body : Int → σ → σ) (s : σ)
    (hs : ∀ i t, 0 ≤ i → i < n → obs (body i t) = obs t + f i) :
    obs (forLoop n body s) = obs s + ∑ i in Finset.range n.toNat, f (i : Int) := by
  have key := foldl_range_inv
    (fun k t => obs t = obs s + ∑ i in Finset.range k, f (i : Int))
    (fun st i => body (i : Int) st) n.toNat s (by simp) (by
      intro i t hi hI
      have : ((i : Int)) < n := by omega
      rw [hs i t (by omega) this, hI, Finset.sum_range_succ, add_assoc])
  exact key

/-- Invariant rule for `for (i = lo; i < hi; i++)`. -/
theorem forRange_inv {σ : Type} (Inv : Int → σ → Prop) (lo hi : Int) (body : Int → σ → σ)
    (s : σ) (h0 : Inv lo s)
    (hs : ∀ i t, lo ≤ i → i < hi → Inv i t → Inv (i + 1) (body i t)) :
    Inv (max hi lo) (forRange lo hi body s) := by
  have key := foldl_range_inv (fun k t => Inv (lo + (k : Int)) t)
    (fun st i => body (lo + (i : Int)) st) (hi - lo).toNat s (by simpa using h0) (by
      intro i t hi' hI
      have : lo + (i : Int) < hi := by omega
      have := hs (lo + i) t (by omega) this hI
      simpa [add_assoc] using this)
  have e : lo + (((hi - lo).toNat : Nat) : Int) = max hi lo := by omega
  rw [← e]
  exact key

/-- An accumulating `for (i = lo; i < hi; i++)` loop. -/
theorem forRange_sum {σ α : Type} [AddCommMonoid α] (obs : σ → α) (f : Int → α) (lo hi : Int)
    (body : Int → σ → σ) (s : σ)
    (hs : ∀ i t, lo ≤ i → i < hi → obs (body i t) = obs t + f i) :
    obs (forRange lo hi body s) =
      obs s + ∑ i in Finset.range (hi - lo).toNat, f (lo + (i : Int)) := by
  have key := foldl_range_inv
    (fun k t => obs t = obs s + ∑ i in Finset.range k, f (lo + (i : Int)))
    (fun st i => body (lo + (i : Int)) st) (hi - lo).toNat s (by simp) (by
      intro i t hi' hI
      have : lo + (i : Int) < hi := by omega
      rw [hs (lo + i) t (by omega) this, hI, Finset.sum_range_succ, add_assoc])
  exact key

/-- Invariant rule for the stepped loop: with `step ≥ 1` and enough fuel the loop runs to
its exit test, and the result satisfies the invariant at the first index `j ≥ n`. -/
theorem forStepAux_inv {σ : Type} (Inv : Int → σ → Prop) (n step : Int) (body : Int → σ → σ)
    (hstep : 1 ≤ step) (fuel : Nat) :
    ∀ (i : Int) (s : σ), (n - i).toNat ≤ fuel → Inv i s →
      (∀ j t, i ≤ j → j < n → Inv j t → Inv (j + step) (body j t)) →
      ∃ j, n ≤ j ∧ i ≤ j ∧ Inv j (forStepAux fuel i n step body s) := by
  induction fuel with
  | zero =>
    intro i s hf hI _
    exact ⟨i, by omega, le_refl _, by simpa [forStepAux] using hI⟩
  | succ f ih =>
    intro i s hf hI hs
    by_cases hin : i < n
    · have h1 := hs i s (le_refl _) hin hI
      obtain ⟨j, hj1, hj2, hj3⟩ := ih (i + step) (body i s) (by omega) h1
        (fun j t hij hjn hJ => hs j t (by omega) hjn hJ)
      refine ⟨j, hj1, by omega, ?_⟩
      simpa [forStepAux, hin] using hj3
    · exact ⟨i, by omega, le_refl _, by simpa [forStepAux, hin] using hI⟩

/-- Invariant rule for `for (i = 0; i < n; i += step)` with `step ≥ 1`. -/
theorem forStep_inv {σ : Type} (Inv : Int → σ → Prop) (n step : Int) (body : Int → σ → σ)
    (s : σ) (hstep : 1 ≤ step) (h0 : Inv 0 s)
    (hs : ∀ j t, 0 ≤ j → j < n → Inv j t → Inv (j + step) (body j t)) :
    ∃ j, n ≤ j ∧ 0 ≤ j ∧ Inv j (forStep n step body s) :=
  forStepAux_inv Inv n step body hstep n.toNat 0 s (by omega) h0 hs

/-- A property kept by every iteration is kept by the stepped loop. -/
theorem forStep_preserve {σ : Type} (Q : σ → Prop) (n step : Int) (body : Int → σ → σ) (s : σ)
    (hstep : 1 ≤ step) (h0 : Q s) (hs : ∀ j t, 0 ≤ j → j < n → Q t → Q (body j t)) :
    Q (forStep n step body s) := by
  obtain ⟨_, _, _, h⟩ := forStep_inv (fun _ t => Q t) n step body s hstep h0 hs
  exact h

/-- Establishing a property in the stepped loop at the iteration `q * step`. -/
theorem forStep_establish {σ : Type} (I Q : σ → Prop) (n step q : Int) (body : Int → σ → σ)
    (s : σ) (hstep : 1 ≤ step) (hq : 0 ≤ q) (hqn : q * step < n) (hI : I s)
    (hIs : ∀ j t, 0 ≤ j → j < n → I t → I (body j t))
    (hest : ∀ t, I t → Q (body (q * step) t))
    (hQs : ∀ j t, 0 ≤ j → j < n → I t → Q t → Q (body j t)) :
    Q (forStep n step body s) := by
  obtain ⟨j, hj1, _, hj⟩ := forStep_inv
    (fun i t => I t ∧ (∃ r : Int, i = r * step) ∧ (q * step < i → Q t)) n step body s hstep
    ⟨hI, ⟨0, by simp⟩, fun h => absurd h (by nlinarith)⟩ (by
      intro i t h0 hn ⟨hIt, ⟨r, hr⟩, hQt⟩
      refine ⟨hIs i t h0 hn hIt, ⟨r + 1, by rw [hr]; ring⟩, fun hlt => ?_⟩
      by_cases hc : i = q * step
      · rw [hc]; exact hest t hIt
      · apply hQs i t h0 hn hIt
        apply hQt
        subst hr
        have h3 : q ≤ r := by
          by_contra hcon
          have : r + 1 ≤ q := by omega
          nlinarith
        have h4 : r ≠ q := fun h => hc (by rw [h])
        have h5 : q + 1 ≤ r := by omega
        nlinarith)
  exact hj.2.2 (by omega)

section VectorCore

variable {α : Type} [AddCommMonoid α] [Mul α]

/-! ## Vector primitives, lane by lane -/

theorem wr_self {β : Type} (m : Int → β) (i : Int) : wr m i (m i) = m := by
  funext j
  by_cases h : j = i
  · subst h; simp [wr]
  · simp [wr, h]

theorem sim_vector_create_window_mask_apply (mask : Int → Bool) (L w j : Int) :
    sim_vector_create_window_mask mask L w j =
      if 0 ≤ j ∧ j < L then decide (j < w) else mask j := by
  unfold sim_vector_create_window_mask
  exact forLoop_lanes (fun i _ => decide (i < w)) L mask j

omit [Mul α] in
theorem sim_vector_load_row_safe_apply (v sc_RAW : Int → α) (start L valid j : Int) :
    sim_vector_load_row_safe v sc_RAW start L valid j =
      if 0 ≤ j ∧ j < L then (if j < valid then sc_RAW (start + j) else 0) else v j := by
  unfold sim_vector_load_row_safe
  rw [forLoop_lanes_of (fun i (_ : α) => if i < valid then sc_RAW (start + i) else 0)]
  intro i v
  split_ifs <;> rfl

omit [Mul α] in
theorem sim_vector_mask_apply_apply (v : Int → α) (L : Int) (mask : Int → Bool) (j : Int) :
    sim_vector_mask_apply v L mask j =
      if 0 ≤ j ∧ j < L then (if mask j then v j else 0) else v j := by
  unfold sim_vector_mask_apply
  rw [forLoop_lanes_of (fun i (x : α) => if mask i then x else 0)]
  intro i v
  cases hm : mask i <;> simp [wr_self]

omit [Mul α] in
theorem sim_vector_add_apply (d s : Int → α) (L j : Int) :
    sim_vector_add d s L j = if 0 ≤ j ∧ j < L then d j + s j else d j := by
  unfold sim_vector_add
  exact forLoop_lanes (fun i x => x + s i) L d j

omit [Mul α] in
theorem sim_vector_shift_apply (v : Int → α) (L a : Int) (left : Bool) (temp : Int → α)
    (j : Int) :
    sim_vector_shift v L a left temp j =
      if 0 ≤ j ∧ j < L then
        (if left then (if j + a < L then v (j + a) else 0)
         else (if j - a ≥ 0 then v (j - a) else 0))
      else v j := by
  unfold sim_vector_shift
  simp only [memcpy_apply]
  by_cases hj : 0 ≤ j ∧ j < L
  · have hj' : 0 ≤ j ∧ j < 0 + L := by omega
    have e : 0 + (j - 0) = j := by ring
    rw [if_pos hj', if_pos hj, e]
    rw [forLoop_lanes_of (fun i (x : α) =>
        if left = true then (if i + a < L then v (i + a) else x)
        else (if i - a ≥ 0 then v (i - a) else x))]
    · rw [if_pos hj, memset0_apply, if_pos hj']
    · intro i t
      split_ifs <;> simp [wr_self]
  · have hj' : ¬ (0 ≤ j ∧ j < 0 + L) := by omega
    rw [if_neg hj', if_neg hj]

omit [Mul α] in
/-- One kernel row adds its contribution to each lane of `v_accum`. -/
theorem im2col_kh_body_accum (sc_RAW : Int → α) (K_w k_start TK T_h T_w : Int)
    (sks lh lw c tile_c : Int) (kh : Int) (r : VRegs α) (k : Int) (hk0 : 0 ≤ k) (hk : k < TK) :
    (im2col_kh_body sc_RAW K_w k_start TK T_h T_w sks lh lw c tile_c kh r).v_accum k =
      r.v_accum k + im2col_contrib sc_RAW K_w k_start TK T_h T_w sks lh lw c tile_c kh k := by
  unfold im2col_kh_body im2col_contrib
  simp only []
  have hj : k_start + k - (c * sks + kh * K_w) = k - (c * sks + kh * K_w - k_start) := by ring
  rw [hj]
  generalize c * sks + kh * K_w - k_start = ps
  generalize tile_c * (T_h * T_w) + (lh + kh) * T_w + lw = addr
  obtain ⟨valid, hvdef, hv0, hv1⟩ : ∃ valid, (if T_w - lw < 0 then 0 else T_w - lw) = valid ∧
      T_w - lw ≤ valid ∧ (valid = 0 ∨ valid = T_w - lw) := by
    refine ⟨_, rfl, ?_, ?_⟩ <;> split_ifs <;> omega
  rw [hvdef]
  have e1 : k + -ps = k - ps := by ring
  by_cases hps : ps ≥ 0
  · rw [if_pos hps]
    by_cases hps2 : ps < TK
    · rw [if_pos hps2]
      simp only [sim_vector_add_apply, sim_vector_shift_apply, sim_vector_mask_apply_apply,
        sim_vector_create_window_mask_apply, sim_vector_load_row_safe_apply]
      rw [if_pos ⟨hk0, hk⟩, if_pos ⟨hk0, hk⟩]
      simp only [Bool.false_eq_true, if_false, decide_eq_true_eq]
      congr 1
      split_ifs <;> first | rfl | (exfalso; simp only [decide_eq_true_eq] at *; omega)
    · rw [if_neg hps2]
      have : ¬ (0 ≤ k - ps ∧ k - ps < K_w ∧ k - ps < TK ∧ k - ps < T_w - lw) := by omega
      rw [if_neg this, add_zero]
  · rw [if_neg hps]
    by_cases hls : -ps < K_w
    · rw [if_pos hls]
      simp only [sim_vector_add_apply, sim_vector_shift_apply, sim_vector_mask_apply_apply,
        sim_vector_create_window_mask_apply, sim_vector_load_row_safe_apply]
      rw [if_pos ⟨hk0, hk⟩, if_pos ⟨hk0, hk⟩, e1]
      simp only [if_true, decide_eq_true_eq]
      congr 1
      split_ifs <;> first | rfl | (exfalso; simp only [decide_eq_true_eq] at *; omega)
    · rw [if_neg hls]
      have : ¬ (0 ≤ k - ps ∧ k - ps < K_w ∧ k - ps < TK ∧ k - ps < T_w - lw) := by omega
      rw [if_neg this, add_zero]

end VectorCore

/-! ## Index arithmetic -/

/-- Quotient and remainder are determined by the number. -/
theorem radix_unique (B q r q2 r2 : Int) (hr0 : 0 ≤ r) (hr : r < B)
    (hr20 : 0 ≤ r2) (hr2 : r2 < B) (h : q * B + r = q2 * B + r2) : q = q2 ∧ r = r2 := by
  have hq : q = q2 := by
    rcases lt_trichotomy q q2 with hlt | heq | hgt
    · exfalso
      have : q + 1 ≤ q2 := by omega
      nlinarith
    · exact heq
    · exfalso
      have : q2 + 1 ≤ q := by omega
      nlinarith
  subst hq
  exact ⟨rfl, by omega⟩

/-- A two-digit remainder `a * B + b` with `a < A`, `b < B` lies in `[0, A * B)`. -/
theorem two_digit_bound (A B a b : Int) (ha0 : 0 ≤ a) (ha : a < A) (hb0 : 0 ≤ b) (hb : b < B) :
    0 ≤ a * B + b ∧ a * B + b < A * B := by
  constructor
  · nlinarith
  · have : a + 1 ≤ A := by omega
    nlinarith

/-- The decomposition of an index in mixed radix `(·, A, B)` is unique. -/
theorem radix3_unique (A B c a b c2 a2 b2 : Int)
    (ha0 : 0 ≤ a) (ha : a < A) (hb0 : 0 ≤ b) (hb : b < B)
    (ha20 : 0 ≤ a2) (ha2 : a2 < A) (hb20 : 0 ≤ b2) (hb2 : b2 < B)
    (h : c * (A * B) + a * B + b = c2 * (A * B) + a2 * B + b2) :
    c = c2 ∧ a = a2 ∧ b = b2 := by
  have h1 := two_digit_bound A B a b ha0 ha hb0 hb
  have h2 := two_digit_bound A B a2 b2 ha20 ha2 hb20 hb2
  have h3 := radix_unique (A * B) c (a * B + b) c2 (a2 * B + b2) h1.1 h1.2 h2.1 h2.2
    (by linarith)
  have h4 := radix_unique B a b a2 b2 hb0 hb hb20 hb2 h3.2
  exact ⟨h3.1, h4.1, h4.2⟩

theorem tdiv_nonneg_eq (a b : Int) (ha : 0 ≤ a) (hb : 0 ≤ b) : a.tdiv b = a / b :=
  Int.tdiv_eq_ediv ha hb

theorem tmod_nonneg_eq (a b : Int) (ha : 0 ≤ a) (hb : 0 ≤ b) : a.tmod b = a % b :=
  Int.tmod_eq_emod ha hb

/-- The quotient of `q * B + r` by `B`. -/
theorem ediv_of_radix (B q r : Int) (hr0 : 0 ≤ r) (hr : r < B) : (q * B + r) / B = q := by
  have hB : 0 < B := by omega
  have := (Int.ediv_emod_unique hB (a := q * B + r) (q := q) (r := r)).2 ⟨by ring, hr0, hr⟩
  exact this.1

theorem emod_of_radix (B q r : Int) (hr0 : 0 ≤ r) (hr : r < B) : (q * B + r) % B = r := by
  have hB : 0 < B := by omega
  have := (Int.ediv_emod_unique hB (a := q * B + r) (q := q) (r := r)).2 ⟨by ring, hr0, hr⟩
  exact this.2

section Im2col

variable {α : Type} [AddCommMonoid α] [Mul α]

theorem forLoop_one {σ : Type} (body : Int → σ → σ) (s : σ) : forLoop 1 body s = body 0 s := by
  show List.foldl (fun st (i : Nat) => body (i : Int) st) s (List.range 1) = body 0 s
  rw [List.range_succ]
  simp

omit [Mul α] in
/-- Function `im2col_transform_scpad` called for a single patch (`TM = 1`, `M_limit_in_tile = 1`)
writes `TK` lanes at `sc_A_off`, each the sum of the visited rows' contributions, and leaves
the rest of `sc_A` unchanged. -/
theorem im2col_transform_scpad_one (sc_A : Int → α) (off : Int) (sc_RAW : Int → α)
    (params : ConvParams) (K_h K_w C_in O_h O_w p k_start TK T_h T_w rc rh rw : Int)
    (regs : VRegs α) (hp : p < O_h * O_w) (j : Int) :
    im2col_transform_scpad sc_A off sc_RAW params K_h K_w C_in O_h O_w p k_start 1 TK T_h T_w
        rc rh rw 1 regs j =
      if off ≤ j ∧ j < off + TK then
        im2col_lane sc_RAW K_h K_w C_in k_start TK T_h T_w rc
          ((p.tdiv O_w) * params.stride - params.padding - rh)
          ((p.tmod O_w) * params.stride - params.padding - rw) (j - off)
      else sc_A j := by
  unfold im2col_transform_scpad
  simp only [forLoop_one]
  have hc : ¬ (p + 0 ≥ O_h * O_w ∨ (0 : Int) ≥ 1) := by omega
  rw [if_neg hc]
  simp only [memcpy_apply, add_zero, zero_mul]
  by_cases hj : off ≤ j ∧ j < off + TK
  · rw [if_pos hj, if_pos hj]
    have hk0 : 0 ≤ j - off := by omega
    have hk : j - off < TK := by omega
    have e0 : 0 + (j - off) = j - off := by ring
    rw [e0]
    unfold im2col_lane
    simp only []
    rw [forRange_sum (fun r : VRegs α => r.v_accum (j - off))
      (fun c => if c - rc < 0 then 0
        else ∑ kh in Finset.range K_h.toNat,
          im2col_contrib sc_RAW K_w k_start TK T_h T_w (K_h * K_w)
            ((p.tdiv O_w) * params.stride - params.padding - rh)
            ((p.tmod O_w) * params.stride - params.padding - rw) c (c - rc) (kh : Int) (j - off))]
    · simp only [memset0_apply]
      rw [if_pos ⟨hk0, by omega⟩, zero_add]
    · intro c t _ _
      by_cases htc : c - rc < 0
      · simp [htc]
      · rw [if_neg htc, if_neg htc]
        exact forLoop_sum (fun r : VRegs α => r.v_accum (j - off)) _ K_h _ t
          (fun kh u _ _ => im2col_kh_body_accum sc_RAW K_w k_start TK T_h T_w (K_h * K_w)
            _ _ c (c - rc) kh u (j - off) hk0 hk)
  · rw [if_neg hj, if_neg hj]

omit [Mul α] in
/-- A kernel row other than the one holding flat index `k_start + k` contributes nothing to
lane `k`. -/
theorem im2col_contrib_other (sc_RAW : Int → α) (K_h K_w k_start TK T_h T_w lh lw : Int)
    (c kh kw c2 tc2 kh2 k : Int)
    (hkh0 : 0 ≤ kh) (hkh : kh < K_h) (hkw0 : 0 ≤ kw) (hkw : kw < K_w)
    (hg : k_start + k = c * (K_h * K_w) + kh * K_w + kw)
    (hkh20 : 0 ≤ kh2) (hkh2 : kh2 < K_h) (hne : ¬ (c2 = c ∧ kh2 = kh)) :
    im2col_contrib sc_RAW K_w k_start TK T_h T_w (K_h * K_w) lh lw c2 tc2 kh2 k = 0 := by
  unfold im2col_contrib
  simp only []
  split_ifs with h
  · exfalso
    obtain ⟨h1, h2, _, _⟩ := h
    have := radix3_unique K_h K_w c2 kh2 (k_start + k - (c2 * (K_h * K_w) + kh2 * K_w)) c kh kw
      hkh20 hkh2 h1 h2 hkh0 hkh hkw0 hkw (by linarith)
    exact hne ⟨this.1, this.2.1⟩
  · rfl

omit [Mul α] in
/-- The kernel row holding flat index `k_start + k` contributes its window pixel `kw`. -/
theorem im2col_contrib_self (sc_RAW : Int → α) (K_h K_w k_start TK T_h T_w lh lw : Int)
    (c kh kw tc k : Int) (hkw0 : 0 ≤ kw) (hkw : kw < K_w) (hkwT : kw < TK)
    (hg : k_start + k = c * (K_h * K_w) + kh * K_w + kw) :
    im2col_contrib sc_RAW K_w k_start TK T_h T_w (K_h * K_w) lh lw c tc kh k =
      if kw < T_w - lw then sc_RAW (tc * (T_h * T_w) + (lh + kh) * T_w + lw + kw) else 0 := by
  unfold im2col_contrib
  simp only []
  have e : k_start + k - (c * (K_h * K_w) + kh * K_w) = kw := by linarith
  rw [e]
  by_cases h : kw < T_w - lw
  · rw [if_pos ⟨hkw0, hkw, hkwT, h⟩, if_pos h]
  · rw [if_neg (fun hh => h hh.2.2.2), if_neg h]

omit [Mul α] in
/-- Lane `k` of the im2col row, when `k_start + k` is the flat index of tap `(c, kh, kw)` of
a channel `c < C_in`: the tap's scratchpad pixel, or 0 if its column is past the tile. -/
theorem im2col_lane_tap (sc_RAW : Int → α) (K_h K_w C_in k_start TK T_h T_w lh lw : Int)
    (c kh kw k : Int) (hks : 0 ≤ k_start) (hk0 : 0 ≤ k) (hk : k < TK) (hKwT : K_w ≤ TK)
    (hc0 : 0 ≤ c) (hc : c < C_in) (hkh0 : 0 ≤ kh) (hkh : kh < K_h)
    (hkw0 : 0 ≤ kw) (hkw : kw < K_w)
    (hg : k_start + k = c * (K_h * K_w) + kh * K_w + kw) :
    im2col_lane sc_RAW K_h K_w C_in k_start TK T_h T_w 0 lh lw k =
      if kw < T_w - lw then sc_RAW (c * (T_h * T_w) + (lh + kh) * T_w + lw + kw) else 0 := by
  have hsks : 0 < K_h * K_w := by nlinarith
  have hb := two_digit_bound K_h K_w kh kw hkh0 hkh hkw0 hkw
  have hcq : (k_start + k) / (K_h * K_w) = c := by
    rw [hg, add_assoc]; exact ediv_of_radix _ _ _ hb.1 hb.2
  have hsc : k_start / (K_h * K_w) ≤ c := by
    rw [← hcq]; exact Int.ediv_le_ediv hsks (by omega)
  have hec : c ≤ (k_start + TK + K_w) / (K_h * K_w) := by
    rw [← hcq]; exact Int.ediv_le_ediv hsks (by omega)
  unfold im2col_lane
  simp only []
  rw [tdiv_nonneg_eq _ _ hks (le_of_lt hsks), tdiv_nonneg_eq _ _ (by omega) (le_of_lt hsks)]
  have hi0 : k_start / (K_h * K_w) + (((c - k_start / (K_h * K_w)).toNat : Nat) : Int) = c := by
    omega
  rw [Finset.sum_eq_single (c - k_start / (K_h * K_w)).toNat]
  · rw [hi0, if_neg (by omega)]
    rw [Finset.sum_eq_single kh.toNat]
    · have e : ((kh.toNat : Nat) : Int) = kh := by omega
      rw [e, sub_zero]
      exact im2col_contrib_self sc_RAW K_h K_w k_start TK T_h T_w lh lw c kh kw c k hkw0 hkw
        (by omega) hg
    · intro b hb1 hb2
      rw [Finset.mem_range] at hb1
      apply im2col_contrib_other sc_RAW K_h K_w k_start TK T_h T_w lh lw c kh kw _ _ _ k
        hkh0 hkh hkw0 hkw hg (by omega) (by omega)
      rintro ⟨_, h2⟩
      apply hb2
      omega
    · intro hn
      exfalso; apply hn
      rw [Finset.mem_range]; omega
  · intro b hb1 hb2
    rw [Finset.mem_range] at hb1
    split_ifs
    · rfl
    · apply Finset.sum_eq_zero
      intro x hx
      rw [Finset.mem_range] at hx
      apply im2col_contrib_other sc_RAW K_h K_w k_start TK T_h T_w lh lw c kh kw _ _ _ k
        hkh0 hkh hkw0 hkw hg (by omega) (by omega)
      rintro ⟨h1, _⟩
      apply hb2
      omega
  · intro hn
    exfalso; apply hn
    rw [Finset.mem_range]
    have : c + 1 ≤ min ((k_start + TK + K_w) / (K_h * K_w) + 1) C_in := by
      rw [le_min_iff]; omega
    omega

omit [Mul α] in
/-- Lanes whose flat index `k_start + k` is past the last tap are 0. -/
theorem im2col_lane_past (sc_RAW : Int → α) (K_h K_w C_in k_start TK T_h T_w rc lh lw : Int)
    (k : Int) (hKw : 0 ≤ K_w)
    (hg : C_in * (K_h * K_w) ≤ k_start + k) :
    im2col_lane sc_RAW K_h K_w C_in k_start TK T_h T_w rc lh lw k = 0 := by
  unfold im2col_lane
  simp only []
  apply Finset.sum_eq_zero
  intro i hi
  rw [Finset.mem_range] at hi
  split_ifs
  · rfl
  · apply Finset.sum_eq_zero
    intro x hx
    rw [Finset.mem_range] at hx
    unfold im2col_contrib
    simp only []
    rw [if_neg]
    rintro ⟨h1, h2, _, _⟩
    set c2 := k_start.tdiv (K_h * K_w) + (i : Int) with hc2
    have hc2lt : c2 + 1 ≤ C_in := by
      have : c2 + 1 ≤ min ((k_start + TK + K_w).tdiv (K_h * K_w) + 1) C_in := by omega
      exact le_trans this (min_le_right _ _)
    have hx1 : (x : Int) + 1 ≤ K_h := by omega
    have hx0 : (0 : Int) ≤ x := by omega
    have hK : 0 ≤ K_h * K_w := by nlinarith
    nlinarith

end Im2col

section Components

variable {α : Type} [AddCommMonoid α] [Mul α]

/-! ## Spatial tile load -/

omit [Mul α] in
/-- Value `load_spatial_tile` stores for tile position `(c, h, w)`. -/
theorem load_spatial_tile_traced_apply (sc_RAW : Int → α) (input : TensorNCHW α)
    (C_in H_load W_load c0 h0 w0 : Int) (c h w : Int)
    (hc0 : 0 ≤ c) (hc : c < C_in) (hh0 : 0 ≤ h) (hh : h < H_load)
    (hw0 : 0 ≤ w) (hw : w < W_load) :
    (load_spatial_tile_traced sc_RAW input C_in H_load W_load c0 h0 w0).1
        (c * (H_load * W_load) + h * W_load + w) =
      if c0 + c < input.c ∧ h0 + h ≥ 0 ∧ h0 + h < input.h ∧ w0 + w ≥ 0 ∧ w0 + w < input.w then
        input.data ((c0 + c) * (input.h * input.w) + (h0 + h) * input.w + (w0 + w))
      else 0 := by
  unfold load_spatial_tile_traced
  let obs : (Int → α) × List Int → α :=
    fun st => st.1 (c * (H_load * W_load) + h * W_load + w)
  let F : α → α := fun _ =>
    if c0 + c < input.c ∧ h0 + h ≥ 0 ∧ h0 + h < input.h ∧ w0 + w ≥ 0 ∧ w0 + w < input.w then
      input.data ((c0 + c) * (input.h * input.w) + (h0 + h) * input.w + (w0 + w))
    else 0
  refine forLoop_single obs F C_in c _ (sc_RAW, ([] : List Int)) hc0 hc ?_ ?_
  · intro c2 t _ _ hne
    refine forLoop_frame obs H_load _ t ?_
    intro h2 t2 hh20 hh2
    refine forLoop_frame obs W_load _ t2 ?_
    intro w2 t3 hw20 hw2
    have hidx : c * (H_load * W_load) + h * W_load + w ≠
        c2 * (H_load * W_load) + h2 * W_load + w2 := by
      intro heq
      exact hne (radix3_unique H_load W_load c h w c2 h2 w2 hh0 hh hw0 hw hh20 hh2 hw20 hw2
        heq).1.symm
    show (if _ then _ else _ : (Int → α) × List Int).1 _ = _
    split_ifs <;> exact wr_other _ _ _ _ hidx
  · intro t
    refine forLoop_single obs F H_load h _ t hh0 hh ?_ ?_
    · intro h2 t2 hh20 hh2 hne
      refine forLoop_frame obs W_load _ t2 ?_
      intro w2 t3 hw20 hw2
      have hidx : c * (H_load * W_load) + h * W_load + w ≠
          c * (H_load * W_load) + h2 * W_load + w2 := by
        intro heq
        exact hne (radix3_unique H_load W_load c h w c h2 w2 hh0 hh hw0 hw hh20 hh2 hw20 hw2
          heq).2.1.symm
      show (if _ then _ else _ : (Int → α) × List Int).1 _ = _
      split_ifs <;> exact wr_other _ _ _ _ hidx
    · intro t2
      refine forLoop_single obs F W_load w _ t2 hw0 hw ?_ ?_
      · intro w2 t3 hw20 hw2 hne
        have hidx : c * (H_load * W_load) + h * W_load + w ≠
            c * (H_load * W_load) + h * W_load + w2 := by
          intro heq; apply hne; omega
        show (if _ then _ else _ : (Int → α) × List Int).1 _ = _
        split_ifs <;> exact wr_other _ _ _ _ hidx
      · intro t3
        show (if _ then _ else _ : (Int → α) × List Int).1 _ = _
        simp only [F]
        split_ifs <;> exact wr_same _ _ _

omit [Mul α] in
theorem load_spatial_tile_apply (sc_RAW : Int → α) (input : TensorNCHW α)
    (C_in H_load W_load c0 h0 w0 : Int) (c h w : Int)
    (hc0 : 0 ≤ c) (hc : c < C_in) (hh0 : 0 ≤ h) (hh : h < H_load)
    (hw0 : 0 ≤ w) (hw : w < W_load) :
    load_spatial_tile sc_RAW input C_in H_load W_load c0 h0 w0
        (c * (H_load * W_load) + h * W_load + w) =
      if c0 + c < input.c ∧ h0 + h ≥ 0 ∧ h0 + h < input.h ∧ w0 + w ≥ 0 ∧ w0 + w < input.w then
        input.data ((c0 + c) * (input.h * input.w) + (h0 + h) * input.w + (w0 + w))
      else 0 :=
  load_spatial_tile_traced_apply sc_RAW input C_in H_load W_load c0 h0 w0 c h w
    hc0 hc hh0 hh hw0 hw

omit [Mul α] in
/-- Every index at which `load_spatial_tile` reads the input lies inside the input buffer. -/
theorem load_spatial_tile_reads_bound (sc_RAW : Int → α) (input : TensorNCHW α)
    (C_in H_load W_load c0 h0 w0 : Int) (hc0 : 0 ≤ c0) :
    ∀ i ∈ (load_spatial_tile_traced sc_RAW input C_in H_load W_load c0 h0 w0).2,
      0 ≤ i ∧ i < input.c * (input.h * input.w) := by
  unfold load_spatial_tile_traced
  apply forLoop_preserve
    (fun st : (Int → α) × List Int => ∀ i ∈ st.2, 0 ≤ i ∧ i < input.c * (input.h * input.w))
  · intro i hi; simp at hi
  intro c t hc0' _ ht
  apply forLoop_preserve
    (fun st : (Int → α) × List Int => ∀ i ∈ st.2, 0 ≤ i ∧ i < input.c * (input.h * input.w))
  · exact ht
  intro h t2 _ _ ht2
  apply forLoop_preserve
    (fun st : (Int → α) × List Int => ∀ i ∈ st.2, 0 ≤ i ∧ i < input.c * (input.h * input.w))
  · exact ht2
  intro w t3 _ _ ht3
  simp only []
  split_ifs with hg
  · intro i hi
    simp only [List.mem_cons] at hi
    rcases hi with rfl | hi
    · obtain ⟨g1, g2, g3, g4, g5⟩ := hg
      have hb := two_digit_bound input.h input.w (h0 + h) (w0 + w) g2 g3 g4 g5
      have hHW : 0 ≤ input.h * input.w := by nlinarith [hb.1, hb.2]
      constructor
      · have : 0 ≤ (c0 + c) * (input.h * input.w) := by
          apply mul_nonneg (by omega) hHW
        linarith [hb.1]
      · have : (c0 + c + 1) * (input.h * input.w) ≤ input.c * (input.h * input.w) := by
          apply mul_le_mul_of_nonneg_right (by omega) hHW
        nlinarith [hb.2]
    · exact ht3 i hi
  · exact ht3

/-! ## Kernel flattening -/

/-- The three digits `flatten_kernels_to_B_matrix` computes recombine to the flat index. -/
theorem flat_digits (k A B : Int) (hk : 0 ≤ k) (hA : 1 ≤ A) (hB : 1 ≤ B) :
    (k.tdiv (A * B)) * (A * B) + ((k.tmod (A * B)).tdiv B) * B + k.tmod B = k := by
  have hAB : 0 < A * B := by nlinarith
  rw [tdiv_nonneg_eq k _ hk (le_of_lt hAB), tmod_nonneg_eq k _ hk (le_of_lt hAB),
    tmod_nonneg_eq k _ hk (by omega),
    tdiv_nonneg_eq _ _ (Int.emod_nonneg _ (ne_of_gt hAB)) (by omega)]
  have h1 := Int.emod_add_ediv k (A * B)
  have h2 := Int.emod_add_ediv (k % (A * B)) B
  have h3 : k % (A * B) % B = k % B := Int.emod_emod_of_dvd k (Dvd.intro_left A rfl)
  rw [h3] at h2
  linarith

omit [AddCommMonoid α] [Mul α] in
/-- Entry `(k, n)` of the flattened kernel is entry `(n, k)` of the kernel seen as an
`N × K` matrix. -/
theorem flatten_kernels_to_B_matrix_apply (kernels : KernelTensor α) (B0 : Int → α)
    (k n : Int) (hkh : 1 ≤ kernels.kh) (hkw : 1 ≤ kernels.kw)
    (hk0 : 0 ≤ k) (hk : k < kernels.cin * kernels.kh * kernels.kw)
    (hn0 : 0 ≤ n) (hn : n < kernels.cout) :
    flatten_kernels_to_B_matrix kernels B0 (k * kernels.cout + n) =
      kernels.data (n * (kernels.cin * (kernels.kh * kernels.kw)) + k) := by
  unfold flatten_kernels_to_B_matrix
  simp only []
  refine forLoop_mem_single
    (fun _ => kernels.data (n * (kernels.cin * (kernels.kh * kernels.kw)) + k))
    kernels.cout n _ B0 _ hn0 hn ?_ ?_
  · intro n2 t hn20 hn2 hne
    refine forLoop_mem_frame _ _ t _ ?_
    intro k2 t2 _ _
    apply wr_other
    intro heq
    exact hne (radix_unique kernels.cout k n k2 n2 hn0 hn hn20 hn2 heq).2.symm
  · intro t
    refine forLoop_mem_single
      (fun _ => kernels.data (n * (kernels.cin * (kernels.kh * kernels.kw)) + k))
      _ k _ t _ hk0 hk ?_ ?_
    · intro k2 t2 _ _ hne
      apply wr_other
      intro heq
      exact hne (radix_unique kernels.cout k n k2 n hn0 hn hn0 hn heq).1.symm
    · intro t2
      rw [wr_same]
      congr 1
      have := flat_digits k kernels.kh kernels.kw hk0 hkh hkw
      linarith

/-! ## B tile load and GEMM -/

omit [Mul α] in
theorem load_b_tile_apply (sc_B B : Int → α) (K N k j TK TN : Int) (r c : Int)
    (hr0 : 0 ≤ r) (hr : r < TK) (hc0 : 0 ≤ c) (hc : c < TN) :
    load_b_tile sc_B B K N k j TK TN (r * TN + c) =
      if k + r < K ∧ j + c < N then B ((k + r) * N + (j + c)) else 0 := by
  unfold load_b_tile
  refine forLoop_mem_single
    (fun _ => if k + r < K ∧ j + c < N then B ((k + r) * N + (j + c)) else 0)
    TK r _ sc_B _ hr0 hr ?_ ?_
  · intro r2 t hr20 hr2 hne
    refine forLoop_mem_frame _ _ t _ ?_
    intro c2 t2 hc20 hc2
    apply wr_other
    intro heq
    exact hne (radix_unique TN r c r2 c2 hc0 hc hc20 hc2 heq).1.symm
  · intro t
    refine forLoop_mem_single
      (fun _ => if k + r < K ∧ j + c < N then B ((k + r) * N + (j + c)) else 0)
      TN c _ t _ hc0 hc ?_ ?_
    · intro c2 t2 hc20 hc2 hne
      apply wr_other
      intro heq; apply hne; omega
    · intro t2
      exact wr_same _ _ _

theorem atallax_gemmv_apply (sc_C sc_A sc_B : Int → α) (TM TN TK : Int) (m n : Int)
    (hm0 : 0 ≤ m) (hm : m < TM) (hn0 : 0 ≤ n) (hn : n < TN) :
    atallax_gemmv sc_C sc_A sc_B TM TN TK (m * TN + n) =
      sc_C (m * TN + n) + sumTo TK (fun k => sc_A (m * TK + k) * sc_B (k * TN + n)) := by
  unfold atallax_gemmv
  refine forLoop_mem_single
    (fun x => x + sumTo TK (fun k => sc_A (m * TK + k) * sc_B (k * TN + n)))
    TM m _ sc_C _ hm0 hm ?_ ?_
  · intro m2 t hm20 hm2 hne
    refine forLoop_mem_frame _ _ t _ ?_
    intro n2 t2 hn20 hn2
    apply wr_other
    intro heq
    exact hne (radix_unique TN m n m2 n2 hn0 hn hn20 hn2 heq).1.symm
  · intro t
    refine forLoop_mem_single
      (fun x => x + sumTo TK (fun k => sc_A (m * TK + k) * sc_B (k * TN + n)))
      TN n _ t _ hn0 hn ?_ ?_
    · intro n2 t2 hn20 hn2 hne
      apply wr_other
      intro heq; apply hne; omega
    · intro t2
      simp only []
      rw [wr_same]
      exact forLoop_sum (fun x : α => x) _ TK _ _ (fun _ _ _ _ => rfl)

end Components

section Sums

variable {α : Type} [AddCommMonoid α] [Mul α]

/-! ## Sums over index ranges -/

omit [Mul α] in
theorem sumTo_congr (n : Int) (f g : Int → α) (h : ∀ i, 0 ≤ i → i < n → f i = g i) :
    sumTo n f = sumTo n g := by
  unfold sumTo
  apply Finset.sum_congr rfl
  intro i hi
  rw [Finset.mem_range] at hi
  exact h i (by omega) (by omega)

omit [Mul α] in
theorem sumTo_nonpos (n : Int) (f : Int → α) (h : n ≤ 0) : sumTo n f = 0 := by
  unfold sumTo
  have : n.toNat = 0 := by omega
  rw [this]; simp

omit [Mul α] in
theorem sumTo_zero_fun (n : Int) (f : Int → α) (h : ∀ i, 0 ≤ i → i < n → f i = 0) :
    sumTo n f = 0 := by
  unfold sumTo
  apply Finset.sum_eq_zero
  intro i hi
  rw [Finset.mem_range] at hi
  exact h i (by omega) (by omega)

omit [Mul α] in
theorem sumTo_add (a b : Int) (f : Int → α) (ha : 0 ≤ a) (hb : 0 ≤ b) :
    sumTo (a + b) f = sumTo a f + sumTo b (fun i => f (a + i)) := by
  unfold sumTo
  have e : (a + b).toNat = a.toNat + b.toNat := by omega
  rw [e, Finset.sum_range_add]
  congr 1
  apply Finset.sum_congr rfl
  intro i _
  congr 1
  push_cast
  omega

omit [Mul α] in
/-- Summing past `n` changes nothing when the terms from `n` on are 0. -/
theorem sumTo_extend (n m : Int) (f : Int → α) (hnm : n ≤ m)
    (hz : ∀ i, 0 ≤ i → n ≤ i → f i = 0) : sumTo m f = sumTo n f := by
  by_cases hn : 0 ≤ n
  · have e : m = n + (m - n) := by ring
    rw [e, sumTo_add n (m - n) f hn (by omega)]
    rw [sumTo_zero_fun (m - n) _ (fun i hi _ => hz (n + i) (by omega) (by omega)), add_zero]
  · rw [sumTo_nonpos n f (by omega)]
    exact sumTo_zero_fun m f (fun i hi _ => hz i hi (by omega))

omit [Mul α] in
/-- The one non-zero term of a sum. -/
theorem sumTo_single (n i0 : Int) (f : Int → α) (h0 : 0 ≤ i0) (hn : i0 < n)
    (hz : ∀ i, 0 ≤ i → i < n → i ≠ i0 → f i = 0) : sumTo n f = f i0 := by
  unfold sumTo
  rw [Finset.sum_eq_single i0.toNat]
  · congr 1; omega
  · intro b hb hne
    rw [Finset.mem_range] at hb
    exact hz b (by omega) (by omega) (by omega)
  · intro hcon
    exfalso; apply hcon
    rw [Finset.mem_range]; omega

omit [Mul α] in
/-- A sum over flat indices `a * B + b` is a double sum over the digits. -/
theorem sumTo_mul (A B : Int) (f : Int → α) (hA : 0 ≤ A) (hB : 0 ≤ B) :
    sumTo (A * B) f = sumTo A (fun a => sumTo B (fun b => f (a * B + b))) := by
  have key : ∀ n : Nat, sumTo ((n : Int) * B) f =
      sumTo (n : Int) (fun a => sumTo B (fun b => f (a * B + b))) := by
    intro n
    induction n with
    | zero => simp [sumTo]
    | succ k ih =>
      have e1 : ((k + 1 : Nat) : Int) * B = (k : Int) * B + B := by push_cast; ring
      have e2 : ((k + 1 : Nat) : Int) = (k : Int) + 1 := by push_cast; ring
      rw [e1, sumTo_add _ _ f (by positivity) hB, ih, e2,
        sumTo_add _ _ _ (by positivity) (by omega)]
      congr 1
      simp [sumTo]
  have := key A.toNat
  rwa [Int.toNat_of_nonneg hA] at this

omit [Mul α] in
/-- An accumulating loop, with the total written as `sumTo`. -/
theorem forLoop_sumTo {σ : Type} (obs : σ → α) (f : Int → α) (n : Int)
    (body : Int → σ → σ) (s : σ)
    (hs : ∀ i t, 0 ≤ i → i < n → obs (body i t) = obs t + f i) :
    obs (forLoop n body s) = obs s + sumTo n f :=
  forLoop_sum obs f n body s hs

end Sums

/-! ## Patch geometry -/

/-- The digits of a flat index, with floor division. -/
theorem flat_digits_ediv (g A B : Int) (hg : 0 ≤ g) (hA : 1 ≤ A) (hB : 1 ≤ B) :
    g = (g / (A * B)) * (A * B) + (g % (A * B) / B) * B + g % B ∧
      0 ≤ g / (A * B) ∧ 0 ≤ g % (A * B) / B ∧ g % (A * B) / B < A ∧
      0 ≤ g % B ∧ g % B < B := by
  have hAB : 0 < A * B := by nlinarith
  have h1 := Int.emod_add_ediv g (A * B)
  have h2 := Int.emod_add_ediv (g % (A * B)) B
  have h3 : g % (A * B) % B = g % B := Int.emod_emod_of_dvd g (Dvd.intro_left A rfl)
  rw [h3] at h2
  have h4 := Int.emod_nonneg g (ne_of_gt hAB)
  have h5 := Int.emod_lt_of_pos g hAB
  refine ⟨by linarith, Int.ediv_nonneg hg (le_of_lt hAB), Int.ediv_nonneg h4 (by omega),
    Int.ediv_lt_of_lt_mul (by omega) h5, Int.emod_nonneg g (by omega),
    Int.emod_lt_of_pos g (by omega)⟩

/-- Row and column of a patch inside its block. -/
theorem local_patch_bounds (l BH BW : Int) (hl0 : 0 ≤ l) (hl : l < BH * BW) (hBW : 1 ≤ BW) :
    0 ≤ l.tdiv BW ∧ l.tdiv BW < BH ∧ 0 ≤ l.tmod BW ∧ l.tmod BW < BW ∧
      l.tdiv BW * BW + l.tmod BW = l := by
  rw [tdiv_nonneg_eq l BW hl0 (by omega), tmod_nonneg_eq l BW hl0 (by omega)]
  have h1 := Int.emod_add_ediv l BW
  refine ⟨Int.ediv_nonneg hl0 (by omega), Int.ediv_lt_of_lt_mul (by omega) hl,
    Int.emod_nonneg l (by omega), Int.emod_lt_of_pos l (by omega), by linarith⟩

/-- Unravelling the global patch index. -/
theorem patch_unravel (a b W : Int) (ha : 0 ≤ a) (hb0 : 0 ≤ b) (hb : b < W) :
    (a * W + b).tdiv W = a ∧ (a * W + b).tmod W = b := by
  have hp : 0 ≤ a * W + b := by nlinarith
  rw [tdiv_nonneg_eq _ W hp (by omega), tmod_nonneg_eq _ W hp (by omega)]
  exact ⟨ediv_of_radix W a b hb0 hb, emod_of_radix W a b hb0 hb⟩

/-- An in-image patch has a global index below `O_h * O_w`. -/
theorem patch_index_lt (a b H W : Int) (ha : a < H) (hb0 : 0 ≤ b) (hb : b < W) :
    a * W + b < H * W := by
  have : a + 1 ≤ H := by omega
  nlinarith

section Conv

variable {α : Type} [AddCommMonoid α] [Mul α]

omit [Mul α] in
/-- Halo correctness: on a loaded tile, the im2col row of a patch whose window lies inside
the tile holds the input pixels under the taps, whatever the tile origin. -/
theorem im2col_lane_tile (sc_RAW : Int → α) (input : TensorNCHW α) (kernel : KernelTensor α)
    (params : ConvParams) (oh ow in_h in_w k r : Int)
    (htile : TileLoaded sc_RAW input kernel.cin in_h in_w)
    (hKh : 1 ≤ kernel.kh) (hKw : 1 ≤ kernel.kw) (hKw32 : kernel.kw ≤ 32)
    (hlh0 : 0 ≤ oh * params.stride - params.padding - in_h)
    (hlh : oh * params.stride - params.padding - in_h + kernel.kh ≤ 32)
    (hlw0 : 0 ≤ ow * params.stride - params.padding - in_w)
    (hlw : ow * params.stride - params.padding - in_w + kernel.kw ≤ 32)
    (hk : 0 ≤ k) (hr0 : 0 ≤ r) (hr : r < 32) :
    im2col_lane sc_RAW kernel.kh kernel.kw kernel.cin k 32 32 32 0
        (oh * params.stride - params.padding - in_h)
        (ow * params.stride - params.padding - in_w) r =
      patch_lane input kernel params oh ow (k + r) := by
  unfold patch_lane
  by_cases hg : k + r < kernel.cin * (kernel.kh * kernel.kw)
  · rw [if_pos hg]
    obtain ⟨d1, d2, d3, d4, d5, d6⟩ :=
      flat_digits_ediv (k + r) kernel.kh kernel.kw (by omega) hKh hKw
    have hsks : 0 < kernel.kh * kernel.kw := by nlinarith
    have hc : (k + r) / (kernel.kh * kernel.kw) < kernel.cin :=
      Int.ediv_lt_of_lt_mul hsks hg
    rw [im2col_lane_tap sc_RAW kernel.kh kernel.kw kernel.cin k 32 32 32 _ _
      ((k + r) / (kernel.kh * kernel.kw)) ((k + r) % (kernel.kh * kernel.kw) / kernel.kw)
      ((k + r) % kernel.kw) r hk hr0 hr hKw32 d2 hc d3 d4 d5 d6 d1]
    rw [if_pos (by omega)]
    have e : (k + r) / (kernel.kh * kernel.kw) * (32 * 32) +
        (oh * params.stride - params.padding - in_h +
          (k + r) % (kernel.kh * kernel.kw) / kernel.kw) * 32 +
        (ow * params.stride - params.padding - in_w) + (k + r) % kernel.kw =
        (k + r) / (kernel.kh * kernel.kw) * (32 * 32) +
        (oh * params.stride - params.padding - in_h +
          (k + r) % (kernel.kh * kernel.kw) / kernel.kw) * 32 +
        (ow * params.stride - params.padding - in_w + (k + r) % kernel.kw) := by ring
    rw [e, htile _ _ _ d2 hc (by omega) (by omega) (by omega) (by omega)]
    congr 1 <;> ring
  · rw [if_neg hg]
    exact im2col_lane_past sc_RAW kernel.kh kernel.kw kernel.cin k 32 32 32 0 _ _ r
      (by omega) (by linarith)

omit [Mul α] in
/-- After `conv2d_fill_A`, the row of `sc_A` of an in-image patch of the batch is the
slice `[k, k + 32)` of the patch's im2col row. -/
theorem conv2d_fill_A_row (sc_A sc_RAW : Int → α) (input : TensorNCHW α)
    (kernel : KernelTensor α) (params : ConvParams) (regs : VRegs α)
    (O_h O_w BLK_H BLK_W h_out w_out ii k cbs m r : Int)
    (hKh : 1 ≤ kernel.kh) (hKw : 1 ≤ kernel.kw) (hKw32 : kernel.kw ≤ 32)
    (hS : 1 ≤ params.stride) (hBW : 1 ≤ BLK_W)
    (hfh : (BLK_H - 1) * params.stride + kernel.kh ≤ 32)
    (hfw : (BLK_W - 1) * params.stride + kernel.kw ≤ 32)
    (hh : 0 ≤ h_out) (hw : 0 ≤ w_out) (hii : 0 ≤ ii) (hk : 0 ≤ k)
    (hcbs : ii + cbs ≤ BLK_H * BLK_W)
    (htile : TileLoaded sc_RAW input kernel.cin
      (h_out * params.stride - params.padding) (w_out * params.stride - params.padding))
    (hm0 : 0 ≤ m) (hm : m < cbs)
    (hinh : h_out + (ii + m).tdiv BLK_W < O_h) (hinw : w_out + (ii + m).tmod BLK_W < O_w)
    (hr0 : 0 ≤ r) (hr : r < 32) :
    conv2d_fill_A sc_A sc_RAW kernel params regs O_h O_w BLK_W h_out w_out
        (h_out * params.stride - params.padding) (w_out * params.stride - params.padding)
        ii k cbs 32 32 32 (m * 32 + r) =
      patch_lane input kernel params (h_out + (ii + m).tdiv BLK_W)
        (w_out + (ii + m).tmod BLK_W) (k + r) := by
  unfold conv2d_fill_A
  refine forLoop_mem_single (fun _ => patch_lane input kernel params
    (h_out + (ii + m).tdiv BLK_W) (w_out + (ii + m).tmod BLK_W) (k + r)) cbs m _ sc_A _
    hm0 hm ?_ ?_
  · intro m2 t hm20 hm2 hne
    obtain ⟨b1, b2, b3, b4, _⟩ :=
      local_patch_bounds (ii + m2) BLK_H BLK_W (by omega) (by omega) hBW
    split_ifs with hskip
    · rw [memset0_apply, if_neg (by omega)]
    · have hp := patch_index_lt (h_out + (ii + m2).tdiv BLK_W) (w_out + (ii + m2).tmod BLK_W)
        O_h O_w (by omega) (by omega) (by omega)
      rw [im2col_transform_scpad_one _ _ _ _ _ _ _ _ _ _ _ _ _ _ _ _ _ _ hp, if_neg (by omega)]
  · intro t
    obtain ⟨b1, b2, b3, b4, _⟩ :=
      local_patch_bounds (ii + m) BLK_H BLK_W (by omega) (by omega) hBW
    have hskip : ¬ (h_out + (ii + m).tdiv BLK_W ≥ O_h ∨ w_out + (ii + m).tmod BLK_W ≥ O_w) := by
      omega
    rw [if_neg hskip]
    have hp := patch_index_lt (h_out + (ii + m).tdiv BLK_W) (w_out + (ii + m).tmod BLK_W)
      O_h O_w (by omega) (by omega) (by omega)
    rw [im2col_transform_scpad_one _ _ _ _ _ _ _ _ _ _ _ _ _ _ _ _ _ _ hp, if_pos (by omega)]
    obtain ⟨u1, u2⟩ := patch_unravel (h_out + (ii + m).tdiv BLK_W)
      (w_out + (ii + m).tmod BLK_W) O_w (by omega) (by omega) (by omega)
    rw [u1, u2]
    have e : m * 32 + r - m * 32 = r := by ring
    rw [e]
    have hrs : (ii + m).tdiv BLK_W * params.stride ≤ (BLK_H - 1) * params.stride := by
      apply mul_le_mul_of_nonneg_right (by omega) (by omega)
    have hcs : (ii + m).tmod BLK_W * params.stride ≤ (BLK_W - 1) * params.stride := by
      apply mul_le_mul_of_nonneg_right (by omega) (by omega)
    have hrs0 : 0 ≤ (ii + m).tdiv BLK_W * params.stride := mul_nonneg b1 (by omega)
    have hcs0 : 0 ≤ (ii + m).tmod BLK_W * params.stride := mul_nonneg b3 (by omega)
    exact im2col_lane_tile sc_RAW input kernel params _ _ _ _ k r htile hKh hKw hKw32
      (by linarith) (by linarith) (by linarith) (by linarith) hk hr0 hr

end Conv

section Batch

variable {α : Type} [AddCommMonoid α] [Mul α]

/-- The reduction loop of one batch: `output->data` and `sc_RAW` are untouched, and the row
of `sc_C` of every in-image patch of the batch gains the product of the patch's im2col row
with the columns `j .. j+31` of the flattened kernel. -/
theorem conv2d_kloop (h00 : (0 : α) * 0 = 0) (B : Int → α) (input : TensorNCHW α) (kernel : KernelTensor α)
    (params : ConvParams) (regs : VRegs α)
    (O_h O_w BLK_H BLK_W h_out w_out j ii cbs : Int) (st : ConvState α)
    (hKh : 1 ≤ kernel.kh) (hKw : 1 ≤ kernel.kw) (hKw32 : kernel.kw ≤ 32)
    (hS : 1 ≤ params.stride) (hBW : 1 ≤ BLK_W)
    (hfh : (BLK_H - 1) * params.stride + kernel.kh ≤ 32)
    (hfw : (BLK_W - 1) * params.stride + kernel.kw ≤ 32)
    (hh : 0 ≤ h_out) (hw : 0 ≤ w_out) (hii : 0 ≤ ii)
    (hcbs : ii + cbs ≤ BLK_H * BLK_W) (hcbs32 : cbs ≤ 32)
    (htile : TileLoaded st.sc_RAW input kernel.cin
      (h_out * params.stride - params.padding) (w_out * params.stride - params.padding)) :
    (forStep (kernel.cin * kernel.kh * kernel.kw) 32
        (conv2d_kstep B kernel params regs kernel.cout (kernel.cin * kernel.kh * kernel.kw)
          32 32 32 32 32 O_h O_w BLK_W h_out w_out
          (h_out * params.stride - params.padding) (w_out * params.stride - params.padding)
          j ii cbs) st).out = st.out ∧
    (forStep (kernel.cin * kernel.kh * kernel.kw) 32
        (conv2d_kstep B kernel params regs kernel.cout (kernel.cin * kernel.kh * kernel.kw)
          32 32 32 32 32 O_h O_w BLK_W h_out w_out
          (h_out * params.stride - params.padding) (w_out * params.stride - params.padding)
          j ii cbs) st).sc_RAW = st.sc_RAW ∧
    ∀ m n, 0 ≤ m → m < cbs → h_out + (ii + m).tdiv BLK_W < O_h →
      w_out + (ii + m).tmod BLK_W < O_w → 0 ≤ n → n < 32 →
      (forStep (kernel.cin * kernel.kh * kernel.kw) 32
        (conv2d_kstep B kernel params regs kernel.cout (kernel.cin * kernel.kh * kernel.kw)
          32 32 32 32 32 O_h O_w BLK_W h_out w_out
          (h_out * params.stride - params.padding) (w_out * params.stride - params.padding)
          j ii cbs) st).sc_C (m * 32 + n) =
        st.sc_C (m * 32 + n) +
          sumTo (kernel.cin * kernel.kh * kernel.kw) (fun g =>
            patch_lane input kernel params (h_out + (ii + m).tdiv BLK_W)
              (w_out + (ii + m).tmod BLK_W) g *
            (if g < kernel.cin * kernel.kh * kernel.kw ∧ j + n < kernel.cout then
              B (g * kernel.cout + (j + n)) else 0)) := by
  obtain ⟨kf, hkf, hkf0, h1, h2, h3⟩ := forStep_inv
    (fun k (t : ConvState α) => t.out = st.out ∧ t.sc_RAW = st.sc_RAW ∧
      ∀ m n, 0 ≤ m → m < cbs → h_out + (ii + m).tdiv BLK_W < O_h →
        w_out + (ii + m).tmod BLK_W < O_w → 0 ≤ n → n < 32 →
        t.sc_C (m * 32 + n) = st.sc_C (m * 32 + n) +
          sumTo k (fun g =>
            patch_lane input kernel params (h_out + (ii + m).tdiv BLK_W)
              (w_out + (ii + m).tmod BLK_W) g *
            (if g < kernel.cin * kernel.kh * kernel.kw ∧ j + n < kernel.cout then
              B (g * kernel.cout + (j + n)) else 0)))
    (kernel.cin * kernel.kh * kernel.kw) 32
    (conv2d_kstep B kernel params regs kernel.cout (kernel.cin * kernel.kh * kernel.kw)
      32 32 32 32 32 O_h O_w BLK_W h_out w_out
      (h_out * params.stride - params.padding) (w_out * params.stride - params.padding)
      j ii cbs) st (by norm_num)
    ⟨rfl, rfl, fun m n _ _ _ _ _ _ => by simp [sumTo]⟩
    (by
      intro k t hk0 _ ⟨i1, i2, i3⟩
      refine ⟨i1, i2, ?_⟩
      intro m n hm0 hm hinh hinw hn0 hn
      show atallax_gemmv t.sc_C _ _ 32 32 32 (m * 32 + n) = _
      rw [atallax_gemmv_apply _ _ _ 32 32 32 m n hm0 (by omega) hn0 hn,
        i3 m n hm0 hm hinh hinw hn0 hn, sumTo_add k 32 _ hk0 (by norm_num), add_assoc]
      congr 2
      apply sumTo_congr
      intro r hr0 hr
      rw [load_b_tile_apply _ _ _ _ _ _ 32 32 r n hr0 hr hn0 hn]
      rw [i2]
      rw [conv2d_fill_A_row _ _ input kernel params regs O_h O_w BLK_H BLK_W h_out w_out ii k
        cbs m r hKh hKw hKw32 hS hBW hfh hfw hh hw hii hk0 hcbs htile hm0 hm hinh hinw hr0 hr])
  refine ⟨h1, h2, ?_⟩
  intro m n hm0 hm hinh hinw hn0 hn
  rw [h3 m n hm0 hm hinh hinw hn0 hn]
  congr 1
  apply sumTo_extend _ _ _ hkf
  intro g _ hg
  have hp : patch_lane input kernel params (h_out + (ii + m).tdiv BLK_W)
      (w_out + (ii + m).tmod BLK_W) g = 0 := by
    unfold patch_lane
    rw [if_neg (by rw [← mul_assoc]; omega)]
  rw [if_neg (by omega), hp, h00]

/-- The product accumulated by the reduction loop is the convolution value. -/
theorem conv_value_of_flat (input : TensorNCHW α) (kernel : KernelTensor α)
    (params : ConvParams) (B0 : Int → α) (co oh ow : Int)
    (hKh : 1 ≤ kernel.kh) (hKw : 1 ≤ kernel.kw) (hco0 : 0 ≤ co) (hco : co < kernel.cout) :
    sumTo (kernel.cin * kernel.kh * kernel.kw) (fun g =>
        patch_lane input kernel params oh ow g *
        (if g < kernel.cin * kernel.kh * kernel.kw ∧ co < kernel.cout then
          flatten_kernels_to_B_matrix kernel B0 (g * kernel.cout + co) else 0)) =
      conv_value input kernel params co oh ow := by
  unfold conv_value
  rw [mul_assoc]
  apply sumTo_congr
  intro g hg0 hg
  rw [if_pos ⟨hg, hco⟩,
    flatten_kernels_to_B_matrix_apply kernel B0 g co hKh hKw hg0
      (by rw [mul_assoc]; exact hg) hco0 hco]

omit [AddCommMonoid α] [Mul α] in
/-- Distinct output elements have distinct indices. -/
theorem out_index_inj (O_h O_w co oh ow co2 oh2 ow2 : Int)
    (hoh0 : 0 ≤ oh) (hoh : oh < O_h) (how0 : 0 ≤ ow) (how : ow < O_w)
    (hoh20 : 0 ≤ oh2) (hoh2 : oh2 < O_h) (how20 : 0 ≤ ow2) (how2 : ow2 < O_w)
    (h : co * O_h * O_w + oh * O_w + ow = co2 * O_h * O_w + (oh2 * O_w + ow2)) :
    co = co2 ∧ oh = oh2 ∧ ow = ow2 := by
  have e1 : co * O_h * O_w = co * (O_h * O_w) := by ring
  have e2 : co2 * O_h * O_w = co2 * (O_h * O_w) := by ring
  exact radix3_unique O_h O_w co oh ow co2 oh2 ow2 hoh0 hoh how0 how hoh20 hoh2 how20 how2
    (by linarith)

/-- The store loop of a batch writes convolution values only: the target element keeps its
convolution value, and receives it when its patch and channel belong to the batch. -/
theorem conv2d_store_spec (out sc_C : Int → α) (input : TensorNCHW α)
    (kernel : KernelTensor α) (params : ConvParams)
    (O_h O_w BLK_H BLK_W h_out w_out ii j cbs co oh ow : Int)
    (hBW : 1 ≤ BLK_W) (hh : 0 ≤ h_out) (hw : 0 ≤ w_out) (hii : 0 ≤ ii)
    (hcbs : ii + cbs ≤ BLK_H * BLK_W)
    (hoh0 : 0 ≤ oh) (hoh : oh < O_h) (how0 : 0 ≤ ow) (how : ow < O_w)
    (hC : ∀ m c, 0 ≤ m → m < cbs → h_out + (ii + m).tdiv BLK_W < O_h →
      w_out + (ii + m).tmod BLK_W < O_w → 0 ≤ c → c < 32 → j + c < kernel.cout →
      sc_C (m * 32 + c) = conv_value input kernel params (j + c)
        (h_out + (ii + m).tdiv BLK_W) (w_out + (ii + m).tmod BLK_W)) :
    (out (co * O_h * O_w + oh * O_w + ow) = conv_value input kernel params co oh ow →
      conv2d_store out sc_C kernel.cout O_h O_w O_h O_w BLK_W h_out w_out ii j cbs 32
        (co * O_h * O_w + oh * O_w + ow) = conv_value input kernel params co oh ow) ∧
    ((∃ m0 c0, 0 ≤ m0 ∧ m0 < cbs ∧ h_out + (ii + m0).tdiv BLK_W = oh ∧
        w_out + (ii + m0).tmod BLK_W = ow ∧ 0 ≤ c0 ∧ c0 < 32 ∧ j + c0 = co ∧
        co < kernel.cout) →
      conv2d_store out sc_C kernel.cout O_h O_w O_h O_w BLK_W h_out w_out ii j cbs 32
        (co * O_h * O_w + oh * O_w + ow) = conv_value input kernel params co oh ow) := by
  -- every single store keeps the property
  have hwr : ∀ (t : Int → α) (m c : Int), 0 ≤ m → m < cbs →
      ¬ (h_out + (ii + m).tdiv BLK_W ≥ O_h ∨ w_out + (ii + m).tmod BLK_W ≥ O_w) →
      0 ≤ c → c < 32 → j + c < kernel.cout →
      t (co * O_h * O_w + oh * O_w + ow) = conv_value input kernel params co oh ow →
      wr t ((j + c) * O_h * O_w +
          ((h_out + (ii + m).tdiv BLK_W) * O_w + (w_out + (ii + m).tmod BLK_W)))
        (sc_C (m * 32 + c)) (co * O_h * O_w + oh * O_w + ow) =
        conv_value input kernel params co oh ow := by
    intro t m c hm0 hm hin hc0 hc hch ht
    obtain ⟨b1, b2, b3, b4, _⟩ :=
      local_patch_bounds (ii + m) BLK_H BLK_W (by omega) (by omega) hBW
    rw [wr_apply]
    split_ifs with heq
    · obtain ⟨e1, e2, e3⟩ := out_index_inj O_h O_w co oh ow (j + c)
        (h_out + (ii + m).tdiv BLK_W) (w_out + (ii + m).tmod BLK_W) hoh0 hoh how0 how
        (by omega) (by omega) (by omega) (by omega) heq
      rw [hC m c hm0 hm (by omega) (by omega) hc0 hc hch, e1, e2, e3]
    · exact ht
  have hbody : ∀ (m : Int) (t : Int → α), 0 ≤ m → m < cbs →
      t (co * O_h * O_w + oh * O_w + ow) = conv_value input kernel params co oh ow →
      (if h_out + (ii + m).tdiv BLK_W ≥ O_h ∨ w_out + (ii + m).tmod BLK_W ≥ O_w then t
        else forLoop 32 (fun c out =>
          if j + c < kernel.cout then
            wr out ((j + c) * O_h * O_w +
              ((h_out + (ii + m).tdiv BLK_W) * O_w + (w_out + (ii + m).tmod BLK_W)))
              (sc_C (m * 32 + c))
          else out) t) (co * O_h * O_w + oh * O_w + ow) =
        conv_value input kernel params co oh ow := by
    intro m t hm0 hm ht
    split_ifs with hin
    · exact ht
    · refine forLoop_preserve
        (fun u : Int → α => u (co * O_h * O_w + oh * O_w + ow) =
          conv_value input kernel params co oh ow) 32 _ t ht ?_
      intro c u hc0 hc hu
      show (if _ then _ else _ : Int → α) _ = _
      split_ifs with hch
      · exact hwr u m c hm0 hm hin hc0 hc hch hu
      · exact hu
  constructor
  · intro hQ
    unfold conv2d_store
    exact forLoop_preserve
      (fun u : Int → α => u (co * O_h * O_w + oh * O_w + ow) =
        conv_value input kernel params co oh ow) cbs _ out hQ
      (fun m t hm0 hm ht => hbody m t hm0 hm ht)
  · rintro ⟨m0, c0, hm00, hm0, hmh, hmw, hc00, hc0, hjc, hco⟩
    unfold conv2d_store
    refine forLoop_establish (fun _ => True)
      (fun u : Int → α => u (co * O_h * O_w + oh * O_w + ow) =
        conv_value input kernel params co oh ow) cbs m0 _ out hm00 hm0 trivial
      (fun _ _ _ _ _ => trivial) ?_ (fun m t hm0 hm _ ht => hbody m t hm0 hm ht)
    intro t _
    have hin : ¬ (h_out + (ii + m0).tdiv BLK_W ≥ O_h ∨ w_out + (ii + m0).tmod BLK_W ≥ O_w) := by
      omega
    show (if _ then _ else _ : Int → α) _ = _
    rw [if_neg hin]
    refine forLoop_establish (fun _ => True)
      (fun u : Int → α => u (co * O_h * O_w + oh * O_w + ow) =
        conv_value input kernel params co oh ow) 32 c0 _ t hc00 hc0 trivial
      (fun _ _ _ _ _ => trivial) ?_ ?_
    · intro u _
      show (if _ then _ else _ : Int → α) _ = _
      rw [if_pos (by omega)]
      have e : (j + c0) * O_h * O_w +
          ((h_out + (ii + m0).tdiv BLK_W) * O_w + (w_out + (ii + m0).tmod BLK_W)) =
          co * O_h * O_w + oh * O_w + ow := by
        rw [hjc, hmh, hmw]; ring
      rw [e, wr_same, hC m0 c0 hm00 hm0 (by omega) (by omega) hc00 hc0 (by omega), hjc, hmh, hmw]
    · intro c u hc0' hc' _ hu
      show (if _ then _ else _ : Int → α) _ = _
      split_ifs with hch
      · exact hwr u m0 c hm00 hm0 hin hc0' hc' hch hu
      · exact hu

end Batch

section Blocks

variable {α : Type} [AddCommMonoid α] [Mul α]

/-- One batch of patches (`conv2d_batch`): `sc_RAW` is untouched, the target output element
keeps its convolution value, and receives it when its patch and channel are in the batch. -/
theorem conv2d_batch_spec (h00 : (0 : α) * 0 = 0) (B0 : Int → α) (input : TensorNCHW α)
    (kernel : KernelTensor α)
    (params : ConvParams) (regs : VRegs α)
    (O_h O_w BLK_H BLK_W h_out w_out j ii co oh ow : Int) (st : ConvState α)
    (hKh : 1 ≤ kernel.kh) (hKw : 1 ≤ kernel.kw) (hKw32 : kernel.kw ≤ 32)
    (hS : 1 ≤ params.stride) (hBW : 1 ≤ BLK_W)
    (hfh : (BLK_H - 1) * params.stride + kernel.kh ≤ 32)
    (hfw : (BLK_W - 1) * params.stride + kernel.kw ≤ 32)
    (hh : 0 ≤ h_out) (hw : 0 ≤ w_out) (hii : 0 ≤ ii) (hj : 0 ≤ j)
    (hoh0 : 0 ≤ oh) (hoh : oh < O_h) (how0 : 0 ≤ ow) (how : ow < O_w)
    (htile : TileLoaded st.sc_RAW input kernel.cin
      (h_out * params.stride - params.padding) (w_out * params.stride - params.padding)) :
    (conv2d_batch (flatten_kernels_to_B_matrix kernel B0) kernel params regs kernel.cout
        (kernel.cin * kernel.kh * kernel.kw) 32 32 32 32 32 O_h O_w BLK_W (BLK_H * BLK_W)
        kernel.cout O_h O_w h_out w_out
        (h_out * params.stride - params.padding) (w_out * params.stride - params.padding)
        j ii st).sc_RAW = st.sc_RAW ∧
    (st.out (co * O_h * O_w + oh * O_w + ow) = conv_value input kernel params co oh ow →
      (conv2d_batch (flatten_kernels_to_B_matrix kernel B0) kernel params regs kernel.cout
        (kernel.cin * kernel.kh * kernel.kw) 32 32 32 32 32 O_h O_w BLK_W (BLK_H * BLK_W)
        kernel.cout O_h O_w h_out w_out
        (h_out * params.stride - params.padding) (w_out * params.stride - params.padding)
        j ii st).out (co * O_h * O_w + oh * O_w + ow) =
        conv_value input kernel params co oh ow) ∧
    ((∃ m0 c0, 0 ≤ m0 ∧ m0 < 32 ∧ ii + m0 < BLK_H * BLK_W ∧
        h_out + (ii + m0).tdiv BLK_W = oh ∧ w_out + (ii + m0).tmod BLK_W = ow ∧
        0 ≤ c0 ∧ c0 < 32 ∧ j + c0 = co ∧ co < kernel.cout) →
      (conv2d_batch (flatten_kernels_to_B_matrix kernel B0) kernel params regs kernel.cout
        (kernel.cin * kernel.kh * kernel.kw) 32 32 32 32 32 O_h O_w BLK_W (BLK_H * BLK_W)
        kernel.cout O_h O_w h_out w_out
        (h_out * params.stride - params.padding) (w_out * params.stride - params.padding)
        j ii st).out (co * O_h * O_w + oh * O_w + ow) =
        conv_value input kernel params co oh ow) := by
  obtain ⟨cbs, hcbsdef, hcbs1, hcbs2, hcbs3⟩ : ∃ cbs : Int,
      (if BLK_H * BLK_W - ii > 32 then 32 else BLK_H * BLK_W - ii) = cbs ∧
      ii + cbs ≤ BLK_H * BLK_W ∧ cbs ≤ 32 ∧
      (∀ m, m < 32 → ii + m < BLK_H * BLK_W → m < cbs) := by
    refine ⟨_, rfl, ?_, ?_, ?_⟩
    · split_ifs <;> omega
    · split_ifs <;> omega
    · intro m h1 h2; split_ifs <;> omega
  unfold conv2d_batch
  simp only [hcbsdef]
  obtain ⟨k1, k2, k3⟩ := conv2d_kloop h00 (flatten_kernels_to_B_matrix kernel B0) input kernel
    params regs O_h O_w BLK_H BLK_W h_out w_out j ii cbs
    ({ st with sc_C := memset0 st.sc_C 0 (32 * 32) } : ConvState α)
    hKh hKw hKw32 hS hBW hfh hfw hh hw hii hcbs1 hcbs2 htile
  have hC : ∀ m c, 0 ≤ m → m < cbs → h_out + (ii + m).tdiv BLK_W < O_h →
      w_out + (ii + m).tmod BLK_W < O_w → 0 ≤ c → c < 32 → j + c < kernel.cout →
      (forStep (kernel.cin * kernel.kh * kernel.kw) 32
        (conv2d_kstep (flatten_kernels_to_B_matrix kernel B0) kernel params regs kernel.cout
          (kernel.cin * kernel.kh * kernel.kw) 32 32 32 32 32 O_h O_w BLK_W h_out w_out
          (h_out * params.stride - params.padding) (w_out * params.stride - params.padding)
          j ii cbs) ({ st with sc_C := memset0 st.sc_C 0 (32 * 32) } : ConvState α)).sc_C
          (m * 32 + c) =
        conv_value input kernel params (j + c)
          (h_out + (ii + m).tdiv BLK_W) (w_out + (ii + m).tmod BLK_W) := by
    intro m c hm0 hm hinh hinw hc0 hc hch
    rw [k3 m c hm0 hm hinh hinw hc0 hc]
    show memset0 st.sc_C 0 (32 * 32) (m * 32 + c) + _ = _
    rw [memset0_apply, if_pos (by omega), zero_add]
    exact conv_value_of_flat input kernel params B0 (j + c) _ _ hKh hKw (by omega) hch
  obtain ⟨s1, s2⟩ := conv2d_store_spec
    (forStep (kernel.cin * kernel.kh * kernel.kw) 32
        (conv2d_kstep (flatten_kernels_to_B_matrix kernel B0) kernel params regs kernel.cout
          (kernel.cin * kernel.kh * kernel.kw) 32 32 32 32 32 O_h O_w BLK_W h_out w_out
          (h_out * params.stride - params.padding) (w_out * params.stride - params.padding)
          j ii cbs) ({ st with sc_C := memset0 st.sc_C 0 (32 * 32) } : ConvState α)).out
    _ input kernel params O_h O_w BLK_H BLK_W h_out w_out ii j cbs co oh ow
    hBW hh hw hii hcbs1 hoh0 hoh how0 how hC
  refine ⟨k2, ?_, ?_⟩
  · intro hQ
    apply s1
    rw [k1]; exact hQ
  · rintro ⟨m0, c0, hm00, hm0, hlt, hmh, hmw, hc00, hc0, hjc, hco⟩
    exact s2 ⟨m0, c0, hm00, hcbs3 m0 hm0 hlt, hmh, hmw, hc00, hc0, hjc, hco⟩

end Blocks

/-- The block size is at least 1 and the receptive field of a block of undilated windows
fits the 32-wide tile, for every kernel side up to 32. -/
theorem blk_dim_fits (K D S : Int) (hK : 1 ≤ K) (hK32 : K ≤ 32) (hD : 1 ≤ D) (hS : 1 ≤ S) :
    1 ≤ blk_dim K D S ∧ (blk_dim K D S - 1) * S + K ≤ 32 := by
  unfold blk_dim SCPAD_DIM
  have hKD : K - 1 ≤ (K - 1) * D := by nlinarith
  by_cases hfit : 0 ≤ 32 - ((K - 1) * D + 1)
  · rw [tdiv_nonneg_eq _ _ hfit (by omega)]
    have h1 : 0 ≤ (32 - ((K - 1) * D + 1)) / S := Int.ediv_nonneg hfit (by omega)
    have h2 : (32 - ((K - 1) * D + 1)) / S * S ≤ 32 - ((K - 1) * D + 1) :=
      Int.ediv_mul_le _ (by omega)
    rw [if_neg (by omega)]
    constructor
    · omega
    · have : ((32 - ((K - 1) * D + 1)) / S + 1 - 1) * S = (32 - ((K - 1) * D + 1)) / S * S := by
        ring
      rw [this]; omega
  · have hneg : (32 - ((K - 1) * D + 1)).tdiv S ≤ 0 := by
      have e : 32 - ((K - 1) * D + 1) = -(((K - 1) * D + 1) - 32) := by ring
      rw [e, Int.neg_tdiv]
      have := Int.tdiv_nonneg (a := (K - 1) * D + 1 - 32) (b := S) (by omega) (by omega)
      omega
    split_ifs <;> constructor <;> nlinarith

section Walk

variable {α : Type} [AddCommMonoid α] [Mul α]

omit [Mul α] in
/-- Function `load_spatial_tile` as called by `conv2d_nchw` leaves the tile loaded. -/
theorem load_spatial_tile_loaded (sc_RAW : Int → α) (input : TensorNCHW α)
    (C_in in_h in_w : Int) :
    TileLoaded (load_spatial_tile sc_RAW input C_in 32 32 0 in_h in_w) input C_in in_h in_w := by
  intro c h w hc0 hc hh0 hh hw0 hw
  rw [load_spatial_tile_apply sc_RAW input C_in 32 32 0 in_h in_w c h w hc0 hc hh0 hh hw0 hw]
  unfold inputAt
  by_cases hg : 0 + c < input.c ∧ in_h + h ≥ 0 ∧ in_h + h < input.h ∧ in_w + w ≥ 0 ∧
      in_w + w < input.w
  · rw [if_pos hg, if_pos ⟨hc0, by omega, by omega, by omega, by omega, by omega⟩, zero_add]
  · rw [if_neg hg, if_neg (by omega)]

/-- One block of the tiling walk (`conv2d_block`): the target output element keeps its
convolution value, and receives it when its patch lies in the block. -/
theorem conv2d_block_spec (h00 : (0 : α) * 0 = 0) (B0 : Int → α) (input : TensorNCHW α)
    (kernel : KernelTensor α)
    (params : ConvParams) (regs : VRegs α)
    (O_h O_w BLK_H BLK_W h_out w_out co oh ow : Int) (st : ConvState α)
    (hKh : 1 ≤ kernel.kh) (hKw : 1 ≤ kernel.kw) (hKw32 : kernel.kw ≤ 32)
    (hS : 1 ≤ params.stride) (hBH : 1 ≤ BLK_H) (hBW : 1 ≤ BLK_W)
    (hfh : (BLK_H - 1) * params.stride + kernel.kh ≤ 32)
    (hfw : (BLK_W - 1) * params.stride + kernel.kw ≤ 32)
    (hh : 0 ≤ h_out) (hw : 0 ≤ w_out)
    (hco0 : 0 ≤ co) (hco : co < kernel.cout)
    (hoh0 : 0 ≤ oh) (hoh : oh < O_h) (how0 : 0 ≤ ow) (how : ow < O_w) :
    (st.out (co * O_h * O_w + oh * O_w + ow) = conv_value input kernel params co oh ow →
      (conv2d_block (flatten_kernels_to_B_matrix kernel B0) input kernel params regs
        kernel.cout (kernel.cin * kernel.kh * kernel.kw) 32 32 32 32 32 O_h O_w BLK_W
        (BLK_H * BLK_W) kernel.cout O_h O_w h_out w_out st).out
        (co * O_h * O_w + oh * O_w + ow) = conv_value input kernel params co oh ow) ∧
    (h_out ≤ oh ∧ oh < h_out + BLK_H ∧ w_out ≤ ow ∧ ow < w_out + BLK_W →
      (conv2d_block (flatten_kernels_to_B_matrix kernel B0) input kernel params regs
        kernel.cout (kernel.cin * kernel.kh * kernel.kw) 32 32 32 32 32 O_h O_w BLK_W
        (BLK_H * BLK_W) kernel.cout O_h O_w h_out w_out st).out
        (co * O_h * O_w + oh * O_w + ow) = conv_value input kernel params co oh ow) := by
  unfold conv2d_block
  simp only []
  have hppb : 1 ≤ BLK_H * BLK_W := by nlinarith
  -- facts about one batch, for any state with the tile loaded
  have hbatch := fun (j ii : Int) (t : ConvState α) (hj : 0 ≤ j) (hii : 0 ≤ ii)
      (ht : TileLoaded t.sc_RAW input kernel.cin
        (h_out * params.stride - params.padding) (w_out * params.stride - params.padding)) =>
    conv2d_batch_spec h00 B0 input kernel params regs O_h O_w BLK_H BLK_W h_out w_out j ii
      co oh ow t hKh hKw hKw32 hS hBW hfh hfw hh hw hii hj hoh0 hoh how0 how ht
  let I : ConvState α → Prop := fun t => TileLoaded t.sc_RAW input kernel.cin
    (h_out * params.stride - params.padding) (w_out * params.stride - params.padding)
  let Q : ConvState α → Prop := fun t =>
    t.out (co * O_h * O_w + oh * O_w + ow) = conv_value input kernel params co oh ow
  have hIbatch : ∀ j ii t, 0 ≤ j → 0 ≤ ii → I t →
      I (conv2d_batch (flatten_kernels_to_B_matrix kernel B0) kernel params regs kernel.cout
        (kernel.cin * kernel.kh * kernel.kw) 32 32 32 32 32 O_h O_w BLK_W (BLK_H * BLK_W)
        kernel.cout O_h O_w h_out w_out
        (h_out * params.stride - params.padding) (w_out * params.stride - params.padding)
        j ii t) := by
    intro j ii t hj hii ht
    show TileLoaded _ _ _ _ _
    rw [(hbatch j ii t hj hii ht).1]
    exact ht
  -- the loop over the batches of one output-channel tile
  have hIii : ∀ j t, 0 ≤ j → I t →
      I (forStep (BLK_H * BLK_W) 32
        (conv2d_batch (flatten_kernels_to_B_matrix kernel B0) kernel params regs kernel.cout
          (kernel.cin * kernel.kh * kernel.kw) 32 32 32 32 32 O_h O_w BLK_W (BLK_H * BLK_W)
          kernel.cout O_h O_w h_out w_out
          (h_out * params.stride - params.padding) (w_out * params.stride - params.padding)
          j) t) := by
    intro j t hj ht
    exact forStep_preserve I _ 32 _ t (by norm_num) ht
      (fun ii u hii _ hu => hIbatch j ii u hj hii hu)
  have hQii : ∀ j t, 0 ≤ j → I t → Q t →
      Q (forStep (BLK_H * BLK_W) 32
        (conv2d_batch (flatten_kernels_to_B_matrix kernel B0) kernel params regs kernel.cout
          (kernel.cin * kernel.kh * kernel.kw) 32 32 32 32 32 O_h O_w BLK_W (BLK_H * BLK_W)
          kernel.cout O_h O_w h_out w_out
          (h_out * params.stride - params.padding) (w_out * params.stride - params.padding)
          j) t) := by
    intro j t hj ht hq
    exact (forStep_preserve (fun u => I u ∧ Q u) _ 32 _ t (by norm_num) ⟨ht, hq⟩
      (fun ii u hii _ hu => ⟨hIbatch j ii u hj hii hu.1, (hbatch j ii u hj hii hu.1).2.1 hu.2⟩)).2
  have hload : I ({ st with sc_RAW := (load_spatial_tile st.sc_RAW input kernel.cin 32 32 0
      (h_out * params.stride - params.padding) (w_out * params.stride - params.padding)) } :
      ConvState α) := load_spatial_tile_loaded _ _ _ _ _
  constructor
  · intro hq
    exact (forStep_preserve (fun u => I u ∧ Q u) _ 32 _ _ (by norm_num) ⟨hload, hq⟩
      (fun j u hj _ hu => ⟨hIii j u hj hu.1, hQii j u hj hu.1 hu.2⟩)).2
  · rintro ⟨hb1, hb2, hb3, hb4⟩
    have hq32 : co / 32 * 32 ≤ co := Int.ediv_mul_le co (by norm_num)
    have hqm : co % 32 + 32 * (co / 32) = co := Int.emod_add_ediv co 32
    refine forStep_establish I Q kernel.cout 32 (co / 32) _ _ (by norm_num) (by omega)
      (by omega) hload (fun j u hj _ hu => hIii j u hj hu) ?_
      (fun j u hj _ hu hq => hQii j u hj hu hq)
    intro t ht
    -- the batch holding the target patch
    obtain ⟨l, hl⟩ : ∃ l, l = (oh - h_out) * BLK_W + (ow - w_out) := ⟨_, rfl⟩
    obtain ⟨l0, l1⟩ := two_digit_bound BLK_H BLK_W (oh - h_out) (ow - w_out)
      (by omega) (by omega) (by omega) (by omega)
    rw [← hl] at l0 l1
    have hl32 : l / 32 * 32 ≤ l := Int.ediv_mul_le l (by norm_num)
    have hlm : l % 32 + 32 * (l / 32) = l := Int.emod_add_ediv l 32
    refine forStep_establish I Q (BLK_H * BLK_W) 32 (l / 32) _ t (by norm_num) (by omega)
      (by omega) ht (fun ii u hii _ hu => hIbatch _ ii u (by omega) hii hu) ?_
      (fun ii u hii _ hu hq => (hbatch _ ii u (by omega) hii hu).2.1 hq)
    intro u hu
    apply (hbatch (co / 32 * 32) (l / 32 * 32) u (by omega) (by omega) hu).2.2
    obtain ⟨u1, u2⟩ := patch_unravel (oh - h_out) (ow - w_out) BLK_W (by omega) (by omega)
      (by omega)
    have e : l / 32 * 32 + l % 32 = (oh - h_out) * BLK_W + (ow - w_out) := by omega
    refine ⟨l % 32, co % 32, by omega, by omega, by omega, ?_, ?_, by omega, by omega,
      by omega, hco⟩
    · rw [e, u1]; ring
    · rw [e, u2]; ring

end Walk

section Top

variable {α : Type} [AddCommMonoid α] [Mul α]

/-- The whole tiling walk of `conv2d_nchw` leaves the convolution value in every output
element. -/
theorem conv2d_walk_spec (h00 : (0 : α) * 0 = 0) (B0 : Int → α) (input : TensorNCHW α)
    (kernel : KernelTensor α)
    (params : ConvParams) (regs : VRegs α)
    (O_h O_w BLK_H BLK_W co oh ow : Int) (st : ConvState α)
    (hKh : 1 ≤ kernel.kh) (hKw : 1 ≤ kernel.kw) (hKw32 : kernel.kw ≤ 32)
    (hS : 1 ≤ params.stride) (hBH : 1 ≤ BLK_H) (hBW : 1 ≤ BLK_W)
    (hfh : (BLK_H - 1) * params.stride + kernel.kh ≤ 32)
    (hfw : (BLK_W - 1) * params.stride + kernel.kw ≤ 32)
    (hco0 : 0 ≤ co) (hco : co < kernel.cout)
    (hoh0 : 0 ≤ oh) (hoh : oh < O_h) (how0 : 0 ≤ ow) (how : ow < O_w) :
    (forStep O_h BLK_H (fun h_out st =>
      forStep O_w BLK_W
        (conv2d_block (flatten_kernels_to_B_matrix kernel B0) input kernel params regs
          kernel.cout (kernel.cin * kernel.kh * kernel.kw) 32 32 32 32 32 O_h O_w BLK_W
          (BLK_H * BLK_W) kernel.cout O_h O_w h_out) st) st).out
        (co * O_h * O_w + oh * O_w + ow) = conv_value input kernel params co oh ow := by
  let Q : ConvState α → Prop := fun t =>
    t.out (co * O_h * O_w + oh * O_w + ow) = conv_value input kernel params co oh ow
  have hblock := fun (h_out w_out : Int) (t : ConvState α) (hh : 0 ≤ h_out) (hw : 0 ≤ w_out) =>
    conv2d_block_spec h00 B0 input kernel params regs O_h O_w BLK_H BLK_W h_out w_out co oh ow t
      hKh hKw hKw32 hS hBH hBW hfh hfw hh hw hco0 hco hoh0 hoh how0 how
  have hrow : ∀ h_out t, 0 ≤ h_out → Q t →
      Q (forStep O_w BLK_W
        (conv2d_block (flatten_kernels_to_B_matrix kernel B0) input kernel params regs
          kernel.cout (kernel.cin * kernel.kh * kernel.kw) 32 32 32 32 32 O_h O_w BLK_W
          (BLK_H * BLK_W) kernel.cout O_h O_w h_out) t) := by
    intro h_out t hh hq
    exact forStep_preserve Q _ BLK_W _ t hBW hq
      (fun w_out u hw _ hu => (hblock h_out w_out u hh hw).1 hu)
  have hqh1 : oh / BLK_H * BLK_H ≤ oh := Int.ediv_mul_le oh (by omega)
  have hqh2 : oh < (oh / BLK_H + 1) * BLK_H := Int.lt_ediv_add_one_mul_self oh (by omega)
  have hqw1 : ow / BLK_W * BLK_W ≤ ow := Int.ediv_mul_le ow (by omega)
  have hqw2 : ow < (ow / BLK_W + 1) * BLK_W := Int.lt_ediv_add_one_mul_self ow (by omega)
  refine forStep_establish (fun _ => True) Q O_h BLK_H (oh / BLK_H) _ st hBH
    (Int.ediv_nonneg hoh0 (by omega)) (by omega) trivial (fun _ _ _ _ _ => trivial) ?_
    (fun h_out t hh _ _ hq => hrow h_out t hh hq)
  intro t _
  refine forStep_establish (fun _ => True) Q O_w BLK_W (ow / BLK_W) _ t hBW
    (Int.ediv_nonneg how0 (by omega)) (by omega) trivial (fun _ _ _ _ _ => trivial) ?_
    (fun w_out u hw _ _ hu => (hblock _ w_out u
      (mul_nonneg (Int.ediv_nonneg hoh0 (by omega)) (by omega)) hw).1 hu)
  intro u _
  apply (hblock _ _ u (mul_nonneg (Int.ediv_nonneg hoh0 (by omega)) (by omega))
    (mul_nonneg (Int.ediv_nonneg how0 (by omega)) (by omega))).2
  refine ⟨hqh1, ?_, hqw1, ?_⟩
  · linarith
  · linarith

/-- Function `conv2d_nchw` only ever uses the normalised dilation. -/
theorem conv2d_nchw_norm (output input : TensorNCHW α) (kernel : KernelTensor α)
    (params : ConvParams) (scr : Scratch α) :
    conv2d_nchw output input kernel params scr =
      conv2d_nchw output input kernel
        ⟨params.stride, params.padding, norm_dilation params.dilation⟩ scr := by
  unfold norm_dilation
  by_cases h : params.dilation < 1
  · have e1 : (if params.dilation < 1 then ({ params with dilation := 1 } : ConvParams)
        else params) = ⟨params.stride, params.padding, 1⟩ := by rw [if_pos h]
    unfold conv2d_nchw
    simp only [e1, if_pos h]
    simp
  · have e1 : (if params.dilation < 1 then ({ params with dilation := 1 } : ConvParams)
        else params) = params := by rw [if_neg h]
    unfold conv2d_nchw
    simp only [e1, if_neg h]

/-- Output metadata and the `params` struct after a call that is not rejected. -/
theorem conv2d_nchw_meta (output input : TensorNCHW α) (kernel : KernelTensor α)
    (params : ConvParams) (scr : Scratch α) (hn : input.n ≤ 1) :
    (conv2d_nchw output input kernel params scr).1.n = 1 ∧
    (conv2d_nchw output input kernel params scr).1.c = kernel.cout ∧
    (conv2d_nchw output input kernel params scr).1.h =
      out_dim input.h kernel.kh (norm_dilation params.dilation) params.padding
        params.stride ∧
    (conv2d_nchw output input kernel params scr).1.w =
      out_dim input.w kernel.kw (norm_dilation params.dilation) params.padding
        params.stride ∧
    (conv2d_nchw output input kernel params scr).2 =
      ⟨params.stride, params.padding, norm_dilation params.dilation⟩ := by
  rw [conv2d_nchw_norm]
  have hD : ¬ norm_dilation params.dilation < 1 := by
    unfold norm_dilation; split_ifs <;> omega
  unfold conv2d_nchw
  simp only [if_neg hD, if_neg (not_lt.mpr hn)]
  refine ⟨?_, ?_, ?_, ?_, ?_⟩ <;> trivial

/-- Main theorem on `conv2d_nchw`, for values with an associative and commutative addition and
any multiplication with `0 * 0 = 0` (which holds of the IEEE 754 values too): for kernels
up to 32x32 and stride at least 1, every output element holds the convolution value with
undilated taps, the sum of the products of the pixels under the taps with the weights. -/
theorem conv2d_nchw_data_of_zero_mul (h00 : (0 : α) * 0 = 0) (output input : TensorNCHW α)
    (kernel : KernelTensor α)
    (params : ConvParams) (scr : Scratch α) (co oh ow : Int)
    (hn : input.n ≤ 1) (hS : 1 ≤ params.stride)
    (hKh : 1 ≤ kernel.kh) (hKh32 : kernel.kh ≤ 32)
    (hKw : 1 ≤ kernel.kw) (hKw32 : kernel.kw ≤ 32)
    (hco0 : 0 ≤ co) (hco : co < kernel.cout)
    (hoh0 : 0 ≤ oh)
    (hoh : oh < out_dim input.h kernel.kh (norm_dilation params.dilation) params.padding
      params.stride)
    (how0 : 0 ≤ ow)
    (how : ow < out_dim input.w kernel.kw (norm_dilation params.dilation) params.padding
      params.stride) :
    (conv2d_nchw output input kernel params scr).1.data
        (co * out_dim input.h kernel.kh (norm_dilation params.dilation) params.padding
            params.stride *
          out_dim input.w kernel.kw (norm_dilation params.dilation) params.padding
            params.stride +
        oh * out_dim input.w kernel.kw (norm_dilation params.dilation) params.padding
            params.stride + ow) =
      conv_value input kernel params co oh ow := by
  rw [conv2d_nchw_norm]
  have hD1 : 1 ≤ norm_dilation params.dilation := by
    unfold norm_dilation; split_ifs <;> omega
  have hD : ¬ norm_dilation params.dilation < 1 := by omega
  obtain ⟨bh1, bh2⟩ := blk_dim_fits kernel.kh (norm_dilation params.dilation) params.stride
    hKh hKh32 hD1 hS
  obtain ⟨bw1, bw2⟩ := blk_dim_fits kernel.kw (norm_dilation params.dilation) params.stride
    hKw hKw32 hD1 hS
  unfold conv2d_nchw
  simp only [if_neg hD, if_neg (not_lt.mpr hn)]
  exact conv2d_walk_spec h00 scr.B_matrix input kernel
    ⟨params.stride, params.padding, norm_dilation params.dilation⟩ scr.regs
    (out_dim input.h kernel.kh (norm_dilation params.dilation) params.padding params.stride)
    (out_dim input.w kernel.kw (norm_dilation params.dilation) params.padding params.stride)
    (blk_dim kernel.kh (norm_dilation params.dilation) params.stride)
    (blk_dim kernel.kw (norm_dilation params.dilation) params.stride) co oh ow _
    hKh hKw hKw32 hS bh1 bw1 bh2 bw2 hco0 hco hoh0 hoh how0 how

end Top

section TopRing

variable {α : Type} [CommRing α]

/-- Main theorem on `conv2d_nchw` in exact arithmetic: for kernels up to 32x32 and stride at
least 1, every output element holds the convolution value with undilated taps. -/
theorem conv2d_nchw_data (output input : TensorNCHW α) (kernel : KernelTensor α)
    (params : ConvParams) (scr : Scratch α) (co oh ow : Int)
    (hn : input.n ≤ 1) (hS : 1 ≤ params.stride)
    (hKh : 1 ≤ kernel.kh) (hKh32 : kernel.kh ≤ 32)
    (hKw : 1 ≤ kernel.kw) (hKw32 : kernel.kw ≤ 32)
    (hco0 : 0 ≤ co) (hco : co < kernel.cout)
    (hoh0 : 0 ≤ oh)
    (hoh : oh < out_dim input.h kernel.kh (norm_dilation params.dilation) params.padding
      params.stride)
    (how0 : 0 ≤ ow)
    (how : ow < out_dim input.w kernel.kw (norm_dilation params.dilation) params.padding
      params.stride) :
    (conv2d_nchw output input kernel params scr).1.data
        (co * out_dim input.h kernel.kh (norm_dilation params.dilation) params.padding
            params.stride *
          out_dim input.w kernel.kw (norm_dilation params.dilation) params.padding
            params.stride +
        oh * out_dim input.w kernel.kw (norm_dilation params.dilation) params.padding
            params.stride + ow) =
      conv_value input kernel params co oh ow :=
  conv2d_nchw_data_of_zero_mul (mul_zero 0) output input kernel params scr co oh ow hn hS hKh
    hKh32 hKw hKw32 hco0 hco hoh0 hoh how0 how

end TopRing

section Golden

variable {α : Type} [CommRing α]

/-- The GEMM view of an output element is the direct convolution with undilated taps. -/
theorem conv_value_eq_direct (input : TensorNCHW α) (kernel : KernelTensor α)
    (params : ConvParams) (co oh ow : Int) (hKh : 1 ≤ kernel.kh) (hKw : 1 ≤ kernel.kw) :
    conv_value input kernel params co oh ow =
      direct_conv input kernel params.stride params.padding 1 co oh ow := by
  unfold conv_value direct_conv
  by_cases hcin : 0 ≤ kernel.cin
  · rw [sumTo_mul kernel.cin (kernel.kh * kernel.kw) _ hcin (by nlinarith)]
    apply sumTo_congr
    intro c hc0 hc
    rw [sumTo_mul kernel.kh kernel.kw _ (by omega) (by omega)]
    apply sumTo_congr
    intro a ha0 ha
    apply sumTo_congr
    intro b hb0 hb
    have hab := two_digit_bound kernel.kh kernel.kw a b ha0 ha hb0 hb
    have hg : c * (kernel.kh * kernel.kw) + (a * kernel.kw + b) <
        kernel.cin * (kernel.kh * kernel.kw) := by
      have : c + 1 ≤ kernel.cin := by omega
      nlinarith
    have hsks : 0 < kernel.kh * kernel.kw := by nlinarith
    have q1 : (c * (kernel.kh * kernel.kw) + (a * kernel.kw + b)) / (kernel.kh * kernel.kw) = c :=
      ediv_of_radix _ c _ hab.1 hab.2
    have q2 : (c * (kernel.kh * kernel.kw) + (a * kernel.kw + b)) % (kernel.kh * kernel.kw) =
        a * kernel.kw + b := emod_of_radix _ c _ hab.1 hab.2
    have q3 : (a * kernel.kw + b) / kernel.kw = a := ediv_of_radix _ a b hb0 hb
    have q4 : (c * (kernel.kh * kernel.kw) + (a * kernel.kw + b)) % kernel.kw = b := by
      have e : c * (kernel.kh * kernel.kw) + (a * kernel.kw + b) =
          (c * kernel.kh + a) * kernel.kw + b := by ring
      rw [e]; exact emod_of_radix _ _ b hb0 hb
    unfold patch_lane kernelAt
    rw [if_pos hg, q1, q2, q3, q4]
    congr 2 <;> ring
  · have hsks : 0 < kernel.kh * kernel.kw := by nlinarith
    rw [sumTo_nonpos _ _ (by nlinarith), sumTo_nonpos _ _ (by omega)]

/-- An accumulation that adds a term only under a guard. -/
theorem forLoop_guarded_sum (n : Int) (g : Int → Prop) [DecidablePred g] (f : Int → α) (a : α) :
    forLoop n (fun i acc => if g i then acc + f i else acc) a =
      a + sumTo n (fun i => if g i then f i else 0) := by
  refine forLoop_sumTo (fun x : α => x) (fun i => if g i then f i else 0) n _ a ?_
  intro i t _ _
  show (if g i then t + f i else t) = t + if g i then f i else 0
  split_ifs
  · rfl
  · rw [add_zero]

/-- The accumulator of `golden_conv2d` for one output element is the direct convolution. -/
theorem golden_acc (input : TensorNCHW α) (kernel : KernelTensor α) (S P d co oy ox : Int)
    (hcin : kernel.cin = input.c) :
    forLoop input.c (fun cin acc =>
      forLoop kernel.kh (fun ky acc =>
        forLoop kernel.kw (fun kx acc =>
          if oy * S - P + ky * d ≥ 0 ∧ oy * S - P + ky * d < input.h ∧
              ox * S - P + kx * d ≥ 0 ∧ ox * S - P + kx * d < input.w then
            acc + input.data (0 * (input.c * input.h * input.w) +
                cin * (input.h * input.w) + (oy * S - P + ky * d) * input.w +
                (ox * S - P + kx * d)) *
              kernel.data (co * (kernel.cin * kernel.kh * kernel.kw) +
                cin * (kernel.kh * kernel.kw) + ky * kernel.kw + kx)
          else acc) acc) acc) (0 : α) =
      direct_conv input kernel S P d co oy ox := by
  unfold direct_conv
  rw [hcin]
  rw [forLoop_sumTo (fun x : α => x) (fun c => sumTo kernel.kh (fun kh => sumTo kernel.kw
    (fun kw => inputAt input c (oy * S - P + kh * d) (ox * S - P + kw * d) *
      kernelAt kernel co c kh kw))) input.c _ 0]
  · rw [zero_add]
  intro c t hc0 hc
  refine forLoop_sumTo (fun x : α => x) (fun kh => sumTo kernel.kw
    (fun kw => inputAt input c (oy * S - P + kh * d) (ox * S - P + kw * d) *
      kernelAt kernel co c kh kw)) kernel.kh _ t ?_
  intro ky u _ _
  show forLoop kernel.kw _ u = u + sumTo kernel.kw _
  rw [forLoop_guarded_sum]
  congr 1
  apply sumTo_congr
  intro kx _ _
  unfold inputAt kernelAt
  by_cases hg : oy * S - P + ky * d ≥ 0 ∧ oy * S - P + ky * d < input.h ∧
      ox * S - P + kx * d ≥ 0 ∧ ox * S - P + kx * d < input.w
  · rw [if_pos hg, if_pos ⟨hc0, hc, hg.1, hg.2.1, hg.2.2.1, hg.2.2.2⟩, hcin]
    congr 2 <;> ring
  · rw [if_neg hg, if_neg (fun h => hg ⟨h.2.2.1, h.2.2.2.1, h.2.2.2.2.1, h.2.2.2.2.2⟩),
      zero_mul]

/-- Function `golden_conv2d` on a single-batch input: every element of the output it is given holds
the direct convolution with the normalised dilation; the metadata is unchanged. -/
theorem golden_conv2d_data (og input : TensorNCHW α) (kernel : KernelTensor α)
    (params : ConvParams) (co oh ow : Int) (hn : input.n = 1) (hcin : kernel.cin = input.c)
    (hco0 : 0 ≤ co) (hco : co < kernel.cout) (hoh0 : 0 ≤ oh) (hoh : oh < og.h)
    (how0 : 0 ≤ ow) (how : ow < og.w) :
    (golden_conv2d og input kernel params).data (co * (og.h * og.w) + oh * og.w + ow) =
      direct_conv input kernel params.stride params.padding (norm_dilation params.dilation)
        co oh ow := by
  unfold golden_conv2d
  simp only [hn, forLoop_one]
  refine forLoop_mem_single (fun _ => direct_conv input kernel params.stride params.padding
    (norm_dilation params.dilation) co oh ow) kernel.cout co _ _ _ hco0 hco ?_ ?_
  · intro c2 t _ _ hne
    refine forLoop_mem_frame _ _ t _ ?_
    intro y2 t2 hy20 hy2
    refine forLoop_mem_frame _ _ t2 _ ?_
    intro x2 t3 hx20 hx2
    apply wr_other
    intro heq
    exact hne (radix3_unique og.h og.w co oh ow c2 y2 x2 hoh0 hoh how0 how hy20 hy2 hx20 hx2
      (by linarith)).1.symm
  · intro t
    refine forLoop_mem_single (fun _ => direct_conv input kernel params.stride params.padding
      (norm_dilation params.dilation) co oh ow) og.h oh _ t _ hoh0 hoh ?_ ?_
    · intro y2 t2 hy20 hy2 hne
      refine forLoop_mem_frame _ _ t2 _ ?_
      intro x2 t3 hx20 hx2
      apply wr_other
      intro heq
      exact hne (radix3_unique og.h og.w co oh ow co y2 x2 hoh0 hoh how0 how hy20 hy2 hx20 hx2
        (by linarith)).2.1.symm
    · intro t2
      refine forLoop_mem_single (fun _ => direct_conv input kernel params.stride
        params.padding (norm_dilation params.dilation) co oh ow) og.w ow _ t2 _ how0 how ?_ ?_
      · intro x2 t3 hx20 hx2 hne
        apply wr_other
        intro heq; apply hne; omega
      · intro t3
        have e : 0 * (og.c * og.h * og.w) + co * (og.h * og.w) + oh * og.w + ow =
            co * (og.h * og.w) + oh * og.w + ow := by ring
        rw [e, wr_same]
        exact golden_acc input kernel params.stride params.padding
          (norm_dilation params.dilation) co oh ow hcin

end Golden

section ClaimLemmas

variable {α : Type} [CommRing α]

/-- Every output element of `conv2d_nchw`, read through the output metadata, is the direct
convolution with undilated taps (kernels up to 32x32, stride at least 1). -/
theorem conv2d_nchw_tensor_at (output input : TensorNCHW α) (kernel : KernelTensor α)
    (params : ConvParams) (scr : Scratch α) (co oh ow : Int)
    (hn : input.n ≤ 1) (hS : 1 ≤ params.stride)
    (hKh : 1 ≤ kernel.kh) (hKh32 : kernel.kh ≤ 32)
    (hKw : 1 ≤ kernel.kw) (hKw32 : kernel.kw ≤ 32)
    (hco0 : 0 ≤ co) (hco : co < (conv2d_nchw output input kernel params scr).1.c)
    (hoh0 : 0 ≤ oh) (hoh : oh < (conv2d_nchw output input kernel params scr).1.h)
    (how0 : 0 ≤ ow) (how : ow < (conv2d_nchw output input kernel params scr).1.w) :
    tensor_at (conv2d_nchw output input kernel params scr).1 co oh ow =
      direct_conv input kernel params.stride params.padding 1 co oh ow := by
  obtain ⟨_, m2, m3, m4, _⟩ := conv2d_nchw_meta output input kernel params scr hn
  rw [m2] at hco
  rw [m3] at hoh
  rw [m4] at how
  unfold tensor_at
  rw [m3, m4, ← conv_value_eq_direct input kernel params co oh ow hKh hKw,
    ← conv2d_nchw_data output input kernel params scr co oh ow hn hS hKh hKh32 hKw hKw32
      hco0 hco hoh0 hoh how0 how]
  congr 1
  ring

end ClaimLemmas

section Claims

variable {α : Type} [CommRing α]

/-- C1: in exact arithmetic, for a single-batch input, a kernel with `cin = input.c` and
`1 ≤ K_h, K_w ≤ 32`, stride at least 1, padding at least 0, dilation 1 and a kernel no larger
than the padded input, every output element `(co, oh, ow)` of `conv2d_nchw` equals the
element `golden_conv2d` computes (run on an output tensor of the same height and width),
and both are the sum over `(c, kh, kw)` of
`input[c, oh*S - P + kh, ow*S - P + kw] * kernel[co, c, kh, kw]` with positions outside the
input counted as 0. -/
theorem conv2d_nchw_equals_golden (output og input : TensorNCHW α) (kernel : KernelTensor α)
    (params : ConvParams) (scr : Scratch α) (co oh ow : Int)
    (hn : input.n = 1) (hcin : kernel.cin = input.c)
    (hKh : 1 ≤ kernel.kh) (hKh32 : kernel.kh ≤ 32)
    (hKw : 1 ≤ kernel.kw) (hKw32 : kernel.kw ≤ 32)
    (hS : 1 ≤ params.stride) (hP : 0 ≤ params.padding) (hD : params.dilation = 1)
    (hH : kernel.kh ≤ input.h + 2 * params.padding)
    (hW : kernel.kw ≤ input.w + 2 * params.padding)
    (hogh : og.h = (conv2d_nchw output input kernel params scr).1.h)
    (hogw : og.w = (conv2d_nchw output input kernel params scr).1.w)
    (hco0 : 0 ≤ co) (hco : co < (conv2d_nchw output input kernel params scr).1.c)
    (hoh0 : 0 ≤ oh) (hoh : oh < (conv2d_nchw output input kernel params scr).1.h)
    (how0 : 0 ≤ ow) (how : ow < (conv2d_nchw output input kernel params scr).1.w) :
    tensor_at (conv2d_nchw output input kernel params scr).1 co oh ow =
        tensor_at (golden_conv2d og input kernel params) co oh ow ∧
      tensor_at (conv2d_nchw output input kernel params scr).1 co oh ow =
        direct_conv input kernel params.stride params.padding 1 co oh ow := by
  have h1 := conv2d_nchw_tensor_at output input kernel params scr co oh ow (by omega) hS
    hKh hKh32 hKw hKw32 hco0 hco hoh0 hoh how0 how
  refine ⟨?_, h1⟩
  rw [h1]
  have hc : (conv2d_nchw output input kernel params scr).1.c = kernel.cout :=
    (conv2d_nchw_meta output input kernel params scr (by omega)).2.1
  have h2 := golden_conv2d_data og input kernel params co oh ow hn hcin hco0 (by omega)
    hoh0 (by omega) how0 (by omega)
  have hnd : norm_dilation params.dilation = 1 := by rw [hD]; rfl
  rw [hnd] at h2
  rw [← h2]
  rfl

/-- C2: for a single-batch input, stride `S ≥ 1`, padding `P ≥ 0`, dilation `D ≥ 1` and an
effective kernel no larger than the padded input, `conv2d_nchw` sets the output metadata to
`n = 1`, `c = kernel.cout`, `h = ⌊(H + 2P - (K_h-1)D - 1) / S⌋ + 1` and
`w = ⌊(W + 2P - (K_w-1)D - 1) / S⌋ + 1`. -/
theorem conv2d_nchw_output_shape (output input : TensorNCHW α) (kernel : KernelTensor α)
    (params : ConvParams) (scr : Scratch α)
    (hn : input.n = 1) (hS : 1 ≤ params.stride) (hP : 0 ≤ params.padding)
    (hD : 1 ≤ params.dilation)
    (hH : (kernel.kh - 1) * params.dilation + 1 ≤ input.h + 2 * params.padding)
    (hW : (kernel.kw - 1) * params.dilation + 1 ≤ input.w + 2 * params.padding) :
    (conv2d_nchw output input kernel params scr).1.n = 1 ∧
    (conv2d_nchw output input kernel params scr).1.c = kernel.cout ∧
    (conv2d_nchw output input kernel params scr).1.h =
      (input.h + 2 * params.padding - (kernel.kh - 1) * params.dilation - 1) /
        params.stride + 1 ∧
    (conv2d_nchw output input kernel params scr).1.w =
      (input.w + 2 * params.padding - (kernel.kw - 1) * params.dilation - 1) /
        params.stride + 1 := by
  obtain ⟨m1, m2, m3, m4, _⟩ := conv2d_nchw_meta output input kernel params scr (by omega)
  have hnd : norm_dilation params.dilation = params.dilation := by
    unfold norm_dilation; rw [if_neg (by omega)]
  refine ⟨m1, m2, ?_, ?_⟩
  · rw [m3, hnd]
    unfold out_dim
    rw [tdiv_nonneg_eq _ _ (by omega) (by omega)]
    congr 2
    ring
  · rw [m4, hnd]
    unfold out_dim
    rw [tdiv_nonneg_eq _ _ (by omega) (by omega)]
    congr 2
    ring

/-- C6: for every input, kernel, stride and padding, a call of `conv2d_nchw` with a dilation
`d ≤ 0` returns the same output (metadata and data) as the call with dilation 1, and
`params.dilation` is 1 after the call. -/
theorem conv2d_nchw_dilation_normalised (output input : TensorNCHW α)
    (kernel : KernelTensor α) (S P d : Int) (scr : Scratch α) (hd : d ≤ 0) :
    (conv2d_nchw output input kernel ⟨S, P, d⟩ scr).1 =
        (conv2d_nchw output input kernel ⟨S, P, 1⟩ scr).1 ∧
      (conv2d_nchw output input kernel ⟨S, P, d⟩ scr).2.dilation = 1 := by
  have e : conv2d_nchw output input kernel ⟨S, P, d⟩ scr =
      conv2d_nchw output input kernel ⟨S, P, 1⟩ scr := by
    rw [conv2d_nchw_norm output input kernel ⟨S, P, d⟩ scr]
    have : norm_dilation d = 1 := by unfold norm_dilation; rw [if_pos (by omega)]
    simp only [this]
  refine ⟨by rw [e], ?_⟩
  rw [e]
  unfold conv2d_nchw
  simp only []
  split_ifs <;> first | rfl | omega

end Claims

/-- Witness of C1 on the 5x5 input of `src/main.c`, output element `(0, 0, 0)`. -/
theorem conv2d_nchw_equals_golden_witness :
    tensor_at (conv2d_nchw main_output main_input main_kernel ⟨1, 0, 1⟩ zero_scratch).1 0 0 0 =
        tensor_at (golden_conv2d main_output main_input main_kernel ⟨1, 0, 1⟩) 0 0 0 ∧
      tensor_at (conv2d_nchw main_output main_input main_kernel ⟨1, 0, 1⟩ zero_scratch).1 0 0 0 =
        direct_conv main_input main_kernel 1 0 1 0 0 0 := by
  have hm := conv2d_nchw_meta main_output main_input main_kernel ⟨1, 0, 1⟩ zero_scratch
    (by decide)
  have hh : (conv2d_nchw main_output main_input main_kernel ⟨1, 0, 1⟩ zero_scratch).1.h = 3 := by
    rw [hm.2.2.1]; decide
  have hw : (conv2d_nchw main_output main_input main_kernel ⟨1, 0, 1⟩ zero_scratch).1.w = 3 := by
    rw [hm.2.2.2.1]; decide
  have hc : (conv2d_nchw main_output main_input main_kernel ⟨1, 0, 1⟩ zero_scratch).1.c = 2 := by
    rw [hm.2.1]; decide
  exact conv2d_nchw_equals_golden main_output main_output main_input main_kernel ⟨1, 0, 1⟩
    zero_scratch 0 0 0 (by decide) (by decide) (by decide) (by decide) (by decide) (by decide)
    (by decide) (by decide) (by decide) (by decide) (by decide) (by rw [hh]; decide)
    (by rw [hw]; decide) (by decide) (by rw [hc]; decide) (by decide) (by rw [hh]; decide)
    (by decide) (by rw [hw]; decide)

/-- Witness of C2 on the 5x5 input of `src/main.c`: the output is 1 x 2 x 3 x 3. -/
theorem conv2d_nchw_output_shape_witness :
    (conv2d_nchw main_output main_input main_kernel ⟨1, 0, 1⟩ zero_scratch).1.n = 1 ∧
    (conv2d_nchw main_output main_input main_kernel ⟨1, 0, 1⟩ zero_scratch).1.c = 2 ∧
    (conv2d_nchw main_output main_input main_kernel ⟨1, 0, 1⟩ zero_scratch).1.h = 3 ∧
    (conv2d_nchw main_output main_input main_kernel ⟨1, 0, 1⟩ zero_scratch).1.w = 3 :=
  conv2d_nchw_output_shape main_output main_input main_kernel ⟨1, 0, 1⟩ zero_scratch
    (by decide) (by decide) (by decide) (by decide) (by decide) (by decide)

/-- Witness of C6 on the 5x5 input of `src/main.c` with dilation 0. -/
theorem conv2d_nchw_dilation_normalised_witness :
    (conv2d_nchw main_output main_input main_kernel ⟨1, 0, 0⟩ zero_scratch).1 =
        (conv2d_nchw main_output main_input main_kernel ⟨1, 0, 1⟩ zero_scratch).1 ∧
      (conv2d_nchw main_output main_input main_kernel ⟨1, 0, 0⟩ zero_scratch).2.dilation = 1 :=
  conv2d_nchw_dilation_normalised main_output main_input main_kernel 1 0 0 zero_scratch
    (by decide)

section Corrected

variable {α : Type} [CommRing α]

/-- C3 (amended): for a single-batch input, stride at least 1, padding at least 0, dilation
`D ≥ 2` and effective kernel `(K-1)*D + 1 ≤ 32` in both dimensions, every element
`(co, oh, ow)` of the output of `conv2d_nchw` (whose shape is derived with dilation `D`) is
the direct convolution with undilated taps: the sum of
`input[c, oh*S - P + kh, ow*S - P + kw] * kernel[co, c, kh, kw]`. -/
theorem conv2d_nchw_dilation_undilated_taps (output input : TensorNCHW α)
    (kernel : KernelTensor α) (params : ConvParams) (scr : Scratch α) (co oh ow : Int)
    (hn : input.n = 1) (hS : 1 ≤ params.stride) (hP : 0 ≤ params.padding)
    (hD : 2 ≤ params.dilation) (hKh : 1 ≤ kernel.kh) (hKw : 1 ≤ kernel.kw)
    (hEh : (kernel.kh - 1) * params.dilation + 1 ≤ 32)
    (hEw : (kernel.kw - 1) * params.dilation + 1 ≤ 32)
    (hco0 : 0 ≤ co) (hco : co < (conv2d_nchw output input kernel params scr).1.c)
    (hoh0 : 0 ≤ oh) (hoh : oh < (conv2d_nchw output input kernel params scr).1.h)
    (how0 : 0 ≤ ow) (how : ow < (conv2d_nchw output input kernel params scr).1.w) :
    tensor_at (conv2d_nchw output input kernel params scr).1 co oh ow =
      direct_conv input kernel params.stride params.padding 1 co oh ow := by
  have h1 : kernel.kh ≤ 32 := by nlinarith
  have h2 : kernel.kw ≤ 32 := by nlinarith
  exact conv2d_nchw_tensor_at output input kernel params scr co oh ow (by omega) hS
    hKh h1 hKw h2 hco0 hco hoh0 hoh how0 how

/-- The block size is clamped to 1 when the effective kernel exceeds the tile. -/
theorem blk_dim_oversize (K D S : Int) (hS : 1 ≤ S) (hE : 32 < (K - 1) * D + 1) :
    blk_dim K D S = 1 := by
  unfold blk_dim SCPAD_DIM
  have hneg : (32 - ((K - 1) * D + 1)).tdiv S ≤ 0 := by
    have e : 32 - ((K - 1) * D + 1) = -(((K - 1) * D + 1) - 32) := by ring
    rw [e, Int.neg_tdiv]
    have := Int.tdiv_nonneg (a := (K - 1) * D + 1 - 32) (b := S) (by omega) (by omega)
    omega
  split_ifs <;> omega

/-- C4 (amended): when the effective kernel footprint exceeds the 32x32 tile in a dimension
while the kernel itself is at most 32x32 (single batch, stride at least 1), `conv2d_nchw`
does not reject the call: the block size of each over-sized dimension is clamped to 1 and
every output element holds the direct convolution with undilated taps. -/
theorem conv2d_nchw_oversize_footprint (output input : TensorNCHW α)
    (kernel : KernelTensor α) (params : ConvParams) (scr : Scratch α) (co oh ow : Int)
    (hn : input.n = 1) (hS : 1 ≤ params.stride)
    (hKh : 1 ≤ kernel.kh) (hKh32 : kernel.kh ≤ 32)
    (hKw : 1 ≤ kernel.kw) (hKw32 : kernel.kw ≤ 32)
    (hE : 32 < (kernel.kh - 1) * norm_dilation params.dilation + 1 ∨
      32 < (kernel.kw - 1) * norm_dilation params.dilation + 1)
    (hco0 : 0 ≤ co) (hco : co < (conv2d_nchw output input kernel params scr).1.c)
    (hoh0 : 0 ≤ oh) (hoh : oh < (conv2d_nchw output input kernel params scr).1.h)
    (how0 : 0 ≤ ow) (how : ow < (conv2d_nchw output input kernel params scr).1.w) :
    (32 < (kernel.kh - 1) * norm_dilation params.dilation + 1 →
      blk_dim kernel.kh (norm_dilation params.dilation) params.stride = 1) ∧
    (32 < (kernel.kw - 1) * norm_dilation params.dilation + 1 →
      blk_dim kernel.kw (norm_dilation params.dilation) params.stride = 1) ∧
    tensor_at (conv2d_nchw output input kernel params scr).1 co oh ow =
      direct_conv input kernel params.stride params.padding 1 co oh ow :=
  ⟨blk_dim_oversize _ _ _ hS, blk_dim_oversize _ _ _ hS,
    conv2d_nchw_tensor_at output input kernel params scr co oh ow (by omega) hS
      hKh hKh32 hKw hKw32 hco0 hco hoh0 hoh how0 how⟩

/-- C5 (amended): when `input.n > 1`, `conv2d_nchw` returns with the output exactly as it
was before the call: metadata and every element of the buffer are unchanged (the buffer is
not zero-filled). -/
theorem conv2d_nchw_batch_rejected (output input : TensorNCHW α) (kernel : KernelTensor α)
    (params : ConvParams) (scr : Scratch α) (hn : 1 < input.n) :
    (conv2d_nchw output input kernel params scr).1 = output := by
  unfold conv2d_nchw
  simp only []
  rw [if_pos hn]

end Corrected

/-- Output metadata of the dilated example: 16 x 16, two channels. -/
theorem ramp_example_shape :
    (conv2d_nchw stale_output ramp_input centre_kernel ⟨1, 2, 2⟩ zero_scratch).1.c = 2 ∧
    (conv2d_nchw stale_output ramp_input centre_kernel ⟨1, 2, 2⟩ zero_scratch).1.h = 16 ∧
    (conv2d_nchw stale_output ramp_input centre_kernel ⟨1, 2, 2⟩ zero_scratch).1.w = 16 := by
  have hm := conv2d_nchw_meta stale_output ramp_input centre_kernel ⟨1, 2, 2⟩ zero_scratch
    (by decide)
  refine ⟨?_, ?_, ?_⟩
  · rw [hm.2.1]; decide
  · rw [hm.2.2.1]; decide
  · rw [hm.2.2.2.1]; decide

set_option maxRecDepth 100000 in
/-- Counterexample to C3 on the spec's dilated scenario (`H = W = 16`, `C_in = 2`, `K = 3`,
`C_out = 2`, `S = 1`, `P = 2`, `D = 2`), with input element `i` equal to `i` and the single
weight `K[0,0,1,1] = 1`: at output element `(0, 2, 2)` `conv2d_nchw` leaves
`input[0,1,1] = 17`, while `golden_conv2d` and the dilated direct convolution give
`input[0,2,2] = 34`. -/
theorem conv2d_nchw_dilation_counterexample :
    tensor_at (conv2d_nchw stale_output ramp_input centre_kernel ⟨1, 2, 2⟩ zero_scratch).1
        0 2 2 = 17 ∧
      tensor_at (golden_conv2d stale_output ramp_input centre_kernel ⟨1, 2, 2⟩) 0 2 2 = 34 ∧
      direct_conv ramp_input centre_kernel 1 2 2 0 2 2 = 34 ∧
      tensor_at (conv2d_nchw stale_output ramp_input centre_kernel ⟨1, 2, 2⟩ zero_scratch).1
        0 2 2 ≠
        tensor_at (golden_conv2d stale_output ramp_input centre_kernel ⟨1, 2, 2⟩) 0 2 2 := by
  obtain ⟨hc, hh, hw⟩ := ramp_example_shape
  have hconv : tensor_at (conv2d_nchw stale_output ramp_input centre_kernel ⟨1, 2, 2⟩
      zero_scratch).1 0 2 2 = 17 := by
    rw [conv2d_nchw_tensor_at stale_output ramp_input centre_kernel ⟨1, 2, 2⟩ zero_scratch
      0 2 2 (by decide) (by decide) (by decide) (by decide) (by decide) (by decide)
      (by decide) (by rw [hc]; decide) (by decide) (by rw [hh]; decide) (by decide)
      (by rw [hw]; decide)]
    decide
  have hgold : tensor_at (golden_conv2d stale_output ramp_input centre_kernel ⟨1, 2, 2⟩)
      0 2 2 = 34 := by
    have h := golden_conv2d_data stale_output ramp_input centre_kernel ⟨1, 2, 2⟩ 0 2 2
      (by decide) (by decide) (by decide) (by decide) (by decide) (by decide) (by decide)
      (by decide)
    have e : tensor_at (golden_conv2d stale_output ramp_input centre_kernel ⟨1, 2, 2⟩) 0 2 2 =
        (golden_conv2d stale_output ramp_input centre_kernel ⟨1, 2, 2⟩).data
          (0 * (stale_output.h * stale_output.w) + 2 * stale_output.w + 2) := rfl
    rw [e, h]
    decide
  exact ⟨hconv, hgold, by decide, by rw [hconv, hgold]; decide⟩

set_option maxRecDepth 100000 in
/-- Witness of C3 (amended) on the same scenario: output element `(0, 2, 2)` is the
undilated direct convolution, 17. -/
theorem conv2d_nchw_dilation_undilated_taps_witness :
    tensor_at (conv2d_nchw stale_output ramp_input centre_kernel ⟨1, 2, 2⟩ zero_scratch).1
        0 2 2 = direct_conv ramp_input centre_kernel 1 2 1 0 2 2 ∧
      direct_conv ramp_input centre_kernel 1 2 1 0 2 2 = 17 := by
  obtain ⟨hc, hh, hw⟩ := ramp_example_shape
  exact ⟨conv2d_nchw_dilation_undilated_taps stale_output ramp_input centre_kernel ⟨1, 2, 2⟩
    zero_scratch 0 2 2 (by decide) (by decide) (by decide) (by decide) (by decide)
    (by decide) (by decide) (by decide) (by decide) (by rw [hc]; decide) (by decide)
    (by rw [hh]; decide) (by decide) (by rw [hw]; decide), by decide⟩

/-- Output metadata of the over-sized footprint example: 1 x 1, one channel. -/
theorem column_example_shape :
    (conv2d_nchw stale_output column_input column_kernel ⟨1, 0, 32⟩ zero_scratch).1.c = 1 ∧
    (conv2d_nchw stale_output column_input column_kernel ⟨1, 0, 32⟩ zero_scratch).1.h = 1 ∧
    (conv2d_nchw stale_output column_input column_kernel ⟨1, 0, 32⟩ zero_scratch).1.w = 1 := by
  have hm := conv2d_nchw_meta stale_output column_input column_kernel ⟨1, 0, 32⟩ zero_scratch
    (by decide)
  refine ⟨?_, ?_, ?_⟩
  · rw [hm.2.1]; decide
  · rw [hm.2.2.1]; decide
  · rw [hm.2.2.2.1]; decide

set_option maxRecDepth 100000 in
/-- Counterexample to C4: a 2x1 kernel with dilation 32 has effective height 33 > 32, yet on
the 33x1 input of ones `conv2d_nchw` runs and leaves `output.data[0] = 2`, not 0. -/
theorem conv2d_nchw_oversize_counterexample :
    32 < (column_kernel.kh - 1) * 32 + 1 ∧
      (conv2d_nchw stale_output column_input column_kernel ⟨1, 0, 32⟩ zero_scratch).1.data 0
        = 2 ∧
      (conv2d_nchw stale_output column_input column_kernel ⟨1, 0, 32⟩ zero_scratch).1.data 0
        ≠ 0 := by
  obtain ⟨hc, hh, hw⟩ := column_example_shape
  have h := conv2d_nchw_tensor_at stale_output column_input column_kernel ⟨1, 0, 32⟩
    zero_scratch 0 0 0 (by decide) (by decide) (by decide) (by decide) (by decide) (by decide)
    (by decide) (by rw [hc]; decide) (by decide) (by rw [hh]; decide) (by decide)
    (by rw [hw]; decide)
  have e : tensor_at (conv2d_nchw stale_output column_input column_kernel ⟨1, 0, 32⟩
      zero_scratch).1 0 0 0 =
      (conv2d_nchw stale_output column_input column_kernel ⟨1, 0, 32⟩ zero_scratch).1.data 0 := by
    unfold tensor_at
    congr 1
  have hval : (conv2d_nchw stale_output column_input column_kernel ⟨1, 0, 32⟩
      zero_scratch).1.data 0 = 2 := by
    rw [← e, h]
    decide
  exact ⟨by decide, hval, by rw [hval]; decide⟩

set_option maxRecDepth 100000 in
/-- Witness of C4 (amended) on the 33x1 example. -/
theorem conv2d_nchw_oversize_footprint_witness :
    (32 < (column_kernel.kh - 1) * norm_dilation 32 + 1 →
      blk_dim column_kernel.kh (norm_dilation 32) 1 = 1) ∧
    (32 < (column_kernel.kw - 1) * norm_dilation 32 + 1 →
      blk_dim column_kernel.kw (norm_dilation 32) 1 = 1) ∧
    tensor_at (conv2d_nchw stale_output column_input column_kernel ⟨1, 0, 32⟩
      zero_scratch).1 0 0 0 = direct_conv column_input column_kernel 1 0 1 0 0 0 := by
  obtain ⟨hc, hh, hw⟩ := column_example_shape
  exact conv2d_nchw_oversize_footprint stale_output column_input column_kernel ⟨1, 0, 32⟩
    zero_scratch 0 0 0 (by decide) (by decide) (by decide) (by decide) (by decide) (by decide)
    (Or.inl (by decide)) (by decide) (by rw [hc]; decide) (by decide) (by rw [hh]; decide)
    (by decide) (by rw [hw]; decide)

/-- Counterexample to C5: with `input.n = 2` and an output buffer holding 7, the buffer
still holds 7 after the call; it is not zero-filled. -/
theorem conv2d_nchw_batch_counterexample :
    1 < batch2_input.n ∧
      (conv2d_nchw stale_output batch2_input unit_kernel ⟨1, 0, 1⟩ zero_scratch).1.data 0
        = 7 ∧
      (conv2d_nchw stale_output batch2_input unit_kernel ⟨1, 0, 1⟩ zero_scratch).1.data 0
        ≠ 0 := by
  have h : (conv2d_nchw stale_output batch2_input unit_kernel ⟨1, 0, 1⟩ zero_scratch).1 =
      stale_output := by
    unfold conv2d_nchw
    simp only []
    rw [if_pos (by decide)]
  refine ⟨by decide, ?_, ?_⟩
  · rw [h]; rfl
  · rw [h]; decide

/-- Witness of C5 (amended): with `input.n = 2` the output is returned as it was. -/
theorem conv2d_nchw_batch_rejected_witness :
    (conv2d_nchw stale_output batch2_input unit_kernel ⟨1, 0, 1⟩ zero_scratch).1 =
      stale_output :=
  conv2d_nchw_batch_rejected stale_output batch2_input unit_kernel ⟨1, 0, 1⟩ zero_scratch
    (by decide)

section Components2

variable {α : Type} [CommRing α]

/-- C7: `im2col_transform_scpad` called for one patch (`TM = 1`, `M_limit_in_tile = 1`,
`i_start = p < O_h * O_w`, `raw_tile_start_c = 0`) with dilation 1, `TK = 32`,
`1 ≤ K_w ≤ 32`, `k_start ≥ 0` and a local patch origin `(lh, lw)` with `0 ≤ lh`,
`lh + K_h ≤ T_h`, `0 ≤ lw`, `lw + K_w ≤ T_w`, writes in every lane `0 ≤ k < 32` of the row at
`sc_A`: the scratchpad pixel `sc_RAW[c*T_h*T_w + (lh+kh)*T_w + (lw+kw)]` when
`k_start + k = c*K_h*K_w + kh*K_w + kw < C_in*K_h*K_w`, and 0 when
`k_start + k ≥ C_in*K_h*K_w`. -/
theorem im2col_transform_scpad_single_patch (sc_A : Int → α) (off : Int) (sc_RAW : Int → α)
    (params : ConvParams) (K_h K_w C_in O_h O_w p k_start T_h T_w rh rw : Int)
    (regs : VRegs α) (k : Int)
    (hp : p < O_h * O_w) (hD : params.dilation = 1)
    (hKw : 1 ≤ K_w) (hKw32 : K_w ≤ 32) (hks : 0 ≤ k_start)
    (hlh0 : 0 ≤ p.tdiv O_w * params.stride - params.padding - rh)
    (hlh : p.tdiv O_w * params.stride - params.padding - rh + K_h ≤ T_h)
    (hlw0 : 0 ≤ p.tmod O_w * params.stride - params.padding - rw)
    (hlw : p.tmod O_w * params.stride - params.padding - rw + K_w ≤ T_w)
    (hk0 : 0 ≤ k) (hk : k < 32) :
    (∀ c kh kw, 0 ≤ c → 0 ≤ kh → kh < K_h → 0 ≤ kw → kw < K_w →
      k_start + k = c * K_h * K_w + kh * K_w + kw → k_start + k < C_in * K_h * K_w →
      im2col_transform_scpad sc_A off sc_RAW params K_h K_w C_in O_h O_w p k_start 1 32
          T_h T_w 0 rh rw 1 regs (off + k) =
        sc_RAW (c * T_h * T_w +
          (p.tdiv O_w * params.stride - params.padding - rh + kh) * T_w +
          (p.tmod O_w * params.stride - params.padding - rw + kw))) ∧
    (C_in * K_h * K_w ≤ k_start + k →
      im2col_transform_scpad sc_A off sc_RAW params K_h K_w C_in O_h O_w p k_start 1 32
          T_h T_w 0 rh rw 1 regs (off + k) = 0) := by
  have hrow := im2col_transform_scpad_one sc_A off sc_RAW params K_h K_w C_in O_h O_w p
    k_start 32 T_h T_w 0 rh rw regs hp (off + k)
  rw [if_pos (by omega)] at hrow
  have e : off + k - off = k := by ring
  rw [e] at hrow
  constructor
  · intro c kh kw hc0 hkh0 hkh hkw0 hkw hg hlt
    have hsks : 0 < K_h * K_w := by nlinarith
    have hg2 : k_start + k = c * (K_h * K_w) + kh * K_w + kw := by rw [hg]; ring
    have hb := two_digit_bound K_h K_w kh kw hkh0 hkh hkw0 hkw
    have hc : c < C_in := by
      by_contra hcon
      have h1 : C_in ≤ c := by omega
      have h2 : C_in * (K_h * K_w) ≤ c * (K_h * K_w) :=
        mul_le_mul_of_nonneg_right h1 (le_of_lt hsks)
      have h3 : C_in * K_h * K_w = C_in * (K_h * K_w) := by ring
      omega
    rw [hrow, im2col_lane_tap sc_RAW K_h K_w C_in k_start 32 T_h T_w _ _ c kh kw k hks hk0 hk
      hKw32 hc0 hc hkh0 hkh hkw0 hkw hg2, if_pos (by omega)]
    congr 1
    ring
  · intro hge
    rw [hrow]
    exact im2col_lane_past sc_RAW K_h K_w C_in k_start 32 T_h T_w 0 _ _ k (by omega)
      (by rw [← mul_assoc]; exact hge)

/-- C8: `load_spatial_tile`, for every start coordinate with `c0 ≥ 0` and arbitrary
`h0`, `w0`, writes for every `(c, h, w)` in `[0,C_in) x [0,T_h) x [0,T_w)` the input element
`input.data[(c0+c)*H*W + (h0+h)*W + (w0+w)]` when `c0+c < input.c`, `0 ≤ h0+h < H` and
`0 ≤ w0+w < W`, and 0 otherwise; every input index it reads lies in
`[0, input.c * H * W)`. -/
theorem load_spatial_tile_spec (sc_RAW : Int → α) (input : TensorNCHW α)
    (C_in T_h T_w c0 h0 w0 : Int) (hc0 : 0 ≤ c0) :
    (∀ c h w, 0 ≤ c → c < C_in → 0 ≤ h → h < T_h → 0 ≤ w → w < T_w →
      load_spatial_tile sc_RAW input C_in T_h T_w c0 h0 w0 (c * T_h * T_w + h * T_w + w) =
        if c0 + c < input.c ∧ 0 ≤ h0 + h ∧ h0 + h < input.h ∧ 0 ≤ w0 + w ∧ w0 + w < input.w
        then input.data ((c0 + c) * input.h * input.w + (h0 + h) * input.w + (w0 + w))
        else 0) ∧
    (∀ i ∈ (load_spatial_tile_traced sc_RAW input C_in T_h T_w c0 h0 w0).2,
      0 ≤ i ∧ i < input.c * input.h * input.w) := by
  constructor
  · intro c h w hc0' hc hh0 hh hw0 hw
    have e1 : c * T_h * T_w + h * T_w + w = c * (T_h * T_w) + h * T_w + w := by ring
    have e2 : (c0 + c) * input.h * input.w + (h0 + h) * input.w + (w0 + w) =
        (c0 + c) * (input.h * input.w) + (h0 + h) * input.w + (w0 + w) := by ring
    rw [e1, e2, load_spatial_tile_apply sc_RAW input C_in T_h T_w c0 h0 w0 c h w hc0' hc hh0 hh
      hw0 hw]
  · intro i hi
    rw [mul_assoc]
    exact load_spatial_tile_reads_bound sc_RAW input C_in T_h T_w c0 h0 w0 hc0 i hi

end Components2

/-- C9: `flatten_kernels_to_B_matrix`, for `cin, kh, kw, cout ≥ 1`, `0 ≤ k < K = cin*kh*kw`
and `0 ≤ n < N = cout`: `B_flat[k*N + n] = kernel[n, c, r, w]` with `c = k div (kh*kw)`,
`r = (k div kw) mod kh`, `w = k mod kw`; `(c, r, w)` is the unique triple in range with
`c*kh*kw + r*kw + w = k`; and `B_flat` is the transpose of the kernel seen as an `N x K`
matrix. -/
theorem flatten_kernels_to_B_matrix_spec {α : Type} (kernel : KernelTensor α) (B0 : Int → α)
    (k n : Int)
    (hcin : 1 ≤ kernel.cin) (hkh : 1 ≤ kernel.kh) (hkw : 1 ≤ kernel.kw)
    (hcout : 1 ≤ kernel.cout)
    (hk0 : 0 ≤ k) (hk : k < kernel.cin * kernel.kh * kernel.kw)
    (hn0 : 0 ≤ n) (hn : n < kernel.cout) :
    flatten_kernels_to_B_matrix kernel B0 (k * kernel.cout + n) =
        kernelAt kernel n (k / (kernel.kh * kernel.kw)) (k / kernel.kw % kernel.kh)
          (k % kernel.kw) ∧
    (0 ≤ k / (kernel.kh * kernel.kw) ∧ k / (kernel.kh * kernel.kw) < kernel.cin ∧
      0 ≤ k / kernel.kw % kernel.kh ∧ k / kernel.kw % kernel.kh < kernel.kh ∧
      0 ≤ k % kernel.kw ∧ k % kernel.kw < kernel.kw ∧
      k / (kernel.kh * kernel.kw) * kernel.kh * kernel.kw +
        k / kernel.kw % kernel.kh * kernel.kw + k % kernel.kw = k) ∧
    (∀ c r w, 0 ≤ c → c < kernel.cin → 0 ≤ r → r < kernel.kh → 0 ≤ w → w < kernel.kw →
      c * kernel.kh * kernel.kw + r * kernel.kw + w = k →
      c = k / (kernel.kh * kernel.kw) ∧ r = k / kernel.kw % kernel.kh ∧ w = k % kernel.kw) ∧
    flatten_kernels_to_B_matrix kernel B0 (k * kernel.cout + n) =
        kernel.data (n * (kernel.cin * kernel.kh * kernel.kw) + k) := by
  obtain ⟨d1, d2, d3, d4, d5, d6⟩ := flat_digits_ediv k kernel.kh kernel.kw hk0 hkh hkw
  have hsks : 0 < kernel.kh * kernel.kw := by nlinarith
  have hc : k / (kernel.kh * kernel.kw) < kernel.cin :=
    Int.ediv_lt_of_lt_mul hsks (by rw [← mul_assoc]; exact hk)
  -- the middle digit, written as in the claim
  have hmid : k / kernel.kw % kernel.kh = k % (kernel.kh * kernel.kw) / kernel.kw := by
    have e : k = (k / (kernel.kh * kernel.kw) * kernel.kh +
        k % (kernel.kh * kernel.kw) / kernel.kw) * kernel.kw + k % kernel.kw := by
      linarith
    have q : k / kernel.kw = k / (kernel.kh * kernel.kw) * kernel.kh +
        k % (kernel.kh * kernel.kw) / kernel.kw := by
      conv_lhs => rw [e]
      exact ediv_of_radix _ _ _ d5 d6
    rw [q]
    exact emod_of_radix _ _ _ d3 d4
  have hB := flatten_kernels_to_B_matrix_apply kernel B0 k n hkh hkw hk0 hk hn0 hn
  rw [hmid]
  refine ⟨?_, ⟨d2, hc, d3, d4, d5, d6, by linarith⟩, ?_, ?_⟩
  · rw [hB]
    unfold kernelAt
    congr 1
    linarith
  · intro c r w hc0 _ hr0 hr hw0 hw hsum
    exact radix3_unique kernel.kh kernel.kw c r w _ _ _ hr0 hr hw0 hw d3 d4 d5 d6 (by linarith)
  · rw [hB]
    congr 1
    ring

section Identity

variable {α : Type} [CommRing α]

end Identity

/-- Witness of C7: a 3x3 window at the tile origin, two channels, reduction step 0; lane 4
holds tap `(c, kh, kw) = (0, 1, 1)`, the scratchpad pixel at row 1, column 1, and with a
single channel of a 1x1 kernel lane 4 is past the last tap. -/
theorem im2col_transform_scpad_single_patch_witness :
    im2col_transform_scpad (fun _ => (0 : Int)) 0 (fun i => i) ⟨1, 0, 1⟩ 3 3 2 3 3 0 0 1 32
        32 32 0 0 0 1 zero_scratch.regs (0 + 4) = 33 ∧
      im2col_transform_scpad (fun _ => (7 : Int)) 0 (fun i => i) ⟨1, 0, 1⟩ 1 1 1 3 3 0 0 1 32
        32 32 0 0 0 1 zero_scratch.regs (0 + 4) = 0 :=
  ⟨(im2col_transform_scpad_single_patch (fun _ => (0 : Int)) 0 (fun i => i) ⟨1, 0, 1⟩ 3 3 2
      3 3 0 0 32 32 0 0 zero_scratch.regs 4 (by decide) (by decide) (by decide) (by decide)
      (by decide) (by decide) (by decide) (by decide) (by decide) (by decide) (by decide)).1
      0 1 1 (by decide) (by decide) (by decide) (by decide) (by decide) (by decide)
      (by decide),
    (im2col_transform_scpad_single_patch (fun _ => (7 : Int)) 0 (fun i => i) ⟨1, 0, 1⟩ 1 1 1
      3 3 0 0 32 32 0 0 zero_scratch.regs 4 (by decide) (by decide) (by decide) (by decide)
      (by decide) (by decide) (by decide) (by decide) (by decide) (by decide) (by decide)).2
      (by decide)⟩

/-- Witness of C8 on the input of `src/main.c` with tile origin `(-1, -1)`: tile position
`(1, 1, 1)` holds `input[1, 0, 0] = 100`, tile position `(0, 0, 0)` lies in the padding band,
and every input read is inside the 50-element buffer. -/
theorem load_spatial_tile_spec_witness :
    load_spatial_tile (fun _ => (7 : Int)) main_input 2 32 32 0 (-1) (-1)
        (1 * 32 * 32 + 1 * 32 + 1) = 100 ∧
      load_spatial_tile (fun _ => (7 : Int)) main_input 2 32 32 0 (-1) (-1)
        (0 * 32 * 32 + 0 * 32 + 0) = 0 ∧
      (∀ i ∈ (load_spatial_tile_traced (fun _ => (7 : Int)) main_input 2 32 32 0 (-1) (-1)).2,
        0 ≤ i ∧ i < main_input.c * main_input.h * main_input.w) := by
  have h := load_spatial_tile_spec (fun _ => (7 : Int)) main_input 2 32 32 0 (-1) (-1)
    (by decide)
  refine ⟨?_, ?_, h.2⟩
  · rw [h.1 1 1 1 (by decide) (by decide) (by decide) (by decide) (by decide) (by decide)]
    decide
  · rw [h.1 0 0 0 (by decide) (by decide) (by decide) (by decide) (by decide) (by decide)]
    decide

/-- Witness of C9 on the kernel of `src/main.c`: entry `(k, n) = (4, 0)` of the flattened
kernel is `K[0, 0, 1, 1] = 1`. -/
theorem flatten_kernels_to_B_matrix_spec_witness :
    flatten_kernels_to_B_matrix main_kernel (fun _ => 7) (4 * main_kernel.cout + 0) =
        kernelAt main_kernel 0 (4 / (main_kernel.kh * main_kernel.kw))
          (4 / main_kernel.kw % main_kernel.kh) (4 % main_kernel.kw) ∧
      flatten_kernels_to_B_matrix main_kernel (fun _ => 7) (4 * main_kernel.cout + 0) =
        main_kernel.data (0 * (main_kernel.cin * main_kernel.kh * main_kernel.kw) + 4) ∧
      main_kernel.data (0 * (main_kernel.cin * main_kernel.kh * main_kernel.kw) + 4) = 1 := by
  have h := flatten_kernels_to_B_matrix_spec main_kernel (fun _ => 7) 4 0 (by decide)
    (by decide) (by decide) (by decide) (by decide) (by decide) (by decide) (by decide)
  exact ⟨h.1, h.2.2.2, by decide⟩

section Contracts

variable {α : Type} [CommRing α]

/-! ## Identity kernel, padding and corner contracts -/

/-- A sum of one term. -/
theorem sumTo_one (f : Int → α) : sumTo 1 f = f 0 :=
  sumTo_single 1 0 f (by norm_num) (by norm_num) (fun i h0 h1 hne => absurd (by omega) hne)

/-- C12: for a single-batch, single-channel input and a `K x K` all-ones kernel
(`C_in = C_out = 1`, `K ≤ 32`) with stride 1, dilation 1 and padding `1 ≤ P < K` on an input
with `H, W ≥ K - P`, the corner output `(0, 0)` of `conv2d_nchw` equals the sum of the
top-left `(K-P) x (K-P)` block of the input. -/
theorem conv2d_nchw_corner_sum (output input : TensorNCHW α) (kernel : KernelTensor α)
    (params : ConvParams) (scr : Scratch α) (K P : Int)
    (hn : input.n = 1) (hc : input.c = 1) (hcin : kernel.cin = 1) (hcout : kernel.cout = 1)
    (hkh : kernel.kh = K) (hkw : kernel.kw = K) (hK32 : K ≤ 32)
    (hS : params.stride = 1) (hD : params.dilation = 1) (hPp : params.padding = P)
    (hP1 : 1 ≤ P) (hPK : P < K) (hH : K - P ≤ input.h) (hW : K - P ≤ input.w)
    (hones : ∀ a b, 0 ≤ a → a < K → 0 ≤ b → b < K → kernelAt kernel 0 0 a b = 1) :
    tensor_at (conv2d_nchw output input kernel params scr).1 0 0 0 =
      sumTo (K - P) (fun h => sumTo (K - P) (fun w => tensor_at input 0 h w)) := by
  obtain ⟨_, m2, m3, m4, _⟩ := conv2d_nchw_meta output input kernel params scr (by omega)
  have hnd : norm_dilation params.dilation = 1 := by rw [hD]; rfl
  have eh : (conv2d_nchw output input kernel params scr).1.h = input.h - K + 2 * P + 1 := by
    rw [m3, hnd, hkh, hPp, hS]
    unfold out_dim
    rw [Int.tdiv_one]
    ring
  have ew : (conv2d_nchw output input kernel params scr).1.w = input.w - K + 2 * P + 1 := by
    rw [m4, hnd, hkw, hPp, hS]
    unfold out_dim
    rw [Int.tdiv_one]
    ring
  rw [conv2d_nchw_tensor_at output input kernel params scr 0 0 0 (by omega) (by omega)
    (by omega) (by omega) (by omega) (by omega) (le_refl 0) (by rw [m2]; omega)
    (le_refl 0) (by rw [eh]; omega) (le_refl 0) (by rw [ew]; omega)]
  unfold direct_conv
  rw [hkh, hkw, hPp, hS, hcin, sumTo_one]
  have eK : K = P + (K - P) := by ring
  have term : ∀ a b, 0 ≤ a → a < K → 0 ≤ b → b < K →
      inputAt input 0 (0 * 1 - P + a * 1) (0 * 1 - P + b * 1) * kernelAt kernel 0 0 a b =
      if P ≤ a ∧ P ≤ b then tensor_at input 0 (a - P) (b - P) else 0 := by
    intro a b ha0 ha hb0 hb
    rw [hones a b ha0 ha hb0 hb, mul_one]
    have e1 : 0 * 1 - P + a * 1 = a - P := by ring
    have e2 : 0 * 1 - P + b * 1 = b - P := by ring
    rw [e1, e2]
    unfold inputAt tensor_at
    by_cases hab : P ≤ a ∧ P ≤ b
    · rw [if_pos hab, if_pos ⟨le_refl 0, by omega, by omega, by omega, by omega, by omega⟩]
    · rw [if_neg hab, if_neg (fun h => hab ⟨by omega, by omega⟩)]
  have rowsum : ∀ a, 0 ≤ a → a < K →
      sumTo K (fun b =>
        inputAt input 0 (0 * 1 - P + a * 1) (0 * 1 - P + b * 1) * kernelAt kernel 0 0 a b) =
      if P ≤ a then sumTo (K - P) (fun w => tensor_at input 0 (a - P) w) else 0 := by
    intro a ha0 ha
    rw [sumTo_congr K _ (fun b => if P ≤ a ∧ P ≤ b then tensor_at input 0 (a - P) (b - P) else 0)
      (fun b hb0 hb => term a b ha0 ha hb0 hb)]
    by_cases hPa : P ≤ a
    · rw [if_pos hPa]
      nth_rewrite 1 [eK]
      rw [sumTo_add P (K - P) _ (by omega) (by omega),
        sumTo_zero_fun P _ (fun b hb0 hb => if_neg (fun h => by omega)), zero_add]
      apply sumTo_congr
      intro w hw0 hw
      rw [if_pos ⟨hPa, by omega⟩]
      congr 1
      ring
    · rw [if_neg hPa]
      apply sumTo_zero_fun
      intro b hb0 hb
      rw [if_neg (fun h => hPa h.1)]
  rw [sumTo_congr K _ (fun a =>
    if P ≤ a then sumTo (K - P) (fun w => tensor_at input 0 (a - P) w) else 0) rowsum]
  nth_rewrite 1 [eK]
  rw [sumTo_add P (K - P) _ (by omega) (by omega),
    sumTo_zero_fun P _ (fun a ha0 ha => if_neg (by omega)), zero_add]
  apply sumTo_congr
  intro h hh0 hh
  rw [if_pos (by omega)]
  have e : P + h - P = h := by ring
  rw [e]

/-- C13: for a single-batch input of any height `H` and width `W`, an odd kernel size
`K ≥ 1`, stride 1, dilation 1 and padding `P = (K - 1) / 2` (C division), the output
dimensions `conv2d_nchw` writes are `output.h = H` and `output.w = W`. -/
theorem conv2d_nchw_same_padding_shape (output input : TensorNCHW α) (kernel : KernelTensor α)
    (params : ConvParams) (scr : Scratch α) (K : Int)
    (hn : input.n = 1) (hK : 1 ≤ K) (hodd : K % 2 = 1)
    (hkh : kernel.kh = K) (hkw : kernel.kw = K)
    (hS : params.stride = 1) (hD : params.dilation = 1)
    (hP : params.padding = (K - 1).tdiv 2) :
    (conv2d_nchw output input kernel params scr).1.h = input.h ∧
    (conv2d_nchw output input kernel params scr).1.w = input.w := by
  obtain ⟨_, _, m3, m4, _⟩ := conv2d_nchw_meta output input kernel params scr (by omega)
  have hnd : norm_dilation params.dilation = 1 := by rw [hD]; rfl
  rw [tdiv_nonneg_eq _ _ (by omega) (by norm_num)] at hP
  have e2 : 2 * ((K - 1) / 2) = K - 1 := by omega
  constructor
  · rw [m3, hnd, hkh, hP, hS]
    unfold out_dim
    rw [Int.tdiv_one, e2]
    ring
  · rw [m4, hnd, hkw, hP, hS]
    unfold out_dim
    rw [Int.tdiv_one, e2]
    ring

end Contracts

section Algebra

variable {α : Type} [CommRing α]

/-! ## Zero and linearity contracts -/

theorem sumTo_add_fun (n : Int) (f g : Int → α) :
    sumTo n (fun i => f i + g i) = sumTo n f + sumTo n g := by
  unfold sumTo
  exact Finset.sum_add_distrib

theorem sumTo_mul_left (n : Int) (a : α) (f : Int → α) :
    sumTo n (fun i => a * f i) = a * sumTo n f := by
  unfold sumTo
  exact (Finset.mul_sum _ _ _).symm

/-- A stepped loop whose bound is not positive does nothing. -/
theorem forStep_nonpos {σ : Type} (n step : Int) (body : Int → σ → σ) (s : σ) (h : n ≤ 0) :
    forStep n step body s = s := by
  unfold forStep
  have e : n.toNat = 0 := by omega
  rw [e]
  rfl

/-- The flat index of an element of a `C x H x W` tensor lies inside the tensor. -/
theorem flat3_bound (C H W c h w : Int) (hc0 : 0 ≤ c) (hc : c < C) (hh0 : 0 ≤ h) (hh : h < H)
    (hw0 : 0 ≤ w) (hw : w < W) :
    0 ≤ c * (H * W) + h * W + w ∧ c * (H * W) + h * W + w < C * H * W := by
  have h1 := two_digit_bound H W h w hh0 hh hw0 hw
  have h2 := two_digit_bound C (H * W) c (h * W + w) hc0 hc h1.1 h1.2
  constructor
  · linarith [h2.1]
  · have e : C * H * W = C * (H * W) := by ring
    rw [e]; linarith [h2.2]

/-- The tiling walk of `conv2d_nchw` does nothing when the output has no row or no column. -/
theorem conv2d_walk_degenerate {σ : Type} (body : Int → Int → σ → σ)
    (O_h O_w BLK_H BLK_W : Int) (st : σ) (hBH : 1 ≤ BLK_H)
    (hdeg : O_h ≤ 0 ∨ O_w ≤ 0) :
    forStep O_h BLK_H (fun h_out st => forStep O_w BLK_W (body h_out) st) st = st := by
  by_cases hh : O_h ≤ 0
  · exact forStep_nonpos _ _ _ _ hh
  · have hw : O_w ≤ 0 := by omega
    refine forStep_preserve (fun t => t = st) O_h BLK_H _ st hBH rfl ?_
    intro j t _ _ ht
    rw [forStep_nonpos _ _ _ _ hw]
    exact ht

/-- The block sizes `conv2d_nchw` picks are at least 1. -/
theorem blk_dim_pos (K D S : Int) : 1 ≤ blk_dim K D S := by
  unfold blk_dim
  split_ifs <;> omega

/-- When the derived output has no row or no column, `conv2d_nchw` only clears the output
buffer. -/
theorem conv2d_nchw_degenerate (output input : TensorNCHW α) (kernel : KernelTensor α)
    (params : ConvParams) (scr : Scratch α) (hn : input.n ≤ 1)
    (hdeg : out_dim input.h kernel.kh (norm_dilation params.dilation) params.padding
        params.stride ≤ 0 ∨
      out_dim input.w kernel.kw (norm_dilation params.dilation) params.padding
        params.stride ≤ 0) :
    (conv2d_nchw output input kernel params scr).1.data =
      memset0 output.data 0 (1 * kernel.cout *
        out_dim input.h kernel.kh (norm_dilation params.dilation) params.padding
          params.stride *
        out_dim input.w kernel.kw (norm_dilation params.dilation) params.padding
          params.stride) := by
  rw [conv2d_nchw_norm]
  have hD : ¬ norm_dilation params.dilation < 1 := by
    unfold norm_dilation; split_ifs <;> omega
  unfold conv2d_nchw
  simp only [if_neg hD, if_neg (not_lt.mpr hn)]
  have key := conv2d_walk_degenerate
    (fun h_out => conv2d_block (flatten_kernels_to_B_matrix kernel scr.B_matrix) input kernel
      ⟨params.stride, params.padding, norm_dilation params.dilation⟩ scr.regs
      kernel.cout (kernel.cin * kernel.kh * kernel.kw) 32 32 32 32 32
      (out_dim input.h kernel.kh (norm_dilation params.dilation) params.padding params.stride)
      (out_dim input.w kernel.kw (norm_dilation params.dilation) params.padding params.stride)
      (blk_dim kernel.kw (norm_dilation params.dilation) params.stride)
      (blk_dim kernel.kh (norm_dilation params.dilation) params.stride *
        blk_dim kernel.kw (norm_dilation params.dilation) params.stride)
      kernel.cout
      (out_dim input.h kernel.kh (norm_dilation params.dilation) params.padding params.stride)
      (out_dim input.w kernel.kw (norm_dilation params.dilation) params.padding params.stride)
      h_out)
    (out_dim input.h kernel.kh (norm_dilation params.dilation) params.padding params.stride)
    (out_dim input.w kernel.kw (norm_dilation params.dilation) params.padding params.stride)
    (blk_dim kernel.kh (norm_dilation params.dilation) params.stride)
    (blk_dim kernel.kw (norm_dilation params.dilation) params.stride)
    ⟨memset0 output.data 0 (1 * kernel.cout *
        out_dim input.h kernel.kh (norm_dilation params.dilation) params.padding
          params.stride *
        out_dim input.w kernel.kw (norm_dilation params.dilation) params.padding
          params.stride), scr.sc_RAW, scr.sc_A, scr.sc_B, scr.sc_C⟩
    (blk_dim_pos _ _ _) hdeg
  exact congrArg ConvState.out key

end Algebra

section ZeroLinear

variable {α : Type} [CommRing α]

/-- A kernel whose effective size fits the 32-wide tile has at most 32 taps per side. -/
theorem kernel_le_of_effective (K D : Int) (hK : 1 ≤ K)
    (hE : (K - 1) * norm_dilation D + 1 ≤ 32) : K ≤ 32 := by
  have hD1 : 1 ≤ norm_dilation D := by
    unfold norm_dilation; split_ifs <;> omega
  nlinarith

/-- Direct convolution is linear in the input. -/
theorem direct_conv_linear (X Y Z : TensorNCHW α) (kernel : KernelTensor α) (a b : α)
    (S P D co oh ow : Int)
    (hYc : Y.c = X.c) (hYh : Y.h = X.h) (hYw : Y.w = X.w)
    (hZc : Z.c = X.c) (hZh : Z.h = X.h) (hZw : Z.w = X.w)
    (hZ : ∀ i, 0 ≤ i → i < X.c * X.h * X.w → Z.data i = a * X.data i + b * Y.data i) :
    direct_conv Z kernel S P D co oh ow =
      a * direct_conv X kernel S P D co oh ow + b * direct_conv Y kernel S P D co oh ow := by
  have hin : ∀ c h w, inputAt Z c h w = a * inputAt X c h w + b * inputAt Y c h w := by
    intro c h w
    unfold inputAt
    rw [hYc, hYh, hYw, hZc, hZh, hZw]
    split_ifs with hr
    · obtain ⟨i1, i2, i3, i4, i5, i6⟩ := hr
      have hb := flat3_bound X.c X.h X.w c h w i1 i2 i3 i4 i5 i6
      exact hZ _ hb.1 hb.2
    · simp
  unfold direct_conv
  rw [← sumTo_mul_left, ← sumTo_mul_left, ← sumTo_add_fun]
  apply sumTo_congr
  intro c _ _
  rw [← sumTo_mul_left, ← sumTo_mul_left, ← sumTo_add_fun]
  apply sumTo_congr
  intro kh _ _
  rw [← sumTo_mul_left, ← sumTo_mul_left, ← sumTo_add_fun]
  apply sumTo_congr
  intro kw _ _
  rw [hin]
  ring

/-- C15: in exact arithmetic, for scalars `a`, `b`, single-batch inputs `X`, `Y` of the same
shape and the input `Z = a*X + b*Y` of that shape, one kernel with sides at least 1 and
effective sizes at most 32, and parameters with stride at least 1 and any padding,
`conv2d_nchw` on `Z` equals `a` times `conv2d_nchw` on `X` plus `b` times `conv2d_nchw` on
`Y` at every output element `(co, oh, ow)`, whatever the output and scratch buffers of the
three calls held before. -/
theorem conv2d_nchw_linear (oX oY oZ X Y Z : TensorNCHW α) (kernel : KernelTensor α)
    (params : ConvParams) (sX sY sZ : Scratch α) (a b : α) (co oh ow : Int)
    (hnX : X.n = 1) (hnY : Y.n = 1) (hnZ : Z.n = 1)
    (hYc : Y.c = X.c) (hYh : Y.h = X.h) (hYw : Y.w = X.w)
    (hZc : Z.c = X.c) (hZh : Z.h = X.h) (hZw : Z.w = X.w)
    (hZ : ∀ i, 0 ≤ i → i < X.c * X.h * X.w → Z.data i = a * X.data i + b * Y.data i)
    (hS : 1 ≤ params.stride) (hKh : 1 ≤ kernel.kh) (hKw : 1 ≤ kernel.kw)
    (hEh : (kernel.kh - 1) * norm_dilation params.dilation + 1 ≤ 32)
    (hEw : (kernel.kw - 1) * norm_dilation params.dilation + 1 ≤ 32)
    (hco0 : 0 ≤ co) (hco : co < (conv2d_nchw oZ Z kernel params sZ).1.c)
    (hoh0 : 0 ≤ oh) (hoh : oh < (conv2d_nchw oZ Z kernel params sZ).1.h)
    (how0 : 0 ≤ ow) (how : ow < (conv2d_nchw oZ Z kernel params sZ).1.w) :
    tensor_at (conv2d_nchw oZ Z kernel params sZ).1 co oh ow =
      a * tensor_at (conv2d_nchw oX X kernel params sX).1 co oh ow +
      b * tensor_at (conv2d_nchw oY Y kernel params sY).1 co oh ow := by
  have hKh32 := kernel_le_of_effective kernel.kh params.dilation hKh hEh
  have hKw32 := kernel_le_of_effective kernel.kw params.dilation hKw hEw
  obtain ⟨_, z2, z3, z4, _⟩ := conv2d_nchw_meta oZ Z kernel params sZ (by omega)
  obtain ⟨_, x2, x3, x4, _⟩ := conv2d_nchw_meta oX X kernel params sX (by omega)
  obtain ⟨_, y2, y3, y4, _⟩ := conv2d_nchw_meta oY Y kernel params sY (by omega)
  rw [z2] at hco
  rw [z3, hZh] at hoh
  rw [z4, hZw] at how
  rw [conv2d_nchw_tensor_at oZ Z kernel params sZ co oh ow (by omega) hS hKh hKh32 hKw hKw32
      hco0 (by rw [z2]; exact hco) hoh0 (by rw [z3, hZh]; exact hoh)
      how0 (by rw [z4, hZw]; exact how),
    conv2d_nchw_tensor_at oX X kernel params sX co oh ow (by omega) hS hKh hKh32 hKw hKw32
      hco0 (by rw [x2]; exact hco) hoh0 (by rw [x3]; exact hoh) how0 (by rw [x4]; exact how),
    conv2d_nchw_tensor_at oY Y kernel params sY co oh ow (by omega) hS hKh hKh32 hKw hKw32
      hco0 (by rw [y2]; exact hco) hoh0 (by rw [y3, hYh]; exact hoh)
      how0 (by rw [y4, hYw]; exact how)]
  exact direct_conv_linear X Y Z kernel a b _ _ _ co oh ow hYc hYh hYw hZc hZh hZw hZ

end ZeroLinear

/-! ## Witnesses of the identity, padding, zero and linearity contracts -/

/-- Every weight of `ones3_kernel` is 1. -/
theorem ones3_kernel_weights (a b : Int) : kernelAt ones3_kernel 0 0 a b = 1 := rfl

/-- Witness of C12: for `H = W = 8`, `K = 3`, `P = 1` and the ramp input, the corner output
is the sum `0 + 1 + 8 + 9 = 18` of the top-left 2x2 block. -/
theorem conv2d_nchw_corner_sum_witness :
    tensor_at (conv2d_nchw stale_output ramp8_input ones3_kernel ⟨1, 1, 1⟩ stale_scratch).1
      0 0 0 = 18 :=
  (conv2d_nchw_corner_sum stale_output ramp8_input ones3_kernel ⟨1, 1, 1⟩ stale_scratch 3 1
    (by decide) (by decide) (by decide) (by decide) (by decide) (by decide) (by decide)
    (by decide) (by decide) (by decide) (by decide) (by decide) (by decide) (by decide)
    (fun a b _ _ _ _ => ones3_kernel_weights a b)).trans (by decide)

/-- Witness of C13: an 8x8 input with a 3x3 kernel and padding 1 gives an 8x8 output. -/
theorem conv2d_nchw_same_padding_shape_witness :
    (conv2d_nchw stale_output ramp8_input ones3_kernel ⟨1, 1, 1⟩ stale_scratch).1.h = 8 ∧
    (conv2d_nchw stale_output ramp8_input ones3_kernel ⟨1, 1, 1⟩ stale_scratch).1.w = 8 :=
  conv2d_nchw_same_padding_shape stale_output ramp8_input ones3_kernel ⟨1, 1, 1⟩
    stale_scratch 3 (by decide) (by decide) (by decide) (by decide) (by decide) (by decide)
    (by decide) (by decide)

/-- Witness of C15: with `Z = 2*X + 3*Y` for the 8x8 ramp `X` and the 8x8 all-ones `Y`,
output element `(0, 0, 0)` of the run on `Z` is 2 times that of the run on `X` plus 3 times
that of the run on `Y`. -/
theorem conv2d_nchw_linear_witness :
    tensor_at (conv2d_nchw stale_output mix8_input ones3_kernel ⟨1, 1, 1⟩ stale_scratch).1
        0 0 0 =
      2 * tensor_at (conv2d_nchw main_output ramp8_input ones3_kernel ⟨1, 1, 1⟩
        zero_scratch).1 0 0 0 +
      3 * tensor_at (conv2d_nchw main_output ones8_input ones3_kernel ⟨1, 1, 1⟩
        stale_scratch).1 0 0 0 := by
  obtain ⟨_, m2, m3, m4, _⟩ :=
    conv2d_nchw_meta stale_output mix8_input ones3_kernel ⟨1, 1, 1⟩ stale_scratch (by decide)
  exact conv2d_nchw_linear main_output main_output stale_output ramp8_input ones8_input
    mix8_input ones3_kernel ⟨1, 1, 1⟩ zero_scratch stale_scratch stale_scratch 2 3 0 0 0
    (by decide) (by decide) (by decide) (by decide) (by decide) (by decide) (by decide)
    (by decide) (by decide)
    (fun i _ _ => show 2 * i + 3 = 2 * i + 3 * 1 by ring)
    (by decide) (by decide) (by decide) (by decide) (by decide)
    (by decide) (by rw [m2]; decide) (by decide) (by rw [m3]; decide)
    (by decide) (by rw [m4]; decide)

/-! ## Instrumented loops project onto the plain loops -/

theorem foldl_range_proj {σ τ : Type} (p : τ → σ) (step : σ → Nat → σ) (step2 : τ → Nat → τ)
    (n : Nat) (h : ∀ i t, i < n → p (step2 t i) = step (p t) i) (t : τ) :
    p ((List.range n).foldl step2 t) = (List.range n).foldl step (p t) := by
  induction n with
  | zero => simp
  | succ k ih =>
    rw [List.range_succ, List.foldl_append, List.foldl_append]
    simp only [List.foldl_cons, List.foldl_nil]
    rw [h k _ (Nat.lt_succ_self k), ih (fun i t hi => h i t (Nat.lt_succ_of_lt hi))]

/-- If every iteration of an instrumented body projects onto the plain body, the
instrumented loop projects onto the plain loop. -/
theorem forLoop_proj {σ τ : Type} (p : τ → σ) (n : Int) (body : Int → σ → σ)
    (body2 : Int → τ → τ) (t : τ)
    (h : ∀ i u, 0 ≤ i → i < n → p (body2 i u) = body i (p u)) :
    p (forLoop n body2 t) = forLoop n body (p t) :=
  foldl_range_proj p (fun st (i : Nat) => body (i : Int) st)
    (fun st (i : Nat) => body2 (i : Int) st) n.toNat
    (fun i u hi => h i u (by omega) (by omega)) t

theorem forRange_proj {σ τ : Type} (p : τ → σ) (lo hi : Int) (body : Int → σ → σ)
    (body2 : Int → τ → τ) (t : τ)
    (h : ∀ i u, lo ≤ i → i < hi → p (body2 i u) = body i (p u)) :
    p (forRange lo hi body2 t) = forRange lo hi body (p t) :=
  foldl_range_proj p (fun st (i : Nat) => body (lo + (i : Int)) st)
    (fun st (i : Nat) => body2 (lo + (i : Int)) st) (hi - lo).toNat
    (fun i u hi2 => h (lo + i) u (by omega) (by omega)) t

theorem forStepAux_proj {σ τ : Type} (p : τ → σ) (n step : Int) (body : Int → σ → σ)
    (body2 : Int → τ → τ) (h : ∀ i u, p (body2 i u) = body i (p u)) (fuel : Nat) :
    ∀ (i : Int) (t : τ),
      p (forStepAux fuel i n step body2 t) = forStepAux fuel i n step body (p t) := by
  induction fuel with
  | zero => intro i t; rfl
  | succ f ih =>
    intro i t
    by_cases hin : i < n
    · simp only [forStepAux, hin, if_true]
      rw [ih, h]
    · simp only [forStepAux, hin, if_false]

theorem forStep_proj {σ τ : Type} (p : τ → σ) (n step : Int) (body : Int → σ → σ)
    (body2 : Int → τ → τ) (t : τ) (h : ∀ i u, p (body2 i u) = body i (p u)) :
    p (forStep n step body2 t) = forStep n step body (p t) :=
  forStepAux_proj p n step body body2 h n.toNat 0 t

section Tiles

variable {α : Type} [CommRing α]

/-! ## The B tile load -/

/-- The instrumented `load_b_tile` computes the scratchpad `load_b_tile` computes. -/
theorem load_b_tile_traced_fst (sc_B B : Int → α) (K N k j TK TN : Int) :
    (load_b_tile_traced sc_B B K N k j TK TN).1 = load_b_tile sc_B B K N k j TK TN := by
  unfold load_b_tile_traced load_b_tile
  refine forLoop_proj Prod.fst TK _ _ (sc_B, []) ?_
  intro r u _ _
  refine forLoop_proj Prod.fst TN _ _ u ?_
  intro c v _ _
  show (if _ then _ else _ : (Int → α) × List Int).1 =
    wr v.1 (r * TN + c) (if k + r < K ∧ j + c < N then B ((k + r) * N + (j + c)) else 0)
  split_ifs with hin
  · rfl
  · rfl

/-- Every index at which `load_b_tile` reads `B_global` lies in `[0, K * N)`. -/
theorem load_b_tile_reads_bound (sc_B B : Int → α) (K N k j TK TN : Int)
    (hk : 0 ≤ k) (hj : 0 ≤ j) :
    ∀ idx ∈ (load_b_tile_traced sc_B B K N k j TK TN).2, 0 ≤ idx ∧ idx < K * N := by
  unfold load_b_tile_traced
  refine forLoop_preserve (fun st : (Int → α) × List Int => ∀ idx ∈ st.2, 0 ≤ idx ∧ idx < K * N)
    TK _ (sc_B, []) (by intro idx h; cases h) ?_
  intro r u hr0 _ hu
  refine forLoop_preserve (fun st : (Int → α) × List Int => ∀ idx ∈ st.2, 0 ≤ idx ∧ idx < K * N)
    TN _ u hu ?_
  intro c v hc0 _ hv
  show ∀ idx ∈ (if k + r < K ∧ j + c < N then
      (wr v.1 (r * TN + c) (B ((k + r) * N + (j + c))), ((k + r) * N + (j + c)) :: v.2)
    else (wr v.1 (r * TN + c) 0, v.2) : (Int → α) × List Int).2, 0 ≤ idx ∧ idx < K * N
  split_ifs with hin
  · intro idx hmem
    rcases List.mem_cons.mp hmem with h1 | h1
    · rw [h1]
      exact two_digit_bound K N (k + r) (j + c) (by omega) hin.1 (by omega) hin.2
    · exact hv idx h1
  · exact hv

end Tiles

/-- The index `store_c_tile` writes for channel `ch` and patch `p`, when the output has the
height and width the function is given: `ch * (O_h * O_w) + p`. -/
theorem store_index_eq (ch p h w O_h O_w : Int) (hh : h = O_h) (hw : w = O_w) :
    ch * h * w + p.tdiv O_w * w + p.tmod O_w = ch * (O_h * O_w) + p := by
  subst hh
  subst hw
  have e := Int.tdiv_add_tmod' p w
  have e2 : ch * h * w = ch * (h * w) := by ring
  linarith

section Tiles

variable {α : Type} [CommRing α]

/-- C20: for `k_start, j_start ≥ 0`, `load_b_tile` leaves in `sc_B[r*TN + c]`, for every
`(r, c)` in `[0,TK) x [0,TN)`, the element `B_flat[(k_start + r)*N + (j_start + c)]` if
`k_start + r < K` and `j_start + c < N`, and 0 otherwise; and every index at which it reads
`B_flat` (the read list of the instrumented function, which computes the same `sc_B`) lies
in `[0, K*N)`. -/
theorem load_b_tile_spec (sc_B B_flat : Int → α) (K N k_start j_start TK TN : Int)
    (hk : 0 ≤ k_start) (hj : 0 ≤ j_start) :
    (∀ r c, 0 ≤ r → r < TK → 0 ≤ c → c < TN →
      load_b_tile sc_B B_flat K N k_start j_start TK TN (r * TN + c) =
        if k_start + r < K ∧ j_start + c < N then B_flat ((k_start + r) * N + (j_start + c))
        else 0) ∧
    (load_b_tile_traced sc_B B_flat K N k_start j_start TK TN).1 =
      load_b_tile sc_B B_flat K N k_start j_start TK TN ∧
    (∀ idx ∈ (load_b_tile_traced sc_B B_flat K N k_start j_start TK TN).2,
      0 ≤ idx ∧ idx < K * N) :=
  ⟨fun r c hr0 hr hc0 hc => load_b_tile_apply sc_B B_flat K N k_start j_start TK TN r c
      hr0 hr hc0 hc,
    load_b_tile_traced_fst sc_B B_flat K N k_start j_start TK TN,
    load_b_tile_reads_bound sc_B B_flat K N k_start j_start TK TN hk hj⟩

end Tiles

section Store

variable {α : Type}

/-! ## The C tile store -/

/-- The instrumented `store_c_tile` computes the tensor `store_c_tile` computes. -/
theorem store_c_tile_traced_fst (output : TensorNCHW α) (sc_C : Int → α)
    (O_h O_w i_start j_start TM TN : Int) :
    (store_c_tile_traced output sc_C O_h O_w i_start j_start TM TN).1 =
      store_c_tile output sc_C O_h O_w i_start j_start TM TN := by
  unfold store_c_tile_traced store_c_tile
  simp only []
  congr 1
  refine forLoop_proj Prod.fst TM _ _ (output.data, []) ?_
  intro r u _ _
  refine forLoop_proj Prod.fst TN _ _ u ?_
  intro c v _ _
  show (if i_start + r < O_h * O_w ∧ j_start + c < output.c then
      (wr v.1 (((j_start + c) * output.h * output.w + (i_start + r).tdiv O_w * output.w +
        (i_start + r).tmod O_w)) (sc_C (r * TN + c)),
        ((j_start + c) * output.h * output.w + (i_start + r).tdiv O_w * output.w +
          (i_start + r).tmod O_w) :: v.2)
    else v : (Int → α) × List Int).1 =
    if i_start + r < O_h * O_w ∧ j_start + c < output.c then
      wr v.1 (((j_start + c) * output.h * output.w + (i_start + r).tdiv O_w * output.w +
        (i_start + r).tmod O_w)) (sc_C (r * TN + c))
    else v.1
  split_ifs <;> rfl

/-- The write list of `store_c_tile`: an index is written exactly when it is the index of
some `(r, c)` of the tile whose patch and channel lie inside the output. -/
theorem store_c_tile_writes (output : TensorNCHW α) (sc_C : Int → α)
    (O_h O_w i_start j_start TM TN : Int) (hh : output.h = O_h) (hw : output.w = O_w)
    (idx : Int) :
    idx ∈ (store_c_tile_traced output sc_C O_h O_w i_start j_start TM TN).2 ↔
      ∃ r c, 0 ≤ r ∧ r < TM ∧ 0 ≤ c ∧ c < TN ∧ i_start + r < O_h * O_w ∧
        j_start + c < output.c ∧ idx = (j_start + c) * (O_h * O_w) + (i_start + r) := by
  unfold store_c_tile_traced
  simp only [store_index_eq _ _ _ _ _ _ hh hw]
  constructor
  · intro hmem
    refine forLoop_preserve
      (fun st : (Int → α) × List Int => ∀ i ∈ st.2,
        ∃ r c, 0 ≤ r ∧ r < TM ∧ 0 ≤ c ∧ c < TN ∧ i_start + r < O_h * O_w ∧
          j_start + c < output.c ∧ i = (j_start + c) * (O_h * O_w) + (i_start + r))
      TM _ (output.data, []) (by intro i h; cases h) ?_ idx hmem
    intro r u hr0 hr hu
    refine forLoop_preserve
      (fun st : (Int → α) × List Int => ∀ i ∈ st.2,
        ∃ r c, 0 ≤ r ∧ r < TM ∧ 0 ≤ c ∧ c < TN ∧ i_start + r < O_h * O_w ∧
          j_start + c < output.c ∧ i = (j_start + c) * (O_h * O_w) + (i_start + r))
      TN _ u hu ?_
    intro c v hc0 hc hv
    show ∀ i ∈ (if i_start + r < O_h * O_w ∧ j_start + c < output.c then
        (wr v.1 ((j_start + c) * (O_h * O_w) + (i_start + r)) (sc_C (r * TN + c)),
          ((j_start + c) * (O_h * O_w) + (i_start + r)) :: v.2)
      else v : (Int → α) × List Int).2, _
    split_ifs with hin
    · intro i hi
      rcases List.mem_cons.mp hi with h1 | h1
      · exact ⟨r, c, hr0, hr, hc0, hc, hin.1, hin.2, h1⟩
      · exact hv i h1
    · exact hv
  · rintro ⟨r, c, hr0, hr, hc0, hc, hp, hch, rfl⟩
    have grow : ∀ (r2 c2 : Int) (v : (Int → α) × List Int),
        (j_start + c) * (O_h * O_w) + (i_start + r) ∈ v.2 →
        (j_start + c) * (O_h * O_w) + (i_start + r) ∈
          (if i_start + r2 < O_h * O_w ∧ j_start + c2 < output.c then
            (wr v.1 ((j_start + c2) * (O_h * O_w) + (i_start + r2)) (sc_C (r2 * TN + c2)),
              ((j_start + c2) * (O_h * O_w) + (i_start + r2)) :: v.2)
          else v : (Int → α) × List Int).2 := by
      intro r2 c2 v hv
      split_ifs
      · exact List.mem_cons_of_mem _ hv
      · exact hv
    refine forLoop_establish (fun _ => True)
      (fun st : (Int → α) × List Int => (j_start + c) * (O_h * O_w) + (i_start + r) ∈ st.2)
      TM r _ (output.data, []) hr0 hr trivial (fun _ _ _ _ _ => trivial) ?_ ?_
    · intro u _
      refine forLoop_establish (fun _ => True)
        (fun st : (Int → α) × List Int => (j_start + c) * (O_h * O_w) + (i_start + r) ∈ st.2)
        TN c _ u hc0 hc trivial (fun _ _ _ _ _ => trivial) ?_ ?_
      · intro v _
        show (j_start + c) * (O_h * O_w) + (i_start + r) ∈
          (if i_start + r < O_h * O_w ∧ j_start + c < output.c then
            (wr v.1 ((j_start + c) * (O_h * O_w) + (i_start + r)) (sc_C (r * TN + c)),
              ((j_start + c) * (O_h * O_w) + (i_start + r)) :: v.2)
          else v : (Int → α) × List Int).2
        rw [if_pos ⟨hp, hch⟩]
        exact List.mem_cons_self _ _
      · intro c2 v _ _ _ hv
        exact grow r c2 v hv
    · intro r2 u _ _ _ hu
      refine forLoop_preserve
        (fun st : (Int → α) × List Int => (j_start + c) * (O_h * O_w) + (i_start + r) ∈ st.2)
        TN _ u hu ?_
      intro c2 v _ _ hv
      exact grow r2 c2 v hv

/-- An element of the output data that `store_c_tile` does not write keeps its value. -/
theorem store_c_tile_unwritten (output : TensorNCHW α) (sc_C : Int → α)
    (O_h O_w i_start j_start TM TN : Int) (idx : Int)
    (hidx : idx ∉ (store_c_tile_traced output sc_C O_h O_w i_start j_start TM TN).2) :
    (store_c_tile output sc_C O_h O_w i_start j_start TM TN).data idx = output.data idx := by
  rw [← store_c_tile_traced_fst]
  revert hidx
  unfold store_c_tile_traced
  simp only []
  refine forLoop_preserve
    (fun st : (Int → α) × List Int => idx ∉ st.2 → st.1 idx = output.data idx)
    TM _ (output.data, []) (fun _ => rfl) ?_
  intro r u _ _ hu
  refine forLoop_preserve
    (fun st : (Int → α) × List Int => idx ∉ st.2 → st.1 idx = output.data idx)
    TN _ u hu ?_
  intro c v _ _ hv
  show idx ∉ (if i_start + r < O_h * O_w ∧ j_start + c < output.c then
      (wr v.1 (((j_start + c) * output.h * output.w + (i_start + r).tdiv O_w * output.w +
        (i_start + r).tmod O_w)) (sc_C (r * TN + c)),
        ((j_start + c) * output.h * output.w + (i_start + r).tdiv O_w * output.w +
          (i_start + r).tmod O_w) :: v.2)
    else v : (Int → α) × List Int).2 →
    (if i_start + r < O_h * O_w ∧ j_start + c < output.c then
      (wr v.1 (((j_start + c) * output.h * output.w + (i_start + r).tdiv O_w * output.w +
        (i_start + r).tmod O_w)) (sc_C (r * TN + c)),
        ((j_start + c) * output.h * output.w + (i_start + r).tdiv O_w * output.w +
          (i_start + r).tmod O_w) :: v.2)
    else v : (Int → α) × List Int).1 idx = output.data idx
  split_ifs with hin
  · intro hnot
    rw [List.mem_cons, not_or] at hnot
    show wr v.1 _ _ idx = _
    rw [wr_other _ _ _ _ hnot.1]
    exact hv hnot.2
  · exact hv

/-- The element `store_c_tile` writes for `(r, c)` holds `sc_C[r*TN + c]` after the call. -/
theorem store_c_tile_apply (output : TensorNCHW α) (sc_C : Int → α)
    (O_h O_w i_start j_start TM TN : Int) (hh : output.h = O_h) (hw : output.w = O_w)
    (hi : 0 ≤ i_start) (r c : Int) (hr0 : 0 ≤ r) (hr : r < TM) (hc0 : 0 ≤ c) (hc : c < TN)
    (hp : i_start + r < O_h * O_w) (hch : j_start + c < output.c) :
    (store_c_tile output sc_C O_h O_w i_start j_start TM TN).data
      ((j_start + c) * (O_h * O_w) + (i_start + r)) = sc_C (r * TN + c) := by
  unfold store_c_tile
  simp only [store_index_eq _ _ _ _ _ _ hh hw]
  refine forLoop_mem_single (fun _ => sc_C (r * TN + c)) TM r _ output.data _ hr0 hr ?_ ?_
  · intro r2 t hr20 hr2 hne
    refine forLoop_mem_frame _ _ t _ ?_
    intro c2 t2 _ _
    show (if i_start + r2 < O_h * O_w ∧ j_start + c2 < output.c then
      wr t2 ((j_start + c2) * (O_h * O_w) + (i_start + r2)) (sc_C (r2 * TN + c2)) else t2) _ = _
    split_ifs with hin
    · apply wr_other
      intro heq
      have := radix_unique (O_h * O_w) (j_start + c) (i_start + r) (j_start + c2)
        (i_start + r2) (by omega) hp (by omega) hin.1 heq
      omega
    · rfl
  · intro t
    refine forLoop_mem_single (fun _ => sc_C (r * TN + c)) TN c _ t _ hc0 hc ?_ ?_
    · intro c2 t2 _ _ hne
      show (if i_start + r < O_h * O_w ∧ j_start + c2 < output.c then
        wr t2 ((j_start + c2) * (O_h * O_w) + (i_start + r)) (sc_C (r * TN + c2)) else t2) _ = _
      split_ifs with hin
      · apply wr_other
        intro heq
        have := radix_unique (O_h * O_w) (j_start + c) (i_start + r) (j_start + c2)
          (i_start + r) (by omega) hp (by omega) hp heq
        omega
      · rfl
    · intro t2
      show (if i_start + r < O_h * O_w ∧ j_start + c < output.c then
        wr t2 ((j_start + c) * (O_h * O_w) + (i_start + r)) (sc_C (r * TN + c)) else t2) _ = _
      rw [if_pos ⟨hp, hch⟩]
      exact wr_same _ _ _

/-- C19: with `output.h = O_h`, `output.w = O_w` and a tile origin `i_start, j_start ≥ 0`,
`store_c_tile` writes `output[j_start + c, p div O_w, p mod O_w] = sc_C[r*TN + c]` for exactly
the `(r, c)` in `[0,TM) x [0,TN)` with `p = i_start + r < O_h*O_w` and
`j_start + c < output.c`: the indices written (the write list of the instrumented function,
which computes the same tensor) are exactly the flat indices of those elements, each of them
holds `sc_C[r*TN + c]` after the call, every element of the output data that is not written
keeps its value, every written index lies in `[0, output.c*O_h*O_w)`, and the metadata is
unchanged. -/
theorem store_c_tile_frame (output : TensorNCHW α) (sc_C : Int → α)
    (O_h O_w i_start j_start TM TN : Int) (hh : output.h = O_h) (hw : output.w = O_w)
    (hi : 0 ≤ i_start) (hj : 0 ≤ j_start) :
    (store_c_tile_traced output sc_C O_h O_w i_start j_start TM TN).1 =
      store_c_tile output sc_C O_h O_w i_start j_start TM TN ∧
    (∀ idx, idx ∈ (store_c_tile_traced output sc_C O_h O_w i_start j_start TM TN).2 ↔
      ∃ r c, 0 ≤ r ∧ r < TM ∧ 0 ≤ c ∧ c < TN ∧ i_start + r < O_h * O_w ∧
        j_start + c < output.c ∧
        idx = (j_start + c) * (output.h * output.w) + (i_start + r).tdiv O_w * output.w +
          (i_start + r).tmod O_w) ∧
    (∀ r c, 0 ≤ r → r < TM → 0 ≤ c → c < TN → i_start + r < O_h * O_w →
      j_start + c < output.c →
      tensor_at (store_c_tile output sc_C O_h O_w i_start j_start TM TN) (j_start + c)
        ((i_start + r).tdiv O_w) ((i_start + r).tmod O_w) = sc_C (r * TN + c)) ∧
    (∀ idx, idx ∉ (store_c_tile_traced output sc_C O_h O_w i_start j_start TM TN).2 →
      (store_c_tile output sc_C O_h O_w i_start j_start TM TN).data idx = output.data idx) ∧
    (∀ idx ∈ (store_c_tile_traced output sc_C O_h O_w i_start j_start TM TN).2,
      0 ≤ idx ∧ idx < output.c * O_h * O_w) ∧
    (store_c_tile output sc_C O_h O_w i_start j_start TM TN).n = output.n ∧
    (store_c_tile output sc_C O_h O_w i_start j_start TM TN).c = output.c ∧
    (store_c_tile output sc_C O_h O_w i_start j_start TM TN).h = output.h ∧
    (store_c_tile output sc_C O_h O_w i_start j_start TM TN).w = output.w := by
  have canon : ∀ ch p : Int,
      ch * (output.h * output.w) + p.tdiv O_w * output.w + p.tmod O_w =
        ch * (O_h * O_w) + p := by
    intro ch p
    rw [← store_index_eq ch p output.h output.w O_h O_w hh hw]
    ring
  refine ⟨store_c_tile_traced_fst _ _ _ _ _ _ _ _, ?_, ?_, ?_, ?_, rfl, rfl, rfl, rfl⟩
  · intro idx
    rw [store_c_tile_writes output sc_C O_h O_w i_start j_start TM TN hh hw idx]
    constructor
    · rintro ⟨r, c, h1, h2, h3, h4, h5, h6, h7⟩
      exact ⟨r, c, h1, h2, h3, h4, h5, h6, by rw [canon]; exact h7⟩
    · rintro ⟨r, c, h1, h2, h3, h4, h5, h6, h7⟩
      exact ⟨r, c, h1, h2, h3, h4, h5, h6, by rw [canon] at h7; exact h7⟩
  · intro r c hr0 hr hc0 hc hp hch
    have h := store_c_tile_apply output sc_C O_h O_w i_start j_start TM TN hh hw hi r c
      hr0 hr hc0 hc hp hch
    unfold tensor_at
    show (store_c_tile output sc_C O_h O_w i_start j_start TM TN).data
      ((j_start + c) * (output.h * output.w) + (i_start + r).tdiv O_w * output.w +
        (i_start + r).tmod O_w) = _
    rw [canon]
    exact h
  · intro idx hidx
    exact store_c_tile_unwritten output sc_C O_h O_w i_start j_start TM TN idx hidx
  · intro idx hidx
    obtain ⟨r, c, h1, h2, h3, h4, h5, h6, h7⟩ :=
      (store_c_tile_writes output sc_C O_h O_w i_start j_start TM TN hh hw idx).mp hidx
    rw [h7]
    have hb := two_digit_bound output.c (O_h * O_w) (j_start + c) (i_start + r)
      (by omega) h6 (by omega) h5
    constructor
    · exact hb.1
    · have e : output.c * O_h * O_w = output.c * (O_h * O_w) := by ring
      rw [e]; exact hb.2

end Store

/-- Witness of C20: a 32x32 tile at the origin of a 3x2 matrix `B_flat[i] = i`. -/
theorem load_b_tile_spec_witness :
    (∀ r c, 0 ≤ r → r < 32 → 0 ≤ c → c < 32 →
      load_b_tile (fun _ => (7 : Int)) (fun i => i) 3 2 0 0 32 32 (r * 32 + c) =
        if 0 + r < 3 ∧ 0 + c < 2 then (fun i : Int => i) ((0 + r) * 2 + (0 + c)) else 0) ∧
    (load_b_tile_traced (fun _ => (7 : Int)) (fun i => i) 3 2 0 0 32 32).1 =
      load_b_tile (fun _ => (7 : Int)) (fun i => i) 3 2 0 0 32 32 ∧
    (∀ idx ∈ (load_b_tile_traced (fun _ => (7 : Int)) (fun i => i) 3 2 0 0 32 32).2,
      0 ≤ idx ∧ idx < 3 * 2) :=
  load_b_tile_spec (fun _ => (7 : Int)) (fun i => i) 3 2 0 0 32 32 (by decide) (by decide)

/-- Witness of C19: storing a 32x32 tile at patch 32, channel 0 of the 2 x 16 x 16 output
whose buffer held 7 everywhere; element `(1, 2, 3)` receives `sc_C[3*32 + 1] = 97`. -/
theorem store_c_tile_frame_witness :
    tensor_at (store_c_tile stale_output (fun i => i) 16 16 32 0 32 32) (0 + 1)
      ((32 + 3 : Int).tdiv 16) ((32 + 3 : Int).tmod 16) = 3 * 32 + 1 :=
  (store_c_tile_frame stale_output (fun i => i) 16 16 32 0 32 32 (by decide) (by decide)
    (by decide) (by decide)).2.2.1 3 1 (by decide) (by decide) (by decide) (by decide)
    (by decide) (by decide)

section Instrumented

variable {α : Type} [CommRing α]

/-! ## The instrumented orchestrator computes what the orchestrator computes -/

theorem im2col_transform_scpad_traced_fst (sc_A : Int → α) (off : Int) (sc_RAW : Int → α)
    (params : ConvParams) (K_h K_w C_in O_h O_w i_start k_start TM TK T_h T_w rc rh rw lim : Int)
    (regs : VRegs α) (t : Trace α) :
    (im2col_transform_scpad_traced sc_A off sc_RAW params K_h K_w C_in O_h O_w i_start k_start
      TM TK T_h T_w rc rh rw lim regs t).1 =
    im2col_transform_scpad sc_A off sc_RAW params K_h K_w C_in O_h O_w i_start k_start
      TM TK T_h T_w rc rh rw lim regs := by
  unfold im2col_transform_scpad_traced im2col_transform_scpad
  simp only []
  congr 1
  refine forLoop_proj Prod.fst TM _ _ ((sc_A, regs), t) ?_
  intro m u _ _
  by_cases hskip : i_start + m ≥ O_h * O_w ∨ m ≥ lim
  · simp only [if_pos hskip]
  · simp only [if_neg hskip]
    have inner := forRange_proj (Prod.fst : VRegs α × Trace α → VRegs α)
      (k_start.tdiv (K_h * K_w)) (min ((k_start + TK + K_w).tdiv (K_h * K_w) + 1) C_in)
      (fun c r =>
        if c - rc < 0 then r
        else forLoop K_h (im2col_kh_body sc_RAW K_w k_start TK T_h T_w (K_h * K_w)
          ((i_start + m).tdiv O_w * params.stride - params.padding - rh)
          ((i_start + m).tmod O_w * params.stride - params.padding - rw) c (c - rc)) r)
      (fun c (x : VRegs α × Trace α) =>
        if c - rc < 0 then x
        else forLoop K_h (im2col_kh_body_traced sc_RAW K_w k_start TK T_h T_w (K_h * K_w)
          ((i_start + m).tdiv O_w * params.stride - params.padding - rh)
          ((i_start + m).tmod O_w * params.stride - params.padding - rw) c (c - rc)) x)
      (({ u.1.2 with v_accum := memset0 u.1.2.v_accum 0 TK } : VRegs α), u.2) (by
        intro c x _ _
        by_cases htc : c - rc < 0
        · simp only [if_pos htc]
        · simp only [if_neg htc]
          exact forLoop_proj Prod.fst K_h _ _ x (fun kh y _ _ => rfl))
    rw [inner]

theorem conv2d_fill_A_traced_fst (sc_A sc_RAW : Int → α) (kernel : KernelTensor α)
    (params : ConvParams) (regs : VRegs α)
    (O_h O_w BLK_W h_out w_out in_h in_w ii k cbs TK T_h T_w : Int) (t : Trace α) :
    (conv2d_fill_A_traced sc_A sc_RAW kernel params regs O_h O_w BLK_W h_out w_out in_h in_w
      ii k cbs TK T_h T_w t).1 =
    conv2d_fill_A sc_A sc_RAW kernel params regs O_h O_w BLK_W h_out w_out in_h in_w
      ii k cbs TK T_h T_w := by
  unfold conv2d_fill_A_traced conv2d_fill_A
  refine forLoop_proj Prod.fst cbs _ _ (sc_A, t) ?_
  intro m u _ _
  by_cases hskip : h_out + (ii + m).tdiv BLK_W ≥ O_h ∨ w_out + (ii + m).tmod BLK_W ≥ O_w
  · simp only [if_pos hskip]
  · simp only [if_neg hskip]
    apply im2col_transform_scpad_traced_fst

omit [CommRing α] in
theorem conv2d_store_traced_fst (out sc_C : Int → α)
    (out_c out_h out_w O_h O_w BLK_W h_out w_out ii j cbs TN : Int) (t : Trace α) :
    (conv2d_store_traced out sc_C out_c out_h out_w O_h O_w BLK_W h_out w_out ii j cbs TN t).1 =
    conv2d_store out sc_C out_c out_h out_w O_h O_w BLK_W h_out w_out ii j cbs TN := by
  unfold conv2d_store_traced conv2d_store
  refine forLoop_proj Prod.fst cbs _ _ (out, t) ?_
  intro m u _ _
  by_cases hskip : h_out + (ii + m).tdiv BLK_W ≥ O_h ∨ w_out + (ii + m).tmod BLK_W ≥ O_w
  · simp only [if_pos hskip]
  · simp only [if_neg hskip]
    refine forLoop_proj Prod.fst TN _ _ u ?_
    intro c v _ _
    by_cases hch : j + c < out_c
    · simp only [if_pos hch]
    · simp only [if_neg hch]

theorem conv2d_kstep_traced_fst (B : Int → α) (kernel : KernelTensor α) (params : ConvParams)
    (regs : VRegs α) (N K TM TN TK T_h T_w O_h O_w BLK_W h_out w_out in_h in_w j ii cbs : Int)
    (k : Int) (s : ConvState α × Trace α) :
    (conv2d_kstep_traced B kernel params regs N K TM TN TK T_h T_w O_h O_w BLK_W
      h_out w_out in_h in_w j ii cbs k s).1 =
    conv2d_kstep B kernel params regs N K TM TN TK T_h T_w O_h O_w BLK_W
      h_out w_out in_h in_w j ii cbs k s.1 := by
  unfold conv2d_kstep_traced conv2d_kstep
  simp only [conv2d_fill_A_traced_fst]

theorem conv2d_batch_traced_fst (B : Int → α) (kernel : KernelTensor α) (params : ConvParams)
    (regs : VRegs α) (N K TM TN TK T_h T_w O_h O_w BLK_W ppb : Int)
    (out_c out_h out_w h_out w_out in_h in_w j : Int) (ii : Int) (s : ConvState α × Trace α) :
    (conv2d_batch_traced B kernel params regs N K TM TN TK T_h T_w O_h O_w BLK_W ppb
      out_c out_h out_w h_out w_out in_h in_w j ii s).1 =
    conv2d_batch B kernel params regs N K TM TN TK T_h T_w O_h O_w BLK_W ppb
      out_c out_h out_w h_out w_out in_h in_w j ii s.1 := by
  unfold conv2d_batch_traced conv2d_batch
  simp only [conv2d_store_traced_fst]
  have hk := forStep_proj (Prod.fst : ConvState α × Trace α → ConvState α) K TK
    (conv2d_kstep B kernel params regs N K TM TN TK T_h T_w O_h O_w BLK_W
      h_out w_out in_h in_w j ii (if ppb - ii > TM then TM else ppb - ii))
    (conv2d_kstep_traced B kernel params regs N K TM TN TK T_h T_w O_h O_w BLK_W
      h_out w_out in_h in_w j ii (if ppb - ii > TM then TM else ppb - ii))
    (({ s.1 with sc_C := memset0 s.1.sc_C 0 (TM * TN) } : ConvState α), s.2)
    (fun k u => by apply conv2d_kstep_traced_fst)
  rw [hk]

theorem conv2d_block_traced_fst (B : Int → α) (input : TensorNCHW α) (kernel : KernelTensor α)
    (params : ConvParams) (regs : VRegs α)
    (N K TM TN TK T_h T_w O_h O_w BLK_W ppb out_c out_h out_w : Int)
    (h_out : Int) (w_out : Int) (s : ConvState α × Trace α) :
    (conv2d_block_traced B input kernel params regs N K TM TN TK T_h T_w O_h O_w BLK_W ppb
      out_c out_h out_w h_out w_out s).1 =
    conv2d_block B input kernel params regs N K TM TN TK T_h T_w O_h O_w BLK_W ppb
      out_c out_h out_w h_out w_out s.1 := by
  unfold conv2d_block_traced conv2d_block
  simp only []
  refine forStep_proj Prod.fst N TN _ _ _ ?_
  intro j u
  refine forStep_proj Prod.fst ppb TM _ _ u ?_
  intro ii v
  apply conv2d_batch_traced_fst

/-- The instrumented `conv2d_nchw` returns the output and parameters `conv2d_nchw` returns. -/
theorem conv2d_nchw_traced_fst (output input : TensorNCHW α) (kernel : KernelTensor α)
    (params : ConvParams) (scr : Scratch α) :
    (conv2d_nchw_traced output input kernel params scr).1 =
      conv2d_nchw output input kernel params scr := by
  unfold conv2d_nchw_traced conv2d_nchw
  by_cases hn : input.n > 1
  · simp only [if_pos hn]
  · simp only [if_neg hn]
    congr 2
    refine congrArg ConvState.out ?_
    refine forStep_proj Prod.fst _ _ _ _ _ ?_
    intro h_out u
    refine forStep_proj Prod.fst _ _ _ _ u ?_
    intro w_out v
    apply conv2d_block_traced_fst

end Instrumented

/-- A property kept by every iteration is kept by the range loop. -/
theorem forRange_preserve {σ : Type} (Q : σ → Prop) (lo hi : Int) (body : Int → σ → σ) (s : σ)
    (h0 : Q s) (hs : ∀ i t, lo ≤ i → i < hi → Q t → Q (body i t)) :
    Q (forRange lo hi body s) :=
  forRange_inv (fun _ t => Q t) lo hi body s h0 hs

section TraceRules

variable {α : Type} [CommRing α]

/-! ## What the instrumented functions add to the trace -/

/-- Trace rule for `im2col_transform_scpad`: the function only adds load records, one per
patch `m` it transforms, channel `c` and kernel row `kh` it visits.  A property of the
trace that survives adding each of these records survives the call. -/
theorem im2col_transform_scpad_traced_rule (Q : Trace α → Prop) (Good : LoadCall → Prop)
    (hQ : ∀ t e, Q t → Good e → Q { t with loads := e :: t.loads })
    (sc_A : Int → α) (off : Int) (sc_RAW : Int → α) (params : ConvParams)
    (K_h K_w C_in O_h O_w i_start k_start TM TK T_h T_w rc rh rw lim : Int)
    (regs : VRegs α) (t : Trace α)
    (hgood : ∀ m c kh, 0 ≤ m → m < TM → i_start + m < O_h * O_w → m < lim →
      k_start.tdiv (K_h * K_w) ≤ c → c < (k_start + TK + K_w).tdiv (K_h * K_w) + 1 →
      c < C_in → 0 ≤ c - rc → 0 ≤ kh → kh < K_h →
      Good ⟨(c - rc) * (T_h * T_w) +
          ((i_start + m).tdiv O_w * params.stride - params.padding - rh + kh) * T_w +
          ((i_start + m).tmod O_w * params.stride - params.padding - rw),
        TK,
        (if T_w - ((i_start + m).tmod O_w * params.stride - params.padding - rw) < 0 then 0
          else T_w - ((i_start + m).tmod O_w * params.stride - params.padding - rw)),
        c - rc,
        (i_start + m).tdiv O_w * params.stride - params.padding - rh + kh,
        (i_start + m).tmod O_w * params.stride - params.padding - rw⟩)
    (ht : Q t) :
    Q (im2col_transform_scpad_traced sc_A off sc_RAW params K_h K_w C_in O_h O_w i_start
      k_start TM TK T_h T_w rc rh rw lim regs t).2 := by
  unfold im2col_transform_scpad_traced
  simp only []
  refine forLoop_preserve (fun st : ((Int → α) × VRegs α) × Trace α => Q st.2) TM _
    ((sc_A, regs), t) ht ?_
  intro m u hm0 hm hu
  by_cases hskip : i_start + m ≥ O_h * O_w ∨ m ≥ lim
  · simp only [if_pos hskip]; exact hu
  · simp only [if_neg hskip]
    refine forRange_preserve (fun x : VRegs α × Trace α => Q x.2) _ _ _ _ hu ?_
    intro c x hc1 hc2 hx
    by_cases htc : c - rc < 0
    · simp only [if_pos htc]; exact hx
    · simp only [if_neg htc]
      refine forLoop_preserve (fun x : VRegs α × Trace α => Q x.2) K_h _ x hx ?_
      intro kh y hk0 hk hy
      exact hQ y.2 _ hy (hgood m c kh hm0 hm (by omega) (by omega) hc1
        (by omega) (by omega) (by omega) hk0 hk)

/-- Trace rule for the `sc_A` fill loop: a property of the trace kept by every call of
`im2col_transform_scpad` on an in-image patch of the batch is kept by the loop. -/
theorem conv2d_fill_A_traced_rule (Q : Trace α → Prop) (sc_A sc_RAW : Int → α)
    (kernel : KernelTensor α) (params : ConvParams) (regs : VRegs α)
    (O_h O_w BLK_W h_out w_out in_h in_w ii k cbs TK T_h T_w : Int) (t : Trace α)
    (him : ∀ m (a : Int → α) (u : Trace α), 0 ≤ m → m < cbs →
      h_out + (ii + m).tdiv BLK_W < O_h → w_out + (ii + m).tmod BLK_W < O_w → Q u →
      Q (im2col_transform_scpad_traced a (m * TK) sc_RAW params kernel.kh kernel.kw kernel.cin
        O_h O_w ((h_out + (ii + m).tdiv BLK_W) * O_w + (w_out + (ii + m).tmod BLK_W)) k
        1 TK T_h T_w 0 in_h in_w 1 regs u).2)
    (ht : Q t) :
    Q (conv2d_fill_A_traced sc_A sc_RAW kernel params regs O_h O_w BLK_W h_out w_out in_h in_w
      ii k cbs TK T_h T_w t).2 := by
  unfold conv2d_fill_A_traced
  refine forLoop_preserve (fun s : (Int → α) × Trace α => Q s.2) cbs _ (sc_A, t) ht ?_
  intro m u hm0 hm hu
  by_cases hskip : h_out + (ii + m).tdiv BLK_W ≥ O_h ∨ w_out + (ii + m).tmod BLK_W ≥ O_w
  · simp only [if_pos hskip]; exact hu
  · simp only [if_neg hskip]
    exact him m u.1 u.2 hm0 hm (by omega) (by omega) hu

omit [CommRing α] in
/-- Trace rule for the store loop: it only adds store records. -/
theorem conv2d_store_traced_rule (Q : Trace α → Prop)
    (hQs : ∀ t i, Q t → Q { t with stores := i :: t.stores })
    (out sc_C : Int → α) (out_c out_h out_w O_h O_w BLK_W h_out w_out ii j cbs TN : Int)
    (t : Trace α) (ht : Q t) :
    Q (conv2d_store_traced out sc_C out_c out_h out_w O_h O_w BLK_W h_out w_out ii j cbs
      TN t).2 := by
  unfold conv2d_store_traced
  refine forLoop_preserve (fun s : (Int → α) × Trace α => Q s.2) cbs _ (out, t) ht ?_
  intro m u _ _ hu
  by_cases hskip : h_out + (ii + m).tdiv BLK_W ≥ O_h ∨ w_out + (ii + m).tmod BLK_W ≥ O_w
  · simp only [if_pos hskip]; exact hu
  · simp only [if_neg hskip]
    refine forLoop_preserve (fun s : (Int → α) × Trace α => Q s.2) TN _ u hu ?_
    intro c v _ _ hv
    by_cases hch : j + c < out_c
    · simp only [if_pos hch]; exact hQs v.2 _ hv
    · simp only [if_neg hch]; exact hv

/-- Trace rule for one reduction step: the fill loop runs, then one GEMM record is added. -/
theorem conv2d_kstep_traced_rule (Q : Trace α → Prop)
    (hQg : ∀ t g, Q t → Q { t with gemms := g :: t.gemms })
    (B : Int → α) (kernel : KernelTensor α) (params : ConvParams) (regs : VRegs α)
    (N K TM TN TK T_h T_w O_h O_w BLK_W h_out w_out in_h in_w j ii cbs : Int) (k : Int)
    (s : ConvState α × Trace α)
    (hfill : ∀ (a r : Int → α) (u : Trace α), Q u →
      Q (conv2d_fill_A_traced a r kernel params regs O_h O_w BLK_W h_out w_out in_h in_w
        ii k cbs TK T_h T_w u).2)
    (hs : Q s.2) :
    Q (conv2d_kstep_traced B kernel params regs N K TM TN TK T_h T_w O_h O_w BLK_W
      h_out w_out in_h in_w j ii cbs k s).2 := by
  unfold conv2d_kstep_traced
  exact hQg _ _ (hfill _ _ _ hs)

/-- Trace rule for one batch. -/
theorem conv2d_batch_traced_rule (Q : Trace α → Prop)
    (hQg : ∀ t g, Q t → Q { t with gemms := g :: t.gemms })
    (hQs : ∀ t i, Q t → Q { t with stores := i :: t.stores })
    (B : Int → α) (kernel : KernelTensor α) (params : ConvParams) (regs : VRegs α)
    (N K TM TN TK T_h T_w O_h O_w BLK_W ppb : Int)
    (out_c out_h out_w h_out w_out in_h in_w j : Int) (ii : Int)
    (s : ConvState α × Trace α) (hTK : 1 ≤ TK)
    (hfill : ∀ k (a r : Int → α) (u : Trace α), 0 ≤ k → Q u →
      Q (conv2d_fill_A_traced a r kernel params regs O_h O_w BLK_W h_out w_out in_h in_w
        ii k (if ppb - ii > TM then TM else ppb - ii) TK T_h T_w u).2)
    (hs : Q s.2) :
    Q (conv2d_batch_traced B kernel params regs N K TM TN TK T_h T_w O_h O_w BLK_W ppb
      out_c out_h out_w h_out w_out in_h in_w j ii s).2 := by
  unfold conv2d_batch_traced
  simp only []
  apply conv2d_store_traced_rule Q hQs
  refine forStep_preserve (fun x : ConvState α × Trace α => Q x.2) K TK _ _ hTK hs ?_
  intro k u hk0 _ hu
  exact conv2d_kstep_traced_rule Q hQg B kernel params regs N K TM TN TK T_h T_w O_h O_w BLK_W
    h_out w_out in_h in_w j ii _ k u (fun a r v hv => hfill k a r v hk0 hv) hu

/-- Trace rule for one block. -/
theorem conv2d_block_traced_rule (Q : Trace α → Prop)
    (hQg : ∀ t g, Q t → Q { t with gemms := g :: t.gemms })
    (hQs : ∀ t i, Q t → Q { t with stores := i :: t.stores })
    (B : Int → α) (input : TensorNCHW α) (kernel : KernelTensor α)
    (params : ConvParams) (regs : VRegs α)
    (N K TM TN TK T_h T_w O_h O_w BLK_W ppb out_c out_h out_w : Int)
    (h_out : Int) (w_out : Int) (s : ConvState α × Trace α)
    (hTM : 1 ≤ TM) (hTN : 1 ≤ TN) (hTK : 1 ≤ TK)
    (hfill : ∀ ii k (a r : Int → α) (u : Trace α), 0 ≤ ii → ii < ppb → 0 ≤ k → Q u →
      Q (conv2d_fill_A_traced a r kernel params regs O_h O_w BLK_W h_out w_out
        (h_out * params.stride - params.padding) (w_out * params.stride - params.padding)
        ii k (if ppb - ii > TM then TM else ppb - ii) TK T_h T_w u).2)
    (hs : Q s.2) :
    Q (conv2d_block_traced B input kernel params regs N K TM TN TK T_h T_w O_h O_w BLK_W ppb
      out_c out_h out_w h_out w_out s).2 := by
  unfold conv2d_block_traced
  simp only []
  refine forStep_preserve (fun x : ConvState α × Trace α => Q x.2) N TN _ _ hTN hs ?_
  intro j u _ _ hu
  refine forStep_preserve (fun x : ConvState α × Trace α => Q x.2) ppb TM _ u hTM hu ?_
  intro ii v hi0 hi hv
  exact conv2d_batch_traced_rule Q hQg hQs B kernel params regs N K TM TN TK T_h T_w O_h O_w
    BLK_W ppb out_c out_h out_w h_out w_out _ _ j ii v hTK
    (fun k a r w hk0 hw => hfill ii k a r w hi0 hi hk0 hw) hv

/-- Trace rule for `conv2d_nchw`: a property that holds of the empty trace, survives adding
any GEMM record and any store record, and is kept by the `sc_A` fill loop of every batch the
tiling walk visits, holds of the trace of the whole run. -/
theorem conv2d_nchw_traced_rule (Q : Trace α → Prop)
    (hQg : ∀ t g, Q t → Q { t with gemms := g :: t.gemms })
    (hQs : ∀ t i, Q t → Q { t with stores := i :: t.stores })
    (output input : TensorNCHW α) (kernel : KernelTensor α) (params : ConvParams)
    (scr : Scratch α) (h0 : Q ⟨[], [], []⟩)
    (hfill : ∀ h_out w_out ii k (a r : Int → α) (u : Trace α),
      0 ≤ h_out → 0 ≤ w_out → 0 ≤ ii →
      ii < blk_dim kernel.kh (norm_dilation params.dilation) params.stride *
        blk_dim kernel.kw (norm_dilation params.dilation) params.stride →
      0 ≤ k → Q u →
      Q (conv2d_fill_A_traced a r kernel
        ⟨params.stride, params.padding, norm_dilation params.dilation⟩ scr.regs
        (out_dim input.h kernel.kh (norm_dilation params.dilation) params.padding
          params.stride)
        (out_dim input.w kernel.kw (norm_dilation params.dilation) params.padding
          params.stride)
        (blk_dim kernel.kw (norm_dilation params.dilation) params.stride) h_out w_out
        (h_out * params.stride - params.padding) (w_out * params.stride - params.padding)
        ii k
        (if blk_dim kernel.kh (norm_dilation params.dilation) params.stride *
            blk_dim kernel.kw (norm_dilation params.dilation) params.stride - ii > 32 then 32
          else blk_dim kernel.kh (norm_dilation params.dilation) params.stride *
            blk_dim kernel.kw (norm_dilation params.dilation) params.stride - ii)
        32 32 32 u).2) :
    Q (conv2d_nchw_traced output input kernel params scr).2 := by
  have hD : ¬ norm_dilation params.dilation < 1 := by
    unfold norm_dilation; split_ifs <;> omega
  have norm : conv2d_nchw_traced output input kernel params scr =
      conv2d_nchw_traced output input kernel
        ⟨params.stride, params.padding, norm_dilation params.dilation⟩ scr := by
    unfold norm_dilation
    by_cases h : params.dilation < 1
    · have e1 : (if params.dilation < 1 then ({ params with dilation := 1 } : ConvParams)
          else params) = ⟨params.stride, params.padding, 1⟩ := by rw [if_pos h]
      unfold conv2d_nchw_traced
      simp only [e1, if_pos h]
      simp
    · have e1 : (if params.dilation < 1 then ({ params with dilation := 1 } : ConvParams)
          else params) = params := by rw [if_neg h]
      unfold conv2d_nchw_traced
      simp only [e1, if_neg h]
  rw [norm]
  unfold conv2d_nchw_traced
  simp only [if_neg hD]
  by_cases hn : input.n > 1
  · simp only [if_pos hn]; exact h0
  · simp only [if_neg hn]
    refine forStep_preserve (fun x : ConvState α × Trace α => Q x.2) _ _ _ _
      (blk_dim_pos kernel.kh (norm_dilation params.dilation) params.stride) h0 ?_
    intro h_out u hh0 _ hu
    refine forStep_preserve (fun x : ConvState α × Trace α => Q x.2) _ _ _ u
      (blk_dim_pos kernel.kw (norm_dilation params.dilation) params.stride) hu ?_
    intro w_out v hw0 _ hv
    exact conv2d_block_traced_rule Q hQg hQs _ input kernel
      ⟨params.stride, params.padding, norm_dilation params.dilation⟩ scr.regs _ _ 32 32 32 32 32
      _ _ _ _ _ _ _ h_out w_out v (by norm_num) (by norm_num) (by norm_num)
      (fun ii k a r w hi0 hi hk0 hw => hfill h_out w_out ii k a r w hh0 hw0 hi0 hi hk0 hw) hv

end TraceRules

section LoadBounds

variable {α : Type} [CommRing α]

/-! ## Scratchpad reads of a well-formed call -/

/-- In a block that fits the 32x32 tile, every `sim_vector_load_row_safe` call of the
`sc_A` fill loop stays inside the scratchpad. -/
theorem conv2d_fill_A_loads_in_bounds (sc_A sc_RAW : Int → α) (kernel : KernelTensor α)
    (params : ConvParams) (regs : VRegs α)
    (O_h O_w BLK_H BLK_W h_out w_out ii k cbs : Int) (t : Trace α)
    (hKh : 1 ≤ kernel.kh) (hKw : 1 ≤ kernel.kw) (hS : 1 ≤ params.stride) (hBW : 1 ≤ BLK_W)
    (hfh : (BLK_H - 1) * params.stride + kernel.kh ≤ 32)
    (hfw : (BLK_W - 1) * params.stride + kernel.kw ≤ 32)
    (hh : 0 ≤ h_out) (hw : 0 ≤ w_out) (hii : 0 ≤ ii) (hk : 0 ≤ k)
    (hcbs : ii + cbs ≤ BLK_H * BLK_W)
    (ht : ∀ e ∈ t.loads, e.vector_len = 32 ∧ LoadInBounds kernel.cin e) :
    ∀ e ∈ (conv2d_fill_A_traced sc_A sc_RAW kernel params regs O_h O_w BLK_W h_out w_out
      (h_out * params.stride - params.padding) (w_out * params.stride - params.padding)
      ii k cbs 32 32 32 t).2.loads, e.vector_len = 32 ∧ LoadInBounds kernel.cin e := by
  refine conv2d_fill_A_traced_rule
    (fun u : Trace α => ∀ e ∈ u.loads, e.vector_len = 32 ∧ LoadInBounds kernel.cin e)
    sc_A sc_RAW kernel params regs O_h O_w BLK_W h_out w_out _ _ ii k cbs 32 32 32 t ?_ ht
  intro m a u hm0 hm hinh hinw hu
  obtain ⟨b1, b2, b3, b4, _⟩ :=
    local_patch_bounds (ii + m) BLK_H BLK_W (by omega) (by omega) hBW
  refine im2col_transform_scpad_traced_rule
    (fun u : Trace α => ∀ e ∈ u.loads, e.vector_len = 32 ∧ LoadInBounds kernel.cin e)
    (fun e => e.vector_len = 32 ∧ LoadInBounds kernel.cin e)
    ?_ a (m * 32) sc_RAW params kernel.kh kernel.kw kernel.cin O_h O_w _ k 1 32 32 32 0 _ _ 1
    regs u ?_ hu
  · intro v e hv he e2 he2
    rcases List.mem_cons.mp he2 with h1 | h1
    · rw [h1]; exact he
    · exact hv e2 h1
  · intro m2 c kh hm20 hm21 _ _ hc1 _ hc3 _ hk0 hk1
    have hm2 : m2 = 0 := by omega
    subst hm2
    obtain ⟨u1, u2⟩ := patch_unravel (h_out + (ii + m).tdiv BLK_W)
      (w_out + (ii + m).tmod BLK_W) O_w (by omega) (by omega) (by omega)
    rw [add_zero, u1, u2]
    have hsks : 0 < kernel.kh * kernel.kw := by nlinarith
    have hc0 : 0 ≤ c := by
      have : 0 ≤ k.tdiv (kernel.kh * kernel.kw) := by
        rw [tdiv_nonneg_eq _ _ hk (by omega)]
        exact Int.ediv_nonneg hk (by omega)
      omega
    have hrs : (ii + m).tdiv BLK_W * params.stride ≤ (BLK_H - 1) * params.stride := by
      apply mul_le_mul_of_nonneg_right (by omega) (by omega)
    have hcs : (ii + m).tmod BLK_W * params.stride ≤ (BLK_W - 1) * params.stride := by
      apply mul_le_mul_of_nonneg_right (by omega) (by omega)
    have hrs0 : 0 ≤ (ii + m).tdiv BLK_W * params.stride := mul_nonneg b1 (by omega)
    have hcs0 : 0 ≤ (ii + m).tmod BLK_W * params.stride := mul_nonneg b3 (by omega)
    have elh : (h_out + (ii + m).tdiv BLK_W) * params.stride - params.padding -
        (h_out * params.stride - params.padding) = (ii + m).tdiv BLK_W * params.stride := by
      ring
    have elw : (w_out + (ii + m).tmod BLK_W) * params.stride - params.padding -
        (w_out * params.stride - params.padding) = (ii + m).tmod BLK_W * params.stride := by
      ring
    rw [elh, elw]
    generalize (ii + m).tdiv BLK_W * params.stride = lh at hrs hrs0
    generalize (ii + m).tmod BLK_W * params.stride = lw at hcs hcs0
    unfold LoadInBounds
    simp only []
    refine ⟨trivial, trivial, by omega, by omega, by omega, by omega, ?_⟩
    intro i hi0 hi32 hiv
    have hv : i < 32 - lw := by
      split_ifs at hiv <;> omega
    refine ⟨by omega, by omega, by omega, by omega⟩

/-- C16: for every call of `conv2d_nchw` with stride at least 1, dilation at least 1, kernel
sides at least 1 and effective kernel sizes at most 32 (any batch size and padding, so in
particular `n = 1` and padding at least 0), every call of `sim_vector_load_row_safe` the run
makes (the load records of the instrumented function, which computes the same result) reads
the scratchpad in bounds: its address is `chan*32*32 + row*32 + col` with the channel in
`[0, C_in)` and the row `lh + kh` in `[0, 32)`, and for every lane `i < min(32, valid)` it
reads, the index `load_addr + i` lies in `[0, C_in*32*32)` and the column `lw + i` in
`[0, 32)`. -/
theorem conv2d_nchw_loads_in_bounds (output input : TensorNCHW α) (kernel : KernelTensor α)
    (params : ConvParams) (scr : Scratch α)
    (hS : 1 ≤ params.stride) (hD : 1 ≤ params.dilation)
    (hKh : 1 ≤ kernel.kh) (hKw : 1 ≤ kernel.kw)
    (hEh : (kernel.kh - 1) * params.dilation + 1 ≤ 32)
    (hEw : (kernel.kw - 1) * params.dilation + 1 ≤ 32) :
    (conv2d_nchw_traced output input kernel params scr).1 =
      conv2d_nchw output input kernel params scr ∧
    ∀ e ∈ (conv2d_nchw_traced output input kernel params scr).2.loads,
      e.vector_len = 32 ∧
      e.start_idx = e.chan * (32 * 32) + e.row * 32 + e.col ∧
      0 ≤ e.chan ∧ e.chan < kernel.cin ∧ 0 ≤ e.row ∧ e.row < 32 ∧
      ∀ i, 0 ≤ i → i < min 32 e.valid →
        0 ≤ e.start_idx + i ∧ e.start_idx + i < kernel.cin * 32 * 32 ∧
        0 ≤ e.col + i ∧ e.col + i < 32 := by
  refine ⟨conv2d_nchw_traced_fst output input kernel params scr, ?_⟩
  have hnd : norm_dilation params.dilation = params.dilation := by
    unfold norm_dilation; rw [if_neg (by omega)]
  have hKh32 : kernel.kh ≤ 32 := by nlinarith
  have hKw32 : kernel.kw ≤ 32 := by nlinarith
  obtain ⟨bh1, bh2⟩ := blk_dim_fits kernel.kh (norm_dilation params.dilation) params.stride
    hKh hKh32 (by omega) hS
  obtain ⟨bw1, bw2⟩ := blk_dim_fits kernel.kw (norm_dilation params.dilation) params.stride
    hKw hKw32 (by omega) hS
  have key := conv2d_nchw_traced_rule
    (fun u : Trace α => ∀ e ∈ u.loads, e.vector_len = 32 ∧ LoadInBounds kernel.cin e)
    (fun t g ht => ht) (fun t i ht => ht) output input kernel params scr
    (by intro e he; cases he) (by
      intro h_out w_out ii k a r u hh0 hw0 hi0 hi hk0 hu
      exact conv2d_fill_A_loads_in_bounds a r kernel
        ⟨params.stride, params.padding, norm_dilation params.dilation⟩ scr.regs _ _
        (blk_dim kernel.kh (norm_dilation params.dilation) params.stride)
        (blk_dim kernel.kw (norm_dilation params.dilation) params.stride)
        h_out w_out ii k _ u hKh hKw hS bw1 bh2 bw2 hh0 hw0 hi0 hk0
        (by split_ifs <;> omega) hu)
  intro e he
  obtain ⟨hlen, h1, h2, h3, h4, h5, h6⟩ := key e he
  refine ⟨hlen, h1, h2, h3, h4, h5, ?_⟩
  intro i hi0 hi
  exact h6 i hi0 (by omega) (by omega)

end LoadBounds

/-! ## First iterations -/

/-- A property the first iteration establishes from the initial state, and every iteration
keeps, holds after the loop. -/
theorem forLoop_first {σ : Type} (Q : σ → Prop) (n : Int) (body : Int → σ → σ) (s : σ)
    (hn : 0 < n) (hfirst : Q (body 0 s))
    (hQs : ∀ i t, 0 ≤ i → i < n → Q t → Q (body i t)) :
    Q (forLoop n body s) := by
  have key := forLoop_inv (fun i t => (i = 0 ∧ t = s) ∨ (0 < i ∧ Q t)) n body s
    (Or.inl ⟨rfl, rfl⟩) (by
      intro i t h0 hn2 hI
      rcases hI with ⟨hi, ht⟩ | ⟨_, ht⟩
      · subst hi; subst ht; exact Or.inr ⟨by omega, hfirst⟩
      · exact Or.inr ⟨by omega, hQs i t h0 hn2 ht⟩)
  rcases key with ⟨h, _⟩ | ⟨_, h⟩
  · omega
  · exact h

theorem forRange_first {σ : Type} (Q : σ → Prop) (lo hi : Int) (body : Int → σ → σ) (s : σ)
    (hn : lo < hi) (hfirst : Q (body lo s))
    (hQs : ∀ i t, lo ≤ i → i < hi → Q t → Q (body i t)) :
    Q (forRange lo hi body s) := by
  have key := forRange_inv (fun i t => (i = lo ∧ t = s) ∨ (lo < i ∧ Q t)) lo hi body s
    (Or.inl ⟨rfl, rfl⟩) (by
      intro i t h0 hn2 hI
      rcases hI with ⟨hi2, ht⟩ | ⟨_, ht⟩
      · subst hi2; subst ht; exact Or.inr ⟨by omega, hfirst⟩
      · exact Or.inr ⟨by omega, hQs i t h0 hn2 ht⟩)
  rcases key with ⟨h, _⟩ | ⟨_, h⟩
  · omega
  · exact h

theorem forStep_first {σ : Type} (Q : σ → Prop) (n step : Int) (body : Int → σ → σ) (s : σ)
    (hstep : 1 ≤ step) (hn : 0 < n) (hfirst : Q (body 0 s))
    (hQs : ∀ j t, 0 ≤ j → j < n → Q t → Q (body j t)) :
    Q (forStep n step body s) := by
  obtain ⟨j, hj1, _, hj⟩ := forStep_inv (fun i t => (i = 0 ∧ t = s) ∨ (0 < i ∧ Q t))
    n step body s hstep (Or.inl ⟨rfl, rfl⟩) (by
      intro i t h0 hn2 hI
      rcases hI with ⟨hi, ht⟩ | ⟨_, ht⟩
      · subst hi; subst ht; exact Or.inr ⟨by omega, hfirst⟩
      · exact Or.inr ⟨by omega, hQs i t h0 hn2 ht⟩)
  rcases hj with ⟨h, _⟩ | ⟨_, h⟩
  · omega
  · exact h

/-- If iteration `i0` establishes `Q` and every iteration keeps `Q`, the range loop
establishes `Q`. -/
theorem forRange_establish {σ : Type} (Q : σ → Prop) (lo hi i0 : Int) (body : Int → σ → σ)
    (s : σ) (hi0 : lo ≤ i0) (hi0n : i0 < hi) (hest : ∀ t, Q (body i0 t))
    (hQs : ∀ i t, lo ≤ i → i < hi → Q t → Q (body i t)) :
    Q (forRange lo hi body s) := by
  have key := forRange_inv (fun i t => i0 < i → Q t) lo hi body s
    (fun h => absurd h (by omega)) (by
      intro i t h0 hn hQt hlt
      by_cases hc : i = i0
      · subst hc; exact hest t
      · exact hQs i t h0 hn (hQt (by omega)))
  exact key (by omega)

section Closed

variable {α : Type} [CommRing α]

/-! ## Properties of the trace that survive every new record -/

/-- The `sc_A` fill loop keeps every property of the trace that survives new load
records. -/
theorem conv2d_fill_A_traced_closed (P : Trace α → Prop)
    (hQl : ∀ t e, P t → P { t with loads := e :: t.loads })
    (sc_A sc_RAW : Int → α) (kernel : KernelTensor α) (params : ConvParams) (regs : VRegs α)
    (O_h O_w BLK_W h_out w_out in_h in_w ii k cbs TK T_h T_w : Int) (t : Trace α) (ht : P t) :
    P (conv2d_fill_A_traced sc_A sc_RAW kernel params regs O_h O_w BLK_W h_out w_out in_h in_w
      ii k cbs TK T_h T_w t).2 := by
  refine conv2d_fill_A_traced_rule P sc_A sc_RAW kernel params regs O_h O_w BLK_W h_out w_out
    in_h in_w ii k cbs TK T_h T_w t ?_ ht
  intro m a u _ _ _ _ hu
  exact im2col_transform_scpad_traced_rule P (fun _ => True) (fun v e hv _ => hQl v e hv)
    a (m * TK) sc_RAW params kernel.kh kernel.kw kernel.cin O_h O_w _ k 1 TK T_h T_w 0 in_h in_w
    1 regs u (fun _ _ _ _ _ _ _ _ _ _ _ _ _ => trivial) hu

/-- The instrumented `conv2d_nchw` only ever uses the normalised dilation. -/
theorem conv2d_nchw_traced_norm (output input : TensorNCHW α) (kernel : KernelTensor α)
    (params : ConvParams) (scr : Scratch α) :
    conv2d_nchw_traced output input kernel params scr =
      conv2d_nchw_traced output input kernel
        ⟨params.stride, params.padding, norm_dilation params.dilation⟩ scr := by
  unfold norm_dilation
  by_cases h : params.dilation < 1
  · have e1 : (if params.dilation < 1 then ({ params with dilation := 1 } : ConvParams)
        else params) = ⟨params.stride, params.padding, 1⟩ := by rw [if_pos h]
    unfold conv2d_nchw_traced
    simp only [e1, if_pos h]
    simp
  · have e1 : (if params.dilation < 1 then ({ params with dilation := 1 } : ConvParams)
        else params) = params := by rw [if_neg h]
    unfold conv2d_nchw_traced
    simp only [e1, if_neg h]

/-- The first reduction step of the first batch of the first block: a property of the trace
that survives every new record, and that this step establishes from the empty trace with
`sc_A` still holding its initial contents, holds of the trace of the whole run, provided the
output is not empty and the kernel has at least one tap. -/
theorem conv2d_nchw_traced_first_kstep (P : Trace α → Prop)
    (hQl : ∀ t e, P t → P { t with loads := e :: t.loads })
    (hQg : ∀ t g, P t → P { t with gemms := g :: t.gemms })
    (hQs : ∀ t i, P t → P { t with stores := i :: t.stores })
    (output input : TensorNCHW α) (kernel : KernelTensor α) (params : ConvParams)
    (scr : Scratch α) (hn : input.n ≤ 1)
    (hOh : 1 ≤ out_dim input.h kernel.kh (norm_dilation params.dilation) params.padding
      params.stride)
    (hOw : 1 ≤ out_dim input.w kernel.kw (norm_dilation params.dilation) params.padding
      params.stride)
    (hN : 1 ≤ kernel.cout) (hK : 1 ≤ kernel.cin * kernel.kh * kernel.kw)
    (hfirst : ∀ st : ConvState α, st.sc_A = scr.sc_A →
      P (conv2d_kstep_traced (flatten_kernels_to_B_matrix kernel scr.B_matrix) kernel
        ⟨params.stride, params.padding, norm_dilation params.dilation⟩ scr.regs
        kernel.cout (kernel.cin * kernel.kh * kernel.kw) 32 32 32 32 32
        (out_dim input.h kernel.kh (norm_dilation params.dilation) params.padding
          params.stride)
        (out_dim input.w kernel.kw (norm_dilation params.dilation) params.padding
          params.stride)
        (blk_dim kernel.kw (norm_dilation params.dilation) params.stride) 0 0
        (0 * params.stride - params.padding) (0 * params.stride - params.padding) 0 0
        (if blk_dim kernel.kh (norm_dilation params.dilation) params.stride *
            blk_dim kernel.kw (norm_dilation params.dilation) params.stride - 0 > 32 then 32
          else blk_dim kernel.kh (norm_dilation params.dilation) params.stride *
            blk_dim kernel.kw (norm_dilation params.dilation) params.stride - 0)
        0 (st, ⟨[], [], []⟩)).2) :
    P (conv2d_nchw_traced output input kernel params scr).2 := by
  have hD : ¬ norm_dilation params.dilation < 1 := by
    unfold norm_dilation; split_ifs <;> omega
  have bh := blk_dim_pos kernel.kh (norm_dilation params.dilation) params.stride
  have bw := blk_dim_pos kernel.kw (norm_dilation params.dilation) params.stride
  have hppb : 0 < blk_dim kernel.kh (norm_dilation params.dilation) params.stride *
      blk_dim kernel.kw (norm_dilation params.dilation) params.stride := by nlinarith
  have hfill : ∀ (h_out w_out in_h in_w ii k cbs : Int) (a r : Int → α) (u : Trace α), P u →
      P (conv2d_fill_A_traced a r kernel
        ⟨params.stride, params.padding, norm_dilation params.dilation⟩ scr.regs
        (out_dim input.h kernel.kh (norm_dilation params.dilation) params.padding
          params.stride)
        (out_dim input.w kernel.kw (norm_dilation params.dilation) params.padding
          params.stride)
        (blk_dim kernel.kw (norm_dilation params.dilation) params.stride) h_out w_out
        in_h in_w ii k cbs 32 32 32 u).2 :=
    fun h_out w_out in_h in_w ii k cbs a r u hu =>
      conv2d_fill_A_traced_closed P hQl a r kernel _ scr.regs _ _ _ h_out w_out in_h in_w ii k
        cbs 32 32 32 u hu
  have hblock : ∀ (h_out w_out : Int) (v : ConvState α × Trace α), P v.2 →
      P (conv2d_block_traced (flatten_kernels_to_B_matrix kernel scr.B_matrix) input kernel
        ⟨params.stride, params.padding, norm_dilation params.dilation⟩ scr.regs
        kernel.cout (kernel.cin * kernel.kh * kernel.kw) 32 32 32 32 32
        (out_dim input.h kernel.kh (norm_dilation params.dilation) params.padding
          params.stride)
        (out_dim input.w kernel.kw (norm_dilation params.dilation) params.padding
          params.stride)
        (blk_dim kernel.kw (norm_dilation params.dilation) params.stride)
        (blk_dim kernel.kh (norm_dilation params.dilation) params.stride *
          blk_dim kernel.kw (norm_dilation params.dilation) params.stride)
        kernel.cout
        (out_dim input.h kernel.kh (norm_dilation params.dilation) params.padding
          params.stride)
        (out_dim input.w kernel.kw (norm_dilation params.dilation) params.padding
          params.stride) h_out w_out v).2 :=
    fun h_out w_out v hv =>
      conv2d_block_traced_rule P hQg hQs _ input kernel _ scr.regs _ _ 32 32 32 32 32 _ _ _ _
        _ _ _ h_out w_out v (by norm_num) (by norm_num) (by norm_num)
        (fun ii k a r w _ _ _ hw => hfill _ _ _ _ ii k _ a r w hw) hv
  rw [conv2d_nchw_traced_norm]
  unfold conv2d_nchw_traced
  simp only [if_neg hD, if_neg (not_lt.mpr hn)]
  refine forStep_first (fun x : ConvState α × Trace α => P x.2) _ _ _ _ bh
    (lt_of_lt_of_le Int.zero_lt_one hOh) ?_ ?_
  swap
  · intro h_out u _ _ hu
    refine forStep_preserve (fun x : ConvState α × Trace α => P x.2) _ _ _ u bw hu ?_
    intro w_out v _ _ hv
    exact hblock h_out w_out v hv
  refine forStep_first (fun x : ConvState α × Trace α => P x.2) _ _ _ _ bw
    (lt_of_lt_of_le Int.zero_lt_one hOw) ?_ ?_
  swap
  · intro w_out v _ _ hv
    exact hblock 0 w_out v hv
  unfold conv2d_block_traced
  simp only []
  refine forStep_first (fun x : ConvState α × Trace α => P x.2) _ _ _ _ (by decide)
    (lt_of_lt_of_le Int.zero_lt_one hN) ?_ ?_
  swap
  · intro j u _ _ hu
    refine forStep_preserve (fun x : ConvState α × Trace α => P x.2) _ _ _ u (by decide) hu ?_
    intro ii v _ _ hv
    exact conv2d_batch_traced_rule P hQg hQs _ kernel _ scr.regs _ _ 32 32 32 32 32 _ _ _ _
      _ _ _ 0 0 _ _ j ii v (by decide) (fun k a r w _ hw => hfill _ _ _ _ ii k _ a r w hw) hv
  refine forStep_first (fun x : ConvState α × Trace α => P x.2) _ _ _ _ (by decide)
    hppb ?_ ?_
  swap
  · intro ii v _ _ hv
    exact conv2d_batch_traced_rule P hQg hQs _ kernel _ scr.regs _ _ 32 32 32 32 32 _ _ _ _
      _ _ _ 0 0 _ _ 0 ii v (by decide) (fun k a r w _ hw => hfill _ _ _ _ ii k _ a r w hw) hv
  unfold conv2d_batch_traced
  simp only []
  apply conv2d_store_traced_rule P hQs
  refine forStep_first (fun x : ConvState α × Trace α => P x.2) _ _ _ _ (by decide)
    (lt_of_lt_of_le Int.zero_lt_one hK) ?_ ?_
  swap
  · intro k u _ _ hu
    exact conv2d_kstep_traced_rule P hQg _ kernel _ scr.regs _ _ 32 32 32 32 32 _ _ _
      0 0 _ _ 0 0 _ k u (fun a r w hw => hfill _ _ _ _ 0 k _ a r w hw) hu
  exact hfirst _ rfl

end Closed

section Stale

variable {α : Type} [CommRing α]

/-! ## Rows of `sc_A` past the batch -/

/-- A single-patch call of `im2col_transform_scpad` writes only the `TK` lanes at its
offset. -/
theorem im2col_transform_scpad_frame_one (sc_A : Int → α) (off : Int) (sc_RAW : Int → α)
    (params : ConvParams) (K_h K_w C_in O_h O_w p k_start TK T_h T_w rc rh rw : Int)
    (regs : VRegs α) (j : Int) (hj : j < off ∨ off + TK ≤ j) :
    im2col_transform_scpad sc_A off sc_RAW params K_h K_w C_in O_h O_w p k_start 1 TK T_h T_w
      rc rh rw 1 regs j = sc_A j := by
  unfold im2col_transform_scpad
  simp only [forLoop_one]
  by_cases hc : p + 0 ≥ O_h * O_w ∨ (0 : Int) ≥ 1
  · rw [if_pos hc]
    simp only [memset0_apply, zero_mul, add_zero]
    rw [if_neg (by omega)]
  · rw [if_neg hc]
    simp only [memcpy_apply, zero_mul, add_zero]
    rw [if_neg (by omega)]

/-- The `sc_A` fill loop of a batch of `cbs` patches leaves every row from `cbs` on as it
was. -/
theorem conv2d_fill_A_frame (sc_A sc_RAW : Int → α) (kernel : KernelTensor α)
    (params : ConvParams) (regs : VRegs α)
    (O_h O_w BLK_W h_out w_out in_h in_w ii k cbs : Int) (idx : Int)
    (hidx : cbs * 32 ≤ idx) :
    conv2d_fill_A sc_A sc_RAW kernel params regs O_h O_w BLK_W h_out w_out in_h in_w
      ii k cbs 32 32 32 idx = sc_A idx := by
  unfold conv2d_fill_A
  refine forLoop_mem_frame _ _ sc_A idx ?_
  intro m t hm0 hm
  split_ifs with hskip
  · rw [memset0_apply, if_neg (by omega)]
  · exact im2col_transform_scpad_frame_one _ _ _ _ _ _ _ _ _ _ _ _ _ _ _ _ _ _ _
      (Or.inr (by omega))

/-- At the first call of `atallax_gemmv` of a run with a non-empty output, every element of
`sc_A` from row `current_batch_size` on still holds what `sc_A` held before the run. -/
theorem conv2d_nchw_traced_first_gemm (output input : TensorNCHW α) (kernel : KernelTensor α)
    (params : ConvParams) (scr : Scratch α) (hn : input.n ≤ 1)
    (hOh : 1 ≤ out_dim input.h kernel.kh (norm_dilation params.dilation) params.padding
      params.stride)
    (hOw : 1 ≤ out_dim input.w kernel.kw (norm_dilation params.dilation) params.padding
      params.stride)
    (hN : 1 ≤ kernel.cout) (hK : 1 ≤ kernel.cin * kernel.kh * kernel.kw) :
    ∃ g ∈ (conv2d_nchw_traced output input kernel params scr).2.gemms,
      g.current_batch_size =
        (if blk_dim kernel.kh (norm_dilation params.dilation) params.stride *
            blk_dim kernel.kw (norm_dilation params.dilation) params.stride - 0 > 32 then 32
          else blk_dim kernel.kh (norm_dilation params.dilation) params.stride *
            blk_dim kernel.kw (norm_dilation params.dilation) params.stride - 0) ∧
      ∀ idx, g.current_batch_size * 32 ≤ idx → g.sc_A idx = scr.sc_A idx := by
  refine conv2d_nchw_traced_first_kstep
    (fun t : Trace α => ∃ g ∈ t.gemms,
      g.current_batch_size =
        (if blk_dim kernel.kh (norm_dilation params.dilation) params.stride *
            blk_dim kernel.kw (norm_dilation params.dilation) params.stride - 0 > 32 then 32
          else blk_dim kernel.kh (norm_dilation params.dilation) params.stride *
            blk_dim kernel.kw (norm_dilation params.dilation) params.stride - 0) ∧
      ∀ idx, g.current_batch_size * 32 ≤ idx → g.sc_A idx = scr.sc_A idx)
    (fun t e ht => ht)
    (fun t g ht => by
      obtain ⟨x, hx, hp⟩ := ht
      exact ⟨x, List.mem_cons_of_mem _ hx, hp⟩)
    (fun t i ht => ht) output input kernel params scr hn hOh hOw hN hK ?_
  intro st hst
  unfold conv2d_kstep_traced
  simp only []
  refine ⟨_, List.mem_cons_self _ _, rfl, ?_⟩
  intro idx hidx
  simp only [] at hidx
  rw [conv2d_fill_A_traced_fst]
  dsimp only
  rw [conv2d_fill_A_frame _ _ _ _ _ _ _ _ _ _ _ _ _ _ _ idx hidx, hst]

end Stale

set_option maxRecDepth 100000 in
/-- C18: a run in which rows of `sc_A` past the batch limit are not zero at a call of
`atallax_gemmv`.  With a 32x32 kernel on a 32x32 input (stride 1, padding 0, dilation 1)
a block holds one output patch, so `current_batch_size = 1`; at the first call of
`atallax_gemmv` all 32 lanes of row 1 of `sc_A` still hold the value 7 that `sc_A` held
before the run. -/
theorem conv2d_nchw_unused_rows_stale :
    ∃ g ∈ (conv2d_nchw_traced main_output tile_input tile_kernel ⟨1, 0, 1⟩
        stale_scratch).2.gemms,
      g.current_batch_size = 1 ∧ ∀ r, 0 ≤ r → r < 32 → g.sc_A (1 * 32 + r) = 7 := by
  obtain ⟨g, hg, hc, hf⟩ := conv2d_nchw_traced_first_gemm main_output tile_input tile_kernel
    ⟨1, 0, 1⟩ stale_scratch (by decide) (by decide) (by decide) (by decide) (by decide)
  have hc1 : g.current_batch_size = 1 := by rw [hc]; decide
  refine ⟨g, hg, hc1, ?_⟩
  intro r hr0 _
  rw [hf (1 * 32 + r) (by rw [hc1]; omega)]
  rfl

section FirstLoads

variable {α : Type} [CommRing α]

/-! ## The loads of the first patch -/

/-- A single-patch call of `im2col_transform_scpad` on an in-image patch `p` records, for
every channel `c0` it visits and every kernel row `kh0`, the load of scratchpad row
`local_h_start + kh0` of channel `c0 - rc` at column `local_w_start`. -/
theorem im2col_transform_scpad_traced_mem (sc_A : Int → α) (off : Int) (sc_RAW : Int → α)
    (params : ConvParams) (K_h K_w C_in O_h O_w p k_start TK T_h T_w rc rh rw : Int)
    (regs : VRegs α) (t : Trace α) (c0 kh0 : Int) (tgt : LoadCall) (hp : p < O_h * O_w)
    (hc1 : k_start.tdiv (K_h * K_w) ≤ c0)
    (hc2 : c0 < (k_start + TK + K_w).tdiv (K_h * K_w) + 1) (hc3 : c0 < C_in)
    (hc4 : 0 ≤ c0 - rc) (hk0 : 0 ≤ kh0) (hk1 : kh0 < K_h)
    (htgt : tgt = ⟨(c0 - rc) * (T_h * T_w) +
        (p.tdiv O_w * params.stride - params.padding - rh + kh0) * T_w +
        (p.tmod O_w * params.stride - params.padding - rw),
      TK,
      (if T_w - (p.tmod O_w * params.stride - params.padding - rw) < 0 then 0
        else T_w - (p.tmod O_w * params.stride - params.padding - rw)),
      c0 - rc,
      p.tdiv O_w * params.stride - params.padding - rh + kh0,
      p.tmod O_w * params.stride - params.padding - rw⟩) :
    tgt ∈ (im2col_transform_scpad_traced sc_A off sc_RAW params K_h K_w C_in O_h O_w p k_start
      1 TK T_h T_w rc rh rw 1 regs t).2.loads := by
  unfold im2col_transform_scpad_traced
  simp only [forLoop_one, add_zero]
  have hskip : ¬ (p ≥ O_h * O_w ∨ (0 : Int) ≥ 1) := by omega
  rw [if_neg hskip]
  simp only []
  refine forRange_establish (fun x : VRegs α × Trace α => tgt ∈ x.2.loads)
    _ _ c0 _ _ hc1 (by omega) ?_ ?_
  · intro x
    have htc : ¬ (c0 - rc < 0) := by omega
    simp only [if_neg htc]
    refine forLoop_establish (fun _ => True) (fun y : VRegs α × Trace α => tgt ∈ y.2.loads)
      K_h kh0 _ x hk0 hk1 trivial (fun _ _ _ _ _ => trivial) ?_ ?_
    · intro y _
      rw [htgt]
      exact List.mem_cons_self _ _
    · intro kh y _ _ _ hy
      exact List.mem_cons_of_mem _ hy
  · intro c x _ _ hx
    by_cases htc : c - rc < 0
    · simp only [if_pos htc]; exact hx
    · simp only [if_neg htc]
      refine forLoop_preserve (fun y : VRegs α × Trace α => tgt ∈ y.2.loads) K_h _ x hx ?_
      intro kh y _ _ hy
      exact List.mem_cons_of_mem _ hy

/-- The loads of the first patch: a run with a non-empty output calls
`sim_vector_load_row_safe`, for every kernel row `kh0`, on row `kh0`, column 0 of channel 0
of the scratchpad, at address `kh0 * 32` with 32 valid lanes. -/
theorem conv2d_nchw_traced_first_loads (output input : TensorNCHW α) (kernel : KernelTensor α)
    (params : ConvParams) (scr : Scratch α) (kh0 : Int) (hn : input.n ≤ 1)
    (hOh : 1 ≤ out_dim input.h kernel.kh (norm_dilation params.dilation) params.padding
      params.stride)
    (hOw : 1 ≤ out_dim input.w kernel.kw (norm_dilation params.dilation) params.padding
      params.stride)
    (hN : 1 ≤ kernel.cout) (hcin : 1 ≤ kernel.cin) (hKh : 1 ≤ kernel.kh) (hKw : 1 ≤ kernel.kw)
    (hk0 : 0 ≤ kh0) (hk1 : kh0 < kernel.kh) :
    ∃ e ∈ (conv2d_nchw_traced output input kernel params scr).2.loads,
      e.start_idx = kh0 * 32 ∧ e.vector_len = 32 ∧ e.valid = 32 ∧ e.chan = 0 ∧
        e.row = kh0 ∧ e.col = 0 := by
  have hsks : 0 < kernel.kh * kernel.kw := by nlinarith
  have hK : 1 ≤ kernel.cin * kernel.kh * kernel.kw := by nlinarith
  have bh := blk_dim_pos kernel.kh (norm_dilation params.dilation) params.stride
  have bw := blk_dim_pos kernel.kw (norm_dilation params.dilation) params.stride
  have hppb : 0 < blk_dim kernel.kh (norm_dilation params.dilation) params.stride *
      blk_dim kernel.kw (norm_dilation params.dilation) params.stride := by nlinarith
  refine conv2d_nchw_traced_first_kstep
    (fun t : Trace α => ∃ e ∈ t.loads,
      e.start_idx = kh0 * 32 ∧ e.vector_len = 32 ∧ e.valid = 32 ∧ e.chan = 0 ∧
        e.row = kh0 ∧ e.col = 0)
    (fun t e ht => by
      obtain ⟨x, hx, hp⟩ := ht
      exact ⟨x, List.mem_cons_of_mem _ hx, hp⟩)
    (fun t g ht => ht) (fun t i ht => ht) output input kernel params scr hn hOh hOw hN hK ?_
  intro st _
  unfold conv2d_kstep_traced
  simp only []
  unfold conv2d_fill_A_traced
  refine forLoop_first (fun s : (Int → α) × Trace α => ∃ e ∈ s.2.loads,
      e.start_idx = kh0 * 32 ∧ e.vector_len = 32 ∧ e.valid = 32 ∧ e.chan = 0 ∧
        e.row = kh0 ∧ e.col = 0) _ _ _ (by split_ifs <;> omega) ?_ ?_
  · simp only [add_zero, zero_add, Int.zero_tdiv, Int.zero_tmod, zero_mul]
    rw [if_neg (by omega)]
    have hmem := im2col_transform_scpad_traced_mem st.sc_A 0 st.sc_RAW
      ⟨params.stride, params.padding, norm_dilation params.dilation⟩ kernel.kh kernel.kw
      kernel.cin
      (out_dim input.h kernel.kh (norm_dilation params.dilation) params.padding params.stride)
      (out_dim input.w kernel.kw (norm_dilation params.dilation) params.padding params.stride)
      0 0 32 32 32 0 (0 - params.padding) (0 - params.padding) scr.regs ⟨[], [], []⟩ 0 kh0 _
      (by nlinarith) (by simp) (by
        have : 0 ≤ ((0 : Int) + 32 + kernel.kw).tdiv (kernel.kh * kernel.kw) :=
          Int.tdiv_nonneg (by omega) (by omega)
        omega) (by omega) (by omega) hk0 hk1 rfl
    refine ⟨_, hmem, ?_⟩
    simp
  · intro m u _ _ hu
    obtain ⟨x, hx, hp⟩ := hu
    simp only []
    by_cases hskip : 0 + (0 + m).tdiv (blk_dim kernel.kw (norm_dilation params.dilation)
          params.stride) ≥
        out_dim input.h kernel.kh (norm_dilation params.dilation) params.padding
          params.stride ∨
      0 + (0 + m).tmod (blk_dim kernel.kw (norm_dilation params.dilation) params.stride) ≥
        out_dim input.w kernel.kw (norm_dilation params.dilation) params.padding params.stride
    · simp only [if_pos hskip]
      exact ⟨x, hx, hp⟩
    · simp only [if_neg hskip]
      exact im2col_transform_scpad_traced_rule
        (fun t : Trace α => ∃ e ∈ t.loads,
          e.start_idx = kh0 * 32 ∧ e.vector_len = 32 ∧ e.valid = 32 ∧ e.chan = 0 ∧
            e.row = kh0 ∧ e.col = 0) (fun _ => True)
        (fun t e ht _ => by
          obtain ⟨y, hy, hq⟩ := ht
          exact ⟨y, List.mem_cons_of_mem _ hy, hq⟩)
        _ _ _ _ _ _ _ _ _ _ _ _ _ _ _ _ _ _ _ _ _
        (fun _ _ _ _ _ _ _ _ _ _ _ _ _ => trivial) ⟨x, hx, hp⟩

end FirstLoads

/-- C17: a run that reads past the end of the scratchpad `sc_RAW`.  With a 33x1 kernel on a
33x1 single-channel input (`n = 1`, stride 1, padding 0, dilation 1) the scratchpad has
`C_in*32*32 = 1024` elements, and the run calls `sim_vector_load_row_safe` for kernel row
32 at address 1024 with 32 valid lanes: it reads `sc_RAW[1024 .. 1055]`, every index of
which lies outside `[0, 1024)`. -/
theorem conv2d_nchw_oversize_reads_out_of_bounds :
    ∃ e ∈ (conv2d_nchw_traced main_output column_input tall_kernel ⟨1, 0, 1⟩
        zero_scratch).2.loads,
      e.start_idx = 1024 ∧ e.vector_len = 32 ∧ e.valid = 32 ∧
        ∀ i, 0 ≤ i → i < min e.vector_len e.valid →
          tall_kernel.cin * 32 * 32 ≤ e.start_idx + i := by
  obtain ⟨e, he, h1, h2, h3, _⟩ := conv2d_nchw_traced_first_loads main_output column_input
    tall_kernel ⟨1, 0, 1⟩ zero_scratch 32 (by decide) (by decide) (by decide) (by decide)
    (by decide) (by decide) (by decide) (by decide) (by decide)
  refine ⟨e, he, by rw [h1]; rfl, h2, h3, ?_⟩
  intro i hi0 _
  rw [h1]
  have : tall_kernel.cin * 32 * 32 = 1024 := by decide
  omega

/-- Witness of C16 on the 5x5 input of `src/main.c` with its 3x3 kernel: every scratchpad
load of the run is in bounds. -/
theorem conv2d_nchw_loads_in_bounds_witness :
    (conv2d_nchw_traced main_output main_input main_kernel ⟨1, 0, 1⟩ zero_scratch).1 =
      conv2d_nchw main_output main_input main_kernel ⟨1, 0, 1⟩ zero_scratch ∧
    ∀ e ∈ (conv2d_nchw_traced main_output main_input main_kernel ⟨1, 0, 1⟩
        zero_scratch).2.loads,
      e.vector_len = 32 ∧
      e.start_idx = e.chan * (32 * 32) + e.row * 32 + e.col ∧
      0 ≤ e.chan ∧ e.chan < main_kernel.cin ∧ 0 ≤ e.row ∧ e.row < 32 ∧
      ∀ i, 0 ≤ i → i < min 32 e.valid →
        0 ≤ e.start_idx + i ∧ e.start_idx + i < main_kernel.cin * 32 * 32 ∧
        0 ≤ e.col + i ∧ e.col + i < 32 :=
  conv2d_nchw_loads_in_bounds main_output main_input main_kernel ⟨1, 0, 1⟩ zero_scratch
    (by decide) (by decide) (by decide) (by decide) (by decide) (by decide)

section Primitives

variable {α : Type} [CommRing α]

/-! ## Contracts of the GEMM intrinsic and of the vector primitives -/

/-- An element of `sc_C` outside the `TM x TN` tile is not touched by `atallax_gemmv`. -/
theorem atallax_gemmv_frame (sc_C sc_A sc_B : Int → α) (TM TN TK : Int) (idx : Int)
    (hidx : ∀ m n, 0 ≤ m → m < TM → 0 ≤ n → n < TN → idx ≠ m * TN + n) :
    atallax_gemmv sc_C sc_A sc_B TM TN TK idx = sc_C idx := by
  unfold atallax_gemmv
  refine forLoop_mem_frame _ _ sc_C idx ?_
  intro m t hm0 hm
  refine forLoop_mem_frame _ _ t idx ?_
  intro n t2 hn0 hn
  exact wr_other _ _ _ _ (hidx m n hm0 hm hn0 hn)

/-- C21: the scalar `atallax_gemmv` computes, for every `m < TM` and `n < TN`,
`sc_C'[m*TN + n] = sc_C[m*TN + n] + sum over k < TK of sc_A[m*TK + k] * sc_B[k*TN + n]`;
row `m` of the result depends only on row `m` of `sc_C` and of `sc_A` (and on `sc_B`);
elements of `sc_C` outside the tile keep their value; and in the reduction step of
`conv2d_nchw` the buffers `sc_A` and `sc_B` after the call are the ones passed to it (the
function has no store to them). -/
theorem atallax_gemmv_spec (sc_C sc_A sc_B : Int → α) (TM TN TK : Int) :
    (∀ m n, 0 ≤ m → m < TM → 0 ≤ n → n < TN →
      atallax_gemmv sc_C sc_A sc_B TM TN TK (m * TN + n) =
        sc_C (m * TN + n) + sumTo TK (fun k => sc_A (m * TK + k) * sc_B (k * TN + n))) ∧
    (∀ (sc_C2 sc_A2 : Int → α) (m : Int), 0 ≤ m → m < TM →
      (∀ n, 0 ≤ n → n < TN → sc_C2 (m * TN + n) = sc_C (m * TN + n)) →
      (∀ k, 0 ≤ k → k < TK → sc_A2 (m * TK + k) = sc_A (m * TK + k)) →
      ∀ n, 0 ≤ n → n < TN →
        atallax_gemmv sc_C2 sc_A2 sc_B TM TN TK (m * TN + n) =
          atallax_gemmv sc_C sc_A sc_B TM TN TK (m * TN + n)) ∧
    (∀ idx, (∀ m n, 0 ≤ m → m < TM → 0 ≤ n → n < TN → idx ≠ m * TN + n) →
      atallax_gemmv sc_C sc_A sc_B TM TN TK idx = sc_C idx) ∧
    (∀ (B : Int → α) (kernel : KernelTensor α) (params : ConvParams) (regs : VRegs α)
      (N K T_h T_w O_h O_w BLK_W h_out w_out in_h in_w j ii cbs k : Int) (st : ConvState α),
      (conv2d_kstep B kernel params regs N K TM TN TK T_h T_w O_h O_w BLK_W h_out w_out
          in_h in_w j ii cbs k st).sc_A =
        conv2d_fill_A st.sc_A st.sc_RAW kernel params regs O_h O_w BLK_W h_out w_out in_h in_w
          ii k cbs TK T_h T_w ∧
      (conv2d_kstep B kernel params regs N K TM TN TK T_h T_w O_h O_w BLK_W h_out w_out
          in_h in_w j ii cbs k st).sc_B = load_b_tile st.sc_B B K N k j TK TN ∧
      (conv2d_kstep B kernel params regs N K TM TN TK T_h T_w O_h O_w BLK_W h_out w_out
          in_h in_w j ii cbs k st).sc_C =
        atallax_gemmv st.sc_C
          (conv2d_fill_A st.sc_A st.sc_RAW kernel params regs O_h O_w BLK_W h_out w_out
            in_h in_w ii k cbs TK T_h T_w)
          (load_b_tile st.sc_B B K N k j TK TN) TM TN TK) := by
  refine ⟨fun m n hm0 hm hn0 hn => atallax_gemmv_apply sc_C sc_A sc_B TM TN TK m n hm0 hm hn0 hn,
    ?_, fun idx hidx => atallax_gemmv_frame sc_C sc_A sc_B TM TN TK idx hidx,
    fun _ _ _ _ _ _ _ _ _ _ _ _ _ _ _ _ _ _ _ _ => ⟨rfl, rfl, rfl⟩⟩
  intro sc_C2 sc_A2 m hm0 hm hC hA n hn0 hn
  rw [atallax_gemmv_apply sc_C2 sc_A2 sc_B TM TN TK m n hm0 hm hn0 hn,
    atallax_gemmv_apply sc_C sc_A sc_B TM TN TK m n hm0 hm hn0 hn, hC n hn0 hn]
  congr 1
  apply sumTo_congr
  intro k hk0 hk
  rw [hA k hk0 hk]

/-- The instrumented `sim_vector_load_row_safe` computes the register
`sim_vector_load_row_safe` computes. -/
theorem sim_vector_load_row_safe_traced_fst (v base : Int → α) (offset L valid : Int) :
    (sim_vector_load_row_safe_traced v base offset L valid).1 =
      sim_vector_load_row_safe v base offset L valid := by
  unfold sim_vector_load_row_safe_traced sim_vector_load_row_safe
  refine forLoop_proj Prod.fst L _ _ (v, []) ?_
  intro i u _ _
  by_cases h : i < valid
  · simp only [if_pos h]
  · simp only [if_neg h]

/-- The indices `sim_vector_load_row_safe` reads: `offset + i` for the lanes `i < L` with
`i < valid`, and no other. -/
theorem sim_vector_load_row_safe_reads (v base : Int → α) (offset L valid : Int) (idx : Int) :
    idx ∈ (sim_vector_load_row_safe_traced v base offset L valid).2 ↔
      ∃ i, 0 ≤ i ∧ i < L ∧ i < valid ∧ idx = offset + i := by
  unfold sim_vector_load_row_safe_traced
  constructor
  · intro hmem
    refine forLoop_preserve
      (fun st : (Int → α) × List Int => ∀ x ∈ st.2,
        ∃ i, 0 ≤ i ∧ i < L ∧ i < valid ∧ x = offset + i)
      L _ (v, []) (by intro x h; cases h) ?_ idx hmem
    intro i u hi0 hi hu
    by_cases h : i < valid
    · simp only [if_pos h]
      intro x hx
      rcases List.mem_cons.mp hx with h1 | h1
      · exact ⟨i, hi0, hi, h, h1⟩
      · exact hu x h1
    · simp only [if_neg h]
      exact hu
  · rintro ⟨i, hi0, hi, hv, rfl⟩
    refine forLoop_establish (fun _ => True)
      (fun st : (Int → α) × List Int => offset + i ∈ st.2)
      L i _ (v, []) hi0 hi trivial (fun _ _ _ _ _ => trivial) ?_ ?_
    · intro u _
      simp only [if_pos hv]
      exact List.mem_cons_self _ _
    · intro i2 u _ _ _ hu
      by_cases h : i2 < valid
      · simp only [if_pos h]
        exact List.mem_cons_of_mem _ hu
      · simp only [if_neg h]
        exact hu

/-- C26: `sim_vector_load_row_safe`, for every vector length `L`, offset and valid count:
after the call `v[i] = base[offset + i]` for every lane `0 ≤ i < L` with `i < valid` and
`v[i] = 0` for every other lane `i < L`; a valid count `≤ 0` yields the all-zero vector;
lanes outside `[0, L)` are not written; and the indices of `base` read (the read list of the
instrumented function, which computes the same register) are exactly `offset + i` for
`0 ≤ i < min(valid, L)`, so no element `base[offset + i]` with `i ≥ valid` is read. -/
theorem sim_vector_load_row_safe_spec (v base : Int → α) (offset L valid : Int) :
    (∀ i, 0 ≤ i → i < L →
      sim_vector_load_row_safe v base offset L valid i =
        if i < valid then base (offset + i) else 0) ∧
    (valid ≤ 0 → ∀ i, 0 ≤ i → i < L → sim_vector_load_row_safe v base offset L valid i = 0) ∧
    (∀ i, ¬ (0 ≤ i ∧ i < L) → sim_vector_load_row_safe v base offset L valid i = v i) ∧
    (sim_vector_load_row_safe_traced v base offset L valid).1 =
      sim_vector_load_row_safe v base offset L valid ∧
    (∀ idx, idx ∈ (sim_vector_load_row_safe_traced v base offset L valid).2 ↔
      ∃ i, 0 ≤ i ∧ i < L ∧ i < valid ∧ idx = offset + i) ∧
    (∀ i, valid ≤ i →
      offset + i ∉ (sim_vector_load_row_safe_traced v base offset L valid).2) := by
  refine ⟨?_, ?_, ?_, sim_vector_load_row_safe_traced_fst v base offset L valid,
    sim_vector_load_row_safe_reads v base offset L valid, ?_⟩
  · intro i hi0 hi
    rw [sim_vector_load_row_safe_apply, if_pos ⟨hi0, hi⟩]
  · intro hv i hi0 hi
    rw [sim_vector_load_row_safe_apply, if_pos ⟨hi0, hi⟩, if_neg (by omega)]
  · intro i hi
    rw [sim_vector_load_row_safe_apply, if_neg hi]
  · intro i hvi hmem
    obtain ⟨i2, _, _, hv2, h⟩ :=
      (sim_vector_load_row_safe_reads v base offset L valid (offset + i)).mp hmem
    omega

/-- C27: `sim_vector_shift` with an amount `a ≥ 0`, for every vector length `L` (at most 32
in the source, whose local array has 32 lanes): a left shift yields `v'[i] = v[i + a]` if
`i + a < L` and 0 otherwise, a right shift yields `v'[i] = v[i - a]` if `i ≥ a` and 0
otherwise, where `v` is the vector before the call; every lane read is a lane `[0, L)` of
`v`; shifting by 0 is the identity; shifting by `a ≥ L` gives the zero vector; lanes outside
`[0, L)` are not written. -/
theorem sim_vector_shift_spec (v temp : Int → α) (L a : Int) (ha : 0 ≤ a) :
    (∀ i, 0 ≤ i → i < L →
      sim_vector_shift v L a true temp i = if i + a < L then v (i + a) else 0) ∧
    (∀ i, 0 ≤ i → i < L →
      sim_vector_shift v L a false temp i = if a ≤ i then v (i - a) else 0) ∧
    (∀ i, 0 ≤ i → i < L → (i + a < L → 0 ≤ i + a) ∧ (i - a ≥ 0 → i - a < L)) ∧
    (∀ left, sim_vector_shift v L 0 left temp = v) ∧
    (L ≤ a → ∀ left i, 0 ≤ i → i < L → sim_vector_shift v L a left temp i = 0) ∧
    (∀ left i, ¬ (0 ≤ i ∧ i < L) → sim_vector_shift v L a left temp i = v i) := by
  refine ⟨?_, ?_, ?_, ?_, ?_, ?_⟩
  · intro i hi0 hi
    rw [sim_vector_shift_apply, if_pos ⟨hi0, hi⟩]
    simp
  · intro i hi0 hi
    rw [sim_vector_shift_apply, if_pos ⟨hi0, hi⟩]
    simp
  · intro i hi0 hi
    exact ⟨fun _ => by omega, fun _ => by omega⟩
  · intro left
    funext i
    rw [sim_vector_shift_apply]
    by_cases hi : 0 ≤ i ∧ i < L
    · rw [if_pos hi]
      cases left
      · simp [hi.1]
      · simp [hi.2]
    · rw [if_neg hi]
  · intro hL left i hi0 hi
    rw [sim_vector_shift_apply, if_pos ⟨hi0, hi⟩]
    cases left
    · simp only [Bool.false_eq_true, if_false]
      rw [if_neg (by omega)]
    · simp only [if_true]
      rw [if_neg (by omega)]
  · intro left i hi
    rw [sim_vector_shift_apply, if_neg hi]

/-- C28: the mask-shift idiom.  For every scratchpad offset `o`, window width `w`, valid count
`valid ≥ w` and placement `p ≥ 0` (in particular `1 ≤ w ≤ 32`, `0 ≤ p < 32`), the sequence
`sim_vector_load_row_safe(o, valid)`, `sim_vector_create_window_mask(w)`,
`sim_vector_mask_apply`, `sim_vector_shift` right by `p` on 32-lane registers produces
`v[i] = base[o + i - p]` for `p ≤ i < min(p + w, 32)` and `v[i] = 0` for every other lane
`i < 32`; the mask it builds is `m[i] = (i < w)`. -/
theorem mask_shift_window (v base temp : Int → α) (mask : Int → Bool) (o w valid p : Int)
    (hv : w ≤ valid) (hp0 : 0 ≤ p) :
    (∀ i, 0 ≤ i → i < 32 →
      sim_vector_shift
        (sim_vector_mask_apply (sim_vector_load_row_safe v base o 32 valid) 32
          (sim_vector_create_window_mask mask 32 w)) 32 p false temp i =
        if p ≤ i ∧ i < p + w then base (o + i - p) else 0) ∧
    (∀ i, 0 ≤ i → i < 32 → sim_vector_create_window_mask mask 32 w i = decide (i < w)) := by
  constructor
  · intro i hi0 hi
    rw [sim_vector_shift_apply, if_pos ⟨hi0, hi⟩]
    simp only [Bool.false_eq_true, if_false]
    by_cases hpi : i - p ≥ 0
    · have hj : 0 ≤ i - p ∧ i - p < 32 := ⟨by omega, by omega⟩
      rw [if_pos hpi, sim_vector_mask_apply_apply, sim_vector_create_window_mask_apply,
        sim_vector_load_row_safe_apply]
      simp only [if_pos hj]
      by_cases hwin : i - p < w
      · have hd : decide (i - p < w) = true := by simpa using hwin
        rw [if_pos hd, if_pos (by omega), if_pos ⟨by omega, by omega⟩]
        congr 1
        ring
      · have hd : ¬ (decide (i - p < w) = true) := by simpa using hwin
        rw [if_neg hd, if_neg (by omega)]
    · rw [if_neg hpi, if_neg (by omega)]
  · intro i hi0 hi
    rw [sim_vector_create_window_mask_apply, if_pos ⟨hi0, hi⟩]

/-- Witness of C27: shifting the ramp register `v[i] = i` of 32 lanes right by 3 puts
`v[2] = 2` in lane 5. -/
theorem sim_vector_shift_spec_witness :
    sim_vector_shift (fun i : Int => i) 32 3 false (fun _ => (0 : Int)) 5 = 2 :=
  ((sim_vector_shift_spec (fun i : Int => i) (fun _ => (0 : Int)) 32 3 (by decide)).2.1 5
    (by decide) (by decide)).trans (by decide)

/-- Witness of C28: a window of width 3 taken at offset 10 of the ramp scratchpad (5 valid
pixels) and placed at lane 4 puts `base[11] = 11` in lane 5. -/
theorem mask_shift_window_witness :
    sim_vector_shift
      (sim_vector_mask_apply (sim_vector_load_row_safe (fun _ => (9 : Int)) (fun i => i) 10 32 5)
        32 (sim_vector_create_window_mask (fun _ => false) 32 3)) 32 4 false
      (fun _ => (0 : Int)) 5 = 11 :=
  ((mask_shift_window (fun _ => (9 : Int)) (fun i => i) (fun _ => (0 : Int)) (fun _ => false)
    10 3 5 4 (by decide) (by decide)).1 5 (by decide) (by decide)).trans (by decide)

end Primitives

section Rows

variable {α : Type} [Zero α] {σ : Type}

/-! ## The row loop of `im2col_transform_scpad`

Both vector variants of `im2col_transform_scpad` run the same loop over the rows `m` of
`sc_A`: a skipped row is cleared by `memset`, any other row is built in the register
`v_accum` and copied to the row by `memcpy`. -/

/-- The row loop writes only inside the rows `0 .. TM-1`. -/
theorem rows_loop_frame (TM TK off : Int) (skip : Int → Prop) [DecidablePred skip]
    (F : Int → σ → σ) (acc : σ → Int → α) (sc_A : Int → α) (regs : σ) (idx : Int)
    (hidx : ∀ m, 0 ≤ m → m < TM → ¬ (off + m * TK ≤ idx ∧ idx < off + m * TK + TK)) :
    (forLoop TM (fun m (st : (Int → α) × σ) =>
      if skip m then (memset0 st.1 (off + m * TK) TK, st.2)
      else (memcpy st.1 (off + m * TK) (acc (F m st.2)) 0 TK, F m st.2)) (sc_A, regs)).1 idx =
      sc_A idx := by
  refine forLoop_frame (fun st : (Int → α) × σ => st.1 idx) TM _ (sc_A, regs) ?_
  intro m t hm0 hm
  by_cases hs : skip m
  · simp only [if_pos hs, memset0_apply, if_neg (hidx m hm0 hm)]
  · simp only [if_neg hs, memcpy_apply, if_neg (hidx m hm0 hm)]

/-- Lane `k` of row `m` after the row loop: 0 for a skipped row, and otherwise the lane of
`v_accum` the row's iteration builds (which does not depend on the registers it starts
from). -/
theorem rows_loop_row (TM TK off : Int) (skip : Int → Prop) [DecidablePred skip]
    (F : Int → σ → σ) (acc : σ → Int → α) (sc_A : Int → α) (regs : σ) (m k : Int) (v : α)
    (hm0 : 0 ≤ m) (hm : m < TM) (hk0 : 0 ≤ k) (hk : k < TK)
    (hv : ¬ skip m → ∀ r, acc (F m r) k = v) :
    (forLoop TM (fun m (st : (Int → α) × σ) =>
      if skip m then (memset0 st.1 (off + m * TK) TK, st.2)
      else (memcpy st.1 (off + m * TK) (acc (F m st.2)) 0 TK, F m st.2)) (sc_A, regs)).1
        (off + m * TK + k) =
      if skip m then 0 else v := by
  refine forLoop_single (fun st : (Int → α) × σ => st.1 (off + m * TK + k))
    (fun _ => if skip m then 0 else v) TM m _ (sc_A, regs) hm0 hm ?_ ?_
  · intro i t hi0 hi hne
    have hout : ¬ (off + i * TK ≤ off + m * TK + k ∧ off + m * TK + k < off + i * TK + TK) := by
      rintro ⟨h1, h2⟩
      rcases lt_or_gt_of_ne hne with hlt | hgt
      · have : i + 1 ≤ m := by omega
        nlinarith
      · have : m + 1 ≤ i := by omega
        nlinarith
    by_cases hs : skip i
    · simp only [if_pos hs, memset0_apply, if_neg hout]
    · simp only [if_neg hs, memcpy_apply, if_neg hout]
  · intro t
    have hin : off + m * TK ≤ off + m * TK + k ∧ off + m * TK + k < off + m * TK + TK := by
      omega
    by_cases hs : skip m
    · simp only [if_pos hs, memset0_apply, if_pos hin]
    · simp only [if_neg hs, memcpy_apply, if_pos hin]
      have e : 0 + (off + m * TK + k - (off + m * TK)) = k := by ring
      rw [e]
      exact hv hs t.2

end Rows

section RowsOfIm2col

variable {α : Type} [CommRing α]

/-- The channel loop and the `kh` loop of `im2col_transform_scpad`, started from a cleared
`v_accum`, leave in lane `k` the sum of the contributions of the kernel rows they visit. -/
theorem im2col_accum_lane (sc_RAW : Int → α) (K_h K_w C_in k_start TK T_h T_w rc lh lw : Int)
    (r : VRegs α) (k : Int) (hk0 : 0 ≤ k) (hk : k < TK) :
    (forRange (k_start.tdiv (K_h * K_w)) (min ((k_start + TK + K_w).tdiv (K_h * K_w) + 1) C_in)
      (fun c r =>
        if c - rc < 0 then r
        else forLoop K_h (im2col_kh_body sc_RAW K_w k_start TK T_h T_w (K_h * K_w) lh lw c
          (c - rc)) r)
      ({ r with v_accum := memset0 r.v_accum 0 TK } : VRegs α)).v_accum k =
      im2col_lane sc_RAW K_h K_w C_in k_start TK T_h T_w rc lh lw k := by
  unfold im2col_lane
  simp only []
  rw [forRange_sum (fun r : VRegs α => r.v_accum k)
    (fun c => if c - rc < 0 then 0
      else ∑ kh in Finset.range K_h.toNat,
        im2col_contrib sc_RAW K_w k_start TK T_h T_w (K_h * K_w) lh lw c (c - rc) (kh : Int) k)]
  · simp only [memset0_apply]
    rw [if_pos ⟨hk0, by omega⟩, zero_add]
  · intro c t _ _
    by_cases htc : c - rc < 0
    · simp [htc]
    · rw [if_neg htc, if_neg htc]
      exact forLoop_sum (fun r : VRegs α => r.v_accum k) _ K_h _ t
        (fun kh u _ _ => im2col_kh_body_accum sc_RAW K_w k_start TK T_h T_w (K_h * K_w)
          _ _ c (c - rc) kh u k hk0 hk)

/-- Lane `k` of row `m` of `sc_A` after `im2col_transform_scpad`: 0 for a skipped row, the
sum of the visited kernel rows' contributions otherwise. -/
theorem im2col_transform_scpad_row (sc_A : Int → α) (off : Int) (sc_RAW : Int → α)
    (params : ConvParams) (K_h K_w C_in O_h O_w i_start k_start TM TK T_h T_w rc rh rw : Int)
    (M_limit : Int) (regs : VRegs α) (m k : Int)
    (hm0 : 0 ≤ m) (hm : m < TM) (hk0 : 0 ≤ k) (hk : k < TK) :
    im2col_transform_scpad sc_A off sc_RAW params K_h K_w C_in O_h O_w i_start k_start TM TK
        T_h T_w rc rh rw M_limit regs (off + m * TK + k) =
      if i_start + m ≥ O_h * O_w ∨ m ≥ M_limit then 0
      else im2col_lane sc_RAW K_h K_w C_in k_start TK T_h T_w rc
        ((i_start + m).tdiv O_w * params.stride - params.padding - rh)
        ((i_start + m).tmod O_w * params.stride - params.padding - rw) k := by
  unfold im2col_transform_scpad
  exact rows_loop_row TM TK off (fun m => i_start + m ≥ O_h * O_w ∨ m ≥ M_limit)
    (fun m (r : VRegs α) =>
      forRange (k_start.tdiv (K_h * K_w))
        (min ((k_start + TK + K_w).tdiv (K_h * K_w) + 1) C_in)
        (fun c r =>
          if c - rc < 0 then r
          else forLoop K_h (im2col_kh_body sc_RAW K_w k_start TK T_h T_w (K_h * K_w)
            ((i_start + m).tdiv O_w * params.stride - params.padding - rh)
            ((i_start + m).tmod O_w * params.stride - params.padding - rw) c (c - rc)) r)
        ({ r with v_accum := memset0 r.v_accum 0 TK } : VRegs α))
    (fun r : VRegs α => r.v_accum) sc_A regs m k _ hm0 hm hk0 hk
    (fun _ r => im2col_accum_lane sc_RAW K_h K_w C_in k_start TK T_h T_w rc _ _ r k hk0 hk)

/-- Function `im2col_transform_scpad` writes only inside the rows `0 .. TM-1` of `sc_A`. -/
theorem im2col_transform_scpad_frame (sc_A : Int → α) (off : Int) (sc_RAW : Int → α)
    (params : ConvParams) (K_h K_w C_in O_h O_w i_start k_start TM TK T_h T_w rc rh rw : Int)
    (M_limit : Int) (regs : VRegs α) (idx : Int)
    (hidx : ∀ m, 0 ≤ m → m < TM → ¬ (off + m * TK ≤ idx ∧ idx < off + m * TK + TK)) :
    im2col_transform_scpad sc_A off sc_RAW params K_h K_w C_in O_h O_w i_start k_start TM TK
        T_h T_w rc rh rw M_limit regs idx = sc_A idx := by
  unfold im2col_transform_scpad
  exact rows_loop_frame TM TK off (fun m => i_start + m ≥ O_h * O_w ∨ m ≥ M_limit)
    (fun m (r : VRegs α) =>
      forRange (k_start.tdiv (K_h * K_w))
        (min ((k_start + TK + K_w).tdiv (K_h * K_w) + 1) C_in)
        (fun c r =>
          if c - rc < 0 then r
          else forLoop K_h (im2col_kh_body sc_RAW K_w k_start TK T_h T_w (K_h * K_w)
            ((i_start + m).tdiv O_w * params.stride - params.padding - rh)
            ((i_start + m).tmod O_w * params.stride - params.padding - rw) c (c - rc)) r)
        ({ r with v_accum := memset0 r.v_accum 0 TK } : VRegs α))
    (fun r : VRegs α => r.v_accum) sc_A regs idx hidx

/-! ## The vector primitives of `conv_lib_v1.c` -/

omit [CommRing α] in
/-- Lanes of the mask `sim_vector_create_window_mask` of `conv_lib_v1.c` builds. -/
theorem v1_sim_vector_create_window_mask_apply (mask : Int → Bool) (L w s j : Int) :
    V1.sim_vector_create_window_mask mask L w s j =
      if 0 ≤ j ∧ j < L then decide (j - s ≥ 0 ∧ j - s < w) else mask j := by
  unfold V1.sim_vector_create_window_mask
  rw [forLoop_lanes_of (fun i (_ : Bool) => decide (i - s ≥ 0 ∧ i - s < w))]
  intro i v
  by_cases h : i - s ≥ 0 ∧ i - s < w
  · simp only [if_pos h, decide_eq_true h]
  · simp only [if_neg h, decide_eq_false h]

/-- Lanes of the register `sim_vector_load_row` of `conv_lib_v1.c` loads. -/
theorem v1_sim_vector_load_row_apply (v sc_RAW : Int → α) (start L max_idx j : Int) :
    V1.sim_vector_load_row v sc_RAW start L max_idx j =
      if 0 ≤ j ∧ j < L then (if start + j < max_idx then sc_RAW (start + j) else 0)
      else v j := by
  unfold V1.sim_vector_load_row
  rw [forLoop_lanes_of (fun i (_ : α) => if start + i < max_idx then sc_RAW (start + i) else 0)]
  intro i v
  split_ifs <;> rfl

/-- One kernel row of `conv_lib_v1.c` adds to each lane of `v_accum` the contribution the
row adds in `conv_lib.c`, when the row lies inside the scratchpad and the window inside the
row. -/
theorem v1_im2col_kh_body_accum (sc_RAW : Int → α) (K_w k_start TK T_h T_w : Int)
    (sks size lh lw c tile_c : Int) (kh : Int) (r : VRegs α) (k : Int)
    (hk0 : 0 ≤ k) (hk : k < TK) (hw : lw + K_w ≤ T_w)
    (hbuf : tile_c * (T_h * T_w) + (lh + kh) * T_w + T_w ≤ size) :
    (V1.im2col_kh_body sc_RAW K_w k_start TK T_h T_w sks size lh lw c tile_c kh r).v_accum k =
      r.v_accum k + im2col_contrib sc_RAW K_w k_start TK T_h T_w sks lh lw c tile_c kh k := by
  unfold V1.im2col_kh_body im2col_contrib
  simp only []
  have hj : k_start + k - (c * sks + kh * K_w) = k - (c * sks + kh * K_w - k_start) := by ring
  rw [hj]
  generalize c * sks + kh * K_w - k_start = ps
  generalize tile_c * (T_h * T_w) + (lh + kh) * T_w = addr at hbuf ⊢
  have e1 : k + -ps = k - ps := by ring
  by_cases hps : ps ≥ 0
  · rw [if_pos hps]
    by_cases hps2 : ps < TK
    · rw [if_pos hps2]
      simp only [sim_vector_add_apply, sim_vector_shift_apply, sim_vector_mask_apply_apply,
        v1_sim_vector_create_window_mask_apply, v1_sim_vector_load_row_apply]
      rw [if_pos ⟨hk0, hk⟩, if_pos ⟨hk0, hk⟩]
      simp only [Bool.false_eq_true, if_false, if_true, decide_eq_true_eq, add_zero, sub_zero]
      congr 1
      split_ifs <;> first | rfl | (exfalso; simp only [decide_eq_true_eq] at *; omega)
    · rw [if_neg hps2]
      have : ¬ (0 ≤ k - ps ∧ k - ps < K_w ∧ k - ps < TK ∧ k - ps < T_w - lw) := by omega
      rw [if_neg this, add_zero]
  · rw [if_neg hps]
    by_cases hls : -ps < K_w
    · rw [if_pos hls]
      simp only [sim_vector_add_apply, sim_vector_shift_apply, sim_vector_mask_apply_apply,
        v1_sim_vector_create_window_mask_apply, v1_sim_vector_load_row_apply]
      rw [if_pos ⟨hk0, hk⟩, if_pos ⟨hk0, hk⟩, e1]
      simp only [if_true, decide_eq_true_eq, add_zero, sub_zero]
      congr 1
      split_ifs <;> first | rfl | (exfalso; simp only [decide_eq_true_eq] at *; omega)
    · rw [if_neg hls]
      have : ¬ (0 ≤ k - ps ∧ k - ps < K_w ∧ k - ps < TK ∧ k - ps < T_w - lw) := by omega
      rw [if_neg this, add_zero]

end RowsOfIm2col

section RowsOfIm2colV1

variable {α : Type} [CommRing α]

/-- The channel loop and the `kh` loop of `im2col_transform_scpad` of `conv_lib_v1.c`,
started from a cleared `v_accum`, leave in lane `k` the same sum of contributions as the loops
of `conv_lib.c`, when every visited row lies inside the scratchpad and the window inside the
row. -/
theorem v1_im2col_accum_lane (sc_RAW : Int → α)
    (K_h K_w C_in k_start TK T_h T_w size rc lh lw : Int)
    (r : VRegs α) (k : Int) (hk0 : 0 ≤ k) (hk : k < TK) (hw : lw + K_w ≤ T_w)
    (hbuf : ∀ c kh, c < C_in → 0 ≤ c - rc → 0 ≤ kh → kh < K_h →
      (c - rc) * (T_h * T_w) + (lh + kh) * T_w + T_w ≤ size) :
    (forRange (k_start.tdiv (K_h * K_w)) (min ((k_start + TK + K_w).tdiv (K_h * K_w) + 1) C_in)
      (fun c r =>
        if c - rc < 0 then r
        else forLoop K_h (V1.im2col_kh_body sc_RAW K_w k_start TK T_h T_w (K_h * K_w) size
          lh lw c (c - rc)) r)
      ({ r with v_accum := memset0 r.v_accum 0 TK } : VRegs α)).v_accum k =
      im2col_lane sc_RAW K_h K_w C_in k_start TK T_h T_w rc lh lw k := by
  unfold im2col_lane
  simp only []
  rw [forRange_sum (fun r : VRegs α => r.v_accum k)
    (fun c => if c - rc < 0 then 0
      else ∑ kh in Finset.range K_h.toNat,
        im2col_contrib sc_RAW K_w k_start TK T_h T_w (K_h * K_w) lh lw c (c - rc) (kh : Int) k)]
  · simp only [memset0_apply]
    rw [if_pos ⟨hk0, by omega⟩, zero_add]
  · intro c t _ hc
    have hcC : c < C_in := lt_of_lt_of_le hc (min_le_right _ _)
    by_cases htc : c - rc < 0
    · simp [htc]
    · rw [if_neg htc, if_neg htc]
      exact forLoop_sum (fun r : VRegs α => r.v_accum k) _ K_h _ t
        (fun kh u hkh0 hkh => v1_im2col_kh_body_accum sc_RAW K_w k_start TK T_h T_w (K_h * K_w)
          size _ _ c (c - rc) kh u k hk0 hk hw (hbuf c kh hcC (by omega) hkh0 hkh))

/-- Lane `k` of row `m` of `sc_A` after `im2col_transform_scpad` of `conv_lib_v1.c`: 0 for a
skipped row, the sum of the visited kernel rows' contributions otherwise (for a patch whose
window lies inside the tile). -/
theorem v1_im2col_transform_scpad_row (sc_A : Int → α) (off : Int) (sc_RAW : Int → α)
    (params : ConvParams) (K_h K_w C_in O_h O_w i_start k_start TM TK T_h T_w rh rw : Int)
    (M_limit : Int) (regs : VRegs α) (m k : Int)
    (hm0 : 0 ≤ m) (hm : m < TM) (hk0 : 0 ≤ k) (hk : k < TK) (hTw : 0 ≤ T_w)
    (hfit : ¬ (i_start + m ≥ O_h * O_w ∨ m ≥ M_limit) →
      0 ≤ (i_start + m).tdiv O_w * params.stride - params.padding - rh ∧
      (i_start + m).tdiv O_w * params.stride - params.padding - rh + K_h ≤ T_h ∧
      (i_start + m).tmod O_w * params.stride - params.padding - rw + K_w ≤ T_w) :
    V1.im2col_transform_scpad sc_A off sc_RAW params K_h K_w C_in O_h O_w i_start k_start TM TK
        T_h T_w 0 rh rw M_limit regs (off + m * TK + k) =
      if i_start + m ≥ O_h * O_w ∨ m ≥ M_limit then 0
      else im2col_lane sc_RAW K_h K_w C_in k_start TK T_h T_w 0
        ((i_start + m).tdiv O_w * params.stride - params.padding - rh)
        ((i_start + m).tmod O_w * params.stride - params.padding - rw) k := by
  unfold V1.im2col_transform_scpad
  refine rows_loop_row TM TK off (fun m => i_start + m ≥ O_h * O_w ∨ m ≥ M_limit)
    (fun m (r : VRegs α) =>
      forRange (k_start.tdiv (K_h * K_w))
        (min ((k_start + TK + K_w).tdiv (K_h * K_w) + 1) C_in)
        (fun c r =>
          if c - 0 < 0 then r
          else forLoop K_h (V1.im2col_kh_body sc_RAW K_w k_start TK T_h T_w (K_h * K_w)
            (C_in * T_h * T_w)
            ((i_start + m).tdiv O_w * params.stride - params.padding - rh)
            ((i_start + m).tmod O_w * params.stride - params.padding - rw) c (c - 0)) r)
        ({ r with v_accum := memset0 r.v_accum 0 TK } : VRegs α))
    (fun r : VRegs α => r.v_accum) sc_A regs m k _ hm0 hm hk0 hk ?_
  intro hs r
  obtain ⟨f1, f2, f3⟩ := hfit hs
  refine v1_im2col_accum_lane sc_RAW K_h K_w C_in k_start TK T_h T_w (C_in * T_h * T_w) 0 _ _
    r k hk0 hk f3 ?_
  intro c kh hc hc0 hkh0 hkh
  generalize (i_start + m).tdiv O_w * params.stride - params.padding - rh = lh at f1 f2
  have h1 : (lh + kh + 1) * T_w ≤ T_h * T_w :=
    mul_le_mul_of_nonneg_right (by omega) hTw
  have hTh : 0 ≤ T_h := by omega
  have h2 : (c - 0 + 1) * (T_h * T_w) ≤ C_in * (T_h * T_w) :=
    mul_le_mul_of_nonneg_right (by omega) (mul_nonneg hTh hTw)
  nlinarith

/-- Function `im2col_transform_scpad` of `conv_lib_v1.c` writes only inside the rows
`0 .. TM-1` of `sc_A`. -/
theorem v1_im2col_transform_scpad_frame (sc_A : Int → α) (off : Int) (sc_RAW : Int → α)
    (params : ConvParams) (K_h K_w C_in O_h O_w i_start k_start TM TK T_h T_w rc rh rw : Int)
    (M_limit : Int) (regs : VRegs α) (idx : Int)
    (hidx : ∀ m, 0 ≤ m → m < TM → ¬ (off + m * TK ≤ idx ∧ idx < off + m * TK + TK)) :
    V1.im2col_transform_scpad sc_A off sc_RAW params K_h K_w C_in O_h O_w i_start k_start TM TK
        T_h T_w rc rh rw M_limit regs idx = sc_A idx := by
  unfold V1.im2col_transform_scpad
  exact rows_loop_frame TM TK off (fun m => i_start + m ≥ O_h * O_w ∨ m ≥ M_limit)
    (fun m (r : VRegs α) =>
      forRange (k_start.tdiv (K_h * K_w))
        (min ((k_start + TK + K_w).tdiv (K_h * K_w) + 1) C_in)
        (fun c r =>
          if c - rc < 0 then r
          else forLoop K_h (V1.im2col_kh_body sc_RAW K_w k_start TK T_h T_w (K_h * K_w)
            (C_in * T_h * T_w)
            ((i_start + m).tdiv O_w * params.stride - params.padding - rh)
            ((i_start + m).tmod O_w * params.stride - params.padding - rw) c (c - rc)) r)
        ({ r with v_accum := memset0 r.v_accum 0 TK } : VRegs α))
    (fun r : VRegs α => r.v_accum) sc_A regs idx hidx

/-- A skipped row of `sc_A` is cleared by `im2col_transform_scpad` of `conv_lib_v1.c`. -/
theorem v1_im2col_transform_scpad_skipped (sc_A : Int → α) (off : Int) (sc_RAW : Int → α)
    (params : ConvParams) (K_h K_w C_in O_h O_w i_start k_start TM TK T_h T_w rc rh rw : Int)
    (M_limit : Int) (regs : VRegs α) (m k : Int)
    (hm0 : 0 ≤ m) (hm : m < TM) (hk0 : 0 ≤ k) (hk : k < TK)
    (hs : i_start + m ≥ O_h * O_w ∨ m ≥ M_limit) :
    V1.im2col_transform_scpad sc_A off sc_RAW params K_h K_w C_in O_h O_w i_start k_start TM TK
        T_h T_w rc rh rw M_limit regs (off + m * TK + k) = 0 := by
  unfold V1.im2col_transform_scpad
  have key := rows_loop_row TM TK off (fun m => i_start + m ≥ O_h * O_w ∨ m ≥ M_limit)
    (fun m (r : VRegs α) =>
      forRange (k_start.tdiv (K_h * K_w))
        (min ((k_start + TK + K_w).tdiv (K_h * K_w) + 1) C_in)
        (fun c r =>
          if c - rc < 0 then r
          else forLoop K_h (V1.im2col_kh_body sc_RAW K_w k_start TK T_h T_w (K_h * K_w)
            (C_in * T_h * T_w)
            ((i_start + m).tdiv O_w * params.stride - params.padding - rh)
            ((i_start + m).tmod O_w * params.stride - params.padding - rw) c (c - rc)) r)
        ({ r with v_accum := memset0 r.v_accum 0 TK } : VRegs α))
    (fun r : VRegs α => r.v_accum) sc_A regs m k 0 hm0 hm hk0 hk (fun h => absurd hs h)
  rw [if_pos hs] at key
  exact key

/-- An index of a row at or past `TM` lies in none of the rows `0 .. TM-1`. -/
theorem row_past_tile (off TM TK r k m : Int) (hr : TM ≤ r) (hk0 : 0 ≤ k) (hk : k < TK)
    (hm : m < TM) :
    ¬ (off + m * TK ≤ off + r * TK + k ∧ off + r * TK + k < off + m * TK + TK) := by
  rintro ⟨_, h2⟩
  have : m + 1 ≤ r := by omega
  nlinarith

/-- C30: `im2col_transform_scpad` of `conv_lib.c` and of `conv_lib_v1.c`, called on the rows
of `sc_A` that start at `sc_A_off`: for every row `m < TM` such that
`i_start + m ≥ O_h*O_w` or `m ≥ M_limit_in_tile`, all `TK` lanes of row `m` are 0 after the
call, and the lanes of every row with index `≥ TM` keep their value. -/
theorem im2col_transform_scpad_zero_rows (sc_A : Int → α) (off : Int) (sc_RAW : Int → α)
    (params : ConvParams) (K_h K_w C_in O_h O_w i_start k_start TM TK T_h T_w rc rh rw : Int)
    (M_limit : Int) (regs : VRegs α) :
    (∀ m k, 0 ≤ m → m < TM → (i_start + m ≥ O_h * O_w ∨ m ≥ M_limit) → 0 ≤ k → k < TK →
      im2col_transform_scpad sc_A off sc_RAW params K_h K_w C_in O_h O_w i_start k_start TM TK
          T_h T_w rc rh rw M_limit regs (off + m * TK + k) = 0 ∧
      V1.im2col_transform_scpad sc_A off sc_RAW params K_h K_w C_in O_h O_w i_start k_start
          TM TK T_h T_w rc rh rw M_limit regs (off + m * TK + k) = 0) ∧
    (∀ r k, TM ≤ r → 0 ≤ k → k < TK →
      im2col_transform_scpad sc_A off sc_RAW params K_h K_w C_in O_h O_w i_start k_start TM TK
          T_h T_w rc rh rw M_limit regs (off + r * TK + k) = sc_A (off + r * TK + k) ∧
      V1.im2col_transform_scpad sc_A off sc_RAW params K_h K_w C_in O_h O_w i_start k_start
          TM TK T_h T_w rc rh rw M_limit regs (off + r * TK + k) = sc_A (off + r * TK + k)) := by
  constructor
  · intro m k hm0 hm hs hk0 hk
    refine ⟨?_, v1_im2col_transform_scpad_skipped sc_A off sc_RAW params K_h K_w C_in O_h O_w
      i_start k_start TM TK T_h T_w rc rh rw M_limit regs m k hm0 hm hk0 hk hs⟩
    rw [im2col_transform_scpad_row sc_A off sc_RAW params K_h K_w C_in O_h O_w i_start k_start
      TM TK T_h T_w rc rh rw M_limit regs m k hm0 hm hk0 hk, if_pos hs]
  · intro r k hr hk0 hk
    exact ⟨im2col_transform_scpad_frame sc_A off sc_RAW params K_h K_w C_in O_h O_w i_start
        k_start TM TK T_h T_w rc rh rw M_limit regs _
        (fun m _ hm => row_past_tile off TM TK r k m hr hk0 hk hm),
      v1_im2col_transform_scpad_frame sc_A off sc_RAW params K_h K_w C_in O_h O_w i_start
        k_start TM TK T_h T_w rc rh rw M_limit regs _
        (fun m _ hm => row_past_tile off TM TK r k m hr hk0 hk hm)⟩

/-- Witness of C30: a 3x3 output has 9 patches, so row 9 of a 32-row call is cleared by
both variants (`sc_A` held 7 everywhere). -/
theorem im2col_transform_scpad_zero_rows_witness :
    im2col_transform_scpad (fun _ => (7 : Int)) 0 (fun i => i) ⟨1, 0, 1⟩ 1 1 1 3 3 0 0 32 32
        32 32 0 0 0 32 zero_scratch.regs (0 + 9 * 32 + 5) = 0 ∧
      V1.im2col_transform_scpad (fun _ => (7 : Int)) 0 (fun i => i) ⟨1, 0, 1⟩ 1 1 1 3 3 0 0 32
        32 32 32 0 0 0 32 zero_scratch.regs (0 + 9 * 32 + 5) = 0 :=
  (im2col_transform_scpad_zero_rows (fun _ => (7 : Int)) 0 (fun i => i) ⟨1, 0, 1⟩ 1 1 1 3 3 0 0
    32 32 32 32 0 0 0 32 zero_scratch.regs).1 9 5 (by decide) (by decide) (by decide)
    (by decide) (by decide)

/-- C29: the straddle case of `im2col_transform_scpad` of `conv_lib.c` (which places taps
one pixel apart, whatever the dilation).  Let `(c, kh)` be a kernel row with flat start
`g = c*K_h*K_w + kh*K_w`, let `32*q` be a reduction step with `g < 32*q < g + K_w`,
`K_w ≤ 32`, and let row `m` of the call be a patch whose window lies inside the tile row
(`lw + K_w ≤ T_w`).  Then the slice built for `k_start = 32*q - 32` holds the window pixels
`kw = 0 .. 32*q-g-1` in its last `32*q - g` lanes, the slice built for `k_start = 32*q` holds
the pixels `kw = 32*q-g .. K_w-1` in lanes `0 .. g+K_w-32*q-1`, and the row `(c, kh)` adds to
`v_accum` nothing else: in the first slice only to lanes `≥ 32 - (32*q - g)`, in the second
only to lanes `< g + K_w - 32*q`, so no pixel is lost or duplicated. -/
theorem im2col_transform_scpad_straddle (sc_A : Int → α) (off : Int) (sc_RAW : Int → α)
    (params : ConvParams) (K_h K_w C_in O_h O_w i_start TM T_h T_w rh rw M_limit : Int)
    (regs : VRegs α) (m c kh q g lh lw : Int)
    (hm0 : 0 ≤ m) (hm : m < TM) (hp : i_start + m < O_h * O_w) (hlim : m < M_limit)
    (hc0 : 0 ≤ c) (hc : c < C_in) (hkh0 : 0 ≤ kh) (hkh : kh < K_h) (hKw32 : K_w ≤ 32)
    (hg : g = c * (K_h * K_w) + kh * K_w) (hlo : g < 32 * q) (hhi : 32 * q < g + K_w)
    (hlh : lh = (i_start + m).tdiv O_w * params.stride - params.padding - rh)
    (hlw : lw = (i_start + m).tmod O_w * params.stride - params.padding - rw)
    (hfit : lw + K_w ≤ T_w) :
    (∀ kw, 0 ≤ kw → kw < 32 * q - g →
      im2col_transform_scpad sc_A off sc_RAW params K_h K_w C_in O_h O_w i_start (32 * q - 32)
          TM 32 T_h T_w 0 rh rw M_limit regs (off + m * 32 + (32 - (32 * q - g) + kw)) =
        sc_RAW (c * (T_h * T_w) + (lh + kh) * T_w + lw + kw)) ∧
    (∀ kw, 32 * q - g ≤ kw → kw < K_w →
      im2col_transform_scpad sc_A off sc_RAW params K_h K_w C_in O_h O_w i_start (32 * q)
          TM 32 T_h T_w 0 rh rw M_limit regs (off + m * 32 + (kw - (32 * q - g))) =
        sc_RAW (c * (T_h * T_w) + (lh + kh) * T_w + lw + kw)) ∧
    (∀ (r : VRegs α) k, 0 ≤ k → k < 32 →
      (im2col_kh_body sc_RAW K_w (32 * q - 32) 32 T_h T_w (K_h * K_w) lh lw c c kh r).v_accum k =
        r.v_accum k + (if 32 - (32 * q - g) ≤ k then
          sc_RAW (c * (T_h * T_w) + (lh + kh) * T_w + lw + (k - (32 - (32 * q - g)))) else 0)) ∧
    (∀ (r : VRegs α) k, 0 ≤ k → k < 32 →
      (im2col_kh_body sc_RAW K_w (32 * q) 32 T_h T_w (K_h * K_w) lh lw c c kh r).v_accum k =
        r.v_accum k + (if k + (32 * q - g) < K_w then
          sc_RAW (c * (T_h * T_w) + (lh + kh) * T_w + lw + (k + (32 * q - g))) else 0)) := by
  have hsks : 0 ≤ c * (K_h * K_w) := by
    have : 0 ≤ K_h * K_w := by nlinarith
    exact mul_nonneg hc0 this
  have hkhw : 0 ≤ kh * K_w := by nlinarith
  have hskip : ¬ (i_start + m ≥ O_h * O_w ∨ m ≥ M_limit) := by omega
  refine ⟨?_, ?_, ?_, ?_⟩
  · intro kw hkw0 hkw
    rw [im2col_transform_scpad_row sc_A off sc_RAW params K_h K_w C_in O_h O_w i_start
      (32 * q - 32) TM 32 T_h T_w 0 rh rw M_limit regs m _ hm0 hm (by omega) (by omega),
      if_neg hskip, ← hlh, ← hlw,
      im2col_lane_tap sc_RAW K_h K_w C_in (32 * q - 32) 32 T_h T_w lh lw c kh kw _
        (by omega) (by omega) (by omega) hKw32 hc0 hc hkh0 hkh hkw0 (by omega)
        (by rw [hg]; ring),
      if_pos (by omega)]
  · intro kw hkw0 hkw
    rw [im2col_transform_scpad_row sc_A off sc_RAW params K_h K_w C_in O_h O_w i_start
      (32 * q) TM 32 T_h T_w 0 rh rw M_limit regs m _ hm0 hm (by omega) (by omega),
      if_neg hskip, ← hlh, ← hlw,
      im2col_lane_tap sc_RAW K_h K_w C_in (32 * q) 32 T_h T_w lh lw c kh kw _
        (by omega) (by omega) (by omega) hKw32 hc0 hc hkh0 hkh (by omega) hkw
        (by rw [hg]; ring),
      if_pos (by omega)]
  · intro r k hk0 hk
    rw [im2col_kh_body_accum sc_RAW K_w (32 * q - 32) 32 T_h T_w (K_h * K_w) lh lw c c kh r k
      hk0 hk]
    unfold im2col_contrib
    simp only []
    have e : 32 * q - 32 + k - (c * (K_h * K_w) + kh * K_w) = k - (32 - (32 * q - g)) := by
      rw [hg]; ring
    rw [e]
    by_cases hl : 32 - (32 * q - g) ≤ k
    · rw [if_pos hl, if_pos ⟨by omega, by omega, by omega, by omega⟩]
    · rw [if_neg hl, if_neg (fun h => hl (by omega))]
  · intro r k hk0 hk
    rw [im2col_kh_body_accum sc_RAW K_w (32 * q) 32 T_h T_w (K_h * K_w) lh lw c c kh r k
      hk0 hk]
    unfold im2col_contrib
    simp only []
    have e : 32 * q + k - (c * (K_h * K_w) + kh * K_w) = k + (32 * q - g) := by
      rw [hg]; ring
    rw [e]
    by_cases hl : k + (32 * q - g) < K_w
    · rw [if_pos hl, if_pos ⟨by omega, hl, by omega, by omega⟩]
    · rw [if_neg hl, if_neg (fun h => hl h.2.1)]

/-- Witness of C29: a 7x5 kernel on one channel; kernel row 6 starts at flat index 30 and
straddles the step 32.  Its pixel 0 (scratchpad element 192) is in lane 30 of the slice
for step 0, and its pixel 2 (element 194) in lane 0 of the slice for step 32. -/
theorem im2col_transform_scpad_straddle_witness :
    im2col_transform_scpad (fun _ => (0 : Int)) 0 (fun i => i) ⟨1, 0, 1⟩ 7 5 1 1 1 0
        (32 * 1 - 32) 1 32 32 32 0 0 0 1 zero_scratch.regs
        (0 + 0 * 32 + (32 - (32 * 1 - 30) + 0)) = 192 ∧
      im2col_transform_scpad (fun _ => (0 : Int)) 0 (fun i => i) ⟨1, 0, 1⟩ 7 5 1 1 1 0
        (32 * 1) 1 32 32 32 0 0 0 1 zero_scratch.regs
        (0 + 0 * 32 + (2 - (32 * 1 - 30))) = 194 :=
  ⟨((im2col_transform_scpad_straddle (fun _ => (0 : Int)) 0 (fun i => i) ⟨1, 0, 1⟩ 7 5 1 1 1 0
      1 32 32 0 0 1 zero_scratch.regs 0 0 6 1 30 0 0 (by decide) (by decide) (by decide)
      (by decide) (by decide) (by decide) (by decide) (by decide) (by decide) (by decide)
      (by decide) (by decide) (by decide) (by decide) (by decide)).1 0 (by decide)
      (by decide)).trans (by decide),
    ((im2col_transform_scpad_straddle (fun _ => (0 : Int)) 0 (fun i => i) ⟨1, 0, 1⟩ 7 5 1 1 1 0
      1 32 32 0 0 1 zero_scratch.regs 0 0 6 1 30 0 0 (by decide) (by decide) (by decide)
      (by decide) (by decide) (by decide) (by decide) (by decide) (by decide) (by decide)
      (by decide) (by decide) (by decide) (by decide) (by decide)).2.1 2 (by decide)
      (by decide)).trans (by decide)⟩

end RowsOfIm2colV1

/-! ## More loop rules -/

/-- A stepped loop whose bound does not exceed the step runs its body once. -/
theorem forStep_once {σ : Type} (n step : Int) (body : Int → σ → σ) (s : σ)
    (hn : 0 < n) (hstep : n ≤ step) : forStep n step body s = body 0 s := by
  obtain ⟨j, hj1, _, hj⟩ := forStep_inv
    (fun i t => (i = 0 ∧ t = s) ∨ (i = step ∧ t = body 0 s)) n step body s (by omega)
    (Or.inl ⟨rfl, rfl⟩) (by
      intro i t _ hin hI
      rcases hI with ⟨hi, ht⟩ | ⟨hi, _⟩
      · subst hi; subst ht
        exact Or.inr ⟨by omega, rfl⟩
      · omega)
  rcases hj with ⟨h, _⟩ | ⟨_, h⟩
  · omega
  · exact h

/-- Invariant rule for the stepped loop, indexed by the iteration count: iteration `r` runs
the body at `r * step`. -/
theorem forStep_inv_mul {σ : Type} (Inv : Int → σ → Prop) (n step : Int) (body : Int → σ → σ)
    (s : σ) (hstep : 1 ≤ step) (h0 : Inv 0 s)
    (hs : ∀ r t, 0 ≤ r → r * step < n → Inv r t → Inv (r + 1) (body (r * step) t)) :
    ∃ r, n ≤ r * step ∧ 0 ≤ r ∧ Inv r (forStep n step body s) := by
  obtain ⟨j, hj1, _, r, hr0, hr, hI⟩ := forStep_inv
    (fun i t => ∃ r, 0 ≤ r ∧ i = r * step ∧ Inv r t) n step body s hstep
    ⟨0, le_refl _, by ring, h0⟩ (by
      rintro i t _ hin ⟨r, hr0, hr, hI⟩
      subst hr
      exact ⟨r + 1, by omega, by ring, hs r t hr0 hin hI⟩)
  subst hr
  exact ⟨r, hj1, hr0, hI⟩

/-- A property kept by every iteration `r * step` is kept by the stepped loop. -/
theorem forStep_preserve_mul {σ : Type} (Q : σ → Prop) (n step : Int) (body : Int → σ → σ)
    (s : σ) (hstep : 1 ≤ step) (h0 : Q s)
    (hs : ∀ r t, 0 ≤ r → r * step < n → Q t → Q (body (r * step) t)) :
    Q (forStep n step body s) := by
  obtain ⟨_, _, _, h⟩ := forStep_inv_mul (fun _ t => Q t) n step body s hstep h0 hs
  exact h

/-- Establishing a property at iteration `q` of the stepped loop, where the other
iterations `r * step` keep it. -/
theorem forStep_establish_mul {σ : Type} (I Q : σ → Prop) (n step q : Int)
    (body : Int → σ → σ) (s : σ) (hstep : 1 ≤ step) (hq : 0 ≤ q) (hqn : q * step < n)
    (hI : I s)
    (hIs : ∀ r t, 0 ≤ r → r * step < n → I t → I (body (r * step) t))
    (hest : ∀ t, I t → Q (body (q * step) t))
    (hQs : ∀ r t, 0 ≤ r → r * step < n → I t → Q t → Q (body (r * step) t)) :
    Q (forStep n step body s) := by
  obtain ⟨r, hr1, _, hIr, hQr⟩ := forStep_inv_mul
    (fun r t => I t ∧ (q < r → Q t)) n step body s hstep
    ⟨hI, fun h => absurd h (by omega)⟩ (by
      intro r t hr0 hrn ⟨hIt, hQt⟩
      refine ⟨hIs r t hr0 hrn hIt, fun hlt => ?_⟩
      by_cases hc : r = q
      · subst hc; exact hest t hIt
      · exact hQs r t hr0 hrn hIt (hQt (by omega)))
  apply hQr
  by_contra hcon
  have : r ≤ q := by omega
  have : r * step ≤ q * step := mul_le_mul_of_nonneg_right this (by omega)
  omega

section Generic

variable {α : Type} [CommRing α]

/-! ## Pieces shared by the variants of `conv2d_nchw` -/

/-- A reduction loop whose step adds to `sc_C[m*32 + n]` the product of the slice
`[k, k+32)` of a row with the slice of a column accumulates the whole product, and leaves
`output->data` and `sc_RAW` alone. -/
theorem kloop_accumulate (K : Int) (step : Int → ConvState α → ConvState α) (st : ConvState α)
    (rows : Int → Prop) (lane : Int → Int → α) (col : Int → Int → α)
    (hframe : ∀ k t, (step k t).out = t.out ∧ (step k t).sc_RAW = t.sc_RAW)
    (hstep : ∀ k t, 0 ≤ k → t.sc_RAW = st.sc_RAW → ∀ m n, 0 ≤ m → m < 32 → rows m →
      0 ≤ n → n < 32 →
      (step k t).sc_C (m * 32 + n) =
        t.sc_C (m * 32 + n) + sumTo 32 (fun r => lane m (k + r) * col n (k + r)))
    (hcol : ∀ n g, K ≤ g → col n g = 0) :
    (forStep K 32 step st).out = st.out ∧ (forStep K 32 step st).sc_RAW = st.sc_RAW ∧
    ∀ m n, 0 ≤ m → m < 32 → rows m → 0 ≤ n → n < 32 →
      (forStep K 32 step st).sc_C (m * 32 + n) =
        st.sc_C (m * 32 + n) + sumTo K (fun g => lane m g * col n g) := by
  obtain ⟨kf, hkf, hkf0, h1, h2, h3⟩ := forStep_inv
    (fun k (t : ConvState α) => t.out = st.out ∧ t.sc_RAW = st.sc_RAW ∧
      ∀ m n, 0 ≤ m → m < 32 → rows m → 0 ≤ n → n < 32 →
        t.sc_C (m * 32 + n) = st.sc_C (m * 32 + n) + sumTo k (fun g => lane m g * col n g))
    K 32 step st (by norm_num)
    ⟨rfl, rfl, fun m n _ _ _ _ _ => by simp [sumTo]⟩
    (by
      intro k t hk0 _ ⟨i1, i2, i3⟩
      refine ⟨(hframe k t).1.trans i1, (hframe k t).2.trans i2, ?_⟩
      intro m n hm0 hm hrow hn0 hn
      rw [hstep k t hk0 i2 m n hm0 hm hrow hn0 hn, i3 m n hm0 hm hrow hn0 hn,
        sumTo_add k 32 _ hk0 (by norm_num), add_assoc])
  refine ⟨h1, h2, ?_⟩
  intro m n hm0 hm hrow hn0 hn
  rw [h3 m n hm0 hm hrow hn0 hn]
  congr 1
  apply sumTo_extend _ _ _ hkf
  intro g _ hg
  rw [hcol n g hg, mul_zero]

/-- On the tile `load_spatial_tile` loads, the im2col row of a patch whose window lies
inside the tile holds the input pixels under the (undilated) taps. -/
theorem im2col_lane_loaded (sc0 : Int → α) (input : TensorNCHW α) (kernel : KernelTensor α)
    (params : ConvParams) (T_h T_w oh ow in_h in_w k r : Int)
    (hKh : 1 ≤ kernel.kh) (hKw : 1 ≤ kernel.kw) (hKw32 : kernel.kw ≤ 32)
    (hlh0 : 0 ≤ oh * params.stride - params.padding - in_h)
    (hlh : oh * params.stride - params.padding - in_h + kernel.kh ≤ T_h)
    (hlw0 : 0 ≤ ow * params.stride - params.padding - in_w)
    (hlw : ow * params.stride - params.padding - in_w + kernel.kw ≤ T_w)
    (hk : 0 ≤ k) (hr0 : 0 ≤ r) (hr : r < 32) :
    im2col_lane (load_spatial_tile sc0 input kernel.cin T_h T_w 0 in_h in_w)
        kernel.kh kernel.kw kernel.cin k 32 T_h T_w 0
        (oh * params.stride - params.padding - in_h)
        (ow * params.stride - params.padding - in_w) r =
      patch_lane input kernel params oh ow (k + r) := by
  unfold patch_lane
  by_cases hg : k + r < kernel.cin * (kernel.kh * kernel.kw)
  · rw [if_pos hg]
    obtain ⟨d1, d2, d3, d4, d5, d6⟩ :=
      flat_digits_ediv (k + r) kernel.kh kernel.kw (by omega) hKh hKw
    have hsks : 0 < kernel.kh * kernel.kw := by nlinarith
    have hc : (k + r) / (kernel.kh * kernel.kw) < kernel.cin :=
      Int.ediv_lt_of_lt_mul hsks hg
    rw [im2col_lane_tap _ kernel.kh kernel.kw kernel.cin k 32 T_h T_w _ _
      ((k + r) / (kernel.kh * kernel.kw)) ((k + r) % (kernel.kh * kernel.kw) / kernel.kw)
      ((k + r) % kernel.kw) r hk hr0 hr hKw32 d2 hc d3 d4 d5 d6 d1]
    rw [if_pos (by omega)]
    generalize (k + r) / (kernel.kh * kernel.kw) = c at d2 hc
    generalize (k + r) % (kernel.kh * kernel.kw) / kernel.kw = a at d3 d4
    generalize (k + r) % kernel.kw = b at d5 d6
    have e : c * (T_h * T_w) + (oh * params.stride - params.padding - in_h + a) * T_w +
        (ow * params.stride - params.padding - in_w) + b =
        c * (T_h * T_w) + (oh * params.stride - params.padding - in_h + a) * T_w +
        (ow * params.stride - params.padding - in_w + b) := by ring
    rw [e, load_spatial_tile_apply sc0 input kernel.cin T_h T_w 0 in_h in_w c _ _ d2 hc
      (by omega) (by omega) (by omega) (by omega)]
    have eh : in_h + (oh * params.stride - params.padding - in_h + a) =
        oh * params.stride - params.padding + a := by ring
    have ew : in_w + (ow * params.stride - params.padding - in_w + b) =
        ow * params.stride - params.padding + b := by ring
    rw [eh, ew, zero_add]
    unfold inputAt
    by_cases hin : c < input.c ∧ oh * params.stride - params.padding + a ≥ 0 ∧
        oh * params.stride - params.padding + a < input.h ∧
        ow * params.stride - params.padding + b ≥ 0 ∧
        ow * params.stride - params.padding + b < input.w
    · rw [if_pos hin, if_pos ⟨d2, by omega, by omega, by omega, by omega, by omega⟩]
    · rw [if_neg hin, if_neg (by omega)]
  · rw [if_neg hg]
    exact im2col_lane_past _ kernel.kh kernel.kw kernel.cin k 32 T_h T_w 0 _ _ r
      (by omega) (by linarith)

omit [CommRing α] in
/-- Storing a tile whose rows hold the values `val channel patch` of their output elements:
the target element `(co, p)` keeps such a value, and receives it when it belongs to the
tile. -/
theorem store_c_tile_target (output : TensorNCHW α) (sc_C : Int → α) (O_h O_w i j : Int)
    (val : Int → Int → α) (co p : Int)
    (hh : output.h = O_h) (hw : output.w = O_w) (hi : 0 ≤ i)
    (hp0 : 0 ≤ p) (hp : p < O_h * O_w)
    (hC : ∀ r c, 0 ≤ r → r < 32 → 0 ≤ c → c < 32 → i + r < O_h * O_w → j + c < output.c →
      sc_C (r * 32 + c) = val (j + c) (i + r)) :
    (output.data (co * (O_h * O_w) + p) = val co p →
      (store_c_tile output sc_C O_h O_w i j 32 32).data (co * (O_h * O_w) + p) = val co p) ∧
    ((∃ r c, 0 ≤ r ∧ r < 32 ∧ 0 ≤ c ∧ c < 32 ∧ i + r = p ∧ j + c = co ∧ co < output.c) →
      (store_c_tile output sc_C O_h O_w i j 32 32).data (co * (O_h * O_w) + p) = val co p) := by
  have hwritten : co * (O_h * O_w) + p ∈ (store_c_tile_traced output sc_C O_h O_w i j 32 32).2 →
      (store_c_tile output sc_C O_h O_w i j 32 32).data (co * (O_h * O_w) + p) = val co p := by
    intro hmem
    obtain ⟨r, c, hr0, hr, hc0, hc, hpr, hch, hidx⟩ :=
      (store_c_tile_writes output sc_C O_h O_w i j 32 32 hh hw _).mp hmem
    obtain ⟨e1, e2⟩ := radix_unique (O_h * O_w) co p (j + c) (i + r) hp0 hp (by omega) hpr hidx
    rw [hidx, store_c_tile_apply output sc_C O_h O_w i j 32 32 hh hw hi r c hr0 hr hc0 hc hpr
      hch, hC r c hr0 hr hc0 hc hpr hch, e1, e2]
  constructor
  · intro hQ
    by_cases hmem : co * (O_h * O_w) + p ∈
        (store_c_tile_traced output sc_C O_h O_w i j 32 32).2
    · exact hwritten hmem
    · rw [store_c_tile_unwritten output sc_C O_h O_w i j 32 32 _ hmem]
      exact hQ
  · rintro ⟨r, c, hr0, hr, hc0, hc, hpr, hjc, hco⟩
    apply hwritten
    apply (store_c_tile_writes output sc_C O_h O_w i j 32 32 hh hw _).mpr
    exact ⟨r, c, hr0, hr, hc0, hc, by omega, by omega, by rw [hjc, hpr]⟩

end Generic

section VersionOne

variable {α : Type} [CommRing α]

/-! ## Version 1 (`conv_lib_v1.c`): one spatial tile, walked in batches of 32 patches -/

/-- The reduction loop of one batch of `conv_lib_v1.c`: `output->data` and `sc_RAW` are
untouched, and the row of `sc_C` of every in-image patch of the batch gains the product of
the patch's im2col row with the columns `j .. j+31` of the flattened kernel. -/
theorem v1_conv2d_kloop (B sc0 : Int → α) (input : TensorNCHW α) (kernel : KernelTensor α)
    (params : ConvParams) (regs : VRegs α)
    (T_h T_w O_h O_w ppt in_h in_w j ii cpg : Int) (st : ConvState α)
    (hKh : 1 ≤ kernel.kh) (hKw : 1 ≤ kernel.kw) (hKw32 : kernel.kw ≤ 32)
    (hTw : 0 ≤ T_w) (hii : ii + 32 ≤ ppt)
    (hraw : st.sc_RAW = load_spatial_tile sc0 input kernel.cin T_h T_w 0 in_h in_w)
    (hfit : ∀ m, 0 ≤ m → m < 32 → cpg + m < O_h * O_w →
      0 ≤ (cpg + m).tdiv O_w * params.stride - params.padding - in_h ∧
      (cpg + m).tdiv O_w * params.stride - params.padding - in_h + kernel.kh ≤ T_h ∧
      0 ≤ (cpg + m).tmod O_w * params.stride - params.padding - in_w ∧
      (cpg + m).tmod O_w * params.stride - params.padding - in_w + kernel.kw ≤ T_w) :
    (forStep (kernel.cin * kernel.kh * kernel.kw) 32
        (V1.conv2d_kstep B kernel params regs kernel.cout (kernel.cin * kernel.kh * kernel.kw)
          32 32 32 T_h T_w O_h O_w ppt in_h in_w j ii cpg) st).out = st.out ∧
    (forStep (kernel.cin * kernel.kh * kernel.kw) 32
        (V1.conv2d_kstep B kernel params regs kernel.cout (kernel.cin * kernel.kh * kernel.kw)
          32 32 32 T_h T_w O_h O_w ppt in_h in_w j ii cpg) st).sc_RAW = st.sc_RAW ∧
    ∀ m n, 0 ≤ m → m < 32 → cpg + m < O_h * O_w → 0 ≤ n → n < 32 →
      (forStep (kernel.cin * kernel.kh * kernel.kw) 32
        (V1.conv2d_kstep B kernel params regs kernel.cout (kernel.cin * kernel.kh * kernel.kw)
          32 32 32 T_h T_w O_h O_w ppt in_h in_w j ii cpg) st).sc_C (m * 32 + n) =
        st.sc_C (m * 32 + n) +
          sumTo (kernel.cin * kernel.kh * kernel.kw) (fun g =>
            patch_lane input kernel params ((cpg + m).tdiv O_w) ((cpg + m).tmod O_w) g *
            (if g < kernel.cin * kernel.kh * kernel.kw ∧ j + n < kernel.cout then
              B (g * kernel.cout + (j + n)) else 0)) := by
  refine kloop_accumulate (kernel.cin * kernel.kh * kernel.kw) _ st
    (fun m => cpg + m < O_h * O_w)
    (fun m g => patch_lane input kernel params ((cpg + m).tdiv O_w) ((cpg + m).tmod O_w) g)
    (fun n g => if g < kernel.cin * kernel.kh * kernel.kw ∧ j + n < kernel.cout then
      B (g * kernel.cout + (j + n)) else 0)
    (fun _ _ => ⟨rfl, rfl⟩) ?_ ?_
  · intro k t hk0 hraw2 m n hm0 hm hrow hn0 hn
    show atallax_gemmv t.sc_C _ _ 32 32 32 (m * 32 + n) = _
    rw [atallax_gemmv_apply _ _ _ 32 32 32 m n hm0 hm hn0 hn]
    congr 1
    apply sumTo_congr
    intro r hr0 hr
    rw [load_b_tile_apply _ _ _ _ _ _ 32 32 r n hr0 hr hn0 hn]
    have hlim : m < (if ppt - ii > 32 then 32 else ppt - ii) := by
      split_ifs <;> omega
    have hskip : ¬ (cpg + m ≥ O_h * O_w ∨
        m ≥ (if ppt - ii > 32 then 32 else ppt - ii)) := by omega
    obtain ⟨f1, f2, f3, f4⟩ := hfit m hm0 hm hrow
    have e : m * 32 + r = 0 + m * 32 + r := by ring
    rw [e, v1_im2col_transform_scpad_row _ 0 _ params kernel.kh kernel.kw kernel.cin O_h O_w
      cpg k 32 32 T_h T_w in_h in_w _ regs m r hm0 hm hr0 hr hTw (fun _ => ⟨f1, f2, f4⟩),
      if_neg hskip, hraw2, hraw,
      im2col_lane_loaded sc0 input kernel params T_h T_w _ _ in_h in_w k r hKh hKw hKw32
        f1 f2 f3 f4 hk0 hr0 hr]
  · intro n g hg
    show (if g < kernel.cin * kernel.kh * kernel.kw ∧ j + n < kernel.cout then
      B (g * kernel.cout + (j + n)) else 0) = 0
    rw [if_neg (fun h => absurd h.1 (by omega))]

/-- One batch of `conv_lib_v1.c` (`conv2d_batch`): `sc_RAW` is untouched, the target output
element `(co, p)` keeps its convolution value, and receives it when its patch and channel
are in the batch. -/
theorem v1_conv2d_batch_spec (output : TensorNCHW α) (B0 sc0 : Int → α)
    (input : TensorNCHW α) (kernel : KernelTensor α) (params : ConvParams) (regs : VRegs α)
    (T_h T_w O_h O_w ppt in_h in_w i j ii co p : Int) (st : ConvState α)
    (hc : output.c = kernel.cout) (hh : output.h = O_h) (hw : output.w = O_w)
    (hKh : 1 ≤ kernel.kh) (hKw : 1 ≤ kernel.kw) (hKw32 : kernel.kw ≤ 32)
    (hTw : 0 ≤ T_w) (hi : 0 ≤ i) (hii0 : 0 ≤ ii) (hii : ii + 32 ≤ ppt) (hj : 0 ≤ j)
    (hp0 : 0 ≤ p) (hp : p < O_h * O_w)
    (hraw : st.sc_RAW = load_spatial_tile sc0 input kernel.cin T_h T_w 0 in_h in_w)
    (hfit : ∀ q, 0 ≤ q → q < O_h * O_w →
      0 ≤ q.tdiv O_w * params.stride - params.padding - in_h ∧
      q.tdiv O_w * params.stride - params.padding - in_h + kernel.kh ≤ T_h ∧
      0 ≤ q.tmod O_w * params.stride - params.padding - in_w ∧
      q.tmod O_w * params.stride - params.padding - in_w + kernel.kw ≤ T_w) :
    (V1.conv2d_batch output (flatten_kernels_to_B_matrix kernel B0) kernel params regs
        kernel.cout (kernel.cin * kernel.kh * kernel.kw) 32 32 32 T_h T_w O_h O_w ppt
        in_h in_w i j ii st).sc_RAW = st.sc_RAW ∧
    (st.out (co * (O_h * O_w) + p) =
        conv_value input kernel params co (p.tdiv O_w) (p.tmod O_w) →
      (V1.conv2d_batch output (flatten_kernels_to_B_matrix kernel B0) kernel params regs
        kernel.cout (kernel.cin * kernel.kh * kernel.kw) 32 32 32 T_h T_w O_h O_w ppt
        in_h in_w i j ii st).out (co * (O_h * O_w) + p) =
        conv_value input kernel params co (p.tdiv O_w) (p.tmod O_w)) ∧
    ((∃ m c, 0 ≤ m ∧ m < 32 ∧ 0 ≤ c ∧ c < 32 ∧ i + ii + m = p ∧ j + c = co ∧
        co < kernel.cout) →
      (V1.conv2d_batch output (flatten_kernels_to_B_matrix kernel B0) kernel params regs
        kernel.cout (kernel.cin * kernel.kh * kernel.kw) 32 32 32 T_h T_w O_h O_w ppt
        in_h in_w i j ii st).out (co * (O_h * O_w) + p) =
        conv_value input kernel params co (p.tdiv O_w) (p.tmod O_w)) := by
  unfold V1.conv2d_batch
  simp only []
  obtain ⟨k1, k2, k3⟩ := v1_conv2d_kloop (flatten_kernels_to_B_matrix kernel B0) sc0 input
    kernel params regs T_h T_w O_h O_w ppt in_h in_w j ii (i + ii)
    ({ st with sc_C := memset0 st.sc_C 0 (32 * 32) } : ConvState α)
    hKh hKw hKw32 hTw hii hraw
    (fun m hm0 _ hlt => hfit (i + ii + m) (by omega) hlt)
  have hC : ∀ r c, 0 ≤ r → r < 32 → 0 ≤ c → c < 32 → i + ii + r < O_h * O_w →
      j + c < ({ output with data := (forStep (kernel.cin * kernel.kh * kernel.kw) 32
        (V1.conv2d_kstep (flatten_kernels_to_B_matrix kernel B0) kernel params regs kernel.cout
          (kernel.cin * kernel.kh * kernel.kw) 32 32 32 T_h T_w O_h O_w ppt in_h in_w j ii
          (i + ii)) ({ st with sc_C := memset0 st.sc_C 0 (32 * 32) } : ConvState α)).out } :
          TensorNCHW α).c →
      (forStep (kernel.cin * kernel.kh * kernel.kw) 32
        (V1.conv2d_kstep (flatten_kernels_to_B_matrix kernel B0) kernel params regs kernel.cout
          (kernel.cin * kernel.kh * kernel.kw) 32 32 32 T_h T_w O_h O_w ppt in_h in_w j ii
          (i + ii)) ({ st with sc_C := memset0 st.sc_C 0 (32 * 32) } : ConvState α)).sc_C
          (r * 32 + c) =
        (fun ch q => conv_value input kernel params ch (q.tdiv O_w) (q.tmod O_w))
          (j + c) (i + ii + r) := by
    intro r c hr0 hr hc0 hc32 hlt hch
    have hch2 : j + c < kernel.cout := by
      rw [← hc]; exact hch
    rw [k3 r c hr0 hr hlt hc0 hc32]
    show memset0 st.sc_C 0 (32 * 32) (r * 32 + c) + _ = _
    rw [memset0_apply, if_pos (by omega), zero_add]
    exact conv_value_of_flat input kernel params B0 (j + c) _ _ hKh hKw (by omega) hch2
  obtain ⟨s1, s2⟩ := store_c_tile_target
    ({ output with data := (forStep (kernel.cin * kernel.kh * kernel.kw) 32
        (V1.conv2d_kstep (flatten_kernels_to_B_matrix kernel B0) kernel params regs kernel.cout
          (kernel.cin * kernel.kh * kernel.kw) 32 32 32 T_h T_w O_h O_w ppt in_h in_w j ii
          (i + ii)) ({ st with sc_C := memset0 st.sc_C 0 (32 * 32) } : ConvState α)).out } :
          TensorNCHW α)
    _ O_h O_w (i + ii) j
    (fun ch q => conv_value input kernel params ch (q.tdiv O_w) (q.tmod O_w)) co p
    hh hw (by omega) hp0 hp hC
  refine ⟨k2, ?_, ?_⟩
  · intro hQ
    apply s1
    dsimp only
    rw [k1]
    exact hQ
  · rintro ⟨m, c, hm0, hm, hc0, hc32, hpm, hjc, hco⟩
    have hco2 : co < output.c := by rw [hc]; exact hco
    exact s2 ⟨m, c, hm0, hm, hc0, hc32, hpm, hjc, hco2⟩

end VersionOne

section VersionOneWalk

variable {α : Type} [CommRing α]

/-- One tile of `conv_lib_v1.c` for one group of 32 output channels (`conv2d_tile`): the
target output element `(co, p)` keeps its convolution value, and receives it when its patch
is one of the `32*32` patches of the tile and its channel is in the group. -/
theorem v1_conv2d_tile_spec (output : TensorNCHW α) (B0 : Int → α)
    (input : TensorNCHW α) (kernel : KernelTensor α) (params : ConvParams) (regs : VRegs α)
    (T_h T_w O_h O_w i j co p : Int) (st : ConvState α)
    (hc : output.c = kernel.cout) (hh : output.h = O_h) (hw : output.w = O_w)
    (hKh : 1 ≤ kernel.kh) (hKw : 1 ≤ kernel.kw) (hKw32 : kernel.kw ≤ 32)
    (hTw : 0 ≤ T_w) (hi : 0 ≤ i) (hj : 0 ≤ j) (hp0 : 0 ≤ p) (hp : p < O_h * O_w)
    (hfit : ∀ q, 0 ≤ q → q < O_h * O_w →
      0 ≤ q.tdiv O_w * params.stride - params.padding -
        (i.tdiv O_w * params.stride - params.padding) ∧
      q.tdiv O_w * params.stride - params.padding -
        (i.tdiv O_w * params.stride - params.padding) + kernel.kh ≤ T_h ∧
      0 ≤ q.tmod O_w * params.stride - params.padding -
        (i.tmod O_w * params.stride - params.padding) ∧
      q.tmod O_w * params.stride - params.padding -
        (i.tmod O_w * params.stride - params.padding) + kernel.kw ≤ T_w) :
    (st.out (co * (O_h * O_w) + p) =
        conv_value input kernel params co (p.tdiv O_w) (p.tmod O_w) →
      (V1.conv2d_tile output (flatten_kernels_to_B_matrix kernel B0) input kernel params regs
        (O_h * O_w) kernel.cout (kernel.cin * kernel.kh * kernel.kw) 32 32 32 T_h T_w O_h O_w
        1024 i j st).out (co * (O_h * O_w) + p) =
        conv_value input kernel params co (p.tdiv O_w) (p.tmod O_w)) ∧
    (i ≤ p ∧ p < i + 1024 ∧ j ≤ co ∧ co < j + 32 ∧ co < kernel.cout →
      (V1.conv2d_tile output (flatten_kernels_to_B_matrix kernel B0) input kernel params regs
        (O_h * O_w) kernel.cout (kernel.cin * kernel.kh * kernel.kw) 32 32 32 T_h T_w O_h O_w
        1024 i j st).out (co * (O_h * O_w) + p) =
        conv_value input kernel params co (p.tdiv O_w) (p.tmod O_w)) := by
  let Q : ConvState α → Prop := fun t =>
    t.out (co * (O_h * O_w) + p) = conv_value input kernel params co (p.tdiv O_w) (p.tmod O_w)
  let R : Int → α := load_spatial_tile st.sc_RAW input kernel.cin T_h T_w 0
    (i.tdiv O_w * params.stride - params.padding) (i.tmod O_w * params.stride - params.padding)
  have hbatch := fun (ii : Int) (t : ConvState α) (hii0 : 0 ≤ ii) (hii : ii + 32 ≤ 1024)
      (hraw : t.sc_RAW = R) =>
    v1_conv2d_batch_spec output B0 st.sc_RAW input kernel params regs T_h T_w O_h O_w 1024
      (i.tdiv O_w * params.stride - params.padding) (i.tmod O_w * params.stride - params.padding)
      i j ii co p t hc hh hw hKh hKw hKw32 hTw hi hii0 hii hj hp0 hp hraw hfit
  have hbound : ∀ r : Int, r * 32 < min 1024 (O_h * O_w - i) → r * 32 + 32 ≤ 1024 := by
    intro r hr
    have := lt_of_lt_of_le hr (min_le_left _ _)
    omega
  unfold V1.conv2d_tile
  simp only []
  constructor
  · intro hQ
    have key := forStep_preserve_mul (fun t : ConvState α => t.sc_RAW = R ∧ Q t)
      (min 1024 (O_h * O_w - i)) 32
      (V1.conv2d_batch output (flatten_kernels_to_B_matrix kernel B0) kernel params regs
        kernel.cout (kernel.cin * kernel.kh * kernel.kw) 32 32 32 T_h T_w O_h O_w 1024
        (i.tdiv O_w * params.stride - params.padding)
        (i.tmod O_w * params.stride - params.padding) i j)
      ({ st with sc_RAW := R } : ConvState α) (by norm_num) ⟨rfl, hQ⟩
      (fun r t hr0 hrn hI =>
        ⟨(hbatch (r * 32) t (by omega) (hbound r hrn) hI.1).1.trans hI.1,
          (hbatch (r * 32) t (by omega) (hbound r hrn) hI.1).2.1 hI.2⟩)
    exact key.2
  · rintro ⟨hip, hpi, hjco, hcoj, hco⟩
    refine forStep_establish_mul (fun t : ConvState α => t.sc_RAW = R) Q
      (min 1024 (O_h * O_w - i)) 32 ((p - i) / 32) _ ({ st with sc_RAW := R } : ConvState α)
      (by norm_num) (by omega) (lt_min (by omega) (by omega)) rfl ?_ ?_ ?_
    · intro r t hr0 hrn hI
      exact (hbatch (r * 32) t (by omega) (hbound r hrn) hI).1.trans hI
    · intro t hI
      exact (hbatch ((p - i) / 32 * 32) t (by omega) (by omega) hI).2.2
        ⟨(p - i) % 32, co - j, by omega, by omega, by omega, by omega, by omega, by omega, hco⟩
    · intro r t hr0 hrn hI hq
      exact (hbatch (r * 32) t (by omega) (hbound r hrn) hI).2.1 hq

/-- The loops of `conv2d_nchw` of `conv_lib_v1.c` over the tiles and the channel groups, when
the output has at most `32*32` patches: every output element `(co, p)` receives its
convolution value. -/
theorem v1_conv2d_walk_spec (output : TensorNCHW α) (B0 : Int → α)
    (input : TensorNCHW α) (kernel : KernelTensor α) (params : ConvParams) (regs : VRegs α)
    (T_h T_w O_h O_w co p : Int) (st : ConvState α)
    (hc : output.c = kernel.cout) (hh : output.h = O_h) (hw : output.w = O_w)
    (hKh : 1 ≤ kernel.kh) (hKw : 1 ≤ kernel.kw) (hKw32 : kernel.kw ≤ 32)
    (hTw : 0 ≤ T_w) (hM : O_h * O_w ≤ 1024)
    (hco0 : 0 ≤ co) (hco : co < kernel.cout) (hp0 : 0 ≤ p) (hp : p < O_h * O_w)
    (hfit : ∀ q, 0 ≤ q → q < O_h * O_w →
      0 ≤ q.tdiv O_w * params.stride - params.padding -
        ((0 : Int).tdiv O_w * params.stride - params.padding) ∧
      q.tdiv O_w * params.stride - params.padding -
        ((0 : Int).tdiv O_w * params.stride - params.padding) + kernel.kh ≤ T_h ∧
      0 ≤ q.tmod O_w * params.stride - params.padding -
        ((0 : Int).tmod O_w * params.stride - params.padding) ∧
      q.tmod O_w * params.stride - params.padding -
        ((0 : Int).tmod O_w * params.stride - params.padding) + kernel.kw ≤ T_w) :
    (forStep (O_h * O_w) 1024 (fun i st =>
      forStep kernel.cout 32
        (V1.conv2d_tile output (flatten_kernels_to_B_matrix kernel B0) input kernel params regs
          (O_h * O_w) kernel.cout (kernel.cin * kernel.kh * kernel.kw) 32 32 32 T_h T_w
          O_h O_w 1024 i) st) st).out (co * (O_h * O_w) + p) =
      conv_value input kernel params co (p.tdiv O_w) (p.tmod O_w) := by
  let Q : ConvState α → Prop := fun t =>
    t.out (co * (O_h * O_w) + p) = conv_value input kernel params co (p.tdiv O_w) (p.tmod O_w)
  have htile := fun (j : Int) (t : ConvState α) (hj : 0 ≤ j) =>
    v1_conv2d_tile_spec output B0 input kernel params regs T_h T_w O_h O_w 0 j co p t
      hc hh hw hKh hKw hKw32 hTw (le_refl _) hj hp0 hp hfit
  rw [forStep_once _ _ _ _ (by omega) hM]
  refine forStep_establish (fun _ => True) Q kernel.cout 32 (co / 32)
    (V1.conv2d_tile output (flatten_kernels_to_B_matrix kernel B0) input kernel params regs
      (O_h * O_w) kernel.cout (kernel.cin * kernel.kh * kernel.kw) 32 32 32 T_h T_w
      O_h O_w 1024 0) st (by norm_num) (by omega) (by omega) trivial
    (fun _ _ _ _ _ => trivial) ?_ ?_
  · intro t _
    exact (htile (co / 32 * 32) t (by omega)).2 ⟨by omega, by omega, by omega, by omega, hco⟩
  · intro j t hj _ _ hq
    exact (htile j t hj).1 hq

/-- Function `conv2d_nchw` of `conv_lib_v1.c` only ever uses the normalised dilation. -/
theorem v1_conv2d_nchw_norm (output input : TensorNCHW α) (kernel : KernelTensor α)
    (params : ConvParams) (scr : Scratch α) :
    V1.conv2d_nchw output input kernel params scr =
      V1.conv2d_nchw output input kernel
        ⟨params.stride, params.padding, norm_dilation params.dilation⟩ scr := by
  unfold norm_dilation
  by_cases h : params.dilation < 1
  · have e1 : (if params.dilation < 1 then ({ params with dilation := 1 } : ConvParams)
        else params) = ⟨params.stride, params.padding, 1⟩ := by rw [if_pos h]
    unfold V1.conv2d_nchw
    simp only [e1, if_pos h]
    simp
  · have e1 : (if params.dilation < 1 then ({ params with dilation := 1 } : ConvParams)
        else params) = params := by rw [if_neg h]
    unfold V1.conv2d_nchw
    simp only [e1, if_neg h]

/-- The tile side `conv2d_nchw` of `conv_lib_v1.c` picks: the required side, at least 32. -/
theorem v1_tile_side (req : Int) (hreq : req ≤ 64) :
    req ≤ (if req > 32 then req else 32) ∧ 32 ≤ (if req > 32 then req else 32) ∧
      ¬ ((if req > 32 then req else 32) > 64) := by
  split_ifs <;> omega

end VersionOneWalk

/-- The tile side of `conv_lib_v1.c` passes the cap `MAX_SPATIAL_TILE_DIM` exactly when the
required side does. -/
theorem v1_tile_cap (req : Int) :
    ((if req > 32 then req else 32) > MAX_SPATIAL_TILE_DIM ↔ req > 64) ∧
      req ≤ (if req > 32 then req else 32) ∧ 32 ≤ (if req > 32 then req else 32) := by
  unfold MAX_SPATIAL_TILE_DIM
  split_ifs <;> omega

/-- With at most 32 output rows and columns, the window of every patch lies inside the tile
loaded at the input position of patch 0. -/
theorem v1_patches_fit (S P K_h K_w T_h T_w O_h O_w q : Int) (hS : 1 ≤ S)
    (hOh : O_h ≤ 32) (hOw : O_w ≤ 32) (hOw1 : 1 ≤ O_w)
    (hTh : 31 * S + K_h ≤ T_h) (hTw : 31 * S + K_w ≤ T_w)
    (hq0 : 0 ≤ q) (hq : q < O_h * O_w) :
    0 ≤ q.tdiv O_w * S - P - ((0 : Int).tdiv O_w * S - P) ∧
    q.tdiv O_w * S - P - ((0 : Int).tdiv O_w * S - P) + K_h ≤ T_h ∧
    0 ≤ q.tmod O_w * S - P - ((0 : Int).tmod O_w * S - P) ∧
    q.tmod O_w * S - P - ((0 : Int).tmod O_w * S - P) + K_w ≤ T_w := by
  obtain ⟨b1, b2, b3, b4, _⟩ := local_patch_bounds q O_h O_w hq0 hq hOw1
  rw [Int.zero_tdiv, Int.zero_tmod]
  have h1 : q.tdiv O_w * S ≤ 31 * S := mul_le_mul_of_nonneg_right (by omega) (by omega)
  have h2 : 0 ≤ q.tdiv O_w * S := mul_nonneg b1 (by omega)
  have h3 : q.tmod O_w * S ≤ 31 * S := mul_le_mul_of_nonneg_right (by omega) (by omega)
  have h4 : 0 ≤ q.tmod O_w * S := mul_nonneg b3 (by omega)
  refine ⟨?_, ?_, ?_, ?_⟩ <;> linarith

/-- The effective kernel side is at least the kernel side. -/
theorem effective_ge_kernel (K D : Int) (hK : 1 ≤ K) (hD : 1 ≤ D) : K ≤ (K - 1) * D + 1 := by
  nlinarith

section VersionOneTop

variable {α : Type} [CommRing α]

/-- Output metadata and the `params` struct after a call of `conv2d_nchw` of
`conv_lib_v1.c` on a single-batch input (whether or not the tile passes the cap). -/
theorem v1_conv2d_nchw_meta (output input : TensorNCHW α) (kernel : KernelTensor α)
    (params : ConvParams) (scr : Scratch α) (hn : input.n ≤ 1) :
    (V1.conv2d_nchw output input kernel params scr).1.n = 1 ∧
    (V1.conv2d_nchw output input kernel params scr).1.c = kernel.cout ∧
    (V1.conv2d_nchw output input kernel params scr).1.h =
      out_dim input.h kernel.kh (norm_dilation params.dilation) params.padding
        params.stride ∧
    (V1.conv2d_nchw output input kernel params scr).1.w =
      out_dim input.w kernel.kw (norm_dilation params.dilation) params.padding
        params.stride ∧
    (V1.conv2d_nchw output input kernel params scr).2 =
      ⟨params.stride, params.padding, norm_dilation params.dilation⟩ := by
  rw [v1_conv2d_nchw_norm]
  have hD : ¬ norm_dilation params.dilation < 1 := by
    unfold norm_dilation; split_ifs <;> omega
  unfold V1.conv2d_nchw
  simp only [if_neg hD, if_neg (not_lt.mpr hn)]
  by_cases hcap : (if (SA_TM - 1) * params.stride +
        ((kernel.kh - 1) * norm_dilation params.dilation + 1) > 32 then
        (SA_TM - 1) * params.stride + ((kernel.kh - 1) * norm_dilation params.dilation + 1)
      else 32) > MAX_SPATIAL_TILE_DIM ∨
      (if (SA_TM - 1) * params.stride +
        ((kernel.kw - 1) * norm_dilation params.dilation + 1) > 32 then
        (SA_TM - 1) * params.stride + ((kernel.kw - 1) * norm_dilation params.dilation + 1)
      else 32) > MAX_SPATIAL_TILE_DIM
  · rw [if_pos hcap]
    refine ⟨?_, ?_, ?_, ?_, ?_⟩ <;> rfl
  · rw [if_neg hcap]
    refine ⟨?_, ?_, ?_, ?_, ?_⟩ <;> rfl

/-- Main theorem on `conv2d_nchw` of `conv_lib_v1.c`: when the output has at most 32 rows
and 32 columns, the kernel is at most 32 wide and the required tile passes the cap, every
output element holds the convolution value with undilated taps. -/
theorem v1_conv2d_nchw_data (output input : TensorNCHW α) (kernel : KernelTensor α)
    (params : ConvParams) (scr : Scratch α) (co oh ow : Int)
    (hn : input.n ≤ 1) (hS : 1 ≤ params.stride)
    (hKh : 1 ≤ kernel.kh) (hKw : 1 ≤ kernel.kw) (hKw32 : kernel.kw ≤ 32)
    (hOh : out_dim input.h kernel.kh (norm_dilation params.dilation) params.padding
      params.stride ≤ 32)
    (hOw : out_dim input.w kernel.kw (norm_dilation params.dilation) params.padding
      params.stride ≤ 32)
    (hTh : 31 * params.stride + ((kernel.kh - 1) * norm_dilation params.dilation + 1) ≤ 64)
    (hTw : 31 * params.stride + ((kernel.kw - 1) * norm_dilation params.dilation + 1) ≤ 64)
    (hco0 : 0 ≤ co) (hco : co < kernel.cout)
    (hoh0 : 0 ≤ oh)
    (hoh : oh < out_dim input.h kernel.kh (norm_dilation params.dilation) params.padding
      params.stride)
    (how0 : 0 ≤ ow)
    (how : ow < out_dim input.w kernel.kw (norm_dilation params.dilation) params.padding
      params.stride) :
    (V1.conv2d_nchw output input kernel params scr).1.data
        (co * (out_dim input.h kernel.kh (norm_dilation params.dilation) params.padding
            params.stride *
          out_dim input.w kernel.kw (norm_dilation params.dilation) params.padding
            params.stride) +
        (oh * out_dim input.w kernel.kw (norm_dilation params.dilation) params.padding
            params.stride + ow)) =
      conv_value input kernel params co oh ow := by
  rw [v1_conv2d_nchw_norm]
  have hD1 : 1 ≤ norm_dilation params.dilation := by
    unfold norm_dilation; split_ifs <;> omega
  have hD : ¬ norm_dilation params.dilation < 1 := by omega
  have e31 : (SA_TM - 1) * params.stride = 31 * params.stride := by
    unfold SA_TM; ring
  obtain ⟨ch1, ch2, ch3⟩ := v1_tile_cap ((SA_TM - 1) * params.stride +
    ((kernel.kh - 1) * norm_dilation params.dilation + 1))
  obtain ⟨cw1, cw2, cw3⟩ := v1_tile_cap ((SA_TM - 1) * params.stride +
    ((kernel.kw - 1) * norm_dilation params.dilation + 1))
  have hcap : ¬ ((if (SA_TM - 1) * params.stride +
        ((kernel.kh - 1) * norm_dilation params.dilation + 1) > 32 then
        (SA_TM - 1) * params.stride + ((kernel.kh - 1) * norm_dilation params.dilation + 1)
      else 32) > MAX_SPATIAL_TILE_DIM ∨
      (if (SA_TM - 1) * params.stride +
        ((kernel.kw - 1) * norm_dilation params.dilation + 1) > 32 then
        (SA_TM - 1) * params.stride + ((kernel.kw - 1) * norm_dilation params.dilation + 1)
      else 32) > MAX_SPATIAL_TILE_DIM) := by
    rintro (h | h)
    · have := ch1.mp h
      omega
    · have := cw1.mp h
      omega
  have hKeh := effective_ge_kernel kernel.kh (norm_dilation params.dilation) hKh hD1
  have hKew := effective_ge_kernel kernel.kw (norm_dilation params.dilation) hKw hD1
  have hM : out_dim input.h kernel.kh (norm_dilation params.dilation) params.padding
      params.stride *
      out_dim input.w kernel.kw (norm_dilation params.dilation) params.padding
        params.stride ≤ 1024 := by
    nlinarith
  obtain ⟨u1, u2⟩ := patch_unravel oh ow
    (out_dim input.w kernel.kw (norm_dilation params.dilation) params.padding params.stride)
    hoh0 how0 how
  have hp := patch_index_lt oh ow
    (out_dim input.h kernel.kh (norm_dilation params.dilation) params.padding params.stride)
    (out_dim input.w kernel.kw (norm_dilation params.dilation) params.padding params.stride)
    hoh how0 how
  have hp0 : 0 ≤ oh * out_dim input.w kernel.kw (norm_dilation params.dilation)
      params.padding params.stride + ow := by
    have : 0 ≤ oh * out_dim input.w kernel.kw (norm_dilation params.dilation)
      params.padding params.stride := mul_nonneg hoh0 (by omega)
    omega
  unfold V1.conv2d_nchw
  simp only [if_neg hD, if_neg (not_lt.mpr hn)]
  rw [if_neg hcap]
  have key := v1_conv2d_walk_spec
    ({ data := memset0 output.data 0 (1 * kernel.cout *
          out_dim input.h kernel.kh (norm_dilation params.dilation) params.padding
            params.stride *
          out_dim input.w kernel.kw (norm_dilation params.dilation) params.padding
            params.stride),
       n := 1, c := kernel.cout,
       h := out_dim input.h kernel.kh (norm_dilation params.dilation) params.padding
         params.stride,
       w := out_dim input.w kernel.kw (norm_dilation params.dilation) params.padding
         params.stride } : TensorNCHW α)
    scr.B_matrix input kernel
    ⟨params.stride, params.padding, norm_dilation params.dilation⟩ scr.regs
    (if (SA_TM - 1) * params.stride +
        ((kernel.kh - 1) * norm_dilation params.dilation + 1) > 32 then
        (SA_TM - 1) * params.stride + ((kernel.kh - 1) * norm_dilation params.dilation + 1)
      else 32)
    (if (SA_TM - 1) * params.stride +
        ((kernel.kw - 1) * norm_dilation params.dilation + 1) > 32 then
        (SA_TM - 1) * params.stride + ((kernel.kw - 1) * norm_dilation params.dilation + 1)
      else 32)
    (out_dim input.h kernel.kh (norm_dilation params.dilation) params.padding params.stride)
    (out_dim input.w kernel.kw (norm_dilation params.dilation) params.padding params.stride)
    co
    (oh * out_dim input.w kernel.kw (norm_dilation params.dilation) params.padding
      params.stride + ow)
    ({ out := memset0 output.data 0 (1 * kernel.cout *
          out_dim input.h kernel.kh (norm_dilation params.dilation) params.padding
            params.stride *
          out_dim input.w kernel.kw (norm_dilation params.dilation) params.padding
            params.stride),
       sc_RAW := scr.sc_RAW, sc_A := scr.sc_A, sc_B := scr.sc_B, sc_C := scr.sc_C } :
      ConvState α)
    rfl rfl rfl hKh hKw hKw32 (by omega) hM hco0 hco hp0 hp
    (fun q hq0 hq => v1_patches_fit params.stride params.padding kernel.kh kernel.kw _ _ _ _ q
      hS hOh hOw (by omega) (by omega) (by omega) hq0 hq)
  rw [u1, u2] at key
  exact key

/-- Every output element of `conv2d_nchw` of `conv_lib_v1.c`, read through the output
tensor's own layout, is the direct convolution with undilated taps (same domain as
`v1_conv2d_nchw_data`). -/
theorem v1_conv2d_nchw_tensor_at (output input : TensorNCHW α) (kernel : KernelTensor α)
    (params : ConvParams) (scr : Scratch α) (co oh ow : Int)
    (hn : input.n ≤ 1) (hS : 1 ≤ params.stride)
    (hKh : 1 ≤ kernel.kh) (hKw : 1 ≤ kernel.kw) (hKw32 : kernel.kw ≤ 32)
    (hOh : out_dim input.h kernel.kh (norm_dilation params.dilation) params.padding
      params.stride ≤ 32)
    (hOw : out_dim input.w kernel.kw (norm_dilation params.dilation) params.padding
      params.stride ≤ 32)
    (hTh : 31 * params.stride + ((kernel.kh - 1) * norm_dilation params.dilation + 1) ≤ 64)
    (hTw : 31 * params.stride + ((kernel.kw - 1) * norm_dilation params.dilation + 1) ≤ 64)
    (hco0 : 0 ≤ co) (hco : co < kernel.cout)
    (hoh0 : 0 ≤ oh)
    (hoh : oh < out_dim input.h kernel.kh (norm_dilation params.dilation) params.padding
      params.stride)
    (how0 : 0 ≤ ow)
    (how : ow < out_dim input.w kernel.kw (norm_dilation params.dilation) params.padding
      params.stride) :
    tensor_at (V1.conv2d_nchw output input kernel params scr).1 co oh ow =
      direct_conv input kernel params.stride params.padding 1 co oh ow := by
  obtain ⟨_, _, m3, m4, _⟩ := v1_conv2d_nchw_meta output input kernel params scr hn
  unfold tensor_at
  rw [m3, m4, ← conv_value_eq_direct input kernel params co oh ow hKh hKw,
    ← v1_conv2d_nchw_data output input kernel params scr co oh ow hn hS hKh hKw hKw32
      hOh hOw hTh hTw hco0 hco hoh0 hoh how0 how]
  congr 1
  ring

end VersionOneTop

/-- The output size for stride 1, padding 0 and dilation 1 is `H - K + 1`. -/
theorem out_dim_unit (H K : Int) : out_dim H K 1 0 1 = H - K + 1 := by
  unfold out_dim
  rw [Int.tdiv_one]
  ring

section Claims

variable {α : Type} [CommRing α]

/-- C22: `conv2d_nchw` of `conv_lib_v1.c` (Version 1), in exact arithmetic, on a
single-batch input with `H ≤ 32`, `W ≤ 32`, stride 1, dilation 1, padding 0, any number of
input and output channels and any kernel size `1 ≤ K_h ≤ H`, `1 ≤ K_w ≤ W`: the output is
`1 x C_out x (H-K_h+1) x (W-K_w+1)` and every output element equals the direct
convolution. -/
theorem v1_conv2d_nchw_equals_direct (output input : TensorNCHW α) (kernel : KernelTensor α)
    (params : ConvParams) (scr : Scratch α)
    (hn : input.n = 1) (hH : input.h ≤ 32) (hW : input.w ≤ 32)
    (hS : params.stride = 1) (hD : params.dilation = 1) (hP : params.padding = 0)
    (hKh : 1 ≤ kernel.kh) (hKhH : kernel.kh ≤ input.h)
    (hKw : 1 ≤ kernel.kw) (hKwW : kernel.kw ≤ input.w) :
    (V1.conv2d_nchw output input kernel params scr).1.n = 1 ∧
    (V1.conv2d_nchw output input kernel params scr).1.c = kernel.cout ∧
    (V1.conv2d_nchw output input kernel params scr).1.h = input.h - kernel.kh + 1 ∧
    (V1.conv2d_nchw output input kernel params scr).1.w = input.w - kernel.kw + 1 ∧
    ∀ co oh ow, 0 ≤ co → co < kernel.cout → 0 ≤ oh → oh < input.h - kernel.kh + 1 →
      0 ≤ ow → ow < input.w - kernel.kw + 1 →
      tensor_at (V1.conv2d_nchw output input kernel params scr).1 co oh ow =
        direct_conv input kernel 1 0 1 co oh ow := by
  have hnd : norm_dilation params.dilation = 1 := by
    rw [hD]; rfl
  obtain ⟨m1, m2, m3, m4, _⟩ := v1_conv2d_nchw_meta output input kernel params scr (by omega)
  rw [hnd, hP, hS, out_dim_unit] at m3 m4
  refine ⟨m1, m2, m3, m4, ?_⟩
  intro co oh ow hco0 hco hoh0 hoh how0 how
  have key := v1_conv2d_nchw_tensor_at output input kernel params scr co oh ow (by omega)
    (by omega) hKh hKw (by omega)
    (by rw [hnd, hP, hS, out_dim_unit]; omega) (by rw [hnd, hP, hS, out_dim_unit]; omega)
    (by rw [hnd, hS]; omega) (by rw [hnd, hS]; omega) hco0 hco hoh0
    (by rw [hnd, hP, hS, out_dim_unit]; exact hoh) how0
    (by rw [hnd, hP, hS, out_dim_unit]; exact how)
  rw [hS, hP] at key
  exact key

/-- Witness of C22: the 5x5, two-channel input and 3x3 kernel of `src/main.c`. -/
theorem v1_conv2d_nchw_equals_direct_witness :
    (V1.conv2d_nchw main_output main_input main_kernel ⟨1, 0, 1⟩ zero_scratch).1.h = 5 - 3 + 1 ∧
      tensor_at (V1.conv2d_nchw main_output main_input main_kernel ⟨1, 0, 1⟩ zero_scratch).1
        1 2 1 = direct_conv main_input main_kernel 1 0 1 1 2 1 :=
  ⟨(v1_conv2d_nchw_equals_direct main_output main_input main_kernel ⟨1, 0, 1⟩ zero_scratch
      (by decide) (by decide) (by decide) (by decide) (by decide) (by decide) (by decide)
      (by decide) (by decide) (by decide)).2.2.1,
    (v1_conv2d_nchw_equals_direct main_output main_input main_kernel ⟨1, 0, 1⟩ zero_scratch
      (by decide) (by decide) (by decide) (by decide) (by decide) (by decide) (by decide)
      (by decide) (by decide) (by decide)).2.2.2.2 1 2 1 (by decide) (by decide) (by decide)
      (by decide) (by decide) (by decide)⟩

end Claims

section ScalarHelpers

variable {α : Type}

/-! ## The scalar-im2col variant (`src/conv_lib.c`) -/

/-- Function `load_b_tile` of `src/conv_lib.c` computes what `load_b_tile` of
`conv_prog_model/conv_lib.c` computes. -/
theorem scalar_load_b_tile_eq [CommRing α] (sc_B B : Int → α) (K N k j TK TN : Int) :
    Scalar.load_b_tile sc_B B K N k j TK TN = load_b_tile sc_B B K N k j TK TN := by
  unfold Scalar.load_b_tile load_b_tile
  congr 1
  funext r s
  congr 1
  funext c s2
  simp only []
  split_ifs <;> rfl

/-- Function `store_c_tile` of `src/conv_lib.c` computes what `store_c_tile` of
`conv_prog_model/conv_lib.c` computes. -/
theorem scalar_store_c_tile_eq (output : TensorNCHW α) (sc_C : Int → α)
    (O_h O_w i j TM TN : Int) :
    Scalar.store_c_tile output sc_C O_h O_w i j TM TN =
      store_c_tile output sc_C O_h O_w i j TM TN := by
  unfold Scalar.store_c_tile store_c_tile
  simp only [mul_assoc]

end ScalarHelpers

section ScalarIm2col

variable {α : Type} [CommRing α]

/-- Lane `k` of row `m` of `sc_A` after the scalar `im2col_transform_scpad`: 0 for a patch
past the last one, the gathered value otherwise. -/
theorem scalar_im2col_row (sc_A sc_RAW : Int → α) (params : ConvParams)
    (K_h K_w C_in O_h O_w i_start k_start TM TK T_h T_w rc rh rw : Int) (m k : Int)
    (hm0 : 0 ≤ m) (hm : m < TM) (hk0 : 0 ≤ k) (hk : k < TK) :
    Scalar.im2col_transform_scpad sc_A sc_RAW params K_h K_w C_in O_h O_w i_start k_start
        TM TK T_h T_w rc rh rw (m * TK + k) =
      if i_start + m ≥ O_h * O_w then 0
      else scalar_im2col_lane sc_RAW params K_h K_w C_in T_h T_w rc rh rw
        ((i_start + m).tdiv O_w) ((i_start + m).tmod O_w) (k_start + k) := by
  unfold Scalar.im2col_transform_scpad
  have hdisj : ∀ m2 k2, 0 ≤ k2 → k2 < TK → m2 ≠ m ∨ k2 ≠ k →
      m * TK + k ≠ m2 * TK + k2 := by
    intro m2 k2 h0 h1 hne heq
    obtain ⟨e1, e2⟩ := radix_unique TK m k m2 k2 hk0 hk h0 h1 heq
    rcases hne with h | h
    · exact h e1.symm
    · exact h e2.symm
  refine forLoop_mem_single (fun _ => if i_start + m ≥ O_h * O_w then 0
      else scalar_im2col_lane sc_RAW params K_h K_w C_in T_h T_w rc rh rw
        ((i_start + m).tdiv O_w) ((i_start + m).tmod O_w) (k_start + k)) TM m _ sc_A _
    hm0 hm ?_ ?_
  · intro m2 t hm20 hm2 hne
    simp only []
    by_cases hs : i_start + m2 ≥ O_h * O_w
    · rw [if_pos hs, memset0_apply, if_neg]
      rintro ⟨h1, h2⟩
      exact hdisj m2 (m * TK + k - m2 * TK) (by omega) (by omega) (Or.inl hne) (by ring)
    · rw [if_neg hs]
      refine forLoop_mem_frame _ _ t _ ?_
      intro k2 t2 hk20 hk2
      have hidx := hdisj m2 k2 hk20 hk2 (Or.inl hne)
      split_ifs <;> exact wr_other _ _ _ _ hidx
  · intro t
    simp only []
    by_cases hs : i_start + m ≥ O_h * O_w
    · rw [if_pos hs, if_pos hs, memset0_apply, if_pos ⟨by omega, by omega⟩]
    · rw [if_neg hs, if_neg hs]
      refine forLoop_mem_single (fun _ => scalar_im2col_lane sc_RAW params K_h K_w C_in T_h T_w
        rc rh rw ((i_start + m).tdiv O_w) ((i_start + m).tmod O_w) (k_start + k)) TK k _ t _
        hk0 hk ?_ ?_
      · intro k2 t2 hk20 hk2 hne
        have hidx := hdisj m k2 hk20 hk2 (Or.inr hne)
        split_ifs <;> exact wr_other _ _ _ _ hidx
      · intro t2
        unfold scalar_im2col_lane
        simp only []
        split_ifs <;> exact wr_same _ _ _

/-- On the tile `load_spatial_tile` loads, the value the scalar gather stores for tap `g` of
a patch all of whose taps lie inside the tile is the input pixel under the dilated tap. -/
theorem scalar_im2col_lane_loaded (sc0 : Int → α) (input : TensorNCHW α)
    (kernel : KernelTensor α) (params : ConvParams) (T_h T_w oh ow in_h in_w g : Int)
    (hKh : 1 ≤ kernel.kh) (hKw : 1 ≤ kernel.kw) (hg0 : 0 ≤ g)
    (hfh : ∀ a, 0 ≤ a → a < kernel.kh →
      0 ≤ oh * params.stride - params.padding + a * params.dilation - in_h ∧
      oh * params.stride - params.padding + a * params.dilation - in_h < T_h)
    (hfw : ∀ b, 0 ≤ b → b < kernel.kw →
      0 ≤ ow * params.stride - params.padding + b * params.dilation - in_w ∧
      ow * params.stride - params.padding + b * params.dilation - in_w < T_w) :
    scalar_im2col_lane (load_spatial_tile sc0 input kernel.cin T_h T_w 0 in_h in_w) params
        kernel.kh kernel.kw kernel.cin T_h T_w 0 in_h in_w oh ow g =
      patch_lane_dilated input kernel params.stride params.padding params.dilation oh ow g := by
  unfold scalar_im2col_lane patch_lane_dilated
  simp only []
  have hsks : 0 < kernel.kh * kernel.kw := by nlinarith
  by_cases hg : g < kernel.cin * (kernel.kh * kernel.kw)
  · rw [if_neg (by rw [mul_assoc]; omega), if_pos hg]
    obtain ⟨d1, d2, d3, d4, d5, d6⟩ := flat_digits_ediv g kernel.kh kernel.kw hg0 hKh hKw
    have hc : g / (kernel.kh * kernel.kw) < kernel.cin := Int.ediv_lt_of_lt_mul hsks hg
    rw [tdiv_nonneg_eq g _ hg0 (le_of_lt hsks), tmod_nonneg_eq g _ hg0 (le_of_lt hsks),
      tdiv_nonneg_eq (g % (kernel.kh * kernel.kw)) kernel.kw
        (Int.emod_nonneg g (ne_of_gt hsks)) (by omega),
      tmod_nonneg_eq g kernel.kw hg0 (by omega)]
    generalize g / (kernel.kh * kernel.kw) = c at d2 hc
    generalize g % (kernel.kh * kernel.kw) / kernel.kw = a at d3 d4
    generalize g % kernel.kw = b at d5 d6
    obtain ⟨fh1, fh2⟩ := hfh a d3 d4
    obtain ⟨fw1, fw2⟩ := hfw b d5 d6
    rw [if_pos ⟨by omega, by omega, fh1, fh2, fw1, fw2⟩,
      load_spatial_tile_apply sc0 input kernel.cin T_h T_w 0 in_h in_w c _ _ d2 hc
        fh1 fh2 fw1 fw2]
    have eh : in_h + (oh * params.stride - params.padding + a * params.dilation - in_h) =
        oh * params.stride - params.padding + a * params.dilation := by ring
    have ew : in_w + (ow * params.stride - params.padding + b * params.dilation - in_w) =
        ow * params.stride - params.padding + b * params.dilation := by ring
    rw [eh, ew, zero_add]
    unfold inputAt
    by_cases hin : c < input.c ∧ oh * params.stride - params.padding + a * params.dilation ≥ 0 ∧
        oh * params.stride - params.padding + a * params.dilation < input.h ∧
        ow * params.stride - params.padding + b * params.dilation ≥ 0 ∧
        ow * params.stride - params.padding + b * params.dilation < input.w
    · rw [if_pos hin, if_pos ⟨d2, by omega, by omega, by omega, by omega, by omega⟩]
    · rw [if_neg hin, if_neg (by omega)]
  · rw [if_pos (by rw [mul_assoc]; omega), if_neg hg]

/-- A row of pixels under the dilated taps, times a column of the kernel, is the direct
convolution. -/
theorem dilated_sum_eq_direct (input : TensorNCHW α) (kernel : KernelTensor α)
    (S P D co oh ow : Int) (hKh : 1 ≤ kernel.kh) (hKw : 1 ≤ kernel.kw) :
    sumTo (kernel.cin * (kernel.kh * kernel.kw)) (fun g =>
        patch_lane_dilated input kernel S P D oh ow g *
          kernel.data (co * (kernel.cin * (kernel.kh * kernel.kw)) + g)) =
      direct_conv input kernel S P D co oh ow := by
  unfold direct_conv
  by_cases hcin : 0 ≤ kernel.cin
  · rw [sumTo_mul kernel.cin (kernel.kh * kernel.kw) _ hcin (by nlinarith)]
    apply sumTo_congr
    intro c hc0 hc
    rw [sumTo_mul kernel.kh kernel.kw _ (by omega) (by omega)]
    apply sumTo_congr
    intro a ha0 ha
    apply sumTo_congr
    intro b hb0 hb
    have hab := two_digit_bound kernel.kh kernel.kw a b ha0 ha hb0 hb
    have hg : c * (kernel.kh * kernel.kw) + (a * kernel.kw + b) <
        kernel.cin * (kernel.kh * kernel.kw) := by
      have : c + 1 ≤ kernel.cin := by omega
      nlinarith
    have hsks : 0 < kernel.kh * kernel.kw := by nlinarith
    have q1 : (c * (kernel.kh * kernel.kw) + (a * kernel.kw + b)) / (kernel.kh * kernel.kw) = c :=
      ediv_of_radix _ c _ hab.1 hab.2
    have q2 : (c * (kernel.kh * kernel.kw) + (a * kernel.kw + b)) % (kernel.kh * kernel.kw) =
        a * kernel.kw + b := emod_of_radix _ c _ hab.1 hab.2
    have q3 : (a * kernel.kw + b) / kernel.kw = a := ediv_of_radix _ a b hb0 hb
    have q4 : (c * (kernel.kh * kernel.kw) + (a * kernel.kw + b)) % kernel.kw = b := by
      have e : c * (kernel.kh * kernel.kw) + (a * kernel.kw + b) =
          (c * kernel.kh + a) * kernel.kw + b := by ring
      rw [e]; exact emod_of_radix _ _ b hb0 hb
    unfold patch_lane_dilated kernelAt
    rw [if_pos hg, q1, q2, q3, q4]
    congr 2
    ring
  · have hsks : 0 < kernel.kh * kernel.kw := by nlinarith
    rw [sumTo_nonpos _ _ (by nlinarith), sumTo_nonpos _ _ (by omega)]

/-- The product of a row with a column of the flattened kernel, as the reduction loop
accumulates it, is the product with the kernel's own weights. -/
theorem flat_sum_of_kernel (lane : Int → α) (kernel : KernelTensor α) (B0 : Int → α) (co : Int)
    (hKh : 1 ≤ kernel.kh) (hKw : 1 ≤ kernel.kw) (hco0 : 0 ≤ co) (hco : co < kernel.cout) :
    sumTo (kernel.cin * kernel.kh * kernel.kw) (fun g =>
        lane g *
        (if g < kernel.cin * kernel.kh * kernel.kw ∧ co < kernel.cout then
          flatten_kernels_to_B_matrix kernel B0 (g * kernel.cout + co) else 0)) =
      sumTo (kernel.cin * (kernel.kh * kernel.kw)) (fun g =>
        lane g * kernel.data (co * (kernel.cin * (kernel.kh * kernel.kw)) + g)) := by
  rw [mul_assoc]
  apply sumTo_congr
  intro g hg0 hg
  rw [if_pos ⟨hg, hco⟩,
    flatten_kernels_to_B_matrix_apply kernel B0 g co hKh hKw hg0
      (by rw [mul_assoc]; exact hg) hco0 hco]

end ScalarIm2col

section ScalarWalk

variable {α : Type} [CommRing α]

/-- The reduction loop of the scalar variant: `output->data` and `sc_RAW` are untouched, and
the row of `sc_C` of every in-image patch among the 32 the loop handles gains the product of
the patch's row of dilated taps with the columns `j .. j+31` of the flattened kernel. -/
theorem scalar_conv2d_kloop (B sc0 : Int → α) (input : TensorNCHW α)
    (kernel : KernelTensor α) (params : ConvParams)
    (T_h T_w O_h O_w in_h in_w i j : Int) (st : ConvState α)
    (hKh : 1 ≤ kernel.kh) (hKw : 1 ≤ kernel.kw)
    (hraw : st.sc_RAW = load_spatial_tile sc0 input kernel.cin T_h T_w 0 in_h in_w)
    (hfit : ∀ m, 0 ≤ m → m < 32 → i + m < O_h * O_w →
      (∀ a, 0 ≤ a → a < kernel.kh →
        0 ≤ (i + m).tdiv O_w * params.stride - params.padding + a * params.dilation - in_h ∧
        (i + m).tdiv O_w * params.stride - params.padding + a * params.dilation - in_h < T_h) ∧
      (∀ b, 0 ≤ b → b < kernel.kw →
        0 ≤ (i + m).tmod O_w * params.stride - params.padding + b * params.dilation - in_w ∧
        (i + m).tmod O_w * params.stride - params.padding + b * params.dilation - in_w <
          T_w)) :
    (forStep (kernel.cin * kernel.kh * kernel.kw) 32
        (Scalar.conv2d_kstep B kernel params kernel.cout (kernel.cin * kernel.kh * kernel.kw)
          32 32 32 T_h T_w O_h O_w in_h in_w i j) st).out = st.out ∧
    (forStep (kernel.cin * kernel.kh * kernel.kw) 32
        (Scalar.conv2d_kstep B kernel params kernel.cout (kernel.cin * kernel.kh * kernel.kw)
          32 32 32 T_h T_w O_h O_w in_h in_w i j) st).sc_RAW = st.sc_RAW ∧
    ∀ m n, 0 ≤ m → m < 32 → i + m < O_h * O_w → 0 ≤ n → n < 32 →
      (forStep (kernel.cin * kernel.kh * kernel.kw) 32
        (Scalar.conv2d_kstep B kernel params kernel.cout (kernel.cin * kernel.kh * kernel.kw)
          32 32 32 T_h T_w O_h O_w in_h in_w i j) st).sc_C (m * 32 + n) =
        st.sc_C (m * 32 + n) +
          sumTo (kernel.cin * kernel.kh * kernel.kw) (fun g =>
            patch_lane_dilated input kernel params.stride params.padding params.dilation
              ((i + m).tdiv O_w) ((i + m).tmod O_w) g *
            (if g < kernel.cin * kernel.kh * kernel.kw ∧ j + n < kernel.cout then
              B (g * kernel.cout + (j + n)) else 0)) := by
  refine kloop_accumulate (kernel.cin * kernel.kh * kernel.kw) _ st
    (fun m => i + m < O_h * O_w)
    (fun m g => patch_lane_dilated input kernel params.stride params.padding params.dilation
      ((i + m).tdiv O_w) ((i + m).tmod O_w) g)
    (fun n g => if g < kernel.cin * kernel.kh * kernel.kw ∧ j + n < kernel.cout then
      B (g * kernel.cout + (j + n)) else 0)
    (fun _ _ => ⟨rfl, rfl⟩) ?_ ?_
  · intro k t hk0 hraw2 m n hm0 hm hrow hn0 hn
    show atallax_gemmv t.sc_C _ _ 32 32 32 (m * 32 + n) = _
    rw [atallax_gemmv_apply _ _ _ 32 32 32 m n hm0 hm hn0 hn]
    congr 1
    apply sumTo_congr
    intro r hr0 hr
    obtain ⟨f1, f2⟩ := hfit m hm0 hm hrow
    rw [scalar_load_b_tile_eq, load_b_tile_apply _ _ _ _ _ _ 32 32 r n hr0 hr hn0 hn,
      scalar_im2col_row _ _ params kernel.kh kernel.kw kernel.cin O_h O_w i k 32 32 T_h T_w
        0 in_h in_w m r hm0 hm hr0 hr,
      if_neg (by omega), hraw2, hraw,
      scalar_im2col_lane_loaded sc0 input kernel params T_h T_w _ _ in_h in_w (k + r) hKh hKw
        (by omega) f1 f2]
  · intro n g hg
    show (if g < kernel.cin * kernel.kh * kernel.kw ∧ j + n < kernel.cout then
      B (g * kernel.cout + (j + n)) else 0) = 0
    rw [if_neg (fun h => absurd h.1 (by omega))]

/-- The reduction loop of the scalar variant does not write `output->data`. -/
theorem scalar_conv2d_kloop_out (B : Int → α) (kernel : KernelTensor α) (params : ConvParams)
    (N K TM TN TK T_h T_w O_h O_w in_h in_w i j : Int) (st : ConvState α) (hTK : 1 ≤ TK) :
    (forStep K TK (Scalar.conv2d_kstep B kernel params N K TM TN TK T_h T_w O_h O_w
      in_h in_w i j) st).out = st.out :=
  forStep_preserve (fun t : ConvState α => t.out = st.out) K TK _ st hTK rfl
    (fun _ _ _ _ h => h)

/-- One tile of the scalar variant for one group of 32 output channels (`conv2d_tile`): the
target output element `(co, p)` keeps its convolution value, and receives it when its patch is
one of the 32 patches `i .. i+31` and its channel is in the group. -/
theorem scalar_conv2d_tile_spec (output : TensorNCHW α) (B0 : Int → α)
    (input : TensorNCHW α) (kernel : KernelTensor α) (params : ConvParams)
    (T_h T_w O_h O_w i j co p : Int) (st : ConvState α)
    (hc : output.c = kernel.cout) (hh : output.h = O_h) (hw : output.w = O_w)
    (hKh : 1 ≤ kernel.kh) (hKw : 1 ≤ kernel.kw)
    (hi : 0 ≤ i) (hj : 0 ≤ j) (hp0 : 0 ≤ p) (hp : p < O_h * O_w)
    (hfit : ∀ q, 0 ≤ q → q < O_h * O_w →
      (∀ a, 0 ≤ a → a < kernel.kh →
        0 ≤ q.tdiv O_w * params.stride - params.padding + a * params.dilation -
          (i.tdiv O_w * params.stride - params.padding) ∧
        q.tdiv O_w * params.stride - params.padding + a * params.dilation -
          (i.tdiv O_w * params.stride - params.padding) < T_h) ∧
      (∀ b, 0 ≤ b → b < kernel.kw →
        0 ≤ q.tmod O_w * params.stride - params.padding + b * params.dilation -
          (i.tmod O_w * params.stride - params.padding) ∧
        q.tmod O_w * params.stride - params.padding + b * params.dilation -
          (i.tmod O_w * params.stride - params.padding) < T_w)) :
    (st.out (co * (O_h * O_w) + p) =
        direct_conv input kernel params.stride params.padding params.dilation co
          (p.tdiv O_w) (p.tmod O_w) →
      (Scalar.conv2d_tile output (flatten_kernels_to_B_matrix kernel B0) input kernel params
        kernel.cout (kernel.cin * kernel.kh * kernel.kw) 32 32 32 T_h T_w O_h O_w 1024 i j
        st).out (co * (O_h * O_w) + p) =
        direct_conv input kernel params.stride params.padding params.dilation co
          (p.tdiv O_w) (p.tmod O_w)) ∧
    (i ≤ p ∧ p < i + 32 ∧ j ≤ co ∧ co < j + 32 ∧ co < kernel.cout →
      (Scalar.conv2d_tile output (flatten_kernels_to_B_matrix kernel B0) input kernel params
        kernel.cout (kernel.cin * kernel.kh * kernel.kw) 32 32 32 T_h T_w O_h O_w 1024 i j
        st).out (co * (O_h * O_w) + p) =
        direct_conv input kernel params.stride params.padding params.dilation co
          (p.tdiv O_w) (p.tmod O_w)) := by
  unfold Scalar.conv2d_tile
  simp only []
  rw [scalar_store_c_tile_eq]
  obtain ⟨k1, _, k3⟩ := scalar_conv2d_kloop (flatten_kernels_to_B_matrix kernel B0) st.sc_RAW
    input kernel params T_h T_w O_h O_w
    (i.tdiv O_w * params.stride - params.padding) (i.tmod O_w * params.stride - params.padding)
    i j
    ({ out := st.out,
       sc_RAW := load_spatial_tile st.sc_RAW input kernel.cin T_h T_w 0
         (i.tdiv O_w * params.stride - params.padding)
         (i.tmod O_w * params.stride - params.padding),
       sc_A := st.sc_A, sc_B := st.sc_B, sc_C := memset0 st.sc_C 0 (1024 * 32) } : ConvState α)
    hKh hKw rfl (fun m hm0 _ hlt => hfit (i + m) (by omega) hlt)
  have hC : ∀ r c, 0 ≤ r → r < 32 → 0 ≤ c → c < 32 → i + r < O_h * O_w →
      j + c < output.c →
      (forStep (kernel.cin * kernel.kh * kernel.kw) 32
        (Scalar.conv2d_kstep (flatten_kernels_to_B_matrix kernel B0) kernel params kernel.cout
          (kernel.cin * kernel.kh * kernel.kw) 32 32 32 T_h T_w O_h O_w
          (i.tdiv O_w * params.stride - params.padding)
          (i.tmod O_w * params.stride - params.padding) i j)
        ({ out := st.out,
           sc_RAW := load_spatial_tile st.sc_RAW input kernel.cin T_h T_w 0
             (i.tdiv O_w * params.stride - params.padding)
             (i.tmod O_w * params.stride - params.padding),
           sc_A := st.sc_A, sc_B := st.sc_B, sc_C := memset0 st.sc_C 0 (1024 * 32) } :
          ConvState α)).sc_C (r * 32 + c) =
        (fun ch q => direct_conv input kernel params.stride params.padding params.dilation ch
          (q.tdiv O_w) (q.tmod O_w)) (j + c) (i + r) := by
    intro r c hr0 hr hc0 hc32 hlt hch
    rw [k3 r c hr0 hr hlt hc0 hc32]
    show memset0 st.sc_C 0 (1024 * 32) (r * 32 + c) + _ = _
    rw [memset0_apply, if_pos (by omega), zero_add,
      flat_sum_of_kernel _ kernel B0 (j + c) hKh hKw (by omega) (by rw [← hc]; exact hch)]
    exact dilated_sum_eq_direct input kernel params.stride params.padding params.dilation
      (j + c) _ _ hKh hKw
  obtain ⟨s1, s2⟩ := store_c_tile_target
    ({ output with data := (forStep (kernel.cin * kernel.kh * kernel.kw) 32
        (Scalar.conv2d_kstep (flatten_kernels_to_B_matrix kernel B0) kernel params kernel.cout
          (kernel.cin * kernel.kh * kernel.kw) 32 32 32 T_h T_w O_h O_w
          (i.tdiv O_w * params.stride - params.padding)
          (i.tmod O_w * params.stride - params.padding) i j)
        ({ out := st.out,
           sc_RAW := load_spatial_tile st.sc_RAW input kernel.cin T_h T_w 0
             (i.tdiv O_w * params.stride - params.padding)
             (i.tmod O_w * params.stride - params.padding),
           sc_A := st.sc_A, sc_B := st.sc_B, sc_C := memset0 st.sc_C 0 (1024 * 32) } :
          ConvState α)).out } : TensorNCHW α)
    _ O_h O_w i j
    (fun ch q => direct_conv input kernel params.stride params.padding params.dilation ch
      (q.tdiv O_w) (q.tmod O_w)) co p hh hw hi hp0 hp hC
  constructor
  · intro hQ
    apply s1
    dsimp only
    rw [k1]
    exact hQ
  · rintro ⟨hip, hpi, hjco, hcoj, hco⟩
    have hco2 : co < output.c := by rw [hc]; exact hco
    exact s2 ⟨p - i, co - j, by omega, by omega, by omega, by omega, by omega, by omega, hco2⟩

/-- The loops of the scalar `conv2d_nchw` over the tiles and the channel groups, when the
output has at most 32 patches: every output element `(co, p)` receives the direct
convolution. -/
theorem scalar_conv2d_walk_spec (output : TensorNCHW α) (B0 : Int → α)
    (input : TensorNCHW α) (kernel : KernelTensor α) (params : ConvParams)
    (T_h T_w O_h O_w co p : Int) (st : ConvState α)
    (hc : output.c = kernel.cout) (hh : output.h = O_h) (hw : output.w = O_w)
    (hKh : 1 ≤ kernel.kh) (hKw : 1 ≤ kernel.kw) (hM : O_h * O_w ≤ 32)
    (hco0 : 0 ≤ co) (hco : co < kernel.cout) (hp0 : 0 ≤ p) (hp : p < O_h * O_w)
    (hfit : ∀ q, 0 ≤ q → q < O_h * O_w →
      (∀ a, 0 ≤ a → a < kernel.kh →
        0 ≤ q.tdiv O_w * params.stride - params.padding + a * params.dilation -
          ((0 : Int).tdiv O_w * params.stride - params.padding) ∧
        q.tdiv O_w * params.stride - params.padding + a * params.dilation -
          ((0 : Int).tdiv O_w * params.stride - params.padding) < T_h) ∧
      (∀ b, 0 ≤ b → b < kernel.kw →
        0 ≤ q.tmod O_w * params.stride - params.padding + b * params.dilation -
          ((0 : Int).tmod O_w * params.stride - params.padding) ∧
        q.tmod O_w * params.stride - params.padding + b * params.dilation -
          ((0 : Int).tmod O_w * params.stride - params.padding) < T_w)) :
    (forStep (O_h * O_w) 1024 (fun i st =>
      forStep kernel.cout 32
        (Scalar.conv2d_tile output (flatten_kernels_to_B_matrix kernel B0) input kernel params
          kernel.cout (kernel.cin * kernel.kh * kernel.kw) 32 32 32 T_h T_w O_h O_w 1024 i)
        st) st).out (co * (O_h * O_w) + p) =
      direct_conv input kernel params.stride params.padding params.dilation co
        (p.tdiv O_w) (p.tmod O_w) := by
  let Q : ConvState α → Prop := fun t =>
    t.out (co * (O_h * O_w) + p) =
      direct_conv input kernel params.stride params.padding params.dilation co
        (p.tdiv O_w) (p.tmod O_w)
  have htile := fun (j : Int) (t : ConvState α) (hj : 0 ≤ j) =>
    scalar_conv2d_tile_spec output B0 input kernel params T_h T_w O_h O_w 0 j co p t
      hc hh hw hKh hKw (le_refl _) hj hp0 hp hfit
  rw [forStep_once _ _ _ _ (by omega) (by omega)]
  refine forStep_establish (fun _ => True) Q kernel.cout 32 (co / 32)
    (Scalar.conv2d_tile output (flatten_kernels_to_B_matrix kernel B0) input kernel params
      kernel.cout (kernel.cin * kernel.kh * kernel.kw) 32 32 32 T_h T_w O_h O_w 1024 0)
    st (by norm_num) (by omega) (by omega) trivial (fun _ _ _ _ _ => trivial) ?_ ?_
  · intro t _
    exact (htile (co / 32 * 32) t (by omega)).2 ⟨by omega, by omega, by omega, by omega, hco⟩
  · intro j t hj _ _ hq
    exact (htile j t hj).1 hq

end ScalarWalk

/-- With at most 32 output rows and columns, every dilated tap of every patch lies inside the
tile of side `31*S + (K-1)*D + 1` loaded at the input position of patch 0. -/
theorem scalar_patches_fit (S P D K_h K_w O_h O_w q : Int) (hS : 1 ≤ S) (hD : 0 ≤ D)
    (hOh : O_h ≤ 32) (hOw : O_w ≤ 32) (hOw1 : 1 ≤ O_w)
    (hq0 : 0 ≤ q) (hq : q < O_h * O_w) :
    (∀ a, 0 ≤ a → a < K_h →
      0 ≤ q.tdiv O_w * S - P + a * D - ((0 : Int).tdiv O_w * S - P) ∧
      q.tdiv O_w * S - P + a * D - ((0 : Int).tdiv O_w * S - P) <
        (32 - 1) * S + ((K_h - 1) * D + 1)) ∧
    (∀ b, 0 ≤ b → b < K_w →
      0 ≤ q.tmod O_w * S - P + b * D - ((0 : Int).tmod O_w * S - P) ∧
      q.tmod O_w * S - P + b * D - ((0 : Int).tmod O_w * S - P) <
        (32 - 1) * S + ((K_w - 1) * D + 1)) := by
  obtain ⟨b1, b2, b3, b4, _⟩ := local_patch_bounds q O_h O_w hq0 hq hOw1
  rw [Int.zero_tdiv, Int.zero_tmod]
  have h1 : q.tdiv O_w * S ≤ 31 * S := mul_le_mul_of_nonneg_right (by omega) (by omega)
  have h2 : 0 ≤ q.tdiv O_w * S := mul_nonneg b1 (by omega)
  have h3 : q.tmod O_w * S ≤ 31 * S := mul_le_mul_of_nonneg_right (by omega) (by omega)
  have h4 : 0 ≤ q.tmod O_w * S := mul_nonneg b3 (by omega)
  constructor
  · intro a ha0 ha
    have h5 : a * D ≤ (K_h - 1) * D := mul_le_mul_of_nonneg_right (by omega) hD
    have h6 : 0 ≤ a * D := mul_nonneg ha0 hD
    constructor <;> linarith
  · intro b hb0 hb
    have h5 : b * D ≤ (K_w - 1) * D := mul_le_mul_of_nonneg_right (by omega) hD
    have h6 : 0 ≤ b * D := mul_nonneg hb0 hD
    constructor <;> linarith

section StoreMisses

variable {α : Type}

/-- A tile store of 32 patches starting at patch `i` does not write the elements of a patch
outside `i .. i+31`. -/
theorem store_c_tile_misses (output : TensorNCHW α) (dat sc_C : Int → α)
    (O_h O_w i j co p : Int) (hh : output.h = O_h) (hw : output.w = O_w)
    (hi : 0 ≤ i) (hp0 : 0 ≤ p) (hp : p < O_h * O_w) (hout : ¬ (i ≤ p ∧ p < i + 32)) :
    (store_c_tile ({ output with data := dat } : TensorNCHW α) sc_C O_h O_w i j 32 32).data
        (co * (O_h * O_w) + p) = dat (co * (O_h * O_w) + p) := by
  apply store_c_tile_unwritten
  intro hmem
  obtain ⟨r, c, hr0, hr, _, _, hpr, _, hidx⟩ :=
    (store_c_tile_writes ({ output with data := dat } : TensorNCHW α) sc_C O_h O_w i j 32 32
      hh hw _).mp hmem
  obtain ⟨_, e2⟩ := radix_unique (O_h * O_w) co p (j + c) (i + r) hp0 hp (by omega) hpr hidx
  omega

end StoreMisses

section ScalarTop

variable {α : Type} [CommRing α]

/-- One tile of the scalar variant leaves alone every output element whose patch is not one
of the 32 patches `i .. i+31`. -/
theorem scalar_conv2d_tile_frame (output : TensorNCHW α) (B : Int → α)
    (input : TensorNCHW α) (kernel : KernelTensor α) (params : ConvParams)
    (N K T_h T_w O_h O_w ppt i j co p : Int) (st : ConvState α)
    (hh : output.h = O_h) (hw : output.w = O_w)
    (hi : 0 ≤ i) (hp0 : 0 ≤ p) (hp : p < O_h * O_w) (hout : ¬ (i ≤ p ∧ p < i + 32)) :
    (Scalar.conv2d_tile output B input kernel params N K 32 32 32 T_h T_w O_h O_w ppt i j
        st).out (co * (O_h * O_w) + p) = st.out (co * (O_h * O_w) + p) := by
  unfold Scalar.conv2d_tile
  simp only []
  rw [scalar_store_c_tile_eq, store_c_tile_misses output _ _ O_h O_w i j co p hh hw hi hp0 hp
    hout, scalar_conv2d_kloop_out _ _ _ _ _ _ _ _ _ _ _ _ _ _ _ _ _ (by norm_num)]

/-- Output metadata after a call of the scalar `conv2d_nchw` on a single-batch input
(whether or not the tile passes the cap). -/
theorem scalar_conv2d_nchw_meta (output input : TensorNCHW α) (kernel : KernelTensor α)
    (params : ConvParams) (scr : Scratch α) (hn : input.n ≤ 1) :
    (Scalar.conv2d_nchw output input kernel params scr).n = input.n ∧
    (Scalar.conv2d_nchw output input kernel params scr).c = kernel.cout ∧
    (Scalar.conv2d_nchw output input kernel params scr).h =
      out_dim input.h kernel.kh params.dilation params.padding params.stride ∧
    (Scalar.conv2d_nchw output input kernel params scr).w =
      out_dim input.w kernel.kw params.dilation params.padding params.stride := by
  unfold Scalar.conv2d_nchw
  simp only [if_neg (not_lt.mpr hn)]
  by_cases hcap : (SA_TM - 1) * params.stride + ((kernel.kh - 1) * params.dilation + 1) >
        MAX_SPATIAL_TILE_DIM ∨
      (SA_TM - 1) * params.stride + ((kernel.kw - 1) * params.dilation + 1) >
        MAX_SPATIAL_TILE_DIM
  · rw [if_pos hcap]
    refine ⟨?_, ?_, ?_, ?_⟩ <;> rfl
  · rw [if_neg hcap]
    refine ⟨?_, ?_, ?_, ?_⟩ <;> rfl

/-- Main theorem on the scalar `conv2d_nchw`: when the output has at most 32 patches and the
required tile passes the cap, every output element holds the direct convolution with taps
`D = params->dilation` apart. -/
theorem scalar_conv2d_nchw_data (output input : TensorNCHW α) (kernel : KernelTensor α)
    (params : ConvParams) (scr : Scratch α) (co oh ow : Int)
    (hn : input.n ≤ 1) (hS : 1 ≤ params.stride) (hD : 0 ≤ params.dilation)
    (hKh : 1 ≤ kernel.kh) (hKw : 1 ≤ kernel.kw)
    (hM : out_dim input.h kernel.kh params.dilation params.padding params.stride *
      out_dim input.w kernel.kw params.dilation params.padding params.stride ≤ 32)
    (hTh : 31 * params.stride + ((kernel.kh - 1) * params.dilation + 1) ≤ 64)
    (hTw : 31 * params.stride + ((kernel.kw - 1) * params.dilation + 1) ≤ 64)
    (hco0 : 0 ≤ co) (hco : co < kernel.cout)
    (hoh0 : 0 ≤ oh)
    (hoh : oh < out_dim input.h kernel.kh params.dilation params.padding params.stride)
    (how0 : 0 ≤ ow)
    (how : ow < out_dim input.w kernel.kw params.dilation params.padding params.stride) :
    (Scalar.conv2d_nchw output input kernel params scr).data
        (co * (out_dim input.h kernel.kh params.dilation params.padding params.stride *
          out_dim input.w kernel.kw params.dilation params.padding params.stride) +
        (oh * out_dim input.w kernel.kw params.dilation params.padding params.stride + ow)) =
      direct_conv input kernel params.stride params.padding params.dilation co oh ow := by
  have hcap : ¬ ((SA_TM - 1) * params.stride + ((kernel.kh - 1) * params.dilation + 1) >
        MAX_SPATIAL_TILE_DIM ∨
      (SA_TM - 1) * params.stride + ((kernel.kw - 1) * params.dilation + 1) >
        MAX_SPATIAL_TILE_DIM) := by
    unfold SA_TM MAX_SPATIAL_TILE_DIM
    omega
  have hOh : out_dim input.h kernel.kh params.dilation params.padding params.stride ≤ 32 := by
    nlinarith
  have hOw : out_dim input.w kernel.kw params.dilation params.padding params.stride ≤ 32 := by
    nlinarith
  obtain ⟨u1, u2⟩ := patch_unravel oh ow
    (out_dim input.w kernel.kw params.dilation params.padding params.stride) hoh0 how0 how
  have hp := patch_index_lt oh ow
    (out_dim input.h kernel.kh params.dilation params.padding params.stride)
    (out_dim input.w kernel.kw params.dilation params.padding params.stride) hoh how0 how
  have hp0 : 0 ≤ oh * out_dim input.w kernel.kw params.dilation params.padding
      params.stride + ow := by
    have : 0 ≤ oh * out_dim input.w kernel.kw params.dilation params.padding params.stride :=
      mul_nonneg hoh0 (by omega)
    omega
  unfold Scalar.conv2d_nchw
  simp only [if_neg (not_lt.mpr hn)]
  rw [if_neg hcap]
  have key := scalar_conv2d_walk_spec
    ({ data := memset0 output.data 0 (input.n * kernel.cout *
          out_dim input.h kernel.kh params.dilation params.padding params.stride *
          out_dim input.w kernel.kw params.dilation params.padding params.stride),
       n := input.n, c := kernel.cout,
       h := out_dim input.h kernel.kh params.dilation params.padding params.stride,
       w := out_dim input.w kernel.kw params.dilation params.padding params.stride } :
      TensorNCHW α)
    scr.B_matrix input kernel params
    ((32 - 1) * params.stride + ((kernel.kh - 1) * params.dilation + 1))
    ((32 - 1) * params.stride + ((kernel.kw - 1) * params.dilation + 1))
    (out_dim input.h kernel.kh params.dilation params.padding params.stride)
    (out_dim input.w kernel.kw params.dilation params.padding params.stride)
    co
    (oh * out_dim input.w kernel.kw params.dilation params.padding params.stride + ow)
    ({ out := memset0 output.data 0 (input.n * kernel.cout *
          out_dim input.h kernel.kh params.dilation params.padding params.stride *
          out_dim input.w kernel.kw params.dilation params.padding params.stride),
       sc_RAW := scr.sc_RAW, sc_A := scr.sc_A, sc_B := scr.sc_B, sc_C := scr.sc_C } :
      ConvState α)
    rfl rfl rfl hKh hKw hM hco0 hco hp0 hp
    (fun q hq0 hq => scalar_patches_fit params.stride params.padding params.dilation
      kernel.kh kernel.kw _ _ q hS hD hOh hOw (by omega) hq0 hq)
  rw [u1, u2] at key
  exact key

/-- The scalar `conv2d_nchw` never writes the output elements of a patch `p` outside the
ranges `r*1024 .. r*1024 + 31`: they keep the 0 of the initial `memset`. -/
theorem scalar_conv2d_nchw_unwritten (output input : TensorNCHW α) (kernel : KernelTensor α)
    (params : ConvParams) (scr : Scratch α) (co p : Int)
    (hn : input.n = 1) (hco0 : 0 ≤ co) (hco : co < kernel.cout) (hp0 : 0 ≤ p)
    (hp : p < out_dim input.h kernel.kh params.dilation params.padding params.stride *
      out_dim input.w kernel.kw params.dilation params.padding params.stride)
    (hdrop : ∀ r : Int, 0 ≤ r → ¬ (r * 1024 ≤ p ∧ p < r * 1024 + 32)) :
    (Scalar.conv2d_nchw output input kernel params scr).data
        (co * (out_dim input.h kernel.kh params.dilation params.padding params.stride *
          out_dim input.w kernel.kw params.dilation params.padding params.stride) + p) = 0 := by
  generalize hA : out_dim input.h kernel.kh params.dilation params.padding params.stride = A
    at hp ⊢
  generalize hB : out_dim input.w kernel.kw params.dilation params.padding params.stride = B
    at hp ⊢
  have hidx : 0 ≤ co * (A * B) + p ∧ co * (A * B) + p < 0 + input.n * kernel.cout * A * B := by
    rw [hn]
    have e : 0 + 1 * kernel.cout * A * B = kernel.cout * (A * B) := by ring
    have h1 : 0 ≤ co * (A * B) := mul_nonneg hco0 (by omega)
    have h2 : (co + 1) * (A * B) ≤ kernel.cout * (A * B) :=
      mul_le_mul_of_nonneg_right (by omega) (by omega)
    have h3 : (co + 1) * (A * B) = co * (A * B) + A * B := by ring
    rw [e]
    constructor
    · omega
    · linarith
  unfold Scalar.conv2d_nchw
  simp only [if_neg (by omega : ¬ input.n > 1)]
  unfold out_dim at hA hB
  rw [hA, hB]
  by_cases hcap : (SA_TM - 1) * params.stride + ((kernel.kh - 1) * params.dilation + 1) >
        MAX_SPATIAL_TILE_DIM ∨
      (SA_TM - 1) * params.stride + ((kernel.kw - 1) * params.dilation + 1) >
        MAX_SPATIAL_TILE_DIM
  · rw [if_pos hcap]
    show memset0 output.data 0 _ _ = 0
    rw [memset0_apply, if_pos hidx]
  · rw [if_neg hcap]
    dsimp only
    have h0 : memset0 output.data 0 (input.n * kernel.cout * A * B) (co * (A * B) + p) = 0 := by
      rw [memset0_apply, if_pos hidx]
    refine forStep_preserve_mul (fun t : ConvState α => t.out (co * (A * B) + p) = 0)
      (A * B) (SA_TM * SA_TM) _ _ (by decide) h0 ?_
    intro r t hr0 _ hq
    refine forStep_preserve (fun t : ConvState α => t.out (co * (A * B) + p) = 0)
      kernel.cout SA_TN _ t (by decide) hq ?_
    intro j u _ _ hu
    have e : r * (SA_TM * SA_TM) = r * 1024 := by
      unfold SA_TM; norm_num
    show (Scalar.conv2d_tile _ _ input kernel params kernel.cout _ 32 32 32 _ _ A B _
      (r * (SA_TM * SA_TM)) j u).out _ = 0
    rw [scalar_conv2d_tile_frame _ _ input kernel params kernel.cout _ _ _ A B _
      (r * (SA_TM * SA_TM)) j co p u rfl rfl (by rw [e]; omega) hp0 hp
      (by rw [e]; exact hdrop r hr0)]
    exact hu

end ScalarTop

section ScalarClaims

variable {α : Type} [CommRing α]

/-- C24: `conv2d_nchw` of `src/conv_lib.c` (the scalar-im2col variant exercised by
`src/main.c`), in exact arithmetic, on a single-batch input whose output has at most 32
patches (`O_h*O_w ≤ 32`), with stride `S ≥ 1`, dilation `D ≥ 1`, any padding, a kernel of at
least 1x1 and required tile `31*S + K_eff ≤ 64` in both dimensions: the output metadata is
`1 x C_out x O_h x O_w` and every output element equals the direct convolution with taps
`D` apart.  (Neither `cin = input.c` nor `padding ≥ 0` is needed.) -/
theorem scalar_conv2d_nchw_equals_direct (output input : TensorNCHW α)
    (kernel : KernelTensor α) (params : ConvParams) (scr : Scratch α)
    (hn : input.n = 1) (hS : 1 ≤ params.stride) (hD : 1 ≤ params.dilation)
    (hKh : 1 ≤ kernel.kh) (hKw : 1 ≤ kernel.kw)
    (hM : out_dim input.h kernel.kh params.dilation params.padding params.stride *
      out_dim input.w kernel.kw params.dilation params.padding params.stride ≤ 32)
    (hTh : 31 * params.stride + ((kernel.kh - 1) * params.dilation + 1) ≤ 64)
    (hTw : 31 * params.stride + ((kernel.kw - 1) * params.dilation + 1) ≤ 64) :
    (Scalar.conv2d_nchw output input kernel params scr).n = 1 ∧
    (Scalar.conv2d_nchw output input kernel params scr).c = kernel.cout ∧
    (Scalar.conv2d_nchw output input kernel params scr).h =
      out_dim input.h kernel.kh params.dilation params.padding params.stride ∧
    (Scalar.conv2d_nchw output input kernel params scr).w =
      out_dim input.w kernel.kw params.dilation params.padding params.stride ∧
    ∀ co oh ow, 0 ≤ co → co < kernel.cout → 0 ≤ oh →
      oh < out_dim input.h kernel.kh params.dilation params.padding params.stride →
      0 ≤ ow → ow < out_dim input.w kernel.kw params.dilation params.padding params.stride →
      tensor_at (Scalar.conv2d_nchw output input kernel params scr) co oh ow =
        direct_conv input kernel params.stride params.padding params.dilation co oh ow := by
  obtain ⟨m1, m2, m3, m4⟩ := scalar_conv2d_nchw_meta output input kernel params scr
    (by omega)
  refine ⟨m1.trans hn, m2, m3, m4, ?_⟩
  intro co oh ow hco0 hco hoh0 hoh how0 how
  unfold tensor_at
  rw [m3, m4, ← scalar_conv2d_nchw_data output input kernel params scr co oh ow (by omega) hS
    (by omega) hKh hKw hM hTh hTw hco0 hco hoh0 hoh how0 how]
  congr 1
  ring

/-- Witness of C24: the scenario of `src/main.c` (5x5 input, two channels, 3x3 kernel,
stride 1, padding 0, dilation 1), whose output has 9 patches. -/
theorem scalar_conv2d_nchw_equals_direct_witness :
    tensor_at (Scalar.conv2d_nchw main_output main_input main_kernel ⟨1, 0, 1⟩ zero_scratch)
        1 2 1 = direct_conv main_input main_kernel 1 0 1 1 2 1 :=
  (scalar_conv2d_nchw_equals_direct main_output main_input main_kernel ⟨1, 0, 1⟩ zero_scratch
    (by decide) (by decide) (by decide) (by decide) (by decide) (by decide) (by decide)
    (by decide)).2.2.2.2 1 2 1 (by decide) (by decide) (by decide) (by decide) (by decide)
    (by decide)

end ScalarClaims

/-- C25: `conv2d_nchw` of `src/conv_lib.c` does not compute every output patch when the
output has more than 32 patches.  For the 6x6 one-channel ramp input (`input[i] = i`) and
the 1x1 kernel of weight 1, with stride 1, padding 0, dilation 1, the required tile
`31*1 + 1 = 32` fits the cap and the output is 6x6 (36 patches), but the output element
`(0, 5, 2)` (patch 32) is 0, while the direct convolution there is 32: the main loop steps
by `patches_per_tile = 1024` and each step computes and stores only 32 patches. -/
theorem scalar_conv2d_nchw_drops_patches :
    (Scalar.conv2d_nchw stale_output ramp6_input unit_kernel ⟨1, 0, 1⟩ zero_scratch).h = 6 ∧
    (Scalar.conv2d_nchw stale_output ramp6_input unit_kernel ⟨1, 0, 1⟩ zero_scratch).w = 6 ∧
    31 * 1 + ((unit_kernel.kh - 1) * 1 + 1) ≤ MAX_SPATIAL_TILE_DIM ∧
    tensor_at (Scalar.conv2d_nchw stale_output ramp6_input unit_kernel ⟨1, 0, 1⟩ zero_scratch)
      0 5 2 = 0 ∧
    direct_conv ramp6_input unit_kernel 1 0 1 0 5 2 = 32 ∧
    tensor_at (Scalar.conv2d_nchw stale_output ramp6_input unit_kernel ⟨1, 0, 1⟩ zero_scratch)
      0 5 2 ≠ direct_conv ramp6_input unit_kernel 1 0 1 0 5 2 := by
  obtain ⟨_, _, m3, m4⟩ := scalar_conv2d_nchw_meta stale_output ramp6_input unit_kernel
    ⟨1, 0, 1⟩ zero_scratch (by decide)
  have hh : (Scalar.conv2d_nchw stale_output ramp6_input unit_kernel ⟨1, 0, 1⟩
      zero_scratch).h = 6 := by
    rw [m3]; decide
  have hw : (Scalar.conv2d_nchw stale_output ramp6_input unit_kernel ⟨1, 0, 1⟩
      zero_scratch).w = 6 := by
    rw [m4]; decide
  have key := scalar_conv2d_nchw_unwritten stale_output ramp6_input unit_kernel ⟨1, 0, 1⟩
    zero_scratch 0 32 (by decide) (by decide) (by decide) (by decide) (by decide)
    (fun r hr => by omega)
  have hval : tensor_at (Scalar.conv2d_nchw stale_output ramp6_input unit_kernel ⟨1, 0, 1⟩
      zero_scratch) 0 5 2 = 0 := by
    unfold tensor_at
    rw [hh, hw]
    have e : (0 : Int) * (6 * 6) + 5 * 6 + 2 =
        0 * (out_dim ramp6_input.h unit_kernel.kh (1 : Int) 0 1 *
          out_dim ramp6_input.w unit_kernel.kw (1 : Int) 0 1) + 32 := by decide
    rw [e]
    exact key
  have hdir : direct_conv ramp6_input unit_kernel 1 0 1 0 5 2 = 32 := by decide
  exact ⟨hh, hw, by decide, hval, hdir, by rw [hval, hdir]; decide⟩

/-! ## Block sizing, derived sizes and the batch guard -/

/-- C34: output block sizing in `conv2d_nchw` (lines 265-272).  For every stride `S ≥ 1`
and effective kernel `K_eff = (K - 1) * D + 1` with `1 ≤ K_eff ≤ 32`, the block size
`BLK = max(1, (32 - K_eff) / S + 1)` the function picks satisfies `BLK ≥ 1`,
`(BLK - 1) * S + K_eff ≤ 32` (the receptive field of a whole block fits the 32x32 tile) and
`BLK * S + K_eff > 32` (no larger block would fit). -/
theorem blk_dim_maximal (K D S : Int) (hS : 1 ≤ S) (hK1 : 1 ≤ (K - 1) * D + 1)
    (hK32 : (K - 1) * D + 1 ≤ 32) :
    1 ≤ blk_dim K D S ∧
    (blk_dim K D S - 1) * S + ((K - 1) * D + 1) ≤ 32 ∧
    blk_dim K D S * S + ((K - 1) * D + 1) > 32 := by
  unfold blk_dim SCPAD_DIM
  have hfit : 0 ≤ 32 - ((K - 1) * D + 1) := by omega
  rw [tdiv_nonneg_eq _ _ hfit (by omega)]
  have h1 : 0 ≤ (32 - ((K - 1) * D + 1)) / S := Int.ediv_nonneg hfit (by omega)
  have h2 : (32 - ((K - 1) * D + 1)) / S * S ≤ 32 - ((K - 1) * D + 1) :=
    Int.ediv_mul_le _ (by omega)
  have h3 : 32 - ((K - 1) * D + 1) < ((32 - ((K - 1) * D + 1)) / S + 1) * S :=
    Int.lt_ediv_add_one_mul_self _ (by omega)
  rw [if_neg (by omega)]
  refine ⟨by omega, ?_, by omega⟩
  have e : ((32 - ((K - 1) * D + 1)) / S + 1 - 1) * S = (32 - ((K - 1) * D + 1)) / S * S := by
    ring
  rw [e]
  omega

/-- Witness of C34: a 3x3 kernel with dilation 2 (`K_eff = 5`) and stride 2 gives blocks of
14 patches per side. -/
theorem blk_dim_maximal_witness :
    1 ≤ blk_dim 3 2 2 ∧ (blk_dim 3 2 2 - 1) * 2 + ((3 - 1) * 2 + 1) ≤ 32 ∧
      blk_dim 3 2 2 * 2 + ((3 - 1) * 2 + 1) > 32 :=
  blk_dim_maximal 3 2 2 (by decide) (by decide) (by decide)

section Atomic

variable {α : Type} [CommRing α]

/-- C39: when `input.n > 1`, `conv2d_nchw` is atomic with respect to the output: the four
metadata fields and every element of the output data are what they were before the call,
and the instrumented run records no scratchpad load, no GEMM and no store at all (the
function returns at line 251, before its first write; the input and the kernel are only
ever read by the function). -/
theorem conv2d_nchw_batch_atomic (output input : TensorNCHW α) (kernel : KernelTensor α)
    (params : ConvParams) (scr : Scratch α) (hn : input.n > 1) :
    (conv2d_nchw output input kernel params scr).1.n = output.n ∧
    (conv2d_nchw output input kernel params scr).1.c = output.c ∧
    (conv2d_nchw output input kernel params scr).1.h = output.h ∧
    (conv2d_nchw output input kernel params scr).1.w = output.w ∧
    (∀ i, (conv2d_nchw output input kernel params scr).1.data i = output.data i) ∧
    (conv2d_nchw_traced output input kernel params scr).2.loads = [] ∧
    (conv2d_nchw_traced output input kernel params scr).2.gemms = [] ∧
    (conv2d_nchw_traced output input kernel params scr).2.stores = [] := by
  have h1 : (conv2d_nchw output input kernel params scr).1 = output := by
    unfold conv2d_nchw
    simp only [if_pos hn]
  have h2 : (conv2d_nchw_traced output input kernel params scr).2 = ⟨[], [], []⟩ := by
    unfold conv2d_nchw_traced
    simp only [if_pos hn]
  rw [h1, h2]
  exact ⟨rfl, rfl, rfl, rfl, fun _ => rfl, rfl, rfl, rfl⟩

end Atomic

/-- Witness of C39: a two-batch input leaves an output buffer holding 7 everywhere, with
metadata `1 x 2 x 16 x 16`, as it was. -/
theorem conv2d_nchw_batch_atomic_witness :
    (conv2d_nchw stale_output batch2_input unit_kernel ⟨1, 0, 1⟩ zero_scratch).1.h = 16 ∧
    (conv2d_nchw stale_output batch2_input unit_kernel ⟨1, 0, 1⟩ zero_scratch).1.data 0 = 7 ∧
    (conv2d_nchw_traced stale_output batch2_input unit_kernel ⟨1, 0, 1⟩
      zero_scratch).2.stores = [] :=
  have h := conv2d_nchw_batch_atomic stale_output batch2_input unit_kernel ⟨1, 0, 1⟩
    zero_scratch (by decide)
  ⟨h.2.2.1, h.2.2.2.2.1 0, h.2.2.2.2.2.2.2⟩

/-- C36: the output size `conv2d_nchw` derives is not the floor value when the kernel is
larger than the padded input.  For the 2x2 input `tiny_input`, the 3x3 kernel of ones,
stride 2, padding 0 and dilation 1 (`H + 2P = 2 < 3 = (K_h - 1)*D + 1`), the formula of
the specification gives `⌊-1/2⌋ + 1 = 0` rows and columns, while the function, whose `/`
truncates towards zero, sets `output->h = output->w = 1` and stores one output element: the
sum 1 + 2 + 3 + 4 = 10 of the four input pixels under the overhanging window. -/
theorem conv2d_nchw_truncated_out_dim :
    tiny_input.h + 2 * 0 < (ones3_kernel.kh - 1) * 1 + 1 ∧
    floor_out_dim tiny_input.h ones3_kernel.kh 1 0 2 = 0 ∧
    floor_out_dim tiny_input.w ones3_kernel.kw 1 0 2 = 0 ∧
    (conv2d_nchw stale_output tiny_input ones3_kernel ⟨2, 0, 1⟩ zero_scratch).1.h = 1 ∧
    (conv2d_nchw stale_output tiny_input ones3_kernel ⟨2, 0, 1⟩ zero_scratch).1.w = 1 ∧
    (conv2d_nchw stale_output tiny_input ones3_kernel ⟨2, 0, 1⟩ zero_scratch).1.data 0 =
      10 := by
  obtain ⟨_, _, m3, m4, _⟩ := conv2d_nchw_meta stale_output tiny_input ones3_kernel
    ⟨2, 0, 1⟩ zero_scratch (by decide)
  have hd := conv2d_nchw_data stale_output tiny_input ones3_kernel ⟨2, 0, 1⟩ zero_scratch
    0 0 0 (by decide) (by decide) (by decide) (by decide) (by decide) (by decide)
    (by decide) (by decide) (by decide) (by decide) (by decide) (by decide)
  have e : (0 : Int) * out_dim tiny_input.h ones3_kernel.kh
      (norm_dilation (⟨2, 0, 1⟩ : ConvParams).dilation) (⟨2, 0, 1⟩ : ConvParams).padding
      (⟨2, 0, 1⟩ : ConvParams).stride *
      out_dim tiny_input.w ones3_kernel.kw
        (norm_dilation (⟨2, 0, 1⟩ : ConvParams).dilation) (⟨2, 0, 1⟩ : ConvParams).padding
        (⟨2, 0, 1⟩ : ConvParams).stride +
      0 * out_dim tiny_input.w ones3_kernel.kw
        (norm_dilation (⟨2, 0, 1⟩ : ConvParams).dilation) (⟨2, 0, 1⟩ : ConvParams).padding
        (⟨2, 0, 1⟩ : ConvParams).stride + 0 = 0 := by decide
  rw [e] at hd
  refine ⟨by decide, by decide, by decide, ?_, ?_, ?_⟩
  · rw [m3]; decide
  · rw [m4]; decide
  · rw [hd, conv_value_eq_direct _ _ _ _ _ _ (by decide) (by decide)]
    decide

section Refinement

variable {α : Type} [CommRing α]

/-! ## The vector im2col against the scalar im2col -/

/-- For dilation 1 and a patch whose rows lie inside the tile and whose window starts at a
column `lw ≥ 0`, the lane the vector im2col builds by load, mask and shift is the lane the
scalar gather of `src/conv_lib.c` computes pixel by pixel. -/
theorem im2col_lane_eq_scalar (sc_RAW : Int → α) (params : ConvParams)
    (K_h K_w C_in k_start T_h T_w rh rw o_h o_w k : Int)
    (hD : params.dilation = 1) (hKh : 1 ≤ K_h) (hKw : 1 ≤ K_w) (hKw32 : K_w ≤ 32)
    (hks : 0 ≤ k_start) (hk0 : 0 ≤ k) (hk : k < 32)
    (hlh0 : 0 ≤ o_h * params.stride - params.padding - rh)
    (hlh : o_h * params.stride - params.padding - rh + K_h ≤ T_h)
    (hlw0 : 0 ≤ o_w * params.stride - params.padding - rw) :
    im2col_lane sc_RAW K_h K_w C_in k_start 32 T_h T_w 0
        (o_h * params.stride - params.padding - rh)
        (o_w * params.stride - params.padding - rw) k =
      scalar_im2col_lane sc_RAW params K_h K_w C_in T_h T_w 0 rh rw o_h o_w (k_start + k) := by
  have hsks : 0 < K_h * K_w := by nlinarith
  have hg0 : 0 ≤ k_start + k := by omega
  unfold scalar_im2col_lane
  simp only []
  by_cases hg : k_start + k < C_in * (K_h * K_w)
  · obtain ⟨d1, d2, d3, d4, d5, d6⟩ := flat_digits_ediv (k_start + k) K_h K_w hg0 hKh hKw
    have hc : (k_start + k) / (K_h * K_w) < C_in := Int.ediv_lt_of_lt_mul hsks hg
    rw [im2col_lane_tap sc_RAW K_h K_w C_in k_start 32 T_h T_w _ _
      ((k_start + k) / (K_h * K_w)) ((k_start + k) % (K_h * K_w) / K_w) ((k_start + k) % K_w)
      k hks hk0 hk hKw32 d2 hc d3 d4 d5 d6 d1]
    have hge : ¬ (k_start + k ≥ C_in * K_h * K_w) := by rw [mul_assoc]; omega
    rw [if_neg hge,
      tdiv_nonneg_eq (k_start + k) _ hg0 (le_of_lt hsks),
      tmod_nonneg_eq (k_start + k) _ hg0 (le_of_lt hsks),
      tdiv_nonneg_eq ((k_start + k) % (K_h * K_w)) K_w
        (Int.emod_nonneg _ (ne_of_gt hsks)) (by omega),
      tmod_nonneg_eq (k_start + k) K_w hg0 (by omega), hD]
    generalize (k_start + k) / (K_h * K_w) = c at d2 hc
    generalize (k_start + k) % (K_h * K_w) / K_w = a at d3 d4
    generalize (k_start + k) % K_w = b at d5 d6
    by_cases hin : b < T_w - (o_w * params.stride - params.padding - rw)
    · have hcond : c ≥ 0 ∧ c < 0 + C_in ∧
          o_h * params.stride - params.padding + a * 1 - rh ≥ 0 ∧
          o_h * params.stride - params.padding + a * 1 - rh < T_h ∧
          o_w * params.stride - params.padding + b * 1 - rw ≥ 0 ∧
          o_w * params.stride - params.padding + b * 1 - rw < T_w :=
        ⟨by omega, by omega, by omega, by omega, by omega, by omega⟩
      rw [if_pos hin, if_pos hcond]
      congr 1
      ring
    · have hcond : ¬ (c ≥ 0 ∧ c < 0 + C_in ∧
          o_h * params.stride - params.padding + a * 1 - rh ≥ 0 ∧
          o_h * params.stride - params.padding + a * 1 - rh < T_h ∧
          o_w * params.stride - params.padding + b * 1 - rw ≥ 0 ∧
          o_w * params.stride - params.padding + b * 1 - rw < T_w) := by omega
      rw [if_neg hin, if_neg hcond]
  · have hge : k_start + k ≥ C_in * K_h * K_w := by rw [mul_assoc]; omega
    rw [im2col_lane_past sc_RAW K_h K_w C_in k_start 32 T_h T_w 0 _ _ k (by omega)
      (by omega), if_pos hge]

/-- C31: the vector `im2col_transform_scpad` of `conv_prog_model/conv_lib.c` refines the
scalar `im2col_transform_scpad` of `src/conv_lib.c`.  For dilation 1, `TK = 32`,
`1 ≤ K_w ≤ 32`, `K_h ≥ 1`, `raw_tile_start_c = 0`, every chunk start `k_start ≥ 0` and
every patch `m` both functions transform (`m < TM`, `m < M_limit_in_tile`, in the image)
whose local origin satisfies `0 ≤ lh`, `lh + K_h ≤ T_h` and `0 ≤ lw` (the window may
overhang the right edge, `lw + K_w > T_w`; the bound `lw < T_w` of the claim is not even
needed), the two functions write the same 32 lanes to row `m` of `sc_A`; and a lane whose
window pixel has local column `lw + kw ≥ T_w` is 0 in both. -/
theorem im2col_vector_refines_scalar (sc_A sc_A2 : Int → α) (off : Int) (sc_RAW : Int → α)
    (params : ConvParams) (K_h K_w C_in O_h O_w i_start k_start TM T_h T_w rh rw : Int)
    (M_limit : Int) (regs : VRegs α) (m : Int)
    (hD : params.dilation = 1) (hKh : 1 ≤ K_h) (hKw : 1 ≤ K_w) (hKw32 : K_w ≤ 32)
    (hks : 0 ≤ k_start) (hm0 : 0 ≤ m) (hm : m < TM) (hlim : m < M_limit)
    (hin : i_start + m < O_h * O_w)
    (hlh0 : 0 ≤ (i_start + m).tdiv O_w * params.stride - params.padding - rh)
    (hlh : (i_start + m).tdiv O_w * params.stride - params.padding - rh + K_h ≤ T_h)
    (hlw0 : 0 ≤ (i_start + m).tmod O_w * params.stride - params.padding - rw) :
    (∀ k, 0 ≤ k → k < 32 →
      im2col_transform_scpad sc_A off sc_RAW params K_h K_w C_in O_h O_w i_start k_start
          TM 32 T_h T_w 0 rh rw M_limit regs (off + m * 32 + k) =
        Scalar.im2col_transform_scpad sc_A2 sc_RAW params K_h K_w C_in O_h O_w i_start
          k_start TM 32 T_h T_w 0 rh rw (m * 32 + k)) ∧
    (∀ k c kh kw, 0 ≤ k → k < 32 → 0 ≤ c → c < C_in → 0 ≤ kh → kh < K_h → 0 ≤ kw →
      kw < K_w → k_start + k = c * (K_h * K_w) + kh * K_w + kw →
      T_w ≤ (i_start + m).tmod O_w * params.stride - params.padding - rw + kw →
      im2col_transform_scpad sc_A off sc_RAW params K_h K_w C_in O_h O_w i_start k_start
        TM 32 T_h T_w 0 rh rw M_limit regs (off + m * 32 + k) = 0) := by
  have hskip : ¬ (i_start + m ≥ O_h * O_w ∨ m ≥ M_limit) := by omega
  constructor
  · intro k hk0 hk
    rw [im2col_transform_scpad_row sc_A off sc_RAW params K_h K_w C_in O_h O_w i_start
        k_start TM 32 T_h T_w 0 rh rw M_limit regs m k hm0 hm hk0 hk, if_neg hskip,
      scalar_im2col_row sc_A2 sc_RAW params K_h K_w C_in O_h O_w i_start k_start TM 32
        T_h T_w 0 rh rw m k hm0 hm hk0 hk, if_neg (by omega)]
    exact im2col_lane_eq_scalar sc_RAW params K_h K_w C_in k_start T_h T_w rh rw _ _ k hD
      hKh hKw hKw32 hks hk0 hk hlh0 hlh hlw0
  · intro k c kh kw hk0 hk hc0 hc hkh0 hkh hkw0 hkw hg hover
    rw [im2col_transform_scpad_row sc_A off sc_RAW params K_h K_w C_in O_h O_w i_start
        k_start TM 32 T_h T_w 0 rh rw M_limit regs m k hm0 hm hk0 hk, if_neg hskip,
      im2col_lane_tap sc_RAW K_h K_w C_in k_start 32 T_h T_w _ _ c kh kw k hks hk0 hk hKw32
        hc0 hc hkh0 hkh hkw0 hkw hg, if_neg (by omega)]

end Refinement

/-- Witness of C31: a 4x4 one-channel tile holding `sc_RAW[i] = i`, a 2x3 kernel, stride 1,
and the patch at local origin `(0, 2)`, whose window overhangs the right edge by one
column.  Lane 2 (window pixel `(0, 2)`, local column 4) is the same in both functions and
is 0, not the first element of the next row. -/
theorem im2col_vector_refines_scalar_witness :
    im2col_transform_scpad (fun _ => 7) 0 ramp_tile ⟨1, 0, 1⟩ 2 3 1 1 3 2 0 1 32 4 4 0 0 0 1
        zero_scratch.regs (0 + 0 * 32 + 2) =
      Scalar.im2col_transform_scpad (fun _ => 9) ramp_tile ⟨1, 0, 1⟩ 2 3 1 1 3 2 0 1 32
        4 4 0 0 0 (0 * 32 + 2) ∧
    im2col_transform_scpad (fun _ => 7) 0 ramp_tile ⟨1, 0, 1⟩ 2 3 1 1 3 2 0 1 32 4 4 0 0 0 1
        zero_scratch.regs (0 + 0 * 32 + 2) = 0 :=
  have h := im2col_vector_refines_scalar (fun _ => (7 : Int)) (fun _ => 9) 0 ramp_tile
    ⟨1, 0, 1⟩ 2 3 1 1 3 2 0 1 4 4 0 0 1 zero_scratch.regs 0 (by decide) (by decide)
    (by decide) (by decide) (by decide) (by decide) (by decide) (by decide) (by decide)
    (by decide) (by decide) (by decide)
  ⟨h.1 2 (by decide) (by decide),
    h.2 2 0 0 2 (by decide) (by decide) (by decide) (by decide) (by decide) (by decide)
      (by decide) (by decide) (by decide) (by decide)⟩

section Halo

variable {α : Type} [CommRing α]

/-! ## Halo correctness at block seams -/

/-- The im2col entry of tap `(c, kh, kw)` is the input pixel under the tap. -/
theorem patch_lane_at_tap (input : TensorNCHW α) (kernel : KernelTensor α)
    (params : ConvParams) (oh ow c kh kw : Int)
    (hc : c < kernel.cin) (hkh0 : 0 ≤ kh) (hkh : kh < kernel.kh)
    (hkw0 : 0 ≤ kw) (hkw : kw < kernel.kw) :
    patch_lane input kernel params oh ow (c * (kernel.kh * kernel.kw) + kh * kernel.kw + kw) =
      inputAt input c (oh * params.stride - params.padding + kh)
        (ow * params.stride - params.padding + kw) := by
  have hab := two_digit_bound kernel.kh kernel.kw kh kw hkh0 hkh hkw0 hkw
  have hg : c * (kernel.kh * kernel.kw) + kh * kernel.kw + kw <
      kernel.cin * (kernel.kh * kernel.kw) := by
    have : c + 1 ≤ kernel.cin := by omega
    nlinarith
  have e0 : c * (kernel.kh * kernel.kw) + kh * kernel.kw + kw =
      c * (kernel.kh * kernel.kw) + (kh * kernel.kw + kw) := by ring
  have q1 : (c * (kernel.kh * kernel.kw) + (kh * kernel.kw + kw)) / (kernel.kh * kernel.kw) =
      c := ediv_of_radix _ c _ hab.1 hab.2
  have q2 : (c * (kernel.kh * kernel.kw) + (kh * kernel.kw + kw)) % (kernel.kh * kernel.kw) =
      kh * kernel.kw + kw := emod_of_radix _ c _ hab.1 hab.2
  have q3 : (kh * kernel.kw + kw) / kernel.kw = kh := ediv_of_radix _ kh kw hkw0 hkw
  have q4 : (c * (kernel.kh * kernel.kw) + (kh * kernel.kw + kw)) % kernel.kw = kw := by
    have e : c * (kernel.kh * kernel.kw) + (kh * kernel.kw + kw) =
        (c * kernel.kh + kh) * kernel.kw + kw := by ring
    rw [e]; exact emod_of_radix _ _ kw hkw0 hkw
  unfold patch_lane
  rw [if_pos hg, e0, q1, q2, q3, q4]

/-- C33: halo correctness at block seams in `conv2d_nchw`.  For dilation 1, stride
`S ≥ 1`, `1 ≤ K_h, K_w ≤ 32`, every block origin `(h_out, w_out)` (non-negative), every
batch `[ii, ii + cbs)` of the block's `BLK_H * BLK_W` patches and every chunk start
`k ≥ 0`: after `load_spatial_tile` at the block's input origin, the `sc_A` fill loop puts
in row `m`, lane `r`, for every in-image patch `(o_h, o_w) = (h_out + (ii+m)/BLK_W,
w_out + (ii+m)%BLK_W)` and flat index `k + r = c*K_h*K_w + kh*K_w + kw`, the value
`input[c, o_h*S - P + kh, o_w*S - P + kw]` (0 outside the tensor).  The value depends only
on the patch and the tap, not on the block, the batch or the prior scratchpad contents. -/
theorem conv2d_nchw_halo_rows (sc_A sc0 : Int → α) (input : TensorNCHW α)
    (kernel : KernelTensor α) (params : ConvParams) (regs : VRegs α)
    (O_h O_w h_out w_out ii k cbs m r c kh kw : Int)
    (hD : params.dilation = 1) (hS : 1 ≤ params.stride)
    (hKh : 1 ≤ kernel.kh) (hKh32 : kernel.kh ≤ 32)
    (hKw : 1 ≤ kernel.kw) (hKw32 : kernel.kw ≤ 32)
    (hh : 0 ≤ h_out) (hw : 0 ≤ w_out) (hii : 0 ≤ ii) (hk : 0 ≤ k)
    (hcbs : ii + cbs ≤ blk_dim kernel.kh params.dilation params.stride *
      blk_dim kernel.kw params.dilation params.stride)
    (hm0 : 0 ≤ m) (hm : m < cbs)
    (hinh : h_out + (ii + m).tdiv (blk_dim kernel.kw params.dilation params.stride) < O_h)
    (hinw : w_out + (ii + m).tmod (blk_dim kernel.kw params.dilation params.stride) < O_w)
    (hr0 : 0 ≤ r) (hr : r < 32)
    (hc : c < kernel.cin) (hkh0 : 0 ≤ kh) (hkh : kh < kernel.kh)
    (hkw0 : 0 ≤ kw) (hkw : kw < kernel.kw)
    (hg : k + r = c * (kernel.kh * kernel.kw) + kh * kernel.kw + kw) :
    conv2d_fill_A sc_A
        (load_spatial_tile sc0 input kernel.cin 32 32 0
          (h_out * params.stride - params.padding) (w_out * params.stride - params.padding))
        kernel params regs O_h O_w (blk_dim kernel.kw params.dilation params.stride)
        h_out w_out
        (h_out * params.stride - params.padding) (w_out * params.stride - params.padding)
        ii k cbs 32 32 32 (m * 32 + r) =
      inputAt input c
        ((h_out + (ii + m).tdiv (blk_dim kernel.kw params.dilation params.stride)) *
          params.stride - params.padding + kh)
        ((w_out + (ii + m).tmod (blk_dim kernel.kw params.dilation params.stride)) *
          params.stride - params.padding + kw) := by
  obtain ⟨bh1, bh2⟩ := blk_dim_fits kernel.kh params.dilation params.stride hKh hKh32
    (by omega) hS
  obtain ⟨bw1, bw2⟩ := blk_dim_fits kernel.kw params.dilation params.stride hKw hKw32
    (by omega) hS
  rw [conv2d_fill_A_row sc_A _ input kernel params regs O_h O_w
    (blk_dim kernel.kh params.dilation params.stride)
    (blk_dim kernel.kw params.dilation params.stride) h_out w_out ii k cbs m r
    hKh hKw hKw32 hS bw1 bh2 bw2 hh hw hii hk hcbs
    (load_spatial_tile_loaded sc0 input kernel.cin _ _) hm0 hm hinh hinw hr0 hr, hg]
  exact patch_lane_at_tap input kernel params _ _ c kh kw hc hkh0 hkh hkw0 hkw

end Halo

/-- Witness of C33: a block beyond the first seam.  With a 3x3 kernel and stride 1 a
block is 30x30 patches; on the 16x16 two-channel ramp input (`input[i] = i`) with padding
20 the output is 54x54, and the block at `(30, 30)` loads the tile at input origin
`(10, 10)`.  Row 0 of its first batch is the patch `(30, 30)`, and lane 14 of chunk 0 is
the tap `(1, 1, 2)`: the input pixel `[1, 11, 12]`. -/
theorem conv2d_nchw_halo_rows_witness :
    conv2d_fill_A (fun _ => 7)
        (load_spatial_tile (fun _ => 7) ramp_input centre_kernel.cin 32 32 0
          (30 * 1 - 20) (30 * 1 - 20))
        centre_kernel ⟨1, 20, 1⟩ zero_scratch.regs 54 54 (blk_dim centre_kernel.kw 1 1) 30 30
        (30 * 1 - 20) (30 * 1 - 20) 0 0 32 32 32 32 (0 * 32 + 14) =
      inputAt ramp_input 1
        ((30 + (0 + 0 : Int).tdiv (blk_dim centre_kernel.kw 1 1)) * 1 - 20 + 1)
        ((30 + (0 + 0 : Int).tmod (blk_dim centre_kernel.kw 1 1)) * 1 - 20 + 2) :=
  conv2d_nchw_halo_rows (fun _ => (7 : Int)) (fun _ => 7) ramp_input centre_kernel
    ⟨1, 20, 1⟩ zero_scratch.regs 54 54 30 30 0 0 32 0 14 1 1 2 (by decide) (by decide)
    (by decide) (by decide) (by decide) (by decide) (by decide) (by decide) (by decide)
    (by decide) (by decide) (by decide) (by decide) (by decide) (by decide) (by decide)
    (by decide) (by decide) (by decide) (by decide) (by decide) (by decide) (by decide)

section Origin

variable {α : Type} [CommRing α]

/-! ## Patches that start left of or above the tile -/

/-- C32 (amended): `im2col_transform_scpad` (with `raw_tile_start_c = 0`, `TK = 32`,
`K_w ≤ 32`, `k_start ≥ 0`) builds the row of every patch it transforms as follows, for any
local origin `(lh, lw)`, negative or not.  A window pixel `(c, kh, kw)` that lies inside
the tile (`0 ≤ lh + kh < T_h`, `0 ≤ lw + kw < T_w`) contributes its `sc_RAW` value
`sc_RAW[c*T_h*T_w + (lh + kh)*T_w + (lw + kw)]`, and a pixel with local column
`lw + kw ≥ T_w` contributes 0.  When `lw ≥ 0` for the patches of the call, every row load
starts at or after the start of the row it addresses, so no index below the row start is
read.  (The function skips channels below `raw_tile_start_c` only; it has no skip for
negative local rows or columns, about which nothing is stated here.) -/
theorem im2col_transform_scpad_origin (sc_A : Int → α) (off : Int) (sc_RAW : Int → α)
    (params : ConvParams) (K_h K_w C_in O_h O_w i_start k_start TM T_h T_w rh rw lim : Int)
    (regs : VRegs α) (hks : 0 ≤ k_start) (hKw32 : K_w ≤ 32) :
    (∀ m k c kh kw, 0 ≤ m → m < TM → m < lim → i_start + m < O_h * O_w →
      0 ≤ k → k < 32 → 0 ≤ c → c < C_in → 0 ≤ kh → kh < K_h → 0 ≤ kw → kw < K_w →
      k_start + k = c * (K_h * K_w) + kh * K_w + kw →
      (0 ≤ (i_start + m).tdiv O_w * params.stride - params.padding - rh + kh →
        (i_start + m).tdiv O_w * params.stride - params.padding - rh + kh < T_h →
        0 ≤ (i_start + m).tmod O_w * params.stride - params.padding - rw + kw →
        (i_start + m).tmod O_w * params.stride - params.padding - rw + kw < T_w →
        im2col_transform_scpad sc_A off sc_RAW params K_h K_w C_in O_h O_w i_start k_start
            TM 32 T_h T_w 0 rh rw lim regs (off + m * 32 + k) =
          sc_RAW (c * (T_h * T_w) +
            ((i_start + m).tdiv O_w * params.stride - params.padding - rh + kh) * T_w +
            ((i_start + m).tmod O_w * params.stride - params.padding - rw + kw))) ∧
      (T_w ≤ (i_start + m).tmod O_w * params.stride - params.padding - rw + kw →
        im2col_transform_scpad sc_A off sc_RAW params K_h K_w C_in O_h O_w i_start k_start
            TM 32 T_h T_w 0 rh rw lim regs (off + m * 32 + k) = 0)) ∧
    ((∀ m, 0 ≤ m → m < TM → m < lim → i_start + m < O_h * O_w →
        0 ≤ (i_start + m).tmod O_w * params.stride - params.padding - rw) →
      ∀ e ∈ (im2col_transform_scpad_traced sc_A off sc_RAW params K_h K_w C_in O_h O_w
          i_start k_start TM 32 T_h T_w 0 rh rw lim regs ⟨[], [], []⟩).2.loads,
        e.chan * (T_h * T_w) + e.row * T_w ≤ e.start_idx) := by
  constructor
  · intro m k c kh kw hm0 hm hlim hin hk0 hk hc0 hc hkh0 hkh hkw0 hkw hg
    have hskip : ¬ (i_start + m ≥ O_h * O_w ∨ m ≥ lim) := by omega
    have hrow := im2col_transform_scpad_row sc_A off sc_RAW params K_h K_w C_in O_h O_w
      i_start k_start TM 32 T_h T_w 0 rh rw lim regs m k hm0 hm hk0 hk
    rw [if_neg hskip, im2col_lane_tap sc_RAW K_h K_w C_in k_start 32 T_h T_w _ _ c kh kw k
      hks hk0 hk hKw32 hc0 hc hkh0 hkh hkw0 hkw hg] at hrow
    constructor
    · intro _ _ _ hw
      rw [hrow, if_pos (by omega)]
      congr 1
      ring
    · intro hw
      rw [hrow, if_neg (by omega)]
  · intro hlw
    refine im2col_transform_scpad_traced_rule
      (fun t : Trace α => ∀ e ∈ t.loads, e.chan * (T_h * T_w) + e.row * T_w ≤ e.start_idx)
      (fun e => e.chan * (T_h * T_w) + e.row * T_w ≤ e.start_idx)
      (fun t e ht he x hx => by
        rcases List.mem_cons.1 hx with h | h
        · rw [h]; exact he
        · exact ht x h)
      sc_A off sc_RAW params K_h K_w C_in O_h O_w i_start k_start TM 32 T_h T_w 0 rh rw lim
      regs ⟨[], [], []⟩ ?_ ?_
    · intro m c kh hm0 hm hin hlim _ _ _ _ _ _
      have := hlw m hm0 hm hlim hin
      show (c - 0) * (T_h * T_w) +
          ((i_start + m).tdiv O_w * params.stride - params.padding - rh + kh) * T_w ≤
        (c - 0) * (T_h * T_w) +
          ((i_start + m).tdiv O_w * params.stride - params.padding - rh + kh) * T_w +
          ((i_start + m).tmod O_w * params.stride - params.padding - rw)
      omega
    · intro e he
      exact absurd he (List.not_mem_nil e)

end Origin

/-- Witness of C32 (amended): a 4x4 one-channel tile holding `sc_RAW[i] = i`, a 2x2
kernel, and the single patch at local origin `(lh, lw) = (1, -1)` (stride 1, padding 1,
tile origin `(-2, 0)`).  Lane 1 is the window pixel `(0, 0, 1)` at local position `(1, 0)`,
inside the tile, and holds `sc_RAW[4] = 4`. -/
theorem im2col_transform_scpad_origin_witness :
    im2col_transform_scpad (fun _ => 0) 0 ramp_tile ⟨1, 1, 1⟩ 2 2 1 1 1 0 0 1 32 4 4 0 (-2) 0
      1 zero_scratch.regs (0 + 0 * 32 + 1) = 4 :=
  ((im2col_transform_scpad_origin (fun _ => (0 : Int)) 0 ramp_tile ⟨1, 1, 1⟩ 2 2 1 1 1 0 0
    1 4 4 (-2) 0 1 zero_scratch.regs (by decide) (by decide)).1 0 1 0 0 1 (by decide)
    (by decide) (by decide) (by decide) (by decide) (by decide) (by decide) (by decide)
    (by decide) (by decide) (by decide) (by decide) (by decide)).1 (by decide) (by decide)
    (by decide) (by decide)

/-- Counterexample to C32: a patch that starts left of the tile.  On a 4x4 one-channel
tile holding `sc_RAW[i] = i`, with a 2x2 kernel, stride 1, padding 1 and tile origin
`(-2, 0)`, the single patch has local origin `(lh, lw) = (1, -1)`.  Its window pixel
`(0, 0, 0)` has local column `-1`, yet lane 0 of the row holds `sc_RAW[3] = 3`, the last
element of the row above, not 0; and the row load for `kh = 0` starts at index 3, one
below the start (index 4) of the row it addresses, with 5 valid lanes. -/
theorem im2col_transform_scpad_left_edge_unguarded :
    im2col_transform_scpad (fun _ => 0) 0 ramp_tile ⟨1, 1, 1⟩ 2 2 1 1 1 0 0 1 32 4 4 0 (-2) 0
      1 zero_scratch.regs (0 + 0 * 32 + 0) = 3 ∧
    im2col_transform_scpad (fun _ => 0) 0 ramp_tile ⟨1, 1, 1⟩ 2 2 1 1 1 0 0 1 32 4 4 0 (-2) 0
      1 zero_scratch.regs (0 + 0 * 32 + 0) ≠ 0 ∧
    ∃ e ∈ (im2col_transform_scpad_traced (fun _ => 0) 0 ramp_tile ⟨1, 1, 1⟩ 2 2 1 1 1 0 0 1
        32 4 4 0 (-2) 0 1 zero_scratch.regs ⟨[], [], []⟩).2.loads,
      e.start_idx = 3 ∧ e.chan = 0 ∧ e.row = 1 ∧ e.col = -1 ∧ e.valid = 5 ∧
        e.start_idx < e.chan * (4 * 4) + e.row * 4 := by
  have hrow := im2col_transform_scpad_row (fun _ => (0 : Int)) 0 ramp_tile ⟨1, 1, 1⟩ 2 2 1 1 1
    0 0 1 32 4 4 0 (-2) 0 1 zero_scratch.regs 0 0 (by decide) (by decide) (by decide)
    (by decide)
  rw [if_neg (by decide), im2col_lane_tap ramp_tile 2 2 1 0 32 4 4 _ _ 0 0 0 0 (by decide)
    (by decide) (by decide) (by decide) (by decide) (by decide) (by decide) (by decide)
    (by decide) (by decide) (by decide)] at hrow
  have hval : im2col_transform_scpad (fun _ => 0) 0 ramp_tile ⟨1, 1, 1⟩ 2 2 1 1 1 0 0 1 32
      4 4 0 (-2) 0 1 zero_scratch.regs (0 + 0 * 32 + 0) = 3 := by
    rw [hrow]; decide
  have hmem := im2col_transform_scpad_traced_mem (fun _ => (0 : Int)) 0 ramp_tile ⟨1, 1, 1⟩
    2 2 1 1 1 0 0 32 4 4 0 (-2) 0 zero_scratch.regs ⟨[], [], []⟩ 0 0 _ (by decide)
    (by decide) (by decide) (by decide) (by decide) (by decide) (by decide) rfl
  refine ⟨hval, by rw [hval]; decide, _, hmem, ?_⟩
  decide

section ChannelRange

variable {α : Type} [CommRing α]

/-! ## The conservative channel range of `im2col_transform_scpad` -/

omit [CommRing α] in
/-- The bounds of the channel loop: the exact last channel is not past the conservative one,
the first channel starts at or before `k_start`, and the channel after the exact last one
starts at or after the end of the chunk. -/
theorem channel_range_bounds (K_h K_w k_start TK : Int) (hKh : 1 ≤ K_h) (hKw : 1 ≤ K_w)
    (hTK : 1 ≤ TK) (hks : 0 ≤ k_start) :
    (k_start + TK - 1).tdiv (K_h * K_w) ≤ (k_start + TK + K_w).tdiv (K_h * K_w) ∧
    k_start.tdiv (K_h * K_w) ≤ (k_start + TK - 1).tdiv (K_h * K_w) ∧
    k_start.tdiv (K_h * K_w) * (K_h * K_w) ≤ k_start ∧
    k_start + TK ≤ ((k_start + TK - 1).tdiv (K_h * K_w) + 1) * (K_h * K_w) := by
  have hsks : 0 < K_h * K_w := by nlinarith
  rw [tdiv_nonneg_eq _ _ (by omega : 0 ≤ k_start + TK - 1) (le_of_lt hsks),
    tdiv_nonneg_eq _ _ (by omega : 0 ≤ k_start + TK + K_w) (le_of_lt hsks),
    tdiv_nonneg_eq _ _ hks (le_of_lt hsks)]
  have h3 := Int.lt_ediv_add_one_mul_self (k_start + TK - 1) hsks
  refine ⟨Int.ediv_le_ediv hsks (by omega), Int.ediv_le_ediv hsks (by omega),
    Int.ediv_mul_le _ (ne_of_gt hsks), by omega⟩

/-- A kernel row of a channel outside the exact range adds nothing to `v_accum`: past the
last channel its placement is at least `TK`, before the first channel its window ends
before `k_start`. -/
theorem im2col_kh_body_outside (sc_RAW : Int → α) (K_h K_w k_start TK T_h T_w lh lw : Int)
    (c tile_c kh : Int) (r : VRegs α) (hKh : 1 ≤ K_h) (hKw : 1 ≤ K_w) (hTK : 1 ≤ TK)
    (hks : 0 ≤ k_start)
    (hc : c < k_start.tdiv (K_h * K_w) ∨ (k_start + TK - 1).tdiv (K_h * K_w) < c)
    (hkh0 : 0 ≤ kh) (hkh : kh < K_h) :
    (im2col_kh_body sc_RAW K_w k_start TK T_h T_w (K_h * K_w) lh lw c tile_c kh r).v_accum =
      r.v_accum := by
  obtain ⟨_, _, b3, b4⟩ := channel_range_bounds K_h K_w k_start TK hKh hKw hTK hks
  have hsks : 0 < K_h * K_w := by nlinarith
  have hrow : 0 ≤ kh * K_w := by nlinarith
  have hrow2 : kh * K_w + K_w ≤ K_h * K_w := by
    have : kh + 1 ≤ K_h := by omega
    nlinarith
  unfold im2col_kh_body
  simp only []
  rcases hc with hlo | hhi
  · have h1 : (c + 1) * (K_h * K_w) ≤ k_start.tdiv (K_h * K_w) * (K_h * K_w) :=
      mul_le_mul_of_nonneg_right (by omega) (le_of_lt hsks)
    have h2 : c * (K_h * K_w) + kh * K_w + K_w ≤ k_start := by nlinarith
    rw [if_neg (by omega), if_neg (by omega)]
  · have h1 : ((k_start + TK - 1).tdiv (K_h * K_w) + 1) * (K_h * K_w) ≤ c * (K_h * K_w) :=
      mul_le_mul_of_nonneg_right (by omega) (le_of_lt hsks)
    rw [if_pos (by omega), if_neg (by omega)]

/-- Lane `k` of `v_accum` after the channel loop run up to any bound `hi`: the starting
value plus the contributions of the kernel rows visited. -/
theorem im2col_channels_lane (sc_RAW : Int → α) (K_h K_w k_start TK T_h T_w rc lh lw : Int)
    (lo hi : Int) (r : VRegs α) (k : Int) (hk0 : 0 ≤ k) (hk : k < TK) :
    (forRange lo hi
      (fun c r =>
        if c - rc < 0 then r
        else forLoop K_h (im2col_kh_body sc_RAW K_w k_start TK T_h T_w (K_h * K_w) lh lw c
          (c - rc)) r) r).v_accum k =
      r.v_accum k + ∑ i in Finset.range (hi - lo).toNat,
        (if lo + (i : Int) - rc < 0 then 0
         else ∑ kh in Finset.range K_h.toNat,
           im2col_contrib sc_RAW K_w k_start TK T_h T_w (K_h * K_w) lh lw
             (lo + (i : Int)) (lo + (i : Int) - rc) (kh : Int) k) := by
  rw [forRange_sum (fun r : VRegs α => r.v_accum k)
    (fun c => if c - rc < 0 then 0
      else ∑ kh in Finset.range K_h.toNat,
        im2col_contrib sc_RAW K_w k_start TK T_h T_w (K_h * K_w) lh lw c (c - rc) (kh : Int) k)]
  intro c t _ _
  by_cases htc : c - rc < 0
  · simp [htc]
  · rw [if_neg htc, if_neg htc]
    exact forLoop_sum (fun r : VRegs α => r.v_accum k) _ K_h _ t
      (fun kh u _ _ => im2col_kh_body_accum sc_RAW K_w k_start TK T_h T_w (K_h * K_w)
        _ _ c (c - rc) kh u k hk0 hk)

/-- The contributions of the channels past the exact range vanish, so the sum over the
conservative range is the sum over the exact range. -/
theorem im2col_channel_sums (sc_RAW : Int → α) (K_h K_w C_in k_start TK T_h T_w rc lh lw : Int)
    (k : Int) (hKh : 1 ≤ K_h) (hKw : 1 ≤ K_w) (hTK : 1 ≤ TK) (hks : 0 ≤ k_start)
    (hk : k < TK) :
    ∑ i in Finset.range
        (min ((k_start + TK - 1).tdiv (K_h * K_w) + 1) C_in - k_start.tdiv (K_h * K_w)).toNat,
      (if k_start.tdiv (K_h * K_w) + (i : Int) - rc < 0 then 0
       else ∑ kh in Finset.range K_h.toNat,
         im2col_contrib sc_RAW K_w k_start TK T_h T_w (K_h * K_w) lh lw
           (k_start.tdiv (K_h * K_w) + (i : Int)) (k_start.tdiv (K_h * K_w) + (i : Int) - rc)
           (kh : Int) k) =
    ∑ i in Finset.range
        (min ((k_start + TK + K_w).tdiv (K_h * K_w) + 1) C_in - k_start.tdiv (K_h * K_w)).toNat,
      (if k_start.tdiv (K_h * K_w) + (i : Int) - rc < 0 then 0
       else ∑ kh in Finset.range K_h.toNat,
         im2col_contrib sc_RAW K_w k_start TK T_h T_w (K_h * K_w) lh lw
           (k_start.tdiv (K_h * K_w) + (i : Int)) (k_start.tdiv (K_h * K_w) + (i : Int) - rc)
           (kh : Int) k) := by
  obtain ⟨b1, b2, _, b4⟩ := channel_range_bounds K_h K_w k_start TK hKh hKw hTK hks
  have hsks : 0 < K_h * K_w := by nlinarith
  apply Finset.sum_subset
  · intro i hi
    rw [Finset.mem_range] at hi ⊢
    omega
  · intro i hi1 hi2
    rw [Finset.mem_range] at hi1 hi2
    have hc : (k_start + TK - 1).tdiv (K_h * K_w) + 1 ≤ k_start.tdiv (K_h * K_w) + (i : Int) := by
      omega
    have h1 : ((k_start + TK - 1).tdiv (K_h * K_w) + 1) * (K_h * K_w) ≤
        (k_start.tdiv (K_h * K_w) + (i : Int)) * (K_h * K_w) :=
      mul_le_mul_of_nonneg_right hc (le_of_lt hsks)
    by_cases htc : k_start.tdiv (K_h * K_w) + (i : Int) - rc < 0
    · rw [if_pos htc]
    · rw [if_neg htc]
      apply Finset.sum_eq_zero
      intro kh _
      have hrow : 0 ≤ (kh : Int) * K_w := by positivity
      unfold im2col_contrib
      simp only []
      rw [if_neg (by omega)]

/-- The channel loop with the exact range, started from a cleared `v_accum`, leaves in lane
`k` what the conservative loop leaves: the sum `im2col_lane`. -/
theorem im2col_accum_lane_exact (sc_RAW : Int → α)
    (K_h K_w C_in k_start TK T_h T_w rc lh lw : Int) (r : VRegs α) (k : Int)
    (hKh : 1 ≤ K_h) (hKw : 1 ≤ K_w) (hTK : 1 ≤ TK) (hks : 0 ≤ k_start)
    (hk0 : 0 ≤ k) (hk : k < TK) :
    (forRange (k_start.tdiv (K_h * K_w))
      (min ((k_start + TK - 1).tdiv (K_h * K_w) + 1) C_in)
      (fun c r =>
        if c - rc < 0 then r
        else forLoop K_h (im2col_kh_body sc_RAW K_w k_start TK T_h T_w (K_h * K_w) lh lw c
          (c - rc)) r)
      ({ r with v_accum := memset0 r.v_accum 0 TK } : VRegs α)).v_accum k =
      im2col_lane sc_RAW K_h K_w C_in k_start TK T_h T_w rc lh lw k := by
  rw [im2col_channels_lane sc_RAW K_h K_w k_start TK T_h T_w rc lh lw _ _ _ k hk0 hk,
    im2col_channel_sums sc_RAW K_h K_w C_in k_start TK T_h T_w rc lh lw k hKh hKw hTK hks hk]
  simp only [memset0_apply]
  rw [if_pos ⟨hk0, by omega⟩, zero_add]
  rfl

/-- Lane `k` of a row of the reference with the exact channel range. -/
theorem im2col_transform_scpad_exact_row (sc_A : Int → α) (off : Int) (sc_RAW : Int → α)
    (params : ConvParams) (K_h K_w C_in O_h O_w i_start k_start TM TK T_h T_w rc rh rw : Int)
    (M_limit : Int) (regs : VRegs α) (m k : Int)
    (hKh : 1 ≤ K_h) (hKw : 1 ≤ K_w) (hTK : 1 ≤ TK) (hks : 0 ≤ k_start)
    (hm0 : 0 ≤ m) (hm : m < TM) (hk0 : 0 ≤ k) (hk : k < TK) :
    im2col_transform_scpad_exact sc_A off sc_RAW params K_h K_w C_in O_h O_w i_start k_start
        TM TK T_h T_w rc rh rw M_limit regs (off + m * TK + k) =
      if i_start + m ≥ O_h * O_w ∨ m ≥ M_limit then 0
      else im2col_lane sc_RAW K_h K_w C_in k_start TK T_h T_w rc
        ((i_start + m).tdiv O_w * params.stride - params.padding - rh)
        ((i_start + m).tmod O_w * params.stride - params.padding - rw) k := by
  unfold im2col_transform_scpad_exact
  exact rows_loop_row TM TK off (fun m => i_start + m ≥ O_h * O_w ∨ m ≥ M_limit)
    (fun m (r : VRegs α) =>
      forRange (k_start.tdiv (K_h * K_w))
        (min ((k_start + TK - 1).tdiv (K_h * K_w) + 1) C_in)
        (fun c r =>
          if c - rc < 0 then r
          else forLoop K_h (im2col_kh_body sc_RAW K_w k_start TK T_h T_w (K_h * K_w)
            ((i_start + m).tdiv O_w * params.stride - params.padding - rh)
            ((i_start + m).tmod O_w * params.stride - params.padding - rw) c (c - rc)) r)
        ({ r with v_accum := memset0 r.v_accum 0 TK } : VRegs α))
    (fun r : VRegs α => r.v_accum) sc_A regs m k _ hm0 hm hk0 hk
    (fun _ r => im2col_accum_lane_exact sc_RAW K_h K_w C_in k_start TK T_h T_w rc _ _ r k
      hKh hKw hTK hks hk0 hk)

/-- The reference with the exact channel range writes only inside the rows `0 .. TM-1`. -/
theorem im2col_transform_scpad_exact_frame (sc_A : Int → α) (off : Int) (sc_RAW : Int → α)
    (params : ConvParams) (K_h K_w C_in O_h O_w i_start k_start TM TK T_h T_w rc rh rw : Int)
    (M_limit : Int) (regs : VRegs α) (idx : Int)
    (hidx : ∀ m, 0 ≤ m → m < TM → ¬ (off + m * TK ≤ idx ∧ idx < off + m * TK + TK)) :
    im2col_transform_scpad_exact sc_A off sc_RAW params K_h K_w C_in O_h O_w i_start k_start
        TM TK T_h T_w rc rh rw M_limit regs idx = sc_A idx := by
  unfold im2col_transform_scpad_exact
  exact rows_loop_frame TM TK off (fun m => i_start + m ≥ O_h * O_w ∨ m ≥ M_limit)
    (fun m (r : VRegs α) =>
      forRange (k_start.tdiv (K_h * K_w))
        (min ((k_start + TK - 1).tdiv (K_h * K_w) + 1) C_in)
        (fun c r =>
          if c - rc < 0 then r
          else forLoop K_h (im2col_kh_body sc_RAW K_w k_start TK T_h T_w (K_h * K_w)
            ((i_start + m).tdiv O_w * params.stride - params.padding - rh)
            ((i_start + m).tmod O_w * params.stride - params.padding - rw) c (c - rc)) r)
        ({ r with v_accum := memset0 r.v_accum 0 TK } : VRegs α))
    (fun r : VRegs α => r.v_accum) sc_A regs idx hidx

end ChannelRange

section ChannelRangeClaim

variable {α : Type} [CommRing α]

/-- C35: the conservative channel range of `im2col_transform_scpad` is harmless.  For
every `k_start ≥ 0`, chunk width `TK ≥ 1` (32 in `conv2d_nchw`) and kernel of at least 1x1
(no bound on `K_w` and no condition on the dilation is needed):
* the function, whose channel loop runs over `[k_start/(K_h*K_w), (k_start+TK+K_w)/(K_h*K_w)]`
  clipped to `[0, C_in)`, leaves `sc_A` exactly as the same function with the exact range
  `[k_start/(K_h*K_w), (k_start+TK-1)/(K_h*K_w)]` (the channels whose flat indices meet
  `[k_start, k_start + TK)`) leaves it;
* from any starting registers and for any local origin, the two channel loops leave the
  same value in every lane of `v_accum`;
* a kernel row of a channel outside the exact range (before its first or after its last
  channel) leaves `v_accum` as it is. -/
theorem im2col_channel_range_harmless (sc_A : Int → α) (off : Int) (sc_RAW : Int → α)
    (params : ConvParams) (K_h K_w C_in O_h O_w i_start k_start TM TK T_h T_w rc rh rw : Int)
    (M_limit : Int) (regs : VRegs α)
    (hKh : 1 ≤ K_h) (hKw : 1 ≤ K_w) (hTK : 1 ≤ TK) (hks : 0 ≤ k_start) :
    (∀ idx, im2col_transform_scpad sc_A off sc_RAW params K_h K_w C_in O_h O_w i_start
        k_start TM TK T_h T_w rc rh rw M_limit regs idx =
      im2col_transform_scpad_exact sc_A off sc_RAW params K_h K_w C_in O_h O_w i_start
        k_start TM TK T_h T_w rc rh rw M_limit regs idx) ∧
    (∀ (lh lw : Int) (r : VRegs α) (k : Int), 0 ≤ k → k < TK →
      (forRange (k_start.tdiv (K_h * K_w))
        (min ((k_start + TK + K_w).tdiv (K_h * K_w) + 1) C_in)
        (fun c r =>
          if c - rc < 0 then r
          else forLoop K_h (im2col_kh_body sc_RAW K_w k_start TK T_h T_w (K_h * K_w) lh lw c
            (c - rc)) r) r).v_accum k =
      (forRange (k_start.tdiv (K_h * K_w))
        (min ((k_start + TK - 1).tdiv (K_h * K_w) + 1) C_in)
        (fun c r =>
          if c - rc < 0 then r
          else forLoop K_h (im2col_kh_body sc_RAW K_w k_start TK T_h T_w (K_h * K_w) lh lw c
            (c - rc)) r) r).v_accum k) ∧
    (∀ (c tile_c kh lh lw : Int) (r : VRegs α),
      (c < k_start.tdiv (K_h * K_w) ∨ (k_start + TK - 1).tdiv (K_h * K_w) < c) →
      0 ≤ kh → kh < K_h →
      (im2col_kh_body sc_RAW K_w k_start TK T_h T_w (K_h * K_w) lh lw c tile_c kh r).v_accum =
        r.v_accum) := by
  refine ⟨?_, ?_, ?_⟩
  · intro idx
    by_cases h : ∃ m, 0 ≤ m ∧ m < TM ∧ off + m * TK ≤ idx ∧ idx < off + m * TK + TK
    · obtain ⟨m, hm0, hm, h1, h2⟩ := h
      have e : idx = off + m * TK + (idx - (off + m * TK)) := by ring
      rw [e, im2col_transform_scpad_row sc_A off sc_RAW params K_h K_w C_in O_h O_w i_start
          k_start TM TK T_h T_w rc rh rw M_limit regs m _ hm0 hm (by omega) (by omega),
        im2col_transform_scpad_exact_row sc_A off sc_RAW params K_h K_w C_in O_h O_w i_start
          k_start TM TK T_h T_w rc rh rw M_limit regs m _ hKh hKw hTK hks hm0 hm (by omega)
          (by omega)]
    · have hidx : ∀ m, 0 ≤ m → m < TM →
          ¬ (off + m * TK ≤ idx ∧ idx < off + m * TK + TK) :=
        fun m hm0 hm hc => h ⟨m, hm0, hm, hc.1, hc.2⟩
      rw [im2col_transform_scpad_frame sc_A off sc_RAW params K_h K_w C_in O_h O_w i_start
          k_start TM TK T_h T_w rc rh rw M_limit regs idx hidx,
        im2col_transform_scpad_exact_frame sc_A off sc_RAW params K_h K_w C_in O_h O_w
          i_start k_start TM TK T_h T_w rc rh rw M_limit regs idx hidx]
  · intro lh lw r k hk0 hk
    rw [im2col_channels_lane sc_RAW K_h K_w k_start TK T_h T_w rc lh lw _ _ r k hk0 hk,
      im2col_channels_lane sc_RAW K_h K_w k_start TK T_h T_w rc lh lw _ _ r k hk0 hk,
      im2col_channel_sums sc_RAW K_h K_w C_in k_start TK T_h T_w rc lh lw k hKh hKw hTK hks hk]
  · intro c tile_c kh lh lw r hc hkh0 hkh
    exact im2col_kh_body_outside sc_RAW K_h K_w k_start TK T_h T_w lh lw c tile_c kh r
      hKh hKw hTK hks hc hkh0 hkh

end ChannelRangeClaim

/-- Witness of C35: a 2x2 kernel over 9 channels and the chunk `k_start = 0`.  The function
visits the channels 0..8 (`(0 + 32 + 2)/4 = 8`), the exact range is 0..7 (`31/4 = 7`);
channel 8 starts at flat index 32 and adds nothing, and `sc_A` is the same. -/
theorem im2col_channel_range_harmless_witness :
    im2col_transform_scpad (fun _ => 7) 0 ramp_tile ⟨1, 0, 1⟩ 2 2 9 1 1 0 0 1 32 4 4 0 0 0 1
        zero_scratch.regs 5 =
      im2col_transform_scpad_exact (fun _ => 7) 0 ramp_tile ⟨1, 0, 1⟩ 2 2 9 1 1 0 0 1 32 4 4
        0 0 0 1 zero_scratch.regs 5 :=
  (im2col_channel_range_harmless (fun _ => (7 : Int)) 0 ramp_tile ⟨1, 0, 1⟩ 2 2 9 1 1 0 0 1
    32 4 4 0 0 0 1 zero_scratch.regs (by decide) (by decide) (by decide) (by decide)).1 5

section Determinism

variable {α : Type} [CommRing α]

/-! ## Determinism -/

/-- C38: determinism of `conv2d_nchw`.  For a valid call (`n = 1`, stride `≥ 1`, a kernel
of at least 1x1 whose effective size `(K - 1) * D + 1`, with the normalised dilation, is at
most 32 in both dimensions), two runs on the same input, kernel and parameters that start
from different output structs (metadata and buffer contents) and from different contents
of the scratch buffers (`B_matrix`, `sc_RAW`, `sc_A`, `sc_B`, `sc_C` and the vector
registers) return the same output metadata, the same parameters, and the same value at
every index `0 ≤ i < n*c*h*w` of the output data.  In particular rows of `sc_A` left over
from an earlier batch never reach a stored value. -/
theorem conv2d_nchw_deterministic (out1 out2 input : TensorNCHW α) (kernel : KernelTensor α)
    (params : ConvParams) (scr1 scr2 : Scratch α)
    (hn : input.n = 1) (hS : 1 ≤ params.stride)
    (hKh : 1 ≤ kernel.kh) (hKw : 1 ≤ kernel.kw)
    (hEh : (kernel.kh - 1) * norm_dilation params.dilation + 1 ≤ 32)
    (hEw : (kernel.kw - 1) * norm_dilation params.dilation + 1 ≤ 32) :
    (conv2d_nchw out1 input kernel params scr1).1.n =
      (conv2d_nchw out2 input kernel params scr2).1.n ∧
    (conv2d_nchw out1 input kernel params scr1).1.c =
      (conv2d_nchw out2 input kernel params scr2).1.c ∧
    (conv2d_nchw out1 input kernel params scr1).1.h =
      (conv2d_nchw out2 input kernel params scr2).1.h ∧
    (conv2d_nchw out1 input kernel params scr1).1.w =
      (conv2d_nchw out2 input kernel params scr2).1.w ∧
    (conv2d_nchw out1 input kernel params scr1).2 =
      (conv2d_nchw out2 input kernel params scr2).2 ∧
    ∀ i, 0 ≤ i →
      i < (conv2d_nchw out1 input kernel params scr1).1.n *
        (conv2d_nchw out1 input kernel params scr1).1.c *
        (conv2d_nchw out1 input kernel params scr1).1.h *
        (conv2d_nchw out1 input kernel params scr1).1.w →
      (conv2d_nchw out1 input kernel params scr1).1.data i =
        (conv2d_nchw out2 input kernel params scr2).1.data i := by
  obtain ⟨a1, a2, a3, a4, a5⟩ := conv2d_nchw_meta out1 input kernel params scr1 (by omega)
  obtain ⟨b1, b2, b3, b4, b5⟩ := conv2d_nchw_meta out2 input kernel params scr2 (by omega)
  refine ⟨a1.trans b1.symm, a2.trans b2.symm, a3.trans b3.symm, a4.trans b4.symm,
    a5.trans b5.symm, ?_⟩
  intro i hi0 hi
  rw [a1, a2, a3, a4] at hi
  have hD : 1 ≤ norm_dilation params.dilation := by
    unfold norm_dilation; split_ifs <;> omega
  have hKh32 : kernel.kh ≤ 32 := by nlinarith
  have hKw32 : kernel.kw ≤ 32 := by nlinarith
  by_cases hdeg : out_dim input.h kernel.kh (norm_dilation params.dilation) params.padding
      params.stride ≤ 0 ∨
    out_dim input.w kernel.kw (norm_dilation params.dilation) params.padding
      params.stride ≤ 0
  · rw [conv2d_nchw_degenerate out1 input kernel params scr1 (by omega) hdeg,
      conv2d_nchw_degenerate out2 input kernel params scr2 (by omega) hdeg,
      memset0_apply, memset0_apply, if_pos ⟨hi0, by omega⟩, if_pos ⟨hi0, by omega⟩]
  · have d1 := conv2d_nchw_data out1 input kernel params scr1
    have d2 := conv2d_nchw_data out2 input kernel params scr2
    generalize out_dim input.h kernel.kh (norm_dilation params.dilation) params.padding
      params.stride = A at hi hdeg d1 d2
    generalize out_dim input.w kernel.kw (norm_dilation params.dilation) params.padding
      params.stride = B at hi hdeg d1 d2
    have hA : 1 ≤ A := by omega
    have hB : 1 ≤ B := by omega
    have hAB : 0 < A * B := by nlinarith
    obtain ⟨g1, g2, g3, g4, g5, g6⟩ := flat_digits_ediv i A B hi0 hA hB
    have hco : i / (A * B) < kernel.cout := by
      apply Int.ediv_lt_of_lt_mul hAB
      have e : 1 * kernel.cout * A * B = kernel.cout * (A * B) := by ring
      omega
    have e : i = i / (A * B) * A * B + i % (A * B) / B * B + i % B := by
      have : i / (A * B) * A * B = i / (A * B) * (A * B) := by ring
      omega
    rw [e, d1 _ _ _ (by omega) hS hKh hKh32 hKw hKw32 g2 hco g3 g4 g5 g6,
      d2 _ _ _ (by omega) hS hKh hKh32 hKw hKw32 g2 hco g3 g4 g5 g6]

end Determinism

/-- Witness of C38: the scenario of `src/conv_prog_model/main.c` run once from a zeroed
output and zeroed scratch buffers and once from an output of 7s with other metadata and
scratch buffers of 7s: element 5 of the output data is the same. -/
theorem conv2d_nchw_deterministic_witness :
    (conv2d_nchw main_output main_input main_kernel ⟨1, 0, 1⟩ zero_scratch).1.data 5 =
      (conv2d_nchw stale_output main_input main_kernel ⟨1, 0, 1⟩ stale_scratch).1.data 5 :=
  (conv2d_nchw_deterministic main_output stale_output main_input main_kernel ⟨1, 0, 1⟩
    zero_scratch stale_scratch (by decide) (by decide) (by decide) (by decide) (by decide)
    (by decide)).2.2.2.2.2 5 (by decide) (by
      obtain ⟨a1, a2, a3, a4, _⟩ := conv2d_nchw_meta main_output main_input main_kernel
        ⟨1, 0, 1⟩ zero_scratch (by decide)
      rw [a1, a2, a3, a4]
      decide)

/-! ## Counting the writes to `output->data` -/

/-- An observation changed by iteration `q` of a stepped loop only (to `F` of its previous
value). -/
theorem forStep_single {σ β : Type} (obs : σ → β) (F : β → β) (n step q : Int)
    (body : Int → σ → σ) (s : σ) (hstep : 1 ≤ step) (hq : 0 ≤ q) (hqn : q * step < n)
    (hother : ∀ r t, 0 ≤ r → r * step < n → r ≠ q → obs (body (r * step) t) = obs t)
    (hat : ∀ t, obs (body (q * step) t) = F (obs t)) :
    obs (forStep n step body s) = F (obs s) := by
  obtain ⟨r, hr1, _, _, h2⟩ := forStep_inv_mul
    (fun r t => (r ≤ q → obs t = obs s) ∧ (q < r → obs t = F (obs s))) n step body s hstep
    ⟨fun _ => rfl, fun h => absurd h (by omega)⟩ (by
      intro r t hr0 hrn ⟨i1, i2⟩
      by_cases hc : r = q
      · subst hc
        exact ⟨fun h => absurd h (by omega), fun _ => by rw [hat, i1 (le_refl _)]⟩
      · exact ⟨fun h => by rw [hother r t hr0 hrn hc]; exact i1 (by omega),
          fun h => by rw [hother r t hr0 hrn hc]; exact i2 (by omega)⟩)
  apply h2
  by_contra hcon
  have h3 : r ≤ q := by omega
  have h4 : r * step ≤ q * step := mul_le_mul_of_nonneg_right h3 (by omega)
  omega

/-- The coordinates of a store index: if the index the store loop writes for local patch
`l` of the block at `(h_out, w_out)` and channel `ch` is the index of the output element
`(co, oh, ow)`, then the channel is `co`, the element lies at row `oh - h_out`, column
`ow - w_out` of the block, and `l` is its local index. -/
theorem store_index_coords (O_h O_w BW h_out w_out l ch co oh ow : Int)
    (hBW : 1 ≤ BW) (hh : 0 ≤ h_out) (hw : 0 ≤ w_out) (hl : 0 ≤ l)
    (hinh : h_out + l.tdiv BW < O_h) (hinw : w_out + l.tmod BW < O_w)
    (hoh0 : 0 ≤ oh) (hoh : oh < O_h) (how0 : 0 ≤ ow) (how : ow < O_w)
    (heq : ch * O_h * O_w + ((h_out + l.tdiv BW) * O_w + (w_out + l.tmod BW)) =
      co * O_h * O_w + oh * O_w + ow) :
    ch = co ∧ h_out ≤ oh ∧ w_out ≤ ow ∧ ow < w_out + BW ∧
      l.tdiv BW = oh - h_out ∧ l.tmod BW = ow - w_out ∧
      l = (oh - h_out) * BW + (ow - w_out) := by
  have ed := tdiv_nonneg_eq l BW hl (by omega)
  have em := tmod_nonneg_eq l BW hl (by omega)
  rw [ed] at hinh
  rw [em] at hinw
  rw [ed, em] at heq ⊢
  have h1 : 0 ≤ l / BW := Int.ediv_nonneg hl (by omega)
  have h2 : 0 ≤ l % BW := Int.emod_nonneg l (by omega)
  have h3 : l % BW < BW := Int.emod_lt_of_pos l (by omega)
  have h4 := Int.emod_add_ediv l BW
  obtain ⟨e1, e2, e3⟩ := radix3_unique O_h O_w ch (h_out + l / BW) (w_out + l % BW) co oh ow
    (by omega) hinh (by omega) hinw hoh0 hoh how0 how (by linarith)
  have e4 : l / BW = oh - h_out := by omega
  have e5 : l % BW = ow - w_out := by omega
  rw [e4, e5] at h4
  exact ⟨e1, by omega, by omega, by omega, e4, e5, by linarith⟩

section StoreLoop

variable {α : Type} [CommRing α]

omit [CommRing α] in
/-- Trace rule for the store loop, with the indices it writes: a property of the trace
that survives every store record of the form the loop produces survives the loop. -/
theorem conv2d_store_stores_rule (Q : Trace α → Prop) (Good : Int → Prop)
    (hQs : ∀ t i, Q t → Good i → Q { t with stores := i :: t.stores })
    (out sc_C : Int → α) (out_c out_h out_w O_h O_w BLK_W h_out w_out ii j cbs TN : Int)
    (t : Trace α)
    (hgood : ∀ m c, 0 ≤ m → m < cbs → h_out + (ii + m).tdiv BLK_W < O_h →
      w_out + (ii + m).tmod BLK_W < O_w → 0 ≤ c → c < TN → j + c < out_c →
      Good ((j + c) * out_h * out_w +
        ((h_out + (ii + m).tdiv BLK_W) * O_w + (w_out + (ii + m).tmod BLK_W))))
    (ht : Q t) :
    Q (conv2d_store_traced out sc_C out_c out_h out_w O_h O_w BLK_W h_out w_out ii j cbs
      TN t).2 := by
  unfold conv2d_store_traced
  refine forLoop_preserve (fun s : (Int → α) × Trace α => Q s.2) cbs _ (out, t) ht ?_
  intro m u hm0 hm hu
  by_cases hskip : h_out + (ii + m).tdiv BLK_W ≥ O_h ∨ w_out + (ii + m).tmod BLK_W ≥ O_w
  · simp only [if_pos hskip]; exact hu
  · simp only [if_neg hskip]
    refine forLoop_preserve (fun s : (Int → α) × Trace α => Q s.2) TN _ u hu ?_
    intro c v hc0 hc hv
    by_cases hch : j + c < out_c
    · simp only [if_pos hch]
      exact hQs v.2 _ hv (hgood m c hm0 hm (by omega) (by omega) hc0 hc hch)
    · simp only [if_neg hch]; exact hv

omit [CommRing α] in
/-- The store loop of the batch that holds the output element `(co, oh, ow)` writes the
element's index exactly once. -/
theorem conv2d_store_count_hit (out sc_C : Int → α)
    (out_c O_h O_w BLK_W h_out w_out ii j cbs : Int) (t : Trace α) (co oh ow : Int)
    (hBW : 1 ≤ BLK_W) (hh : 0 ≤ h_out) (hw : 0 ≤ w_out) (hii : 0 ≤ ii)
    (hoh : oh < O_h) (how : ow < O_w)
    (ha : h_out ≤ oh) (hb0 : w_out ≤ ow) (hb : ow < w_out + BLK_W)
    (hl0 : ii ≤ (oh - h_out) * BLK_W + (ow - w_out))
    (hl : (oh - h_out) * BLK_W + (ow - w_out) < ii + cbs)
    (hj0 : j ≤ co) (hj : co < j + 32) (hco : co < out_c) :
    List.count (co * O_h * O_w + oh * O_w + ow)
        (conv2d_store_traced out sc_C out_c O_h O_w O_h O_w BLK_W h_out w_out ii j cbs
          32 t).2.stores =
      List.count (co * O_h * O_w + oh * O_w + ow) t.stores + 1 := by
  obtain ⟨u1, u2⟩ := patch_unravel (oh - h_out) (ow - w_out) BLK_W (by omega) (by omega)
    (by omega)
  unfold conv2d_store_traced
  refine forLoop_single
    (fun s : (Int → α) × Trace α => List.count (co * O_h * O_w + oh * O_w + ow) s.2.stores)
    (fun n => n + 1) cbs ((oh - h_out) * BLK_W + (ow - w_out) - ii) _ (out, t)
    (by omega) (by omega) ?_ ?_
  · intro m u hm0 hm hne
    by_cases hskip : h_out + (ii + m).tdiv BLK_W ≥ O_h ∨ w_out + (ii + m).tmod BLK_W ≥ O_w
    · simp only [if_pos hskip]
    · simp only [if_neg hskip]
      refine forLoop_frame
        (fun s : (Int → α) × Trace α =>
          List.count (co * O_h * O_w + oh * O_w + ow) s.2.stores) 32 _ u ?_
      intro c v hc0 hc
      by_cases hch : j + c < out_c
      · simp only [if_pos hch]
        apply List.count_cons_of_ne
        intro heq
        obtain ⟨_, _, _, _, _, _, e⟩ := store_index_coords O_h O_w BLK_W h_out w_out (ii + m)
          (j + c) co oh ow hBW hh hw (by omega) (by omega) (by omega) (by omega) hoh
          (by omega) how heq.symm
        omega
      · simp only [if_neg hch]
  · intro u
    have e : ii + ((oh - h_out) * BLK_W + (ow - w_out) - ii) =
        (oh - h_out) * BLK_W + (ow - w_out) := by ring
    have hskip : ¬ (h_out + (ii + ((oh - h_out) * BLK_W + (ow - w_out) - ii)).tdiv BLK_W ≥ O_h ∨
        w_out + (ii + ((oh - h_out) * BLK_W + (ow - w_out) - ii)).tmod BLK_W ≥ O_w) := by
      rw [e, u1, u2]; omega
    simp only [if_neg hskip]
    refine forLoop_single
      (fun s : (Int → α) × Trace α => List.count (co * O_h * O_w + oh * O_w + ow) s.2.stores)
      (fun n => n + 1) 32 (co - j) _ u (by omega) (by omega) ?_ ?_
    · intro c v hc0 hc hne
      by_cases hch : j + c < out_c
      · simp only [if_pos hch]
        apply List.count_cons_of_ne
        intro heq
        obtain ⟨e1, _⟩ := store_index_coords O_h O_w BLK_W h_out w_out
          (ii + ((oh - h_out) * BLK_W + (ow - w_out) - ii))
          (j + c) co oh ow hBW hh hw (by omega) (by omega) (by omega) (by omega) hoh
          (by omega) how heq.symm
        omega
      · simp only [if_neg hch]
    · intro v
      have hch : j + (co - j) < out_c := by omega
      simp only [if_pos hch]
      rw [e, u1, u2]
      have e2 : (j + (co - j)) * O_h * O_w + ((h_out + (oh - h_out)) * O_w +
          (w_out + (ow - w_out))) = co * O_h * O_w + oh * O_w + ow := by ring
      rw [e2]
      exact List.count_cons_self _ _

end StoreLoop

section BatchStores

variable {α : Type} [CommRing α]

/-- The reduction loop of a batch keeps every property of the trace that survives new GEMM
and load records: it writes nothing to `output->data`. -/
theorem conv2d_ksteps_keep (Q : Trace α → Prop)
    (hQg : ∀ t g, Q t → Q { t with gemms := g :: t.gemms })
    (hQl : ∀ t e, Q t → Q { t with loads := e :: t.loads })
    (B : Int → α) (kernel : KernelTensor α) (params : ConvParams) (regs : VRegs α)
    (N K TM TN TK T_h T_w O_h O_w BLK_W h_out w_out in_h in_w j ii cbs : Int)
    (s : ConvState α × Trace α) (hTK : 1 ≤ TK) (hs : Q s.2) :
    Q (forStep K TK (conv2d_kstep_traced B kernel params regs N K TM TN TK T_h T_w O_h O_w
      BLK_W h_out w_out in_h in_w j ii cbs) s).2 := by
  refine forStep_preserve (fun x : ConvState α × Trace α => Q x.2) K TK _ _ hTK hs ?_
  intro k u _ _ hu
  exact conv2d_kstep_traced_rule Q hQg B kernel params regs N K TM TN TK T_h T_w O_h O_w BLK_W
    h_out w_out in_h in_w j ii cbs k u
    (fun a r v hv => conv2d_fill_A_traced_closed Q hQl a r kernel params regs O_h O_w BLK_W
      h_out w_out in_h in_w ii k cbs TK T_h T_w v hv) hu

/-- Trace rule for one batch, with the indices it writes. -/
theorem conv2d_batch_stores_rule (Q : Trace α → Prop) (Good : Int → Prop)
    (hQg : ∀ t g, Q t → Q { t with gemms := g :: t.gemms })
    (hQl : ∀ t e, Q t → Q { t with loads := e :: t.loads })
    (hQs : ∀ t i, Q t → Good i → Q { t with stores := i :: t.stores })
    (B : Int → α) (kernel : KernelTensor α) (params : ConvParams) (regs : VRegs α)
    (N K TM TN TK T_h T_w O_h O_w BLK_W ppb : Int)
    (out_c out_h out_w h_out w_out in_h in_w j : Int) (ii : Int)
    (s : ConvState α × Trace α) (hTK : 1 ≤ TK)
    (hgood : ∀ m c, 0 ≤ m → m < (if ppb - ii > TM then TM else ppb - ii) →
      h_out + (ii + m).tdiv BLK_W < O_h → w_out + (ii + m).tmod BLK_W < O_w →
      0 ≤ c → c < TN → j + c < out_c →
      Good ((j + c) * out_h * out_w +
        ((h_out + (ii + m).tdiv BLK_W) * O_w + (w_out + (ii + m).tmod BLK_W))))
    (hs : Q s.2) :
    Q (conv2d_batch_traced B kernel params regs N K TM TN TK T_h T_w O_h O_w BLK_W ppb
      out_c out_h out_w h_out w_out in_h in_w j ii s).2 := by
  unfold conv2d_batch_traced
  simp only []
  apply conv2d_store_stores_rule Q Good hQs _ _ _ _ _ _ _ _ _ _ _ _ _ _ _ hgood
  exact conv2d_ksteps_keep Q hQg hQl B kernel params regs N K TM TN TK T_h T_w O_h O_w BLK_W
    h_out w_out in_h in_w j ii _ _ hTK hs

/-- The batch that holds the output element `(co, oh, ow)` writes the element's index
exactly once. -/
theorem conv2d_batch_count_hit (B : Int → α) (kernel : KernelTensor α) (params : ConvParams)
    (regs : VRegs α) (N K T_h T_w O_h O_w BLK_W ppb out_c h_out w_out in_h in_w j ii : Int)
    (s : ConvState α × Trace α) (co oh ow : Int)
    (hBW : 1 ≤ BLK_W) (hh : 0 ≤ h_out) (hw : 0 ≤ w_out) (hii : 0 ≤ ii)
    (hoh : oh < O_h) (how : ow < O_w)
    (ha : h_out ≤ oh) (hb0 : w_out ≤ ow) (hb : ow < w_out + BLK_W)
    (hl0 : ii ≤ (oh - h_out) * BLK_W + (ow - w_out))
    (hl : (oh - h_out) * BLK_W + (ow - w_out) <
      ii + (if ppb - ii > 32 then 32 else ppb - ii))
    (hj0 : j ≤ co) (hj : co < j + 32) (hco : co < out_c) :
    List.count (co * O_h * O_w + oh * O_w + ow)
        (conv2d_batch_traced B kernel params regs N K 32 32 32 T_h T_w O_h O_w BLK_W ppb
          out_c O_h O_w h_out w_out in_h in_w j ii s).2.stores =
      List.count (co * O_h * O_w + oh * O_w + ow) s.2.stores + 1 := by
  unfold conv2d_batch_traced
  simp only []
  rw [conv2d_store_count_hit _ _ out_c O_h O_w BLK_W h_out w_out ii j _ _ co oh ow hBW hh hw
    hii hoh how ha hb0 hb hl0 hl hj0 hj hco]
  congr 1
  exact conv2d_ksteps_keep
    (fun t : Trace α => List.count (co * O_h * O_w + oh * O_w + ow) t.stores =
      List.count (co * O_h * O_w + oh * O_w + ow) s.2.stores)
    (fun _ _ h => h) (fun _ _ h => h) B kernel params regs N K 32 32 32 T_h T_w O_h O_w BLK_W
    h_out w_out in_h in_w j ii _ _ (by norm_num) rfl

end BatchStores

section BlockStores

variable {α : Type} [CommRing α]

/-- Trace rule for one block, with the indices it writes: channel tile `rj`, batch `ri`,
row `m` and lane `c`. -/
theorem conv2d_block_stores_rule (Q : Trace α → Prop) (Good : Int → Prop)
    (hQg : ∀ t g, Q t → Q { t with gemms := g :: t.gemms })
    (hQl : ∀ t e, Q t → Q { t with loads := e :: t.loads })
    (hQs : ∀ t i, Q t → Good i → Q { t with stores := i :: t.stores })
    (B : Int → α) (input : TensorNCHW α) (kernel : KernelTensor α)
    (params : ConvParams) (regs : VRegs α)
    (N K T_h T_w O_h O_w BLK_W ppb out_c out_h out_w : Int)
    (h_out : Int) (w_out : Int) (s : ConvState α × Trace α)
    (hgood : ∀ rj ri m c, 0 ≤ rj → rj * 32 < N → 0 ≤ ri → ri * 32 < ppb →
      0 ≤ m → m < (if ppb - ri * 32 > 32 then 32 else ppb - ri * 32) →
      h_out + (ri * 32 + m).tdiv BLK_W < O_h → w_out + (ri * 32 + m).tmod BLK_W < O_w →
      0 ≤ c → c < 32 → rj * 32 + c < out_c →
      Good ((rj * 32 + c) * out_h * out_w +
        ((h_out + (ri * 32 + m).tdiv BLK_W) * O_w + (w_out + (ri * 32 + m).tmod BLK_W))))
    (hs : Q s.2) :
    Q (conv2d_block_traced B input kernel params regs N K 32 32 32 T_h T_w O_h O_w BLK_W ppb
      out_c out_h out_w h_out w_out s).2 := by
  unfold conv2d_block_traced
  simp only []
  refine forStep_preserve_mul (fun x : ConvState α × Trace α => Q x.2) N 32 _ _
    (by norm_num) hs ?_
  intro rj u hrj0 hrj hu
  refine forStep_preserve_mul (fun x : ConvState α × Trace α => Q x.2) ppb 32 _ u
    (by norm_num) hu ?_
  intro ri v hri0 hri hv
  exact conv2d_batch_stores_rule Q Good hQg hQl hQs B kernel params regs N K 32 32 32 T_h T_w
    O_h O_w BLK_W ppb out_c out_h out_w h_out w_out _ _ (rj * 32) (ri * 32) v (by norm_num)
    (fun m c hm0 hm h1 h2 hc0 hc hch => hgood rj ri m c hrj0 hrj hri0 hri hm0 hm h1 h2 hc0 hc
      hch) hv

/-- The block that holds the output element `(co, oh, ow)` writes the element's index
exactly once. -/
theorem conv2d_block_count_hit (B : Int → α) (input : TensorNCHW α)
    (kernel : KernelTensor α) (params : ConvParams) (regs : VRegs α)
    (N K T_h T_w O_h O_w BLK_H BLK_W h_out w_out : Int)
    (s : ConvState α × Trace α) (co oh ow : Int)
    (hBW : 1 ≤ BLK_W) (hh : 0 ≤ h_out) (hw : 0 ≤ w_out)
    (hco0 : 0 ≤ co) (hco : co < N) (hoh : oh < O_h) (how : ow < O_w)
    (ha : h_out ≤ oh) (ha2 : oh < h_out + BLK_H) (hb0 : w_out ≤ ow)
    (hb : ow < w_out + BLK_W) :
    List.count (co * O_h * O_w + oh * O_w + ow)
        (conv2d_block_traced B input kernel params regs N K 32 32 32 T_h T_w O_h O_w BLK_W
          (BLK_H * BLK_W) N O_h O_w h_out w_out s).2.stores =
      List.count (co * O_h * O_w + oh * O_w + ow) s.2.stores + 1 := by
  obtain ⟨hL0, hL⟩ := two_digit_bound BLK_H BLK_W (oh - h_out) (ow - w_out) (by omega)
    (by omega) (by omega) (by omega)
  have hkeep : ∀ (n : Nat) (t : Trace α) (i : Int),
      List.count (co * O_h * O_w + oh * O_w + ow) t.stores = n →
      i ≠ co * O_h * O_w + oh * O_w + ow →
      List.count (co * O_h * O_w + oh * O_w + ow)
        ({ t with stores := i :: t.stores } : Trace α).stores = n := by
    intro n t i ht hi
    show List.count _ (i :: t.stores) = n
    rw [List.count_cons_of_ne (Ne.symm hi)]
    exact ht
  unfold conv2d_block_traced
  simp only []
  generalize hL' : (oh - h_out) * BLK_W + (ow - w_out) = L at hL0 hL
  refine forStep_single
    (fun x : ConvState α × Trace α =>
      List.count (co * O_h * O_w + oh * O_w + ow) x.2.stores)
    (fun n => n + 1) N 32 (co / 32) _ _ (by norm_num) (by omega) (by omega) ?_ ?_
  · intro rj u hrj0 hrj hne
    refine forStep_preserve_mul
      (fun x : ConvState α × Trace α =>
        List.count (co * O_h * O_w + oh * O_w + ow) x.2.stores =
          List.count (co * O_h * O_w + oh * O_w + ow) u.2.stores) _ 32 _ u
      (by norm_num) rfl ?_
    intro ri v hri0 hri hv
    refine conv2d_batch_stores_rule
      (fun t : Trace α => List.count (co * O_h * O_w + oh * O_w + ow) t.stores =
        List.count (co * O_h * O_w + oh * O_w + ow) u.2.stores)
      (fun i => i ≠ co * O_h * O_w + oh * O_w + ow)
      (fun _ _ h => h) (fun _ _ h => h) (fun t i ht hi => hkeep _ t i ht hi)
      B kernel params regs N K 32 32 32 T_h T_w O_h O_w BLK_W (BLK_H * BLK_W) N O_h O_w h_out
      w_out _ _ (rj * 32) (ri * 32) v (by norm_num) ?_ hv
    intro m c hm0 hm h1 h2 hc0 hc hch heq
    obtain ⟨e1, _⟩ := store_index_coords O_h O_w BLK_W h_out w_out (ri * 32 + m)
      (rj * 32 + c) co oh ow hBW hh hw (by omega) h1 h2 (by omega) hoh (by omega) how heq
    omega
  · intro u
    refine forStep_single
      (fun x : ConvState α × Trace α =>
        List.count (co * O_h * O_w + oh * O_w + ow) x.2.stores)
      (fun n => n + 1) (BLK_H * BLK_W) 32 (L / 32) _ u (by norm_num) (by omega) (by omega)
      ?_ ?_
    · intro ri v hri0 hri hne
      refine conv2d_batch_stores_rule
        (fun t : Trace α => List.count (co * O_h * O_w + oh * O_w + ow) t.stores =
          List.count (co * O_h * O_w + oh * O_w + ow) v.2.stores)
        (fun i => i ≠ co * O_h * O_w + oh * O_w + ow)
        (fun _ _ h => h) (fun _ _ h => h) (fun t i ht hi => hkeep _ t i ht hi)
        B kernel params regs N K 32 32 32 T_h T_w O_h O_w BLK_W (BLK_H * BLK_W) N O_h O_w
        h_out w_out _ _ (co / 32 * 32) (ri * 32) v (by norm_num) ?_ rfl
      intro m c hm0 hm h1 h2 hc0 hc hch heq
      obtain ⟨_, _, _, _, _, _, e⟩ := store_index_coords O_h O_w BLK_W h_out w_out
        (ri * 32 + m) (co / 32 * 32 + c) co oh ow hBW hh hw (by omega) h1 h2 (by omega) hoh
        (by omega) how heq
      rw [hL'] at e
      have hm32 : m < 32 := by
        split_ifs at hm <;> omega
      omega
    · intro v
      exact conv2d_batch_count_hit B kernel params regs N K T_h T_w O_h O_w BLK_W
        (BLK_H * BLK_W) N h_out w_out _ _ (co / 32 * 32) (L / 32 * 32) v co oh ow hBW hh hw
        (by omega) hoh how ha hb0 hb (by rw [hL']; omega)
        (by rw [hL']; split_ifs <;> omega) (by omega) (by omega) hco

end BlockStores

/-- The block row (or column) that holds a position: the only multiple `r * B` of the
block size with `r * B ≤ x < r * B + B` is the one with `r = x / B`. -/
theorem block_origin_unique (B r x : Int) (h1 : r * B ≤ x) (h2 : x < r * B + B) :
    x / B = r := by
  have e : x = r * B + (x - r * B) := by ring
  rw [e]
  exact ediv_of_radix B r (x - r * B) (by omega) (by omega)

/-- The block row (or column) `x / B` holds the position `x`. -/
theorem block_origin_bounds (B x : Int) (hB : 1 ≤ B) (hx : 0 ≤ x) :
    0 ≤ x / B ∧ x / B * B ≤ x ∧ x < x / B * B + B := by
  have h1 := Int.ediv_mul_le x (by omega : B ≠ 0)
  have h2 := Int.lt_ediv_add_one_mul_self x (by omega : 0 < B)
  have e : (x / B + 1) * B = x / B * B + B := by ring
  exact ⟨Int.ediv_nonneg hx (by omega), h1, by omega⟩

section WalkStores

variable {α : Type} [CommRing α]

/-- Trace rule for the tiling walk, with the indices it writes: block row `rh`, block
column `rw`, channel tile `rj`, batch `ri`, row `m` and lane `c`. -/
theorem conv2d_walk_stores_rule (Q : Trace α → Prop) (Good : Int → Prop)
    (hQg : ∀ t g, Q t → Q { t with gemms := g :: t.gemms })
    (hQl : ∀ t e, Q t → Q { t with loads := e :: t.loads })
    (hQs : ∀ t i, Q t → Good i → Q { t with stores := i :: t.stores })
    (B : Int → α) (input : TensorNCHW α) (kernel : KernelTensor α)
    (params : ConvParams) (regs : VRegs α)
    (N K T_h T_w O_h O_w BLK_H BLK_W ppb out_c out_h out_w : Int)
    (s : ConvState α × Trace α) (hBH : 1 ≤ BLK_H) (hBW : 1 ≤ BLK_W)
    (hgood : ∀ rh rw rj ri m c, 0 ≤ rh → rh * BLK_H < O_h → 0 ≤ rw → rw * BLK_W < O_w →
      0 ≤ rj → rj * 32 < N → 0 ≤ ri → ri * 32 < ppb →
      0 ≤ m → m < (if ppb - ri * 32 > 32 then 32 else ppb - ri * 32) →
      rh * BLK_H + (ri * 32 + m).tdiv BLK_W < O_h →
      rw * BLK_W + (ri * 32 + m).tmod BLK_W < O_w →
      0 ≤ c → c < 32 → rj * 32 + c < out_c →
      Good ((rj * 32 + c) * out_h * out_w +
        ((rh * BLK_H + (ri * 32 + m).tdiv BLK_W) * O_w +
          (rw * BLK_W + (ri * 32 + m).tmod BLK_W))))
    (hs : Q s.2) :
    Q (forStep O_h BLK_H (fun h_out s =>
      forStep O_w BLK_W (conv2d_block_traced B input kernel params regs N K 32 32 32 T_h T_w
        O_h O_w BLK_W ppb out_c out_h out_w h_out) s) s).2 := by
  refine forStep_preserve_mul (fun x : ConvState α × Trace α => Q x.2) O_h BLK_H _ _ hBH hs ?_
  intro rh u hrh0 hrh hu
  refine forStep_preserve_mul (fun x : ConvState α × Trace α => Q x.2) O_w BLK_W _ u hBW hu ?_
  intro rw v hrw0 hrw hv
  exact conv2d_block_stores_rule Q Good hQg hQl hQs B input kernel params regs N K T_h T_w
    O_h O_w BLK_W ppb out_c out_h out_w (rh * BLK_H) (rw * BLK_W) v
    (fun rj ri m c h1 h2 h3 h4 h5 h6 h7 h8 h9 h10 h11 =>
      hgood rh rw rj ri m c hrh0 hrh hrw0 hrw h1 h2 h3 h4 h5 h6 h7 h8 h9 h10 h11) hv

/-- The tiling walk writes the index of every output element exactly once. -/
theorem conv2d_walk_count_hit (B : Int → α) (input : TensorNCHW α)
    (kernel : KernelTensor α) (params : ConvParams) (regs : VRegs α)
    (N K T_h T_w O_h O_w BLK_H BLK_W : Int) (s : ConvState α × Trace α) (co oh ow : Int)
    (hBH : 1 ≤ BLK_H) (hBW : 1 ≤ BLK_W) (hco0 : 0 ≤ co) (hco : co < N)
    (hoh0 : 0 ≤ oh) (hoh : oh < O_h) (how0 : 0 ≤ ow) (how : ow < O_w) :
    List.count (co * O_h * O_w + oh * O_w + ow)
        (forStep O_h BLK_H (fun h_out s =>
          forStep O_w BLK_W (conv2d_block_traced B input kernel params regs N K 32 32 32
            T_h T_w O_h O_w BLK_W (BLK_H * BLK_W) N O_h O_w h_out) s) s).2.stores =
      List.count (co * O_h * O_w + oh * O_w + ow) s.2.stores + 1 := by
  obtain ⟨p1, p2, p3⟩ := block_origin_bounds BLK_H oh hBH hoh0
  obtain ⟨q1, q2, q3⟩ := block_origin_bounds BLK_W ow hBW how0
  have hkeep : ∀ (n : Nat) (t : Trace α) (i : Int),
      List.count (co * O_h * O_w + oh * O_w + ow) t.stores = n →
      i ≠ co * O_h * O_w + oh * O_w + ow →
      List.count (co * O_h * O_w + oh * O_w + ow)
        ({ t with stores := i :: t.stores } : Trace α).stores = n := by
    intro n t i ht hi
    show List.count _ (i :: t.stores) = n
    rw [List.count_cons_of_ne (Ne.symm hi)]
    exact ht
  refine forStep_single
    (fun x : ConvState α × Trace α =>
      List.count (co * O_h * O_w + oh * O_w + ow) x.2.stores)
    (fun n => n + 1) O_h BLK_H (oh / BLK_H) _ _ hBH p1 (by omega) ?_ ?_
  · intro rh u hrh0 hrh hne
    refine forStep_preserve_mul
      (fun x : ConvState α × Trace α =>
        List.count (co * O_h * O_w + oh * O_w + ow) x.2.stores =
          List.count (co * O_h * O_w + oh * O_w + ow) u.2.stores) O_w BLK_W _ u hBW rfl ?_
    intro rw v hrw0 hrw hv
    refine conv2d_block_stores_rule
      (fun t : Trace α => List.count (co * O_h * O_w + oh * O_w + ow) t.stores =
        List.count (co * O_h * O_w + oh * O_w + ow) u.2.stores)
      (fun i => i ≠ co * O_h * O_w + oh * O_w + ow)
      (fun _ _ h => h) (fun _ _ h => h) (fun t i ht hi => hkeep _ t i ht hi)
      B input kernel params regs N K T_h T_w O_h O_w BLK_W (BLK_H * BLK_W) N O_h O_w
      (rh * BLK_H) (rw * BLK_W) v ?_ hv
    intro rj ri m c _ _ hri0 hri hm0 hm h1 h2 _ _ _ heq
    have hl : ri * 32 + m < BLK_H * BLK_W := by
      split_ifs at hm <;> omega
    obtain ⟨_, b2, _, _, _⟩ := local_patch_bounds (ri * 32 + m) BLK_H BLK_W (by omega) hl hBW
    obtain ⟨_, c2, _, _, c5, _, _⟩ := store_index_coords O_h O_w BLK_W (rh * BLK_H)
      (rw * BLK_W) (ri * 32 + m) (rj * 32 + c) co oh ow hBW (by positivity) (by positivity)
      (by omega) h1 h2 hoh0 hoh how0 how heq
    exact hne (block_origin_unique BLK_H rh oh c2 (by omega)).symm
  · intro u
    refine forStep_single
      (fun x : ConvState α × Trace α =>
        List.count (co * O_h * O_w + oh * O_w + ow) x.2.stores)
      (fun n => n + 1) O_w BLK_W (ow / BLK_W) _ u hBW q1 (by omega) ?_ ?_
    · intro rw v hrw0 hrw hne
      refine conv2d_block_stores_rule
        (fun t : Trace α => List.count (co * O_h * O_w + oh * O_w + ow) t.stores =
          List.count (co * O_h * O_w + oh * O_w + ow) v.2.stores)
        (fun i => i ≠ co * O_h * O_w + oh * O_w + ow)
        (fun _ _ h => h) (fun _ _ h => h) (fun t i ht hi => hkeep _ t i ht hi)
        B input kernel params regs N K T_h T_w O_h O_w BLK_W (BLK_H * BLK_W) N O_h O_w
        (oh / BLK_H * BLK_H) (rw * BLK_W) v ?_ rfl
      intro rj ri m c _ _ hri0 hri hm0 hm h1 h2 _ _ _ heq
      obtain ⟨_, _, c3, c4, _⟩ := store_index_coords O_h O_w BLK_W (oh / BLK_H * BLK_H)
        (rw * BLK_W) (ri * 32 + m) (rj * 32 + c) co oh ow hBW (by positivity)
        (by positivity) (by omega) h1 h2 hoh0 hoh how0 how heq
      exact hne (block_origin_unique BLK_W rw ow c3 c4).symm
    · intro v
      exact conv2d_block_count_hit B input kernel params regs N K T_h T_w O_h O_w BLK_H BLK_W
        (oh / BLK_H * BLK_H) (ow / BLK_W * BLK_W) v co oh ow hBW (by positivity)
        (by positivity) hco0 hco hoh how p2 p3 q2 q3

end WalkStores

section Coverage

variable {α : Type} [CommRing α]

/-- C37: coverage of the tiling in `conv2d_nchw`.  For a single-batch call (no condition
on the stride, the sizes or the effective kernel is needed: the block sizes are clamped
to at least 1), with `O_h`, `O_w` the derived output sizes: the store loop of the walk
over (block, output-channel tile, batch, row) writes each index
`ch*O_h*O_w + o_h*O_w + o_w` with `0 ≤ ch < C_out`, `0 ≤ o_h < O_h`, `0 ≤ o_w < O_w`
exactly once (the index occurs once in the list of writes the instrumented run records),
and writes no index outside `[0, C_out*O_h*O_w)`. -/
theorem conv2d_nchw_stores_cover (output input : TensorNCHW α) (kernel : KernelTensor α)
    (params : ConvParams) (scr : Scratch α) (hn : input.n ≤ 1) :
    (∀ co oh ow, 0 ≤ co → co < kernel.cout → 0 ≤ oh →
      oh < out_dim input.h kernel.kh (norm_dilation params.dilation) params.padding
        params.stride →
      0 ≤ ow →
      ow < out_dim input.w kernel.kw (norm_dilation params.dilation) params.padding
        params.stride →
      List.count
          (co * out_dim input.h kernel.kh (norm_dilation params.dilation) params.padding
              params.stride *
            out_dim input.w kernel.kw (norm_dilation params.dilation) params.padding
              params.stride +
            oh * out_dim input.w kernel.kw (norm_dilation params.dilation) params.padding
              params.stride + ow)
          (conv2d_nchw_traced output input kernel params scr).2.stores = 1) ∧
    (∀ i ∈ (conv2d_nchw_traced output input kernel params scr).2.stores,
      0 ≤ i ∧
      i < kernel.cout *
        out_dim input.h kernel.kh (norm_dilation params.dilation) params.padding
          params.stride *
        out_dim input.w kernel.kw (norm_dilation params.dilation) params.padding
          params.stride) := by
  have hD : ¬ norm_dilation params.dilation < 1 := by
    unfold norm_dilation; split_ifs <;> omega
  have hn' : ¬ input.n > 1 := by omega
  have bh := blk_dim_pos kernel.kh (norm_dilation params.dilation) params.stride
  have bw := blk_dim_pos kernel.kw (norm_dilation params.dilation) params.stride
  rw [conv2d_nchw_traced_norm]
  constructor
  · intro co oh ow hco0 hco hoh0 hoh how0 how
    unfold conv2d_nchw_traced
    simp only [if_neg hD, if_neg hn']
    exact conv2d_walk_count_hit _ input kernel
      ⟨params.stride, params.padding, norm_dilation params.dilation⟩ scr.regs _ _ 32 32
      _ _ _ _ _ co oh ow bh bw hco0 hco hoh0 hoh how0 how
  · unfold conv2d_nchw_traced
    simp only [if_neg hD, if_neg hn']
    refine conv2d_walk_stores_rule
      (fun t : Trace α => ∀ i ∈ t.stores, 0 ≤ i ∧
        i < kernel.cout *
          out_dim input.h kernel.kh (norm_dilation params.dilation) params.padding
            params.stride *
          out_dim input.w kernel.kw (norm_dilation params.dilation) params.padding
            params.stride)
      (fun i => 0 ≤ i ∧
        i < kernel.cout *
          out_dim input.h kernel.kh (norm_dilation params.dilation) params.padding
            params.stride *
          out_dim input.w kernel.kw (norm_dilation params.dilation) params.padding
            params.stride)
      (fun _ _ h => h) (fun _ _ h => h)
      (fun t i ht hi x hx => by
        rcases List.mem_cons.1 hx with h | h
        · rw [h]; exact hi
        · exact ht x h)
      _ input kernel ⟨params.stride, params.padding, norm_dilation params.dilation⟩ scr.regs
      _ _ 32 32
      (out_dim input.h kernel.kh (norm_dilation params.dilation) params.padding params.stride)
      (out_dim input.w kernel.kw (norm_dilation params.dilation) params.padding params.stride)
      (blk_dim kernel.kh (norm_dilation params.dilation) params.stride)
      (blk_dim kernel.kw (norm_dilation params.dilation) params.stride)
      _ kernel.cout
      (out_dim input.h kernel.kh (norm_dilation params.dilation) params.padding params.stride)
      (out_dim input.w kernel.kw (norm_dilation params.dilation) params.padding params.stride)
      _ bh bw ?_ ?_
    · intro rh rw rj ri m c hrh0 _ hrw0 _ hrj0 _ hri0 _ hm0 _ h1 h2 hc0 _ hch
      have g1 : 0 ≤ rh * blk_dim kernel.kh (norm_dilation params.dilation) params.stride :=
        mul_nonneg hrh0 (by omega)
      have g2 : 0 ≤ rw * blk_dim kernel.kw (norm_dilation params.dilation) params.stride :=
        mul_nonneg hrw0 (by omega)
      have g3 : 0 ≤ (ri * 32 + m).tdiv
          (blk_dim kernel.kw (norm_dilation params.dilation) params.stride) :=
        Int.tdiv_nonneg (by omega) (by omega)
      have g4 : 0 ≤ (ri * 32 + m).tmod
          (blk_dim kernel.kw (norm_dilation params.dilation) params.stride) :=
        Int.tmod_nonneg _ (by omega)
      obtain ⟨t1, t2⟩ := two_digit_bound _ _ _ _ (by omega) h1 (by omega) h2
      obtain ⟨t3, t4⟩ := two_digit_bound kernel.cout _ (rj * 32 + c) _ (by omega) hch t1 t2
      constructor
      · linarith
      · linarith
    · intro i hi
      exact absurd hi (List.not_mem_nil i)

end Coverage

/-- Witness of C37: in the scenario of `src/conv_prog_model/main.c` the index 5 of the
output data is written exactly once. -/
theorem conv2d_nchw_stores_cover_witness :
    List.count (0 * out_dim main_input.h main_kernel.kh (norm_dilation 1) 0 1 *
          out_dim main_input.w main_kernel.kw (norm_dilation 1) 0 1 +
        1 * out_dim main_input.w main_kernel.kw (norm_dilation 1) 0 1 + 2)
      (conv2d_nchw_traced main_output main_input main_kernel ⟨1, 0, 1⟩
        zero_scratch).2.stores = 1 :=
  (conv2d_nchw_stores_cover main_output main_input main_kernel ⟨1, 0, 1⟩ zero_scratch
    (by decide)).1 0 1 2 (by decide) (by decide) (by decide) (by decide) (by decide)
    (by decide)

/-! ## Non-finite `float` values -/

end Atalla
